import Mathlib

/-!
XynqDB: S-expression lexer, compiler, stack VM, built-in arithmetic and JSON output

A shallow embedding of `source/base/stream.*`, `source/slang/*`,
`source/base/str_build*`, `source/json/json_serializer.cc` and the `list`
host function of `source/main/slang_env.cc`.

Conventions of the embedding
* A byte (`char`, `uint8_t`) is a `Nat` in `0..255`; a `StrSpan` is the list of
  its bytes.  String literals of the source are written `bytes "..."`.
* A pointer into the reader's buffer is the index of the byte it points to;
  `nullptr` is `none`.
* `double` values are not interpreted: the embedding is parametric in a type `D`
  of doubles and in a record `FloatLib D` of the floating-point primitives the
  source calls (`strtod`, `snprintf("%.24g")`, `+ - * /`, casts).
* Loops whose termination depends on the data stream take a `fuel` argument and
  return `none` when it runs out.
-/

namespace xynq

/-- Bytes of an ASCII string literal. -/
def bytes (s : String) : List Nat := s.toList.map Char.toNat

/-- The bytes `buf[b .. e)` of a buffer: the span between two pointers. -/
def slice (buf : List Nat) (b e : Nat) : List Nat := (buf.drop b).take (e - b)

/-- `memcpy(buf + at, src, src.size)`: overwrite a buffer in place. -/
def overwrite (buf : List Nat) (pos : Nat) (src : List Nat) : List Nat :=
  buf.take pos ++ src ++ buf.drop (pos + src.length)

/-! ## base/stream.h, base/stream.cc -/

/-- `enum class StreamError`. -/
inductive StreamError
  | None
  | Closed
  | IOError
  deriving DecidableEq, Repr

/-- A byte source behind the `InStream` interface.  `data` are the bytes it has
not delivered yet.  `plan` fixes how it splits them into reads: the next read
delivers at most `p + 1` bytes when `plan = p :: _`, and as many as fit the
buffer once the plan is used up (as `TestStream` of `tests/slang/lexer.cc`
does).  A source with no data left returns `StreamError::Closed`, which is
what `DummyInStream` always does. -/
structure InStream where
  data : List Nat
  plan : List Nat
  read_error_ : StreamError
  deriving DecidableEq, Repr

/-- The number of bytes the source is ready to deliver at the next read. -/
def InStream.want (plan : List Nat) (cap : Nat) : Nat :=
  match plan with
  | [] => cap
  | p :: _ => p + 1

/-- `InStream::Read(read_buf)` for a buffer of `cap` bytes: the bytes written to
the start of the buffer (`none` for an error) and the source afterwards. -/
def InStream.Read (s : InStream) (cap : Nat) : Option (List Nat) × InStream :=
  if s.data = [] then (none, { s with read_error_ := StreamError.Closed })
  else
    let n := min (InStream.want s.plan cap) (min cap s.data.length)
    (some (s.data.take n), { s with data := s.data.drop n, plan := s.plan.tail })

/-- `DummyInStream`: every read returns `StreamError::Closed`. -/
def DummyInStream : InStream := { data := [], plan := [], read_error_ := StreamError.None }

/-- A stream that will deliver the bytes `data`, split into reads by `plan`. -/
def InStream.of (data plan : List Nat) : InStream :=
  { data := data, plan := plan, read_error_ := StreamError.None }

/-- `class StreamReader`: the user buffer `read_buf_`, the stream and the window
`[available_begin_, available_end_)` of buffered bytes, as indices into
`read_buf_`. -/
structure StreamReader where
  read_buf_ : List Nat
  stream_ : InStream
  available_begin_ : Nat
  available_end_ : Nat
  deriving DecidableEq, Repr

/-- `StreamReader::StreamReader(buffer, stream)`: nothing is buffered (both
window pointers are null; they are modelled as the empty window at index 0). -/
def StreamReader.mk0 (buffer : List Nat) (stream : InStream) : StreamReader :=
  { read_buf_ := buffer, stream_ := stream, available_begin_ := 0, available_end_ := 0 }

/-- `StreamReader::StreamReader(buffer, stream, available_bytes)`: the first
`available_bytes` bytes of the buffer are already loaded. -/
def StreamReader.preloaded (buffer : List Nat) (stream : InStream) (available_bytes : Nat) :
    StreamReader :=
  { read_buf_ := buffer, stream_ := stream, available_begin_ := 0,
    available_end_ := available_bytes }

/-- `StreamReader::RefillAvailable`: one read into the whole buffer.  On an error
the window is emptied (`available_begin_ = available_end_`); on success it
becomes the bytes just read.  Returns whether the read succeeded. -/
def StreamReader.RefillAvailable (r : StreamReader) : Bool × StreamReader :=
  match r.stream_.Read r.read_buf_.length with
  | (none, s) => (false, { r with stream_ := s, available_begin_ := r.available_end_ })
  | (some chunk, s) =>
    (true, { read_buf_ := overwrite r.read_buf_ 0 chunk, stream_ := s,
             available_begin_ := 0, available_end_ := chunk.length })

/-- `StreamReader::ReadAvailableCharUnsafe`: `*available_begin_++`. -/
def StreamReader.ReadAvailableChar (r : StreamReader) : Nat × StreamReader :=
  (r.read_buf_.getD r.available_begin_ 0, { r with available_begin_ := r.available_begin_ + 1 })

/-! ## slang/lexer.h, slang/lexer.cc -/

namespace slang

/-- `struct LexerFailure`. -/
structure LexerFailure where
  err_line_no_ : Nat
  err_line_offset_ : Nat
  err_msg_ : List Nat
  deriving DecidableEq, Repr

/-- `LexerResult = Either<LexerFailure, LexerSuccess>`. -/
inductive LexerResult
  | success
  | failure (f : LexerFailure)
  deriving DecidableEq, Repr

/-- `Either::IsRight`. -/
def LexerResult.IsRight : LexerResult → Bool
  | LexerResult.success => true
  | LexerResult.failure _ => false

/-- `enum class TermType`. -/
inductive TermType
  | kOp
  | kValue
  | kStr
  deriving DecidableEq, Repr

/-- `k_lexer_invalid_char`. -/
def k_lexer_invalid_char : Nat := 0

/-- `struct LexerState`.  `term_begin_` is an index into the reader's buffer;
`term_buf_` is given by its bytes, and `allocator_`, from which it takes its
memory, is not a field (see `Lexer.RunAllocates`). -/
structure LexerState where
  stream_ : StreamReader
  single_expr_ : Bool
  cur_line_ : Nat
  cur_line_offset_ : Nat
  op_depth_ : Int
  is_escaped_ : Bool
  was_escaped_ : Bool
  term_type_ : TermType
  term_begin_ : Option Nat
  term_buf_ : List Nat
  deriving DecidableEq, Repr

/-- The constructor of `LexerState`. -/
def LexerState.init (stream : StreamReader) (single_expr : Bool) : LexerState :=
  { stream_ := stream, single_expr_ := single_expr, cur_line_ := 1, cur_line_offset_ := 0,
    op_depth_ := 0, is_escaped_ := false, was_escaped_ := false,
    term_type_ := TermType.kValue, term_begin_ := none, term_buf_ := [] }

/-- `LexerState::Buffer`: the read position. -/
def LexerState.Buffer (st : LexerState) : Nat := st.stream_.available_begin_

/-- `LexerState::BufferEnd`. -/
def LexerState.BufferEnd (st : LexerState) : Nat := st.stream_.available_end_

/-- `LexerState::HasTerm`. -/
def LexerState.HasTerm (st : LexerState) : Bool := st.term_begin_.isSome

/-- `LexerState::SaveTerm`: move the part of the term that lies in the reader's
buffer into `term_buf_`. -/
def LexerState.SaveTerm (st : LexerState) (term_end : Nat) : LexerState :=
  match st.term_begin_ with
  | some b => { st with term_buf_ := st.term_buf_ ++ slice st.stream_.read_buf_ b term_end,
                        term_begin_ := none }
  | none => st

/-- `LexerState::RefillBuffer`. -/
def LexerState.RefillBuffer (st : LexerState) : Bool × LexerState :=
  let hasTerm := st.HasTerm
  let st1 := st.SaveTerm st.BufferEnd
  match st1.stream_.RefillAvailable with
  | (false, r) => (false, { st1 with stream_ := r })
  | (true, r) =>
    (true, { st1 with stream_ := r,
                      term_begin_ := if hasTerm then some r.available_begin_ else st1.term_begin_ })

/-- `LexerState::NextChar`. -/
def LexerState.NextChar (st : LexerState) : Nat × LexerState :=
  let read := fun (s : LexerState) =>
    let cr := s.stream_.ReadAvailableChar
    (cr.1, { s with cur_line_offset_ := s.cur_line_offset_ + 1, stream_ := cr.2 })
  if st.stream_.available_begin_ = st.stream_.available_end_ then
    match st.RefillBuffer with
    | (false, st1) => (k_lexer_invalid_char, st1)
    | (true, st1) => read st1
  else read st

/-- `LexerState::NewLine`. -/
def LexerState.NewLine (st : LexerState) : LexerState :=
  { st with cur_line_ := st.cur_line_ + 1, cur_line_offset_ := 0 }

/-- `LexerState::Escape`. -/
def LexerState.Escape (st : LexerState) : LexerState :=
  { st with is_escaped_ := true, was_escaped_ := true }

/-- `LexerState::ResetEscape`. -/
def LexerState.ResetEscape (st : LexerState) : LexerState :=
  { st with is_escaped_ := false }

/-- `LexerState::StartTerm`. -/
def LexerState.StartTerm (st : LexerState) (type : TermType) (term_ptr : Nat) : LexerState :=
  { st with term_type_ := type, term_begin_ := some term_ptr }

/-- `LexerState::FinishTerm`. -/
def LexerState.FinishTerm (st : LexerState) : LexerState :=
  { st with term_type_ := TermType.kValue, term_begin_ := none, term_buf_ := [] }

/-- `LexerState::Fail`. -/
def LexerState.Fail (st : LexerState) (err_msg : List Nat) : LexerFailure :=
  { err_line_no_ := st.cur_line_, err_line_offset_ := st.cur_line_offset_, err_msg_ := err_msg }

/-- A `MutStrSpan` returned by `LexerState::Term`: its bytes, and where it
points: `some b` for index `b` of the reader's buffer, `none` for `term_buf_`
(or for the empty span). -/
structure TermSpan where
  data : List Nat
  loc : Option Nat
  deriving DecidableEq, Repr

/-- `LexerState::Term`. -/
def LexerState.Term (st : LexerState) : TermSpan × LexerState :=
  if 0 < st.term_buf_.length then
    let st1 := st.SaveTerm (st.Buffer - 1)
    ({ data := st1.term_buf_, loc := none }, st1)
  else
    match st.term_begin_ with
    | some b => ({ data := slice st.stream_.read_buf_ b (st.Buffer - 1), loc := some b }, st)
    | none => ({ data := [], loc := none }, st)

/-- The value of a byte read as a (signed) `char`, as on x86-64 Linux. -/
def charOf (b : Nat) : Int := if b < 128 then (b : Int) else (b : Int) - 256

/-- `IsOpChar` of `lexer.cc`, on a byte. -/
def IsOpChar (b : Nat) : Bool :=
  decide (charOf b > 0x20)
    && !(decide (48 ≤ b) && decide (b ≤ 57))
    && (b != 40 && b != 41 && b != 123 && b != 125 && b != 91 && b != 93)
    && (b != 34 && b != 39)
    && (b != 58 && b != 59)

/-- `detail::LexerCheckOpName`. -/
def LexerCheckOpName (term : List Nat) : Bool :=
  match term with
  | [] => true
  | c :: rest =>
    if !IsOpChar c then false
    else rest.all (fun ch => IsOpChar ch || (decide (48 ≤ ch) && decide (ch ≤ 57)))

/-- `isspace` of the C library in the "C" locale. -/
def isspace (c : Nat) : Bool := decide (c = 32) || (decide (9 ≤ c) && decide (c ≤ 13))

/-- `isdigit` of the C library. -/
def isdigit (c : Nat) : Bool := decide (48 ≤ c) && decide (c ≤ 57)

/-- The C library's `strtoll(s, &end, 10)` (ISO C 7.22.1.4) on the bytes of a
zero-terminated string: the value, `end - s`, and whether `errno` was set to
`ERANGE`.  Leading white space is skipped, one sign is accepted, then decimal
digits; without a digit nothing is consumed; a value outside the `long long`
range is clamped. -/
def strtoll (s : List Nat) : Int × Nat × Bool :=
  let str := s.takeWhile (fun c => c != 0)
  let ws := str.takeWhile isspace
  let rest := str.drop ws.length
  let sign : Bool × List Nat × Nat := match rest with
    | 45 :: r => (true, r, 1)
    | 43 :: r => (false, r, 1)
    | _ => (false, rest, 0)
  let digits := sign.2.1.takeWhile isdigit
  if digits.isEmpty then (0, 0, false)
  else
    let mag : Nat := digits.foldl (fun acc d => acc * 10 + (d - 48)) 0
    let v : Int := if sign.1 then -(mag : Int) else (mag : Int)
    let consumed := ws.length + sign.2.2 + digits.length
    if v < -(2 ^ 63 : Int) then (-(2 ^ 63 : Int), consumed, true)
    else if (2 ^ 63 : Int) - 1 < v then ((2 ^ 63 : Int) - 1, consumed, true)
    else (v, consumed, false)

/-- `detail::LexerParseInt64`: the term is copied (at most 63 bytes) into a
zero-terminated buffer and accepted when `strtoll` consumed as many bytes as the
term has and set no error. -/
def LexerParseInt64 (term : List Nat) : Option Int :=
  let temp_buf := term.take (min term.length 63)
  let r := strtoll temp_buf
  if r.2.1 = term.length ∧ r.2.2 = false then some r.1 else none

end slang

/-- The floating-point primitives of the C and C++ libraries that the source
calls.  They are parameters of the embedding.  `strtod` returns the value,
the number of bytes consumed and whether `errno` was set. -/
structure FloatLib (D : Type) where
  strtod : List Nat → D × Nat × Bool
  snprintf_24g : D → List Nat
  ofInt : Int → D
  toInt64 : D → Int
  add : D → D → D
  sub : D → D → D
  mul : D → D → D
  div : D → D → D
  quiet_NaN : D

namespace slang

/-- `detail::LexerParseDouble`. -/
def LexerParseDouble {D : Type} (fl : FloatLib D) (term : List Nat) : Option D :=
  let temp_buf := (term.take (min term.length 127)).takeWhile (fun c => c != 0)
  let r := fl.strtod temp_buf
  if r.2.1 = term.length ∧ r.2.2 = false then some r.1 else none

/-- The loop of `detail::LexerParseString` that drops the escaping backslashes. -/
def LexerParseString.loop : Bool → List Nat → List Nat
  | _, [] => []
  | escaped, ch :: rest =>
    if ch = 92 ∧ escaped = false then LexerParseString.loop true rest
    else ch :: LexerParseString.loop false rest

/-- `detail::LexerParseString`: the bytes of the returned span (it starts where
the term starts). -/
def LexerParseString (term : List Nat) (was_escaped : Bool) : List Nat :=
  if !was_escaped then term else LexerParseString.loop false term

end slang

/-! ## base/str_builder.h -/

/-- `StrBuilder<Size>::BestEffortWrite` on the built bytes: as much of `str` as
fits in the `Size - 1` usable bytes is appended. -/
def StrBuilder.BestEffortWrite (Size : Nat) (buf str : List Nat) : List Nat :=
  buf ++ str.take (min (Size - 1 - buf.length) str.length)

namespace slang

/-- One call of the lexer's handler, with its arguments. -/
inductive Callback (D : Type)
  | LexerBeginOp (name : List Nat)
  | LexerEndOp
  | LexerStrValue (value : List Nat)
  | LexerIntValue (value : Int)
  | LexerDoubleValue (value : D)
  | LexerUnhandledValue (value : List Nat)
  | LexerCustomData (token : Nat)
  deriving DecidableEq, Repr

/-- The handler interface of `Lexer<Handler>`, for a handler whose state has type
`H`.  Every method returns `LexerHandlerResult = Either<StrSpan, LexerSuccess>`
(`some msg` is the error message, `none` is success) and the handler's new
state; `LexerCustomData` also receives the stream reader and returns it. -/
structure Handler (D H : Type) where
  LexerBeginOp : H → List Nat → Option (List Nat) × H
  LexerEndOp : H → Option (List Nat) × H
  LexerStrValue : H → List Nat → Option (List Nat) × H
  LexerIntValue : H → Int → Option (List Nat) × H
  LexerDoubleValue : H → D → Option (List Nat) × H
  LexerUnhandledValue : H → List Nat → Option (List Nat) × H
  LexerCustomData : H → Nat → StreamReader → Option (List Nat) × H × StreamReader

/-- The members of `class Lexer`: the handler and `StrBuilder<64> err_description_`. -/
structure Lexer (H : Type) where
  handler_ : H
  err_description_ : List Nat

/-- `Either::MapLeft` with `state.Fail`, as used on every handler result. -/
def mapFail (st : LexerState) (r : Option (List Nat)) : LexerResult :=
  match r with
  | none => LexerResult.success
  | some err_msg => LexerResult.failure (st.Fail err_msg)

/-- What a piece of the lexer did: its `LexerResult`, the handler calls it made
(in order), the lexer object and the state afterwards. -/
structure Done (D H : Type) where
  result : LexerResult
  calls : List (Callback D)
  lexer : Lexer H
  state : LexerState

/-- The in-place rewrite of the term by `LexerParseString`: the unescaped bytes
are written over the beginning of the term. -/
def LexerState.rewriteTerm (st : LexerState) (term : TermSpan) (str_val : List Nat) : LexerState :=
  match term.loc with
  | some b => { st with stream_ := { st.stream_ with read_buf_ := overwrite st.stream_.read_buf_ b str_val } }
  | none => { st with term_buf_ := overwrite st.term_buf_ 0 str_val }

/-- `Lexer::FinalizeTerm`. -/
def Lexer.FinalizeTerm {D H : Type} (fl : FloatLib D) (h : Handler D H) (lx : Lexer H)
    (state : LexerState) : Done D H :=
  if !state.HasTerm then
    { result := LexerResult.success, calls := [], lexer := lx, state := state }
  else if state.op_depth_ ≤ 0 then
    { result := LexerResult.failure (state.Fail (bytes "Expected opening bracket")),
      calls := [], lexer := lx, state := state }
  else
    let ts := state.Term
    let term := ts.1
    let state := ts.2
    match state.term_type_ with
    | TermType.kOp =>
      if term.data.isEmpty then
        { result := LexerResult.success, calls := [], lexer := lx, state := state.FinishTerm }
      else if !LexerCheckOpName term.data then
        let d := StrBuilder.BestEffortWrite 64
          (StrBuilder.BestEffortWrite 64 lx.err_description_ (bytes "Invalid op name: ")) term.data
        { result := LexerResult.failure (state.Fail d), calls := [],
          lexer := { lx with err_description_ := d }, state := state.FinishTerm }
      else
        let r := h.LexerBeginOp lx.handler_ term.data
        { result := mapFail state r.1, calls := [Callback.LexerBeginOp term.data],
          lexer := { lx with handler_ := r.2 }, state := state.FinishTerm }
    | TermType.kValue =>
      if term.data.isEmpty then
        { result := LexerResult.success, calls := [], lexer := lx, state := state.FinishTerm }
      else
        match LexerParseInt64 term.data with
        | some lval =>
          let r := h.LexerIntValue lx.handler_ lval
          { result := mapFail state r.1, calls := [Callback.LexerIntValue lval],
            lexer := { lx with handler_ := r.2 }, state := state.FinishTerm }
        | none =>
          match LexerParseDouble fl term.data with
          | some dval =>
            let r := h.LexerDoubleValue lx.handler_ dval
            { result := mapFail state r.1, calls := [Callback.LexerDoubleValue dval],
              lexer := { lx with handler_ := r.2 }, state := state.FinishTerm }
          | none =>
            let r := h.LexerUnhandledValue lx.handler_ term.data
            match r.1 with
            | none =>
              { result := LexerResult.success, calls := [Callback.LexerUnhandledValue term.data],
                lexer := { lx with handler_ := r.2 }, state := state.FinishTerm }
            | some err_msg =>
              if 0 < err_msg.length then
                { result := LexerResult.failure (state.Fail err_msg),
                  calls := [Callback.LexerUnhandledValue term.data],
                  lexer := { lx with handler_ := r.2 }, state := state.FinishTerm }
              else
                let d := StrBuilder.BestEffortWrite 64
                  (StrBuilder.BestEffortWrite 64 lx.err_description_ (bytes "Invalid value type: "))
                  term.data
                { result := LexerResult.failure (state.Fail d),
                  calls := [Callback.LexerUnhandledValue term.data],
                  lexer := { handler_ := r.2, err_description_ := d }, state := state.FinishTerm }
    | TermType.kStr =>
      let str_val := LexerParseString term.data state.was_escaped_
      let state := state.rewriteTerm term str_val
      let r := h.LexerStrValue lx.handler_ str_val
      { result := mapFail state r.1, calls := [Callback.LexerStrValue str_val],
        lexer := { lx with handler_ := r.2 },
        state := { state with was_escaped_ := false }.FinishTerm }

/-- The comment loop of `Lexer::Run`: read up to and including the next line
feed, or until `NextChar` returns `k_lexer_invalid_char`. -/
def skipComment : Nat → LexerState → Option LexerState
  | 0, _ => none
  | fuel + 1, st =>
    let cs := st.NextChar
    if cs.1 = k_lexer_invalid_char ∨ cs.1 = 10 then some cs.2 else skipComment fuel cs.2

/-- The loop of `Lexer::Run` that reads the tag of a custom payload; `k` is
`4 - token_size`.  Returns `last_char`, `data_token` and the state. -/
def readPayloadTag : Nat → Nat → LexerState → Nat × Nat × LexerState
  | 0, data_token, st =>
    let cs := st.NextChar
    (cs.1, data_token, cs.2)
  | k + 1, data_token, st =>
    let cs := st.NextChar
    if cs.1 ≠ k_lexer_invalid_char ∧ cs.1 ≠ 91 then
      readPayloadTag k (((data_token <<< 8) % 2 ^ 32) ||| (cs.1 % 256)) cs.2
    else (cs.1, data_token, cs.2)

/-- How one turn of the main loop of `Lexer::Run` ends: `cont` goes on with the
next character (the `result` was a success), `ret` leaves `Run` with a result
(a `return`, or a failure that ends the `while`). -/
inductive Flow
  | cont
  | ret
  deriving DecidableEq, Repr

/-- The end of a loop turn that assigned `result` without returning. -/
def flowOf (r : LexerResult) : Flow := if r.IsRight then Flow.cont else Flow.ret

/-- The loop turn for a character inside a string literal (not its closing
quote): `\` marks the next character escaped, a line feed counts a line. -/
def Lexer.inString {D H : Type} (cur_char : Nat) (cur_escaped : Bool) (lx : Lexer H)
    (state : LexerState) : Flow × Done D H :=
  let state := if cur_char = 92 ∧ cur_escaped = false then state.Escape else state
  let state := if cur_char = 10 then state.NewLine else state
  (Flow.cont, { result := LexerResult.success, calls := [], lexer := lx, state := state })

/-- `case '('` of the main loop. -/
def Lexer.caseOpen {D H : Type} (fl : FloatLib D) (h : Handler D H) (lx : Lexer H)
    (state : LexerState) : Flow × Done D H :=
  let d := Lexer.FinalizeTerm fl h lx state
  let st : LexerState := { d.state with op_depth_ := d.state.op_depth_ + 1 }
  let st : LexerState := st.StartTerm TermType.kOp st.Buffer
  (flowOf d.result, { d with state := st })

/-- `case ')'` of the main loop. -/
def Lexer.caseClose {D H : Type} (fl : FloatLib D) (h : Handler D H) (lx : Lexer H)
    (state : LexerState) : Flow × Done D H :=
  let d := Lexer.FinalizeTerm fl h lx state
  let d : Done D H := match d.result with
    | LexerResult.failure _ => d
    | LexerResult.success =>
      let r := h.LexerEndOp d.lexer.handler_
      { result := mapFail d.state r.1, calls := d.calls ++ [Callback.LexerEndOp],
        lexer := { d.lexer with handler_ := r.2 }, state := d.state }
  let st : LexerState := { d.state with op_depth_ := d.state.op_depth_ - 1 }
  if st.op_depth_ < 0 then
    (Flow.ret, { d with result := LexerResult.failure
                          (st.Fail (bytes "Redundant closing parenthesis")),
                        state := st })
  else if st.single_expr_ = true ∧ d.result.IsRight = true ∧ st.op_depth_ = 0 then
    (Flow.ret, { d with result := LexerResult.success, state := st })
  else (flowOf d.result, { d with state := st })

/-- `case '"'` of the main loop. -/
def Lexer.caseQuote {D H : Type} (fl : FloatLib D) (h : Handler D H) (lx : Lexer H)
    (state : LexerState) : Flow × Done D H :=
  if state.term_type_ = TermType.kStr then
    let d := Lexer.FinalizeTerm fl h lx state
    (flowOf d.result, d)
  else
    let d := Lexer.FinalizeTerm fl h lx state
    match d.result with
    | LexerResult.failure _ => (Flow.ret, d)
    | LexerResult.success =>
      (Flow.cont, { d with state := d.state.StartTerm TermType.kStr d.state.Buffer })

/-- `case '!'` of the main loop: a custom payload. -/
def Lexer.casePayload {D H : Type} (h : Handler D H) (lx : Lexer H)
    (state : LexerState) : Flow × Done D H :=
  let t := readPayloadTag 4 0 state
  let last_char := t.1
  let data_token := t.2.1
  let state := t.2.2
  if last_char = 91 then
    let r := h.LexerCustomData lx.handler_ data_token state.stream_
    let state : LexerState := { state with stream_ := r.2.2 }
    let result := mapFail state r.1
    let cs := state.NextChar
    let state := cs.2
    let result := if cs.1 ≠ 93 then
        LexerResult.failure (state.Fail (bytes "No closing ] for custom data"))
      else result
    (flowOf result, { result := result, calls := [Callback.LexerCustomData data_token],
                      lexer := { lx with handler_ := r.2.1 }, state := state.FinishTerm })
  else
    (Flow.ret, { result := LexerResult.failure
                   (state.Fail (bytes "Invalid openning tag for custom data")),
                 calls := [], lexer := lx, state := state.FinishTerm })

/-- `case ';'` of the main loop: a comment. -/
def Lexer.caseComment {D H : Type} (fuel : Nat) (lx : Lexer H)
    (state : LexerState) : Option (Flow × Done D H) :=
  match skipComment fuel state with
  | none => none
  | some st =>
    some (Flow.cont, { result := LexerResult.success, calls := [], lexer := lx,
                       state := st.NewLine })

/-- The cases of white space of the main loop; `'\n'` falls through to them
after `NewLine`. -/
def Lexer.caseSpace {D H : Type} (fl : FloatLib D) (h : Handler D H) (cur_char : Nat)
    (lx : Lexer H) (state : LexerState) : Flow × Done D H :=
  let state := if cur_char = 10 then state.NewLine else state
  let d := Lexer.FinalizeTerm fl h lx state
  (flowOf d.result, d)

/-- The `default` case of the main loop: a character of an identifier or value. -/
def Lexer.caseOther {D H : Type} (lx : Lexer H) (state : LexerState) : Flow × Done D H :=
  let state := if !state.HasTerm then state.StartTerm TermType.kValue (state.Buffer - 1)
    else state
  (Flow.cont, { result := LexerResult.success, calls := [], lexer := lx, state := state })

/-- The body of the main loop of `Lexer::Run` for the character `cur_char` that
`NextChar` just returned (not `k_lexer_invalid_char`). -/
def Lexer.Body {D H : Type} (fl : FloatLib D) (h : Handler D H) (fuel : Nat) (cur_char : Nat)
    (lx : Lexer H) (state0 : LexerState) : Option (Flow × Done D H) :=
  let cur_escaped := state0.is_escaped_
  let state := state0.ResetEscape
  if state.term_type_ = TermType.kStr ∧ (cur_char ≠ 34 ∨ cur_escaped = true) then
    some (Lexer.inString cur_char cur_escaped lx state)
  else if cur_char = 40 then some (Lexer.caseOpen fl h lx state)
  else if cur_char = 41 then some (Lexer.caseClose fl h lx state)
  else if cur_char = 34 then some (Lexer.caseQuote fl h lx state)
  else if cur_char = 33 then some (Lexer.casePayload h lx state)
  else if cur_char = 59 then Lexer.caseComment fuel lx state
  else if cur_char = 10 ∨ cur_char = 32 ∨ cur_char = 9 ∨ cur_char = 13 then
    some (Lexer.caseSpace fl h cur_char lx state)
  else some (Lexer.caseOther lx state)

/-- The end of `Lexer::Run` once `NextChar` has returned `k_lexer_invalid_char`. -/
def Lexer.finish (state : LexerState) : LexerResult :=
  if 0 < state.op_depth_ then
    LexerResult.failure (state.Fail (bytes "Missing closing parenthesis"))
  else if state.term_type_ = TermType.kStr then
    LexerResult.failure (state.Fail (bytes "Invalid string literal - not closed"))
  else LexerResult.success

/-- The main loop of `Lexer::Run` with the rest of the function. -/
def Lexer.RunLoop {D H : Type} (fl : FloatLib D) (h : Handler D H) :
    Nat → Lexer H → LexerState → Option (Done D H)
  | 0, _, _ => none
  | fuel + 1, lx, state =>
    let cs := state.NextChar
    if cs.1 = k_lexer_invalid_char then
      some { result := Lexer.finish cs.2, calls := [], lexer := lx, state := cs.2 }
    else
      match Lexer.Body fl h fuel cs.1 lx cs.2 with
      | none => none
      | some (Flow.ret, d) => some d
      | some (Flow.cont, d) =>
        match Lexer.RunLoop fl h fuel d.lexer d.state with
        | none => none
        | some d2 => some { d2 with calls := d.calls ++ d2.calls }

/-- `Lexer::Run(StreamReader &, ScratchAllocator &, bool single_expr)`, with an
allocator that has the memory `term_buf_` asks for (`Lexer.RunAllocates` tells
whether it asks for any). -/
def Lexer.Run {D H : Type} (fl : FloatLib D) (h : Handler D H) (fuel : Nat) (lx : Lexer H)
    (stream : StreamReader) (single_expr : Bool) : Option (Done D H) :=
  Lexer.RunLoop fl h fuel lx (LexerState.init stream single_expr)

/-! ### The memory that a run asks of its allocator

`term_buf_` is a `ScratchStr`, a `std::basic_string` over the run's
`ScratchAllocator`.  It grows in `LexerState::SaveTerm` only, and it asks the
allocator for memory the first time the saved bytes no longer fit the buffer
inside the string object.  The functions below follow the run of `Lexer.RunLoop`
and tell whether it comes to that. -/

/-- The capacity of the buffer inside a `std::basic_string<char>` object
(`_S_local_capacity` of libstdc++): up to this many bytes an emptied or fresh
`ScratchStr` holds without memory from its allocator. -/
def ScratchStr.local_capacity : Nat := 15

/-- Whether `LexerState::SaveTerm(term_end)` makes `term_buf_.append` ask the
allocator for memory, in a run that has not asked for any before. -/
def LexerState.SaveTermAllocates (st : LexerState) (term_end : Nat) : Bool :=
  match st.term_begin_ with
  | some b =>
    decide (ScratchStr.local_capacity <
      (st.term_buf_ ++ slice st.stream_.read_buf_ b term_end).length)
  | none => false

/-- Whether `LexerState::NextChar` asks for memory: in the `SaveTerm` of
`RefillBuffer`, which it calls when nothing is available. -/
def LexerState.NextCharAllocates (st : LexerState) : Bool :=
  decide (st.stream_.available_begin_ = st.stream_.available_end_) &&
    st.SaveTermAllocates st.BufferEnd

/-- Whether `LexerState::Term` asks for memory: in its `SaveTerm`, called when
`term_buf_` is not empty. -/
def LexerState.TermAllocates (st : LexerState) : Bool :=
  decide (0 < st.term_buf_.length) && st.SaveTermAllocates (st.Buffer - 1)

/-- Whether `Lexer::FinalizeTerm` asks for memory: in its call of `Term`. -/
def Lexer.FinalizeTermAllocates (state : LexerState) : Bool :=
  state.HasTerm && decide (0 < state.op_depth_) && state.TermAllocates

/-- Whether the comment loop asks for memory. -/
def skipCommentAllocates : Nat → LexerState → Bool
  | 0, _ => false
  | fuel + 1, st =>
    st.NextCharAllocates ||
      (if st.NextChar.1 = k_lexer_invalid_char ∨ st.NextChar.1 = 10 then false
       else skipCommentAllocates fuel st.NextChar.2)

/-- Whether the loop that reads the tag of a custom payload asks for memory. -/
def readPayloadTagAllocates : Nat → LexerState → Bool
  | 0, st => st.NextCharAllocates
  | k + 1, st =>
    st.NextCharAllocates ||
      (if st.NextChar.1 ≠ k_lexer_invalid_char ∧ st.NextChar.1 ≠ 91 then
         readPayloadTagAllocates k st.NextChar.2
       else false)

/-- Whether `case '!'` of the main loop asks for memory: in the tag loop, or in
the `NextChar` that looks for the closing `]`. -/
def Lexer.casePayloadAllocates {D H : Type} (h : Handler D H) (lx : Lexer H)
    (state : LexerState) : Bool :=
  readPayloadTagAllocates 4 state ||
    (let t := readPayloadTag 4 0 state
     if t.1 = 91 then
       let r := h.LexerCustomData lx.handler_ t.2.1 t.2.2.stream_
       LexerState.NextCharAllocates { t.2.2 with stream_ := r.2.2 }
     else false)

/-- Whether the body of the main loop asks for memory, for the character
`cur_char` (see `Lexer.Body`). -/
def Lexer.BodyAllocates {D H : Type} (h : Handler D H) (fuel : Nat) (cur_char : Nat)
    (lx : Lexer H) (state0 : LexerState) : Bool :=
  let cur_escaped := state0.is_escaped_
  let state := state0.ResetEscape
  if state.term_type_ = TermType.kStr ∧ (cur_char ≠ 34 ∨ cur_escaped = true) then false
  else if cur_char = 40 then Lexer.FinalizeTermAllocates state
  else if cur_char = 41 then Lexer.FinalizeTermAllocates state
  else if cur_char = 34 then Lexer.FinalizeTermAllocates state
  else if cur_char = 33 then Lexer.casePayloadAllocates h lx state
  else if cur_char = 59 then skipCommentAllocates fuel state
  else if cur_char = 10 ∨ cur_char = 32 ∨ cur_char = 9 ∨ cur_char = 13 then
    Lexer.FinalizeTermAllocates state
  else false

/-- Whether the main loop of `Lexer::Run` asks its allocator for memory. -/
def Lexer.RunLoopAllocates {D H : Type} (fl : FloatLib D) (h : Handler D H) :
    Nat → Lexer H → LexerState → Bool
  | 0, _, _ => false
  | fuel + 1, lx, state =>
    state.NextCharAllocates ||
      (if state.NextChar.1 = k_lexer_invalid_char then false
       else
         Lexer.BodyAllocates h fuel state.NextChar.1 lx state.NextChar.2 ||
           (match Lexer.Body fl h fuel state.NextChar.1 lx state.NextChar.2 with
            | some (Flow.cont, d) => Lexer.RunLoopAllocates fl h fuel d.lexer d.state
            | _ => false))

/-- Whether `Lexer::Run(StreamReader &, ScratchAllocator &, bool single_expr)`
asks its allocator for memory. -/
def Lexer.RunAllocates {D H : Type} (fl : FloatLib D) (h : Handler D H) (fuel : Nat)
    (lx : Lexer H) (stream : StreamReader) (single_expr : Bool) : Bool :=
  Lexer.RunLoopAllocates fl h fuel lx (LexerState.init stream single_expr)

/-- `Lexer::Run(MutStrSpan text)`: the whole text is the reader's buffer, all of
it available, over a `DummyInStream`, and the allocator is
`ScratchAllocator allocator{0}`.  That allocator has no chunk (with a
`reserve_size` of 0 its constructor leaves `cur_arena_` and `cur_ptr_` null), so
its `AllocAligned` stops at `XYAssert(cur_ptr_ != nullptr)` or, where asserts are
compiled out, reads through the null `cur_arena_`: a run that asks it for memory
does not return.  `none` is that, or fuel run out (`Lexer.RunAllocates` tells
which). -/
def Lexer.RunText {D H : Type} (fl : FloatLib D) (h : Handler D H) (fuel : Nat) (lx : Lexer H)
    (text : List Nat) : Option (Done D H) :=
  if Lexer.RunAllocates fl h fuel lx (StreamReader.preloaded text DummyInStream text.length)
      false = true then none
  else Lexer.Run fl h fuel lx (StreamReader.preloaded text DummyInStream text.length) false

end slang

/-! ## types/schema.h, types/basic_types.h, types/value_types.h -/

/-- The type schemas the interpreter tells apart by pointer: the invalid schema
(`k_types_invalid_schema`, a null pointer), the basic types of `basic_types.cc`
(`int` and `int32_t` are one C++ type), slang's `Field` type and the object
schemas created at run time. -/
inductive TypeSchemaPtr
  | invalid
  | int
  | int8_t
  | int16_t
  | int64_t
  | uint8_t
  | uint16_t
  | uint32_t
  | uint64_t
  | float
  | double
  | FrameBarrier
  | StrSpan
  | Field
  | object (id : Nat)
  deriving DecidableEq, Repr

/-- `TypeSchema::IsBasic` (flag `kBasic`, set by `XYDefineBasicTypeSchemaNamed`;
`k_slang_field_type` has no flags). -/
def TypeSchemaPtr.IsBasic : TypeSchemaPtr → Bool
  | TypeSchemaPtr.invalid => false
  | TypeSchemaPtr.Field => false
  | TypeSchemaPtr.object _ => false
  | _ => true

/-- `TypeSchema::IsSignedInt`. -/
def TypeSchemaPtr.IsSignedInt : TypeSchemaPtr → Bool
  | TypeSchemaPtr.int => true
  | TypeSchemaPtr.int8_t => true
  | TypeSchemaPtr.int16_t => true
  | TypeSchemaPtr.int64_t => true
  | _ => false

/-- `TypeSchema::IsUnsignedInt`. -/
def TypeSchemaPtr.IsUnsignedInt : TypeSchemaPtr → Bool
  | TypeSchemaPtr.uint8_t => true
  | TypeSchemaPtr.uint16_t => true
  | TypeSchemaPtr.uint32_t => true
  | TypeSchemaPtr.uint64_t => true
  | _ => false

/-- `TypeSchema::IsFloatingPoint`. -/
def TypeSchemaPtr.IsFloatingPoint : TypeSchemaPtr → Bool
  | TypeSchemaPtr.float => true
  | TypeSchemaPtr.double => true
  | _ => false

/-- `TypeSchema::IsIntegral`. -/
def TypeSchemaPtr.IsIntegral (t : TypeSchemaPtr) : Bool := t.IsSignedInt || t.IsUnsignedInt

/-- `TypeSchema::IsNumeric`. -/
def TypeSchemaPtr.IsNumeric (t : TypeSchemaPtr) : Bool := t.IsIntegral || t.IsFloatingPoint

/-- A value converted to `int64_t`: reduced modulo `2^64` into `[-2^63, 2^63)`. -/
def wrap64 (v : Int) : Int := (v + 2 ^ 63) % 2 ^ 64 - 2 ^ 63

/-- A value converted to `int16_t`: reduced modulo `2^16` into `[-2^15, 2^15)`. -/
def wrap16 (v : Int) : Int := (v + 2 ^ 15) % 2 ^ 16 - 2 ^ 15

/-- `union Value`, by the arm that was written. -/
inductive Value (D : Type)
  | i64 (v : Int)
  | u64 (v : Nat)
  | dbl (v : D)
  | ptr (p : Nat)
  | str (s : List Nat)
  deriving DecidableEq, Repr

/-- Reading `value.i64`.  The two integer arms share their bits; reading it
from another arm is not modelled (0). -/
def Value.get_i64 {D : Type} : Value D → Int
  | Value.i64 v => v
  | Value.u64 v => wrap64 v
  | _ => 0

/-- Reading `value.u64` (see `Value.get_i64`). -/
def Value.get_u64 {D : Type} : Value D → Nat
  | Value.i64 v => (v % 2 ^ 64).toNat
  | Value.u64 v => v
  | _ => 0

/-- Reading `value.ptr`; from another arm it is not modelled (null). -/
def Value.get_ptr {D : Type} : Value D → Nat
  | Value.ptr p => p
  | _ => 0

/-- Reading `value.dbl`; from another arm it is not modelled (NaN). -/
def Value.get_dbl {D : Type} (fl : FloatLib D) : Value D → D
  | Value.dbl v => v
  | _ => fl.quiet_NaN

/-- Reading `value.str`; from another arm it is not modelled (empty). -/
def Value.get_str {D : Type} : Value D → List Nat
  | Value.str s => s
  | _ => []

/-- `struct TypedValue`. -/
structure TypedValue (D : Type) where
  type : TypeSchemaPtr
  value : Value D
  deriving DecidableEq, Repr

/-! ## base/str_builder.h, base/str_build_types.cc -/

/-- `StrBuilder<Size>::Write(needed_size, handler)` on the built bytes: the
handler's output `out` is appended when `needed_size` bytes are free. -/
def StrBuilder.Write (Size : Nat) (buf : List Nat) (needed_size : Nat) (out : List Nat) :
    List Nat :=
  if Size - 1 - buf.length < needed_size then buf else buf ++ out

/-- The digit loop of `StrBuildUIntToStr`: `buf[--i] = '0' + (value - 10 * next_val)`
while `value > 0`; `acc` are the digits already placed behind position `i`. -/
def StrBuildUIntToStr.loop : Nat → Nat → List Nat → List Nat
  | 0, _, acc => acc
  | fuel + 1, value, acc =>
    if 0 < value then
      let next_val := value / 10
      StrBuildUIntToStr.loop fuel next_val ((48 + (value - 10 * next_val)) :: acc)
    else acc

/-- `detail::StrBuildUIntToStr`: the bytes written to the buffer (their number
is the function's result).  The loop runs once per decimal digit. -/
def StrBuildUIntToStr (value : Nat) : List Nat :=
  if value = 0 then [48] else StrBuildUIntToStr.loop value value []

/-- `detail::StrBuildIntToStr` of an `int64_t`.  `(uint64_t)-value` is taken
modulo `2^64`. -/
def StrBuildIntToStr (value : Int) : List Nat :=
  if value < 0 then 45 :: StrBuildUIntToStr ((-value) % 2 ^ 64).toNat
  else StrBuildUIntToStr value.toNat

/-! ## slang/call.h, slang/env.h -/

namespace slang

/-- `enum class OpCode`. -/
inductive OpCode
  | Invalid
  | Push
  | Call
  deriving DecidableEq, Repr

/-- `struct Instruction`.  For `OpCode::Call` the data is
`TypedValue{k_types_invalid_schema, (void *)call}`. -/
structure Instruction (D : Type) where
  code : OpCode
  data : TypedValue D
  deriving DecidableEq, Repr

/-- `struct CallContext`.  `args` is the span of `CallArgs`, the whole VM stack
(bottom first); `output` is the output stack behind `CallOutput`; `error_text`
are the bytes of the `StrBuilder<128>`; `user_data` has type `U`. -/
structure CallContext (D U : Type) where
  args : List (TypedValue D)
  output : List (TypedValue D)
  error_text : List Nat
  user_data : U

/-- A host function, `bool(*)(CallContext &)`. -/
abbrev HostFn (D U : Type) := CallContext D U → Bool × CallContext D U

/-- `CallArgs::Begin`, as the slots the iterator visits: the stack from its top
downwards. -/
def CallArgs.Begin {D : Type} (args : List (TypedValue D)) : List (TypedValue D) := args.reverse

/-- `CallArgs::Iterator::IsEnd` for an iterator given by the slots from its
position downwards.  Below the bottom of the stack the source reads out of
bounds; the model ends the iteration there. -/
def Iterator.IsEnd {D : Type} (it : List (TypedValue D)) : Bool :=
  match it with
  | [] => true
  | v :: _ => decide (v.type = TypeSchemaPtr.FrameBarrier)

/-- The arguments of a call: what an iterator started at `CallArgs::Begin` visits
until `IsEnd`, first argument first. -/
def CallArgs.toList {D : Type} (args : List (TypedValue D)) : List (TypedValue D) :=
  (CallArgs.Begin args).takeWhile (fun v => !decide (v.type = TypeSchemaPtr.FrameBarrier))

/-- `CallOutput::Add<T>` / `AddTyped`: `stack_.emplace_back(type, value)`. -/
def CallContext.Add {D U : Type} (cc : CallContext D U) (type : TypeSchemaPtr) (value : Value D) :
    CallContext D U :=
  { cc with output := cc.output ++ [{ type := type, value := value }] }

/-- `PayloadHandler::ProcessPayload`: an error message or success, and the
reader afterwards. -/
abbrev PayloadHandler := StreamReader → Option (List Nat) × StreamReader

/-- `class Env`: the function table (name to function pointer, never null) and
the payload handlers by token. -/
structure Env where
  functions_ : List (List Nat × Nat)
  payload_handlers_ : List (Nat × PayloadHandler)

/-- `Env::FindCall`: the function pointer, 0 (`nullptr`) when the name is absent. -/
def Env.FindCall (env : Env) (name : List Nat) : Nat :=
  match env.functions_.lookup name with
  | some call => call
  | none => 0

/-- `Env::FindPayloadHandler`. -/
def Env.FindPayloadHandler (env : Env) (token : Nat) : Option PayloadHandler :=
  env.payload_handlers_.lookup token

/-! ## slang/compiler.cc -/

/-- `class Program`. -/
structure Program (D : Type) where
  code_ : List (Instruction D)
  deriving DecidableEq, Repr

/-- `class Compiler`: the environment, the program being built (`*cur_program_`)
and `StrBuilder<128> error_builder_`. -/
structure Compiler (D : Type) where
  env_ : Env
  cur_program_ : Program D
  error_builder_ : List Nat

/-- `cur_program_->code_.emplace_back(code, data)`. -/
def Compiler.emit {D : Type} (c : Compiler D) (code : OpCode) (data : TypedValue D) : Compiler D :=
  { c with cur_program_ := { code_ := c.cur_program_.code_ ++ [{ code := code, data := data }] } }

/-- `Compiler::AddStrValue`. -/
def Compiler.AddStrValue {D : Type} (c : Compiler D) (type : TypeSchemaPtr) (value : List Nat) :
    Compiler D :=
  c.emit OpCode.Push { type := type, value := Value.str value }

/-- `Compiler::LexerBeginOp`. -/
def Compiler.LexerBeginOp {D : Type} (c : Compiler D) (op_name : List Nat) :
    Option (List Nat) × Compiler D :=
  let call := c.env_.FindCall op_name
  if call = 0 then
    let b := StrBuilder.BestEffortWrite 128
      (StrBuilder.BestEffortWrite 128
        (StrBuilder.BestEffortWrite 128 c.error_builder_ (bytes "Unknown function '")) op_name)
      (bytes "'")
    (some b, { c with error_builder_ := b })
  else
    (none, c.emit OpCode.Call { type := TypeSchemaPtr.invalid, value := Value.ptr call })

/-- `Compiler::LexerEndOp`. -/
def Compiler.LexerEndOp {D : Type} (c : Compiler D) : Option (List Nat) × Compiler D :=
  (none, c.emit OpCode.Push { type := TypeSchemaPtr.FrameBarrier, value := Value.i64 0 })

/-- `Compiler::LexerStrValue`. -/
def Compiler.LexerStrValue {D : Type} (c : Compiler D) (value : List Nat) :
    Option (List Nat) × Compiler D :=
  (none, c.AddStrValue TypeSchemaPtr.StrSpan value)

/-- `Compiler::LexerIntValue`. -/
def Compiler.LexerIntValue {D : Type} (c : Compiler D) (value : Int) :
    Option (List Nat) × Compiler D :=
  (none, c.emit OpCode.Push { type := TypeSchemaPtr.int64_t, value := Value.i64 value })

/-- `Compiler::LexerDoubleValue`. -/
def Compiler.LexerDoubleValue {D : Type} (c : Compiler D) (value : D) :
    Option (List Nat) × Compiler D :=
  (none, c.emit OpCode.Push { type := TypeSchemaPtr.double, value := Value.dbl value })

/-- `Compiler::LexerUnhandledValue`. -/
def Compiler.LexerUnhandledValue {D : Type} (c : Compiler D) (value : List Nat) :
    Option (List Nat) × Compiler D :=
  if 1 < value.length ∧ value.head? = some 58 then
    (none, c.AddStrValue TypeSchemaPtr.Field (value.drop 1))
  else c.LexerStrValue value

/-- `Compiler::LexerCustomData`. -/
def Compiler.LexerCustomData {D : Type} (c : Compiler D) (token : Nat) (reader : StreamReader) :
    Option (List Nat) × Compiler D × StreamReader :=
  match c.env_.FindPayloadHandler token with
  | none =>
    let b := StrBuilder.Write 128
      (StrBuilder.BestEffortWrite 128 c.error_builder_ (bytes "Unknown payload type: "))
      24 (StrBuildUIntToStr token)
    (some b, { c with error_builder_ := b }, reader)
  | some payload_handler =>
    let r := payload_handler reader
    (r.1, c, r.2)

/-- The compiler as the lexer's handler (`Lexer<Compiler&>`). -/
def Compiler.handler (D : Type) : Handler D (Compiler D) :=
  { LexerBeginOp := Compiler.LexerBeginOp
    LexerEndOp := Compiler.LexerEndOp
    LexerStrValue := Compiler.LexerStrValue
    LexerIntValue := Compiler.LexerIntValue
    LexerDoubleValue := Compiler.LexerDoubleValue
    LexerUnhandledValue := Compiler.LexerUnhandledValue
    LexerCustomData := Compiler.LexerCustomData }

/-- `struct CompileError` (always a `SyntaxError` built from a `LexerFailure`). -/
structure CompileError where
  err_line_no_ : Nat
  err_line_offset_ : Nat
  err_msg_ : List Nat
  deriving DecidableEq, Repr

/-- `CompileResult = Either<CompileError, Program>`. -/
inductive CompileResult (D : Type)
  | error (e : CompileError)
  | program (p : Program D)
  deriving DecidableEq, Repr

/-- `Compiler::Build`: run the lexer on one expression with the compiler as
handler and a fresh program, then reverse the instructions.  Returns the result
with the compiler and the reader afterwards.  `err_msg_` of a `CompileError` is
a `StrSpan`, given here by the bytes it points at when the lexer returns.  For
the two messages that the lexer writes itself (`Invalid op name: ` and
`Invalid value type: `, each followed by the term) these bytes lie in
`err_description_` of the `Lexer` object local to `Build`, which is destroyed
when `Build` returns: what a caller of `Build` reads through that span is not
determined by the source.  The messages of the handler and the literal
messages of the lexer outlive the call. -/
def Compiler.Build {D : Type} (fl : FloatLib D) (fuel : Nat) (c : Compiler D)
    (reader : StreamReader) : Option (CompileResult D × Compiler D × StreamReader) :=
  let c0 : Compiler D := { c with cur_program_ := { code_ := [] } }
  match Lexer.Run fl (Compiler.handler D) fuel { handler_ := c0, err_description_ := [] }
      reader true with
  | none => none
  | some d =>
    match d.result with
    | LexerResult.failure f =>
      some (CompileResult.error { err_line_no_ := f.err_line_no_,
                                  err_line_offset_ := f.err_line_offset_,
                                  err_msg_ := f.err_msg_ },
            d.lexer.handler_, d.state.stream_)
    | LexerResult.success =>
      some (CompileResult.program { code_ := d.lexer.handler_.cur_program_.code_.reverse },
            d.lexer.handler_, d.state.stream_)

/-! ## slang/program.cc -/

/-- The loop of `PurgeStackFrame`: `sz` counts down from the stack size; at the
first `FrameBarrier` from the top the stack is cut to `sz` elements. -/
def PurgeStackFrame.loop {D : Type} (stack : List (TypedValue D)) : Nat → List (TypedValue D)
  | 0 => stack
  | sz + 1 =>
    match stack.get? sz with
    | some v =>
      if v.type = TypeSchemaPtr.FrameBarrier then stack.take sz
      else PurgeStackFrame.loop stack sz
    | none => PurgeStackFrame.loop stack sz

/-- `PurgeStackFrame`. -/
def PurgeStackFrame {D : Type} (stack : List (TypedValue D)) : List (TypedValue D) :=
  PurgeStackFrame.loop stack stack.length

/-- A call made on a `Serializer`, by overload. -/
inductive SerializeCall (D : Type)
  | value (v : TypedValue D)
  | values (vs : List (TypedValue D))
  | str (s : List Nat)
  deriving DecidableEq, Repr

/-- One host function call made by the VM: the function pointer, the stack it
was given, and what it returned. -/
structure CallRecord (D : Type) where
  fn : Nat
  stack : List (TypedValue D)
  ok : Bool
  output : List (TypedValue D)
  error_text : List Nat
  deriving DecidableEq, Repr

/-- What `Program::Execute` did: the calls it made on `context.serializer`, the
host functions it called, the number of instructions it executed, and the
stack and call context it ended with. -/
structure Executed (D U : Type) where
  serialized : List (SerializeCall D)
  calls : List (CallRecord D)
  steps : Nat
  stack : List (TypedValue D)
  call_context : CallContext D U

/-- The loop of `Program::Execute` over the instructions from `ip` on; `fns`
gives the host function behind each function pointer. -/
def Program.ExecuteLoop {D U : Type} (fns : Nat → HostFn D U) :
    List (Instruction D) → List (TypedValue D) → CallContext D U → Executed D U
  | [], stack, call_context =>
    { serialized := [SerializeCall.values stack], calls := [], steps := 0, stack := stack,
      call_context := call_context }
  | instr :: rest, stack, call_context =>
    match instr.code with
    | OpCode.Call =>
      let r := fns instr.data.value.get_ptr
        { call_context with args := stack, output := [] }
      let rec_ : CallRecord D :=
        { fn := instr.data.value.get_ptr, stack := stack, ok := r.1, output := r.2.output,
          error_text := r.2.error_text }
      if !r.1 then
        { serialized := [SerializeCall.str r.2.error_text], calls := [rec_], steps := 1,
          stack := stack, call_context := r.2 }
      else
        let e := Program.ExecuteLoop fns rest (PurgeStackFrame stack ++ r.2.output) r.2
        { e with calls := rec_ :: e.calls, steps := e.steps + 1 }
    | OpCode.Push =>
      let e := Program.ExecuteLoop fns rest (stack ++ [instr.data]) call_context
      { e with steps := e.steps + 1 }
    | OpCode.Invalid =>
      let e := Program.ExecuteLoop fns rest stack call_context
      { e with steps := e.steps + 1 }

/-- `Program::Execute`: an empty stack and a fresh `CallContext` holding the
user data. -/
def Program.Execute {D U : Type} (fns : Nat → HostFn D U) (p : Program D) (user_data : U) :
    Executed D U :=
  Program.ExecuteLoop fns p.code_ []
    { args := [], output := [], error_text := [], user_data := user_data }

/-! ## slang/math_funcs.cc -/

/-- `CallArgs::Iterator::Get<int64_t>().Value()` on a slot.  For a slot that is
not numeric the `Maybe` is empty and `Value()` is undefined in the source (0
here). -/
def Get_int64 {D : Type} (fl : FloatLib D) (v : TypedValue D) : Int :=
  if v.type.IsUnsignedInt then wrap64 v.value.get_u64
  else if v.type.IsSignedInt then v.value.get_i64
  else if v.type.IsFloatingPoint then wrap64 (fl.toInt64 (v.value.get_dbl fl))
  else 0

/-- `CallArgs::Iterator::Get<int16_t>().Value()` on a slot: the value is cast to
`int16_t`. -/
def Get_int16 {D : Type} (fl : FloatLib D) (v : TypedValue D) : Int :=
  if v.type.IsUnsignedInt then wrap16 v.value.get_u64
  else if v.type.IsSignedInt then wrap16 v.value.get_i64
  else if v.type.IsFloatingPoint then wrap16 (fl.toInt64 (v.value.get_dbl fl))
  else 0

/-- `CallArgs::Iterator::Get<double>().Value()` on a slot. -/
def Get_double {D : Type} (fl : FloatLib D) (v : TypedValue D) : D :=
  if v.type.IsUnsignedInt then fl.ofInt v.value.get_u64
  else if v.type.IsSignedInt then fl.ofInt v.value.get_i64
  else if v.type.IsFloatingPoint then v.value.get_dbl fl
  else fl.quiet_NaN

/-- The loop `while (!it.IsEnd()) { result = step(result, *it); ++it; }` shared by
the arithmetic functions, on the slots from the iterator downwards. -/
def foldArgs {D A : Type} (step : A → TypedValue D → A) : List (TypedValue D) → A → A
  | [], acc => acc
  | v :: it, acc =>
    if v.type = TypeSchemaPtr.FrameBarrier then acc else foldArgs step it (step acc v)

/-- `sum<int64_t>`. -/
def sum_int64 {D : Type} (fl : FloatLib D) (args : List (TypedValue D)) : Int :=
  foldArgs (fun result v => wrap64 (result + Get_int64 fl v)) (CallArgs.Begin args) 0

/-- `sum<double>`. -/
def sum_double {D : Type} (fl : FloatLib D) (args : List (TypedValue D)) : D :=
  foldArgs (fun result v => fl.add result (Get_double fl v)) (CallArgs.Begin args) (fl.ofInt 0)

/-- `sub<int16_t>`: the template argument in `func_table["-"]` is `int16_t`. -/
def sub_int16 {D : Type} (fl : FloatLib D) (args : List (TypedValue D)) : Int :=
  match CallArgs.Begin args with
  | [] => 0
  | v :: it =>
    if v.type = TypeSchemaPtr.FrameBarrier then 0
    else foldArgs (fun res x => wrap16 (res - Get_int16 fl x)) it (Get_int16 fl v)

/-- `sub<double>`. -/
def sub_double {D : Type} (fl : FloatLib D) (args : List (TypedValue D)) : D :=
  match CallArgs.Begin args with
  | [] => fl.ofInt 0
  | v :: it =>
    if v.type = TypeSchemaPtr.FrameBarrier then fl.ofInt 0
    else foldArgs (fun res x => fl.sub res (Get_double fl x)) it (Get_double fl v)

/-- `mul<int16_t>`: the template argument in `func_table["*"]` is `int16_t`. -/
def mul_int16 {D : Type} (fl : FloatLib D) (args : List (TypedValue D)) : Int :=
  foldArgs (fun res v => wrap16 (res * Get_int16 fl v)) (CallArgs.Begin args) 1

/-- `mul<double>`. -/
def mul_double {D : Type} (fl : FloatLib D) (args : List (TypedValue D)) : D :=
  foldArgs (fun res v => fl.mul res (Get_double fl v)) (CallArgs.Begin args) (fl.ofInt 1)

/-- `div` of `math_funcs.cc`. -/
def div {D : Type} (fl : FloatLib D) (args : List (TypedValue D)) : D :=
  match CallArgs.Begin args with
  | [] => fl.quiet_NaN
  | v :: it =>
    if v.type = TypeSchemaPtr.FrameBarrier then fl.quiet_NaN
    else if Iterator.IsEnd it then fl.div (fl.ofInt 1) (Get_double fl v)
    else fl.div (Get_double fl v)
      (foldArgs (fun d1 x => fl.mul d1 (Get_double fl x)) it (fl.ofInt 1))

/-- `enum MathOpType`. -/
inductive MathOpType
  | Invalid
  | SignedInt
  | Double
  deriving DecidableEq, Repr

/-- The loop of `CheckOperationType`: `is_float`, and whether the iterator
stopped at the end of the arguments. -/
def CheckOperationType.loop {D : Type} : List (TypedValue D) → Bool → Bool × Bool
  | [], is_float => (is_float, true)
  | v :: it, is_float =>
    if v.type = TypeSchemaPtr.FrameBarrier then (is_float, true)
    else if v.type.IsNumeric then
      CheckOperationType.loop it (is_float || v.type.IsFloatingPoint)
    else (is_float, false)

/-- `CheckOperationType`. -/
def CheckOperationType {D : Type} (args : List (TypedValue D)) : MathOpType :=
  let r := CheckOperationType.loop (CallArgs.Begin args) false
  if !r.2 then MathOpType.Invalid
  else if r.1 then MathOpType.Double else MathOpType.SignedInt

/-- `k_invalid_type_error`. -/
def k_invalid_type_error : List Nat := bytes "Operation expects numeric type"

/-- The `MathOpType::Invalid` case of the arithmetic functions. -/
def mathInvalid {D U : Type} (cc : CallContext D U) : Bool × CallContext D U :=
  (false, { cc with error_text := StrBuilder.BestEffortWrite 128 cc.error_text
                                    k_invalid_type_error })

/-- `func_table["+"]`. -/
def math_add {D U : Type} (fl : FloatLib D) : HostFn D U := fun cc =>
  match CheckOperationType cc.args with
  | MathOpType.Invalid => mathInvalid cc
  | MathOpType.Double => (true, cc.Add TypeSchemaPtr.double (Value.dbl (sum_double fl cc.args)))
  | MathOpType.SignedInt =>
    (true, cc.Add TypeSchemaPtr.int64_t (Value.i64 (sum_int64 fl cc.args)))

/-- `func_table["-"]`. -/
def math_sub {D U : Type} (fl : FloatLib D) : HostFn D U := fun cc =>
  match CheckOperationType cc.args with
  | MathOpType.Invalid => mathInvalid cc
  | MathOpType.Double => (true, cc.Add TypeSchemaPtr.double (Value.dbl (sub_double fl cc.args)))
  | MathOpType.SignedInt =>
    (true, cc.Add TypeSchemaPtr.int16_t (Value.i64 (sub_int16 fl cc.args)))

/-- `func_table["*"]`. -/
def math_mul {D U : Type} (fl : FloatLib D) : HostFn D U := fun cc =>
  match CheckOperationType cc.args with
  | MathOpType.Invalid => mathInvalid cc
  | MathOpType.Double => (true, cc.Add TypeSchemaPtr.double (Value.dbl (mul_double fl cc.args)))
  | MathOpType.SignedInt =>
    (true, cc.Add TypeSchemaPtr.int16_t (Value.i64 (mul_int16 fl cc.args)))

/-- `func_table["/"]`. -/
def math_div {D U : Type} (fl : FloatLib D) : HostFn D U := fun cc =>
  match CheckOperationType cc.args with
  | MathOpType.Invalid => mathInvalid cc
  | MathOpType.Double => (true, cc.Add TypeSchemaPtr.double (Value.dbl (div fl cc.args)))
  | MathOpType.SignedInt => (true, cc.Add TypeSchemaPtr.double (Value.dbl (div fl cc.args)))

/-! ## main/slang_env.cc -/

/-- The loop of `func_table["list"]`: every argument is added to the output. -/
def list_loop {D U : Type} : List (TypedValue D) → CallContext D U → CallContext D U
  | [], cc => cc
  | v :: it, cc =>
    if v.type = TypeSchemaPtr.FrameBarrier then cc else list_loop it (cc.Add v.type v.value)

/-- `func_table["list"]`. -/
def list_fn {D U : Type} : HostFn D U := fun cc => (true, list_loop (CallArgs.Begin cc.args) cc)

end slang

/-! ## base/stream.cc: the writer -/

/-- An `OutStream`: the bytes it has accepted so far, and whether it fails every
write with `StreamError::Closed` (as `DummyOutStream` does). -/
structure OutStream where
  received : List Nat
  closed : Bool
  write_error_ : StreamError
  deriving DecidableEq, Repr

/-- `OutStream::Write`: whether the write succeeded, and the stream afterwards. -/
def OutStream.Write (s : OutStream) (write_buf : List Nat) : Bool × OutStream :=
  if s.closed then (false, { s with write_error_ := StreamError.Closed })
  else (true, { s with received := s.received ++ write_buf })

/-- `class StreamWriter`: the size of `write_buf_`, the `written_size_` bytes
buffered in it, and the stream. -/
structure StreamWriter where
  write_buf_size : Nat
  buffered : List Nat
  stream_ : OutStream
  deriving DecidableEq, Repr

/-- A writer with an empty buffer of `cap` bytes over a fresh stream that
accepts every write. -/
def StreamWriter.fresh (cap : Nat) : StreamWriter :=
  { write_buf_size := cap, buffered := [],
    stream_ := { received := [], closed := false, write_error_ := StreamError.None } }

/-- `StreamWriter::Flush`. -/
def StreamWriter.Flush (w : StreamWriter) : Bool × StreamWriter :=
  let r := w.stream_.Write w.buffered
  (r.1, { w with buffered := [], stream_ := r.2 })

/-- The loop of `StreamWriter::WriteData` over the bytes not yet copied. -/
def StreamWriter.WriteData.loop : Nat → StreamWriter → List Nat → Option (Bool × StreamWriter)
  | 0, w, rest => if rest = [] then some (true, w) else none
  | fuel + 1, w, rest =>
    if rest = [] then some (true, w)
    else
      let sz := min rest.length (w.write_buf_size - w.buffered.length)
      let w1 : StreamWriter := { w with buffered := w.buffered ++ rest.take sz }
      let rest1 := rest.drop sz
      if rest1 = [] then some (true, w1)
      else
        let r := w1.Flush
        if !r.1 then some (false, r.2)
        else StreamWriter.WriteData.loop fuel r.2 rest1

/-- `StreamWriter::WriteData`.  With a buffer of at least one byte the loop ends
within `buf.length + 1` turns; `none` stands for a loop that does not end (a
buffer of size 0 over a stream that accepts the empty writes). -/
def StreamWriter.WriteData (w : StreamWriter) (buf : List Nat) : Option (Bool × StreamWriter) :=
  StreamWriter.WriteData.loop (buf.length + 1) w buf

/-- `StreamWriter::IsGood`. -/
def StreamWriter.IsGood (w : StreamWriter) : Bool :=
  decide (w.stream_.write_error_ = StreamError.None)

/-! ## json/json_serializer.cc

The calls `writer_.Write(x)` resolve as C++ prescribes: for a `StrSpan` to
`Write(StrSpan)`; for a `char` or a string literal to the template
`Write(const T &)`, which writes `sizeof(T)` bytes, so a literal is written
with its terminating zero byte. -/

/-- `StreamWriter::Write`, ignoring the result as `JsonSerializer` does. -/
def StreamWriter.put (w : StreamWriter) (buf : List Nat) : Option StreamWriter :=
  (w.WriteData buf).map (fun r => r.2)

/-- `writer_.Write("...")` with a string literal: the template overload writes
the array, the terminating zero included. -/
def StreamWriter.putLiteral (w : StreamWriter) (lit : String) : Option StreamWriter :=
  w.put (bytes lit ++ [0])

/-- `StrBuildUIntToHex(value, buf, false)` for a value below 256. -/
def StrBuildUIntToHex (value : Nat) : List Nat :=
  let hex_digits := bytes "0123456789abcdef"
  if value = 0 then [48]
  else if value < 16 then [hex_digits.getD value 0]
  else [hex_digits.getD (value / 16 % 16) 0, hex_digits.getD (value % 16) 0]

/-- The loop of `JsonSerializer::WriteEscapedString`; `pending` are the bytes
between `prev` and `cur`. -/
def JsonSerializer.WriteEscapedString.loop :
    List Nat → List Nat → StreamWriter → Option StreamWriter
  | [], pending, w => w.put pending
  | c :: rest, pending, w =>
    if c = 92 ∨ c = 34 then
      (w.put pending).bind fun w => (w.putLiteral "\\\"").bind fun w =>
        JsonSerializer.WriteEscapedString.loop rest [] w
    else if c = 8 then
      (w.put pending).bind fun w => (w.putLiteral "\\b").bind fun w =>
        JsonSerializer.WriteEscapedString.loop rest [] w
    else if c = 9 then
      (w.put pending).bind fun w => (w.putLiteral "\\t").bind fun w =>
        JsonSerializer.WriteEscapedString.loop rest [] w
    else if c = 10 then
      (w.put pending).bind fun w => (w.putLiteral "\\n").bind fun w =>
        JsonSerializer.WriteEscapedString.loop rest [] w
    else if c = 12 then
      (w.put pending).bind fun w => (w.putLiteral "\\f").bind fun w =>
        JsonSerializer.WriteEscapedString.loop rest [] w
    else if c = 13 then
      (w.put pending).bind fun w => (w.putLiteral "\\r").bind fun w =>
        JsonSerializer.WriteEscapedString.loop rest [] w
    else if c < 16 then
      (w.put pending).bind fun w =>
        (w.put (StrBuilder.Write 64 (StrBuilder.BestEffortWrite 64 [] (bytes "\\u000")) 32
          (StrBuildUIntToHex c))).bind fun w =>
        JsonSerializer.WriteEscapedString.loop rest [] w
    else if c < 32 then
      (w.put pending).bind fun w =>
        (w.put (StrBuilder.Write 64 (StrBuilder.BestEffortWrite 64 [] (bytes "\\u00")) 32
          (StrBuildUIntToHex c))).bind fun w =>
        JsonSerializer.WriteEscapedString.loop rest [] w
    else
      (w.put [c]).bind fun w => JsonSerializer.WriteEscapedString.loop rest [] w

/-- `JsonSerializer::WriteEscapedString`. -/
def JsonSerializer.WriteEscapedString (w : StreamWriter) (str : List Nat) : Option StreamWriter :=
  (w.put [34]).bind fun w =>
    (JsonSerializer.WriteEscapedString.loop str [] w).bind fun w => w.put [34]

/-- `JsonSerializer::WriteBasicValue(TypedValue)`.  For a basic type that is
neither numeric nor `StrSpan` (a `FrameBarrier`) the source asserts and
writes the empty builder. -/
def JsonSerializer.WriteBasicValue {D : Type} (fl : FloatLib D) (w : StreamWriter)
    (value : TypedValue D) : Option StreamWriter :=
  if value.type.IsUnsignedInt then
    w.put (StrBuilder.Write 128 [] 24 (StrBuildUIntToStr value.value.get_u64))
  else if value.type.IsSignedInt then
    w.put (StrBuilder.Write 128 [] 24 (StrBuildIntToStr value.value.get_i64))
  else if value.type.IsFloatingPoint then
    w.put (fl.snprintf_24g (value.value.get_dbl fl))
  else if value.type = TypeSchemaPtr.StrSpan then
    (JsonSerializer.WriteEscapedString w value.value.get_str).bind fun w => w.put []
  else w.put []

/-- `JsonSerializer::WriteObject` for a schema that is not basic.  The objects
live in the object store, which is not part of the embedding: `objects` gives
the bytes written for the fields of the object at an address.  A schema
without fields (`Field`) writes only the braces. -/
def JsonSerializer.WriteObject {D : Type} (objects : Nat → TypeSchemaPtr → List Nat)
    (w : StreamWriter) (value : TypedValue D) : Option StreamWriter :=
  (w.put [123]).bind fun w =>
    (w.put (match value.type with
      | TypeSchemaPtr.object _ => objects value.value.get_ptr value.type
      | _ => [])).bind fun w => w.put [125]

/-- The dispatch on `IsBasic` in both `Serialize` overloads for values. -/
def JsonSerializer.writeValue {D : Type} (fl : FloatLib D)
    (objects : Nat → TypeSchemaPtr → List Nat) (w : StreamWriter) (value : TypedValue D) :
    Option StreamWriter :=
  if value.type.IsBasic then JsonSerializer.WriteBasicValue fl w value
  else JsonSerializer.WriteObject objects w value

/-- `JsonSerializer::FinalizeWrite`: a line feed and a flush. -/
def JsonSerializer.FinalizeWrite (w : StreamWriter) : Option StreamWriter :=
  (w.put [10]).map fun w => w.Flush.2

/-- The loop of `JsonSerializer::Serialize(Span<TypedValue>)`. -/
def JsonSerializer.SerializeValues.loop {D : Type} (fl : FloatLib D)
    (objects : Nat → TypeSchemaPtr → List Nat) :
    List (TypedValue D) → StreamWriter → Option StreamWriter
  | [], w => some w
  | v :: rest, w =>
    (JsonSerializer.writeValue fl objects w v).bind fun w =>
      if rest.isEmpty then JsonSerializer.SerializeValues.loop fl objects rest w
      else (w.putLiteral ", ").bind fun w =>
        JsonSerializer.SerializeValues.loop fl objects rest w

/-- The three overloads of `JsonSerializer::Serialize`. -/
def JsonSerializer.Serialize {D : Type} (fl : FloatLib D)
    (objects : Nat → TypeSchemaPtr → List Nat) (w : StreamWriter) :
    slang.SerializeCall D → Option StreamWriter
  | slang.SerializeCall.value v =>
    (JsonSerializer.writeValue fl objects w v).bind JsonSerializer.FinalizeWrite
  | slang.SerializeCall.values vs =>
    (w.put [91]).bind fun w =>
      (JsonSerializer.SerializeValues.loop fl objects vs w).bind fun w =>
        (w.put [93]).bind JsonSerializer.FinalizeWrite
  | slang.SerializeCall.str s =>
    (JsonSerializer.WriteEscapedString w s).bind JsonSerializer.FinalizeWrite

/-- A `JsonSerializer` answering the calls of a run, in order. -/
def JsonSerializer.SerializeAll {D : Type} (fl : FloatLib D)
    (objects : Nat → TypeSchemaPtr → List Nat) :
    List (slang.SerializeCall D) → StreamWriter → Option StreamWriter
  | [], w => some w
  | c :: rest, w =>
    (JsonSerializer.Serialize fl objects w c).bind
      (JsonSerializer.SerializeAll fl objects rest)

namespace slang

/-! ## slang/slang.cc -/

/-- `BuildCompileErrorText` (the error type is always `SyntaxError`). -/
def BuildCompileErrorText (error : CompileError) : List Nat :=
  let b := StrBuilder.BestEffortWrite 128 [] (bytes "Error(ln ")
  let b := StrBuilder.Write 128 b 24 (StrBuildUIntToStr error.err_line_no_)
  let b := StrBuilder.BestEffortWrite 128 b (bytes ", col ")
  let b := StrBuilder.Write 128 b 24 (StrBuildUIntToStr error.err_line_offset_)
  let b := StrBuilder.BestEffortWrite 128 b (bytes "): ")
  StrBuilder.BestEffortWrite 128 b error.err_msg_

/-- What `slang::Execute` did: its result (the compile error, if any), the calls
made on the output serializer, the host calls, the user data and the reader
afterwards. -/
structure Ran (D U : Type) where
  error : Option CompileError
  serialized : List (SerializeCall D)
  calls : List (CallRecord D)
  user_data : U
  reader : StreamReader

/-- `slang::Execute(StreamReader &, Serializer &, Context &)`. -/
def Execute {D U : Type} (fl : FloatLib D) (fns : Nat → HostFn D U) (fuel : Nat) (env : Env)
    (user_data : U) (reader : StreamReader) : Option (Ran D U) :=
  match Compiler.Build fl fuel { env_ := env, cur_program_ := { code_ := [] },
                                 error_builder_ := [] } reader with
  | none => none
  | some (CompileResult.error e, _, rd) =>
    some { error := some e, serialized := [SerializeCall.str (BuildCompileErrorText e)],
           calls := [], user_data := user_data, reader := rd }
  | some (CompileResult.program p, _, rd) =>
    let e := p.Execute fns user_data
    some { error := none, serialized := e.serialized, calls := e.calls,
           user_data := e.call_context.user_data, reader := rd }

/-- The function pointers of the built-in functions registered by
`CreateSlangEnv` and `RegisterMathFunctions`; any distinct non-null values. -/
def fn_list : Nat := 1

/-- Function pointer of `func_table["+"]`. -/
def fn_add : Nat := 2

/-- Function pointer of `func_table["-"]`. -/
def fn_sub : Nat := 3

/-- Function pointer of `func_table["*"]`. -/
def fn_mul : Nat := 4

/-- Function pointer of `func_table["/"]`. -/
def fn_div : Nat := 5

/-- The part of the function table of `CreateSlangEnv` that does not touch the
object store: `list` and the arithmetic functions. -/
def builtinEnv : Env :=
  { functions_ := [(bytes "list", fn_list), (bytes "+", fn_add), (bytes "-", fn_sub),
                   (bytes "*", fn_mul), (bytes "/", fn_div)],
    payload_handlers_ := [] }

/-- The host functions behind the pointers of `builtinEnv`. -/
def builtinFns {D U : Type} (fl : FloatLib D) : Nat → HostFn D U := fun p =>
  if p = fn_list then list_fn
  else if p = fn_add then math_add fl
  else if p = fn_sub then math_sub fl
  else if p = fn_mul then math_mul fl
  else if p = fn_div then math_div fl
  else fun cc => (true, cc)

/-- A floating-point library over the one-point type, for runs in which no
double occurs: `strtod` converts nothing. -/
def noFloat : FloatLib Unit :=
  { strtod := fun _ => ((), 0, false)
    snprintf_24g := fun _ => []
    ofInt := fun _ => ()
    toInt64 := fun _ => 0
    add := fun _ _ => ()
    sub := fun _ _ => ()
    mul := fun _ _ => ()
    div := fun _ _ => ()
    quiet_NaN := () }

/-- Compile and run a source text with the built-in functions and write the
result with a `JsonSerializer` over a writer with a buffer of `cap` bytes onto
a stream that accepts every write: the bytes the stream received. -/
def runJson (fuel cap : Nat) (text : List Nat) : Option (List Nat) :=
  match Execute (U := Unit) noFloat (builtinFns noFloat) fuel builtinEnv ()
      (StreamReader.preloaded text DummyInStream text.length) with
  | none => none
  | some r =>
    (JsonSerializer.SerializeAll noFloat (fun _ _ => []) r.serialized
      (StreamWriter.fresh cap)).map fun w => w.stream_.received

/-! ## The lexer as a function of the unread input

`Abs.State` keeps, of a `LexerState`, what does not depend on how the input is
cut into reads: the unread bytes (those left in the reader's window followed by
those the stream still holds) and the bytes of the current term (those saved in
`term_buf_` followed by those in the window up to the read position).  The
functions below are the lexer's functions on that state; `Abs.RunLoop` stops
with `Abs.Out.payload` where `Lexer::Run` hands the reader to
`LexerCustomData`. -/

/-- The chunking-independent part of a `LexerState`. -/
structure Abs.State where
  input : List Nat
  single_expr_ : Bool
  cur_line_ : Nat
  cur_line_offset_ : Nat
  op_depth_ : Int
  is_escaped_ : Bool
  was_escaped_ : Bool
  term_type_ : TermType
  term : Option (List Nat)
  deriving DecidableEq, Repr

/-- The abstraction of a `LexerState`. -/
def Abs.of (st : LexerState) : Abs.State :=
  { input := slice st.stream_.read_buf_ st.stream_.available_begin_ st.stream_.available_end_
               ++ st.stream_.stream_.data,
    single_expr_ := st.single_expr_, cur_line_ := st.cur_line_,
    cur_line_offset_ := st.cur_line_offset_, op_depth_ := st.op_depth_,
    is_escaped_ := st.is_escaped_, was_escaped_ := st.was_escaped_,
    term_type_ := st.term_type_,
    term := st.term_begin_.map
      (fun b => st.term_buf_ ++ slice st.stream_.read_buf_ b st.stream_.available_begin_) }

/-- `LexerState::Fail` on the abstract state. -/
def Abs.State.Fail (a : Abs.State) (err_msg : List Nat) : LexerFailure :=
  { err_line_no_ := a.cur_line_, err_line_offset_ := a.cur_line_offset_, err_msg_ := err_msg }

/-- `LexerState::NextChar` on the abstract state. -/
def Abs.State.NextChar (a : Abs.State) : Nat × Abs.State :=
  match a.input with
  | [] => (k_lexer_invalid_char, { a with term := none })
  | c :: rest =>
    (c, { a with input := rest, cur_line_offset_ := a.cur_line_offset_ + 1,
                 term := a.term.map (fun t => t ++ [c]) })

/-- `LexerState::ResetEscape` on the abstract state. -/
def Abs.State.ResetEscape (a : Abs.State) : Abs.State :=
  { a with is_escaped_ := false }

/-- `LexerState::NewLine` on the abstract state. -/
def Abs.State.NewLine (a : Abs.State) : Abs.State :=
  { a with cur_line_ := a.cur_line_ + 1, cur_line_offset_ := 0 }

/-- `LexerState::FinishTerm` on the abstract state. -/
def Abs.State.FinishTerm (a : Abs.State) : Abs.State :=
  { a with term_type_ := TermType.kValue, term := none }

/-- The `switch (state.term_type_)` of `Lexer::FinalizeTerm` for the bytes of the
term: the result, the handler calls made and the lexer object afterwards.
`fail` is `state.Fail`. -/
def termAction {D H : Type} (fl : FloatLib D) (h : Handler D H) (lx : Lexer H)
    (type : TermType) (term : List Nat) (was_escaped : Bool)
    (fail : List Nat → LexerFailure) : LexerResult × List (Callback D) × Lexer H :=
  let ofHandler := fun (r : Option (List Nat)) => match r with
    | none => LexerResult.success
    | some err_msg => LexerResult.failure (fail err_msg)
  match type with
  | TermType.kOp =>
    if term.isEmpty then (LexerResult.success, [], lx)
    else if !LexerCheckOpName term then
      let d := StrBuilder.BestEffortWrite 64
        (StrBuilder.BestEffortWrite 64 lx.err_description_ (bytes "Invalid op name: ")) term
      (LexerResult.failure (fail d), [], { lx with err_description_ := d })
    else
      let r := h.LexerBeginOp lx.handler_ term
      (ofHandler r.1, [Callback.LexerBeginOp term], { lx with handler_ := r.2 })
  | TermType.kValue =>
    if term.isEmpty then (LexerResult.success, [], lx)
    else
      match LexerParseInt64 term with
      | some lval =>
        let r := h.LexerIntValue lx.handler_ lval
        (ofHandler r.1, [Callback.LexerIntValue lval], { lx with handler_ := r.2 })
      | none =>
        match LexerParseDouble fl term with
        | some dval =>
          let r := h.LexerDoubleValue lx.handler_ dval
          (ofHandler r.1, [Callback.LexerDoubleValue dval], { lx with handler_ := r.2 })
        | none =>
          let r := h.LexerUnhandledValue lx.handler_ term
          match r.1 with
          | none =>
            (LexerResult.success, [Callback.LexerUnhandledValue term], { lx with handler_ := r.2 })
          | some err_msg =>
            if 0 < err_msg.length then
              (LexerResult.failure (fail err_msg), [Callback.LexerUnhandledValue term],
               { lx with handler_ := r.2 })
            else
              let d := StrBuilder.BestEffortWrite 64
                (StrBuilder.BestEffortWrite 64 lx.err_description_ (bytes "Invalid value type: "))
                term
              (LexerResult.failure (fail d), [Callback.LexerUnhandledValue term],
               { handler_ := r.2, err_description_ := d })
  | TermType.kStr =>
    let str_val := LexerParseString term was_escaped
    let r := h.LexerStrValue lx.handler_ str_val
    (ofHandler r.1, [Callback.LexerStrValue str_val], { lx with handler_ := r.2 })

/-- The abstract counterpart of `Done`. -/
structure Abs.Done (D H : Type) where
  result : LexerResult
  calls : List (Callback D)
  lexer : Lexer H
  state : Abs.State

/-- `Lexer::FinalizeTerm` on the abstract state: the term is the current term
without its last byte, the terminator just read. -/
def Abs.FinalizeTerm {D H : Type} (fl : FloatLib D) (h : Handler D H) (lx : Lexer H)
    (a : Abs.State) : Abs.Done D H :=
  if !a.term.isSome then
    { result := LexerResult.success, calls := [], lexer := lx, state := a }
  else if a.op_depth_ ≤ 0 then
    { result := LexerResult.failure (a.Fail (bytes "Expected opening bracket")),
      calls := [], lexer := lx, state := a }
  else
    let r := termAction fl h lx a.term_type_ (a.term.getD []).dropLast a.was_escaped_ a.Fail
    { result := r.1, calls := r.2.1, lexer := r.2.2,
      state := match a.term_type_ with
        | TermType.kStr => { a with was_escaped_ := false }.FinishTerm
        | _ => a.FinishTerm }

/-- The comment loop on the abstract state. -/
def Abs.skipComment : Nat → Abs.State → Option Abs.State
  | 0, _ => none
  | fuel + 1, a =>
    let cs := a.NextChar
    if cs.1 = k_lexer_invalid_char ∨ cs.1 = 10 then some cs.2 else Abs.skipComment fuel cs.2

/-- The payload tag loop on the abstract state. -/
def Abs.readPayloadTag : Nat → Nat → Abs.State → Nat × Nat × Abs.State
  | 0, data_token, a =>
    let cs := a.NextChar
    (cs.1, data_token, cs.2)
  | k + 1, data_token, a =>
    let cs := a.NextChar
    if cs.1 ≠ k_lexer_invalid_char ∧ cs.1 ≠ 91 then
      Abs.readPayloadTag k (((data_token <<< 8) % 2 ^ 32) ||| (cs.1 % 256)) cs.2
    else (cs.1, data_token, cs.2)

/-- `Lexer.inString` on the abstract state. -/
def Abs.inString {D H : Type} (cur_char : Nat) (cur_escaped : Bool) (lx : Lexer H)
    (a : Abs.State) : Flow × Abs.Done D H :=
  let a : Abs.State := if cur_char = 92 ∧ cur_escaped = false
    then { a with is_escaped_ := true, was_escaped_ := true } else a
  let a : Abs.State := if cur_char = 10 then a.NewLine else a
  (Flow.cont, { result := LexerResult.success, calls := [], lexer := lx, state := a })

/-- `Lexer.caseOpen` on the abstract state. -/
def Abs.caseOpen {D H : Type} (fl : FloatLib D) (h : Handler D H) (lx : Lexer H)
    (a : Abs.State) : Flow × Abs.Done D H :=
  let d := Abs.FinalizeTerm fl h lx a
  let s : Abs.State := { d.state with op_depth_ := d.state.op_depth_ + 1,
                                      term_type_ := TermType.kOp, term := some [] }
  (flowOf d.result, { d with state := s })

/-- `Lexer.caseClose` on the abstract state. -/
def Abs.caseClose {D H : Type} (fl : FloatLib D) (h : Handler D H) (lx : Lexer H)
    (a : Abs.State) : Flow × Abs.Done D H :=
  let d := Abs.FinalizeTerm fl h lx a
  let d : Abs.Done D H := match d.result with
    | LexerResult.failure _ => d
    | LexerResult.success =>
      let r := h.LexerEndOp d.lexer.handler_
      { result := match r.1 with
          | none => LexerResult.success
          | some err_msg => LexerResult.failure (d.state.Fail err_msg),
        calls := d.calls ++ [Callback.LexerEndOp],
        lexer := { d.lexer with handler_ := r.2 }, state := d.state }
  let s : Abs.State := { d.state with op_depth_ := d.state.op_depth_ - 1 }
  if s.op_depth_ < 0 then
    (Flow.ret,
      { d with result := LexerResult.failure (s.Fail (bytes "Redundant closing parenthesis")),
               state := s })
  else if s.single_expr_ = true ∧ d.result.IsRight = true ∧ s.op_depth_ = 0 then
    (Flow.ret, { d with result := LexerResult.success, state := s })
  else (flowOf d.result, { d with state := s })

/-- `Lexer.caseQuote` on the abstract state. -/
def Abs.caseQuote {D H : Type} (fl : FloatLib D) (h : Handler D H) (lx : Lexer H)
    (a : Abs.State) : Flow × Abs.Done D H :=
  if a.term_type_ = TermType.kStr then
    let d := Abs.FinalizeTerm fl h lx a
    (flowOf d.result, d)
  else
    let d := Abs.FinalizeTerm fl h lx a
    match d.result with
    | LexerResult.failure _ => (Flow.ret, d)
    | LexerResult.success =>
      (Flow.cont, { d with state := { d.state with term_type_ := TermType.kStr, term := some [] } })

/-- `Lexer.casePayload` on the abstract state: `none` stands for the call of
`LexerCustomData`, where the abstract run stops. -/
def Abs.casePayload {D H : Type} (lx : Lexer H) (a : Abs.State) : Option (Flow × Abs.Done D H) :=
  let t := Abs.readPayloadTag 4 0 a
  if t.1 = 91 then none
  else
    some (Flow.ret,
      { result := LexerResult.failure
          (t.2.2.Fail (bytes "Invalid openning tag for custom data")),
        calls := [], lexer := lx, state := t.2.2.FinishTerm })

/-- `Lexer.caseComment` on the abstract state. -/
def Abs.caseComment {D H : Type} (fuel : Nat) (lx : Lexer H)
    (a : Abs.State) : Option (Flow × Abs.Done D H) :=
  match Abs.skipComment fuel a with
  | none => none
  | some s =>
    some (Flow.cont, { result := LexerResult.success, calls := [], lexer := lx,
                       state := s.NewLine })

/-- `Lexer.caseSpace` on the abstract state. -/
def Abs.caseSpace {D H : Type} (fl : FloatLib D) (h : Handler D H) (cur_char : Nat)
    (lx : Lexer H) (a : Abs.State) : Flow × Abs.Done D H :=
  let a : Abs.State := if cur_char = 10 then a.NewLine else a
  let d := Abs.FinalizeTerm fl h lx a
  (flowOf d.result, d)

/-- `Lexer.caseOther` on the abstract state. -/
def Abs.caseOther {D H : Type} (cur_char : Nat) (lx : Lexer H)
    (a : Abs.State) : Flow × Abs.Done D H :=
  let a : Abs.State := if !a.term.isSome
    then { a with term_type_ := TermType.kValue, term := some [cur_char] } else a
  (Flow.cont, { result := LexerResult.success, calls := [], lexer := lx, state := a })

/-- What one turn of the abstract loop yields: the same as `Lexer.Body`, or
`payload` at the call of `LexerCustomData`. -/
inductive Abs.Turn (D H : Type)
  | flow (f : Flow) (d : Abs.Done D H)
  | payload

/-- The body of the main loop of `Lexer::Run` on the abstract state. -/
def Abs.Body {D H : Type} (fl : FloatLib D) (h : Handler D H) (fuel : Nat) (cur_char : Nat)
    (lx : Lexer H) (a0 : Abs.State) : Option (Abs.Turn D H) :=
  let lift := fun (r : Flow × Abs.Done D H) => Abs.Turn.flow r.1 r.2
  let cur_escaped := a0.is_escaped_
  let a : Abs.State := a0.ResetEscape
  if a.term_type_ = TermType.kStr ∧ (cur_char ≠ 34 ∨ cur_escaped = true) then
    some (lift (Abs.inString cur_char cur_escaped lx a))
  else if cur_char = 40 then some (lift (Abs.caseOpen fl h lx a))
  else if cur_char = 41 then some (lift (Abs.caseClose fl h lx a))
  else if cur_char = 34 then some (lift (Abs.caseQuote fl h lx a))
  else if cur_char = 33 then
    match Abs.casePayload lx a with
    | none => some Abs.Turn.payload
    | some r => some (lift r)
  else if cur_char = 59 then (Abs.caseComment fuel lx a).map lift
  else if cur_char = 10 ∨ cur_char = 32 ∨ cur_char = 9 ∨ cur_char = 13 then
    some (lift (Abs.caseSpace fl h cur_char lx a))
  else some (lift (Abs.caseOther cur_char lx a))

/-- What a run of the lexer shows to its caller, whatever the reads were: the
result, the handler calls, the lexer object and the input left unread. -/
structure Observed (D H : Type) where
  result : LexerResult
  calls : List (Callback D)
  lexer : Lexer H
  rest : List Nat

/-- The observable part of a finished run. -/
def Done.observed {D H : Type} (d : Done D H) : Observed D H :=
  { result := d.result, calls := d.calls, lexer := d.lexer,
    rest := slice d.state.stream_.read_buf_ d.state.stream_.available_begin_
              d.state.stream_.available_end_ ++ d.state.stream_.stream_.data }

/-- The outcome of the abstract run. -/
inductive Abs.Out (D H : Type)
  | done (o : Observed D H)
  | payload

/-- `Lexer.finish` on the abstract state. -/
def Abs.finish (a : Abs.State) : LexerResult :=
  if 0 < a.op_depth_ then
    LexerResult.failure (a.Fail (bytes "Missing closing parenthesis"))
  else if a.term_type_ = TermType.kStr then
    LexerResult.failure (a.Fail (bytes "Invalid string literal - not closed"))
  else LexerResult.success

/-- The main loop of `Lexer::Run` on the abstract state. -/
def Abs.RunLoop {D H : Type} (fl : FloatLib D) (h : Handler D H) :
    Nat → Lexer H → Abs.State → Option (Abs.Out D H)
  | 0, _, _ => none
  | fuel + 1, lx, a =>
    let cs := a.NextChar
    if cs.1 = k_lexer_invalid_char then
      some (Abs.Out.done { result := Abs.finish cs.2, calls := [], lexer := lx,
                           rest := cs.2.input })
    else
      match Abs.Body fl h fuel cs.1 lx cs.2 with
      | none => none
      | some Abs.Turn.payload => some Abs.Out.payload
      | some (Abs.Turn.flow Flow.ret d) =>
        some (Abs.Out.done { result := d.result, calls := d.calls, lexer := d.lexer,
                             rest := d.state.input })
      | some (Abs.Turn.flow Flow.cont d) =>
        match Abs.RunLoop fl h fuel d.lexer d.state with
        | none => none
        | some Abs.Out.payload => some Abs.Out.payload
        | some (Abs.Out.done o) => some (Abs.Out.done { o with calls := d.calls ++ o.calls })

/-- The invariant of a `LexerState` between two calls of `NextChar`: the window
lies in the buffer, the buffer is not empty while the stream has data, a term in the buffer begins at or
before the read position, and `term_buf_` holds bytes without a term only once
the input is exhausted. -/
structure Inv (st : LexerState) : Prop where
  h_be : st.stream_.available_begin_ ≤ st.stream_.available_end_
  h_el : st.stream_.available_end_ ≤ st.stream_.read_buf_.length
  h_cap : 0 < st.stream_.read_buf_.length ∨ st.stream_.stream_.data = []
  h_tb : ∀ b, st.term_begin_ = some b → b ≤ st.stream_.available_begin_
  h_buf : st.term_begin_ = none → st.term_buf_ = [] ∨
    (st.stream_.available_begin_ = st.stream_.available_end_ ∧ st.stream_.stream_.data = [])

/-- The invariant right after `NextChar` has read the byte `c` from the buffer. -/
structure Inv1 (st : LexerState) (c : Nat) : Prop where
  h_be : st.stream_.available_begin_ ≤ st.stream_.available_end_
  h_el : st.stream_.available_end_ ≤ st.stream_.read_buf_.length
  h_pos : 0 < st.stream_.available_begin_
  h_tb : ∀ b, st.term_begin_ = some b → b < st.stream_.available_begin_
  h_buf : st.term_begin_ = none → st.term_buf_ = []
  h_last : st.stream_.read_buf_[st.stream_.available_begin_ - 1]? = some c

/-- How the result of a loop turn relates to its abstract counterpart. -/
def Rel {D H : Type} (f : Flow) (d : Done D H) (ad : Abs.Done D H) : Prop :=
  d.result = ad.result ∧ d.calls = ad.calls ∧ d.lexer = ad.lexer ∧
    (Abs.of d.state).input = ad.state.input ∧
    (f = Flow.cont → Abs.of d.state = ad.state ∧ Inv d.state)

/-- A loop turn and its abstract counterpart agree. -/
def RelT {D H : Type} (r : Flow × Done D H) (ar : Flow × Abs.Done D H) : Prop :=
  r.1 = ar.1 ∧ Rel r.1 r.2 ar.2

/-- The instructions of the program that `Compiler::Build` returns for a source
text that lies whole in the reader's buffer (as the tests pass it), compiled
against `env`; `none` when the text does not compile. -/
def compiledCode {D : Type} (fl : FloatLib D) (fuel : Nat) (env : Env) (text : List Nat) :
    Option (List (Instruction D)) :=
  match Compiler.Build fl fuel { env_ := env, cur_program_ := { code_ := [] },
                                 error_builder_ := [] }
      (StreamReader.preloaded text DummyInStream text.length) with
  | some (CompileResult.program p, _, _) => some p.code_
  | _ => none

end slang

/-! ## What a writer has been given

The serializer only appends: the bytes a `StreamWriter` has taken are those it
has passed on to the stream followed by those still in its buffer. -/

/-- The bytes a writer has accepted so far, in order. -/
def StreamWriter.sent (w : StreamWriter) : List Nat :=
  w.stream_.received ++ w.buffered

/-- A writer in working order: a buffer of at least one byte that holds no more
than its size, over a stream that accepts writes. -/
structure StreamWriter.Ok (w : StreamWriter) : Prop where
  cap : 1 ≤ w.write_buf_size
  fits : w.buffered.length ≤ w.write_buf_size
  accepts : w.stream_.closed = false

/-- The writer `w2` is `w` after taking the bytes `text`. -/
structure StreamWriter.Wrote (w w2 : StreamWriter) (text : List Nat) : Prop where
  ok : w2.Ok
  sent : w2.sent = w.sent ++ text
  error : w2.stream_.write_error_ = w.stream_.write_error_

/-- A step `f` of the serializer hands exactly the bytes `text` to any writer in
working order, and leaves it in working order. -/
def StreamWriter.Emits (f : StreamWriter → Option StreamWriter) (text : List Nat) : Prop :=
  ∀ w : StreamWriter, w.Ok → ∃ w2, f w = some w2 ∧ StreamWriter.Wrote w w2 text

/-- The bytes `JsonSerializer::WriteEscapedString` writes between the two quotes,
byte by byte of the string: a string literal goes out with its terminating zero
byte, and a backslash is answered like a double quote. -/
def JsonSerializer.escapedText : List Nat → List Nat
  | [] => []
  | c :: rest =>
    (if c = 92 ∨ c = 34 then bytes "\\\"" ++ [0]
     else if c = 8 then bytes "\\b" ++ [0]
     else if c = 9 then bytes "\\t" ++ [0]
     else if c = 10 then bytes "\\n" ++ [0]
     else if c = 12 then bytes "\\f" ++ [0]
     else if c = 13 then bytes "\\r" ++ [0]
     else if c < 16 then
       StrBuilder.Write 64 (StrBuilder.BestEffortWrite 64 [] (bytes "\\u000")) 32
         (StrBuildUIntToHex c)
     else if c < 32 then
       StrBuilder.Write 64 (StrBuilder.BestEffortWrite 64 [] (bytes "\\u00")) 32
         (StrBuildUIntToHex c)
     else [c]) ++ JsonSerializer.escapedText rest

/-- The bytes `JsonSerializer::WriteBasicValue(TypedValue)` writes. -/
def JsonSerializer.basicText {D : Type} (fl : FloatLib D) (value : TypedValue D) : List Nat :=
  if value.type.IsUnsignedInt then
    StrBuilder.Write 128 [] 24 (StrBuildUIntToStr value.value.get_u64)
  else if value.type.IsSignedInt then
    StrBuilder.Write 128 [] 24 (StrBuildIntToStr value.value.get_i64)
  else if value.type.IsFloatingPoint then fl.snprintf_24g (value.value.get_dbl fl)
  else if value.type = TypeSchemaPtr.StrSpan then
    [34] ++ JsonSerializer.escapedText value.value.get_str ++ [34]
  else []

/-- The bytes written for one value by either `Serialize` overload for values. -/
def JsonSerializer.valueText {D : Type} (fl : FloatLib D)
    (objects : Nat → TypeSchemaPtr → List Nat) (value : TypedValue D) : List Nat :=
  if value.type.IsBasic then JsonSerializer.basicText fl value
  else [123] ++ (match value.type with
    | TypeSchemaPtr.object _ => objects value.value.get_ptr value.type
    | _ => []) ++ [125]

/-- The bytes `Serialize(Span<TypedValue>)` writes between the brackets: after
every value but the last the three bytes of the literal `", "`. -/
def JsonSerializer.valuesText {D : Type} (fl : FloatLib D)
    (objects : Nat → TypeSchemaPtr → List Nat) : List (TypedValue D) → List Nat
  | [] => []
  | v :: rest =>
    JsonSerializer.valueText fl objects v ++
      (if rest.isEmpty then [] else bytes ", " ++ [0]) ++
      JsonSerializer.valuesText fl objects rest

/-- The bytes one call of `JsonSerializer::Serialize` writes before the line
feed of `FinalizeWrite`: a span of values always in brackets, a string in
quotes. -/
def JsonSerializer.callText {D : Type} (fl : FloatLib D)
    (objects : Nat → TypeSchemaPtr → List Nat) : slang.SerializeCall D → List Nat
  | slang.SerializeCall.value v => JsonSerializer.valueText fl objects v
  | slang.SerializeCall.values vs => [91] ++ JsonSerializer.valuesText fl objects vs ++ [93]
  | slang.SerializeCall.str s => [34] ++ JsonSerializer.escapedText s ++ [34]

namespace slang

/-! ## Expressions as trees

An S-expression in which every `(` is followed by an operation name, by the
handler calls the lexer makes for it: `LexerBeginOp` with the name, the calls
for the arguments in source order, `LexerEndOp`. -/

/-- A term that is not an operation, by the handler call the lexer makes for
it. -/
inductive Literal (D : Type)
  | int (value : Int)
  | double (value : D)
  | str (value : List Nat)
  | unhandled (value : List Nat)

/-- The handler call of the lexer for a literal. -/
def Literal.callback {D : Type} : Literal D → Callback D
  | Literal.int v => Callback.LexerIntValue v
  | Literal.double v => Callback.LexerDoubleValue v
  | Literal.str s => Callback.LexerStrValue s
  | Literal.unhandled s => Callback.LexerUnhandledValue s

/-- The value of a literal: a 64-bit integer, a double, a string, or for a
term starting with `:` a field name. -/
def Literal.value {D : Type} : Literal D → TypedValue D
  | Literal.int v => { type := TypeSchemaPtr.int64_t, value := Value.i64 v }
  | Literal.double v => { type := TypeSchemaPtr.double, value := Value.dbl v }
  | Literal.str s => { type := TypeSchemaPtr.StrSpan, value := Value.str s }
  | Literal.unhandled s =>
    if 1 < s.length ∧ s.head? = some 58 then
      { type := TypeSchemaPtr.Field, value := Value.str (s.drop 1) }
    else { type := TypeSchemaPtr.StrSpan, value := Value.str s }

mutual
/-- An expression: a literal or `(op_name args...)`. -/
inductive Expr (D : Type)
  | lit (l : Literal D)
  | call (op_name : List Nat) (args : Args D)
/-- The arguments of an operation, in source order. -/
inductive Args (D : Type)
  | nil
  | cons (e : Expr D) (rest : Args D)
end

mutual
/-- The handler calls of the lexer for an expression, in source order. -/
def Expr.callbacks {D : Type} : Expr D → List (Callback D)
  | Expr.lit l => [l.callback]
  | Expr.call op_name args =>
    [Callback.LexerBeginOp op_name] ++ args.callbacks ++ [Callback.LexerEndOp]
/-- The handler calls for the arguments, in source order. -/
def Args.callbacks {D : Type} : Args D → List (Callback D)
  | Args.nil => []
  | Args.cons e rest => e.callbacks ++ rest.callbacks
end

mutual
/-- The instructions the compiler appends to the program when the lexer makes
the handler calls of an expression, before the reversal. -/
def Expr.emit {D : Type} (env : Env) : Expr D → List (Instruction D)
  | Expr.lit l => [{ code := OpCode.Push, data := l.value }]
  | Expr.call op_name args =>
    [{ code := OpCode.Call,
       data := { type := TypeSchemaPtr.invalid, value := Value.ptr (env.FindCall op_name) } }]
      ++ args.emit env ++
    [{ code := OpCode.Push,
       data := { type := TypeSchemaPtr.FrameBarrier, value := Value.i64 0 } }]
/-- The instructions appended for the arguments. -/
def Args.emit {D : Type} (env : Env) : Args D → List (Instruction D)
  | Args.nil => []
  | Args.cons e rest => e.emit env ++ rest.emit env
end

mutual
/-- Every operation name of the expression is a function of the environment. -/
def Expr.known {D : Type} (env : Env) : Expr D → Bool
  | Expr.lit _ => true
  | Expr.call op_name args => env.FindCall op_name != 0 && args.known env
/-- Every operation name in the arguments is a function of the environment. -/
def Args.known {D : Type} (env : Env) : Args D → Bool
  | Args.nil => true
  | Args.cons e rest => e.known env && rest.known env
end

mutual
/-- Reference semantics: the value of an expression when the function behind
pointer `p` answers `sem p args` on the argument values `args` (first argument
first). -/
def Expr.eval {D : Type} (env : Env) (sem : Nat → List (TypedValue D) → TypedValue D) :
    Expr D → TypedValue D
  | Expr.lit l => l.value
  | Expr.call op_name args => sem (env.FindCall op_name) (args.evals env sem)
/-- The values of the arguments, in source order. -/
def Args.evals {D : Type} (env : Env) (sem : Nat → List (TypedValue D) → TypedValue D) :
    Args D → List (TypedValue D)
  | Args.nil => []
  | Args.cons e rest => e.eval env sem :: rest.evals env sem
end

mutual
/-- Reference semantics: the host calls of an expression, each with its function
pointer and its argument values in source order; the arguments are evaluated
from the last to the first, then the operation is called. -/
def Expr.calls {D : Type} (env : Env) (sem : Nat → List (TypedValue D) → TypedValue D) :
    Expr D → List (Nat × List (TypedValue D))
  | Expr.lit _ => []
  | Expr.call op_name args =>
    args.calls env sem ++ [(env.FindCall op_name, args.evals env sem)]
/-- The host calls of the arguments, last argument first. -/
def Args.calls {D : Type} (env : Env) (sem : Nat → List (TypedValue D) → TypedValue D) :
    Args D → List (Nat × List (TypedValue D))
  | Args.nil => []
  | Args.cons e rest => rest.calls env sem ++ e.calls env sem
end

/-- What a host call was given: the function pointer and the arguments its
iterator visits, first argument first. -/
def CallRecord.given {D : Type} (r : CallRecord D) : Nat × List (TypedValue D) :=
  (r.fn, CallArgs.toList r.stack)

/-- The handler's state after one call of the lexer.  `LexerCustomData` is made
with the stream reader and is not replayed: the state is left as it is. -/
def Handler.step {D H : Type} (h : Handler D H) (s : H) : Callback D → H
  | Callback.LexerBeginOp name => (h.LexerBeginOp s name).2
  | Callback.LexerEndOp => (h.LexerEndOp s).2
  | Callback.LexerStrValue value => (h.LexerStrValue s value).2
  | Callback.LexerIntValue value => (h.LexerIntValue s value).2
  | Callback.LexerDoubleValue value => (h.LexerDoubleValue s value).2
  | Callback.LexerUnhandledValue value => (h.LexerUnhandledValue s value).2
  | Callback.LexerCustomData _ => s

/-- The handler's state after a sequence of calls made in order. -/
def Handler.replay {D H : Type} (h : Handler D H) (s : H) (calls : List (Callback D)) : H :=
  calls.foldl h.step s

/-- The run of the lexer inside `Compiler::Build`, for a source text that lies
whole in the reader's buffer and a compiler for `env`. -/
def Compiler.lex {D : Type} (fl : FloatLib D) (fuel : Nat) (env : Env) (text : List Nat) :
    Option (Done D (Compiler D)) :=
  Lexer.Run fl (Compiler.handler D) fuel
    { handler_ := { env_ := env, cur_program_ := { code_ := [] }, error_builder_ := [] },
      err_description_ := [] }
    (StreamReader.preloaded text DummyInStream text.length) true

/-- The arguments `a1 … an` of an operation when all of them are literals. -/
def litArgs {D : Type} : List (Literal D) → Args D
  | [] => Args.nil
  | l :: rest => Args.cons (Expr.lit l) (litArgs rest)

/-- The source text `text` is the expression `e`: the lexer run by
`Compiler::Build` on it succeeds and makes exactly the handler calls of `e`. -/
def Compiler.Lexes {D : Type} (fl : FloatLib D) (fuel : Nat) (env : Env) (text : List Nat)
    (e : Expr D) : Prop :=
  (Compiler.lex fl fuel env text).map (fun d => (d.result, d.calls)) =
    some (LexerResult.success, e.callbacks)

/-- The host function behind a call `pa` of the reference semantics does what
`sem` says: whenever its iterator visits exactly the arguments `pa.2`, it
returns ok with the one output value `sem pa.1 pa.2`, which is not a
`FrameBarrier`, and leaves the rest of the call context alone. -/
def HostOk {D U : Type} (fns : Nat → HostFn D U)
    (sem : Nat → List (TypedValue D) → TypedValue D) (pa : Nat × List (TypedValue D)) : Prop :=
  (sem pa.1 pa.2).type ≠ TypeSchemaPtr.FrameBarrier ∧
  ∀ cc : CallContext D U, CallArgs.toList cc.args = pa.2 → cc.output = [] →
    fns pa.1 cc = (true, { cc with output := [sem pa.1 pa.2] })

/-- The outcome of a run that first made the host calls `recs` in `n` steps and
then went on as `e`. -/
def Executed.after {D U : Type} (recs : List (CallRecord D)) (n : Nat) (e : Executed D U) :
    Executed D U :=
  { e with calls := recs ++ e.calls, steps := e.steps + n }

/-! ## Concrete inputs

Handlers, texts, values and programs at which the theorems below are
instantiated. -/

/-- A handler that accepts every call and counts the calls made (the
`NopHandler` of `tests/slang/lexer.cc` with a counter). -/
def countingHandler : Handler Unit Nat :=
  { LexerBeginOp := fun n _ => (none, n + 1)
    LexerEndOp := fun n => (none, n + 1)
    LexerStrValue := fun n _ => (none, n + 1)
    LexerIntValue := fun n _ => (none, n + 1)
    LexerDoubleValue := fun n _ => (none, n + 1)
    LexerUnhandledValue := fun n _ => (none, n + 1)
    LexerCustomData := fun n _ r => (none, n + 1, r) }

/-- The source text `(ab 12 "x\"y")`. -/
def sampleText : List Nat := bytes "(ab 12 \"x\\\"y\")"

/-- What `Lexer::Run` returns for `sampleText` held whole in one buffer. -/
def sampleDone : Done Unit Nat :=
  { result := LexerResult.success,
    calls := [Callback.LexerBeginOp [97, 98], Callback.LexerIntValue 12,
              Callback.LexerStrValue [120, 34, 121], Callback.LexerEndOp],
    lexer := { handler_ := 4, err_description_ := [] },
    state :=
      { stream_ :=
          { read_buf_ := [40, 97, 98, 32, 49, 50, 32, 34, 120, 34, 121, 121, 34, 41],
            stream_ := { data := [], plan := [], read_error_ := StreamError.Closed },
            available_begin_ := 14, available_end_ := 14 },
        single_expr_ := false, cur_line_ := 1, cur_line_offset_ := 14, op_depth_ := 0,
        is_escaped_ := false, was_escaped_ := false, term_type_ := TermType.kValue,
        term_begin_ := none, term_buf_ := [] } }

/-- The instruction `Call` of the host function behind pointer `p`. -/
def callInstr (D : Type) (p : Nat) : Instruction D :=
  { code := OpCode.Call, data := { type := TypeSchemaPtr.invalid, value := Value.ptr p } }

/-- The instruction `Push` of a value. -/
def pushInstr {D : Type} (v : TypedValue D) : Instruction D :=
  { code := OpCode.Push, data := v }

/-- The `int64_t` value `n` as the compiler pushes it. -/
def intValue (D : Type) (n : Int) : TypedValue D :=
  { type := TypeSchemaPtr.int64_t, value := Value.i64 n }

/-- The string value `s` as the compiler pushes it. -/
def strValue (D : Type) (s : List Nat) : TypedValue D :=
  { type := TypeSchemaPtr.StrSpan, value := Value.str s }

/-- The `FrameBarrier` value as the compiler pushes it. -/
def barrierValue (D : Type) : TypedValue D :=
  { type := TypeSchemaPtr.FrameBarrier, value := Value.i64 0 }

/-- A fresh call context without user data. -/
def emptyContext (D : Type) : CallContext D Unit :=
  { args := [], output := [], error_text := [], user_data := () }

/-- The call context after `+` has answered `3` on the frame `1 2` above the string `x`. -/
def sampleContext : CallContext Unit Unit :=
  { args := [strValue Unit [120]] ++ [barrierValue Unit] ++ [intValue Unit 2, intValue Unit 1],
    output := [intValue Unit 3], error_text := [], user_data := () }

/-- A program whose first call (of `+`) fails on a string argument. -/
def failingCode : List (Instruction Unit) :=
  [pushInstr (barrierValue Unit), pushInstr (strValue Unit [120]),
   pushInstr (intValue Unit 1), callInstr Unit fn_add, pushInstr (intValue Unit 5),
   callInstr Unit fn_list]

/-- The record of the failing call of `failingCode`. -/
def failingRecord : CallRecord Unit :=
  { fn := fn_add, stack := [barrierValue Unit, strValue Unit [120], intValue Unit 1],
    ok := false, output := [], error_text := k_invalid_type_error }

/-- The one value the built-in function behind `p` answers when the arguments
`args` (first argument first) are alone in a frame. -/
def builtinSem (p : Nat) (args : List (TypedValue Unit)) : TypedValue Unit :=
  ((builtinFns noFloat p { emptyContext Unit with
      args := barrierValue Unit :: args.reverse }).2.output).headD
    { type := TypeSchemaPtr.invalid, value := Value.i64 0 }

/-- The host calls made when a source text is compiled and run with the
built-in functions: each function pointer with the arguments it was given,
first argument first. -/
def runCalls (fuel : Nat) (text : List Nat) : Option (List (Nat × List (TypedValue Unit))) :=
  (Execute (U := Unit) noFloat (builtinFns noFloat) fuel builtinEnv ()
    (StreamReader.preloaded text DummyInStream text.length)).map
    fun r => r.calls.map CallRecord.given

/-- The calls made on the serializer when a source text is compiled and run
with the built-in functions. -/
def runSerialized (fuel : Nat) (text : List Nat) : Option (List (SerializeCall Unit)) :=
  (Execute (U := Unit) noFloat (builtinFns noFloat) fuel builtinEnv ()
    (StreamReader.preloaded text DummyInStream text.length)).map fun r => r.serialized

/-- The expression `(+ (- 3 4) 5)`. -/
def sampleExpr : Expr Unit :=
  Expr.call (bytes "+")
    (Args.cons
      (Expr.call (bytes "-")
        (Args.cons (Expr.lit (Literal.int 3)) (Args.cons (Expr.lit (Literal.int 4)) Args.nil)))
      (Args.cons (Expr.lit (Literal.int 5)) Args.nil))

end slang

/-! ## main/endpoint.cc -/

/-- `StreamReader::IsGood`: no read of the stream has failed so far. -/
def StreamReader.IsGood (r : StreamReader) : Bool :=
  decide (r.stream_.read_error_ = StreamError.None)

/-- What `Endpoint::ServeCommandMode` did: the number of calls of
`slang::Execute`, the host calls made, the user data, and the reader and the
writer when the loop was left. -/
structure Served (D U : Type) where
  executed : Nat
  calls : List (slang.CallRecord D)
  user_data : U
  reader : StreamReader
  writer : StreamWriter

/-- The loop of `Endpoint::ServeCommandMode`: while the reader and the writer
are good, `slang::Execute` compiles and runs one request and the
`JsonSerializer` writes what it was given.  `fuel` bounds each run of the
lexer and the first argument bounds the number of turns. -/
def Endpoint.ServeCommandMode.loop {D U : Type} (fl : FloatLib D)
    (objects : Nat → TypeSchemaPtr → List Nat) (fns : Nat → slang.HostFn D U) (fuel : Nat)
    (env : slang.Env) : Nat → U → StreamReader → StreamWriter → Option (Served D U)
  | 0, _, _, _ => none
  | n + 1, user_data, request_reader, response_writer =>
    if request_reader.IsGood && response_writer.IsGood then
      match slang.Execute fl fns fuel env user_data request_reader with
      | none => none
      | some r =>
        match JsonSerializer.SerializeAll fl objects r.serialized response_writer with
        | none => none
        | some w =>
          (Endpoint.ServeCommandMode.loop fl objects fns fuel env n r.user_data r.reader w).map
            fun s => { s with executed := s.executed + 1, calls := r.calls ++ s.calls }
    else
      some { executed := 0, calls := [], user_data := user_data, reader := request_reader,
             writer := response_writer }

/-- `Endpoint::ServeCommandMode` over a stream `io`: the reader starts with
nothing buffered in `in_buf_` (1024 bytes) and the writer with an empty
`out_buf_` (1024 bytes) over an output side that accepts every write. -/
def Endpoint.ServeCommandMode {D U : Type} (fl : FloatLib D)
    (objects : Nat → TypeSchemaPtr → List Nat) (fns : Nat → slang.HostFn D U) (fuel turns : Nat)
    (env : slang.Env) (user_data : U) (io : InStream) : Option (Served D U) :=
  Endpoint.ServeCommandMode.loop fl objects fns fuel env turns user_data
    (StreamReader.mk0 (List.replicate 1024 0) io) (StreamWriter.fresh 1024)

/-- The bytes a reader has not handed out yet: those buffered in its window,
then those the stream still holds. -/
def StreamReader.unread (r : StreamReader) : List Nat :=
  slice r.read_buf_ r.available_begin_ r.available_end_ ++ r.stream_.data

/-- A reader between two calls: its window lies in its buffer, and the buffer
is not empty while the stream holds data. -/
structure StreamReader.Wf (r : StreamReader) : Prop where
  h_be : r.available_begin_ ≤ r.available_end_
  h_el : r.available_end_ ≤ r.read_buf_.length
  h_cap : 0 < r.read_buf_.length ∨ r.stream_.data = []

namespace slang

/-! ## What the handler answered -/

/-- The answer of the handler in state `s` to one call of the lexer: `none` when
it accepts, `some msg` when it returns the error message `msg`.
`LexerCustomData` is made with the stream reader and is not replayed. -/
def Handler.answer {D H : Type} (h : Handler D H) (s : H) : Callback D → Option (List Nat)
  | Callback.LexerBeginOp name => (h.LexerBeginOp s name).1
  | Callback.LexerEndOp => (h.LexerEndOp s).1
  | Callback.LexerStrValue value => (h.LexerStrValue s value).1
  | Callback.LexerIntValue value => (h.LexerIntValue s value).1
  | Callback.LexerDoubleValue value => (h.LexerDoubleValue s value).1
  | Callback.LexerUnhandledValue value => (h.LexerUnhandledValue s value).1
  | Callback.LexerCustomData _ => none

/-- The handler, started in state `s`, accepts every call of a sequence made in
order. -/
def Handler.accepts {D H : Type} (h : Handler D H) : H → List (Callback D) → Bool
  | _, [] => true
  | s, cb :: rest => (h.answer s cb).isNone && Handler.accepts h (h.step s cb) rest

/-- The line and the column after the bytes `consumed`, counted as
`LexerState::NextChar` and `LexerState::NewLine` do from the position `p`: a
byte advances the column, a line feed starts the next line at column 0. -/
def positionAfter (p : Nat × Nat) : List Nat → Nat × Nat
  | [] => p
  | c :: rest => positionAfter (if c = 10 then (p.1 + 1, 0) else (p.1, p.2 + 1)) rest

/-- How the result of a piece of the lexer relates to the handler's answers to
the calls it made from handler state `s`: on success every call was accepted;
on failure either every call was accepted (the error is the lexer's own), or
the last call was the first one rejected, the failure has the position `pos`,
and it carries the handler's message, but for an `end_op` answered by
`Redundant closing parenthesis` and an `unhandled_value` rejected with an
empty message. -/
def Propagated {D H : Type} (h : Handler D H) (s : H) (pos : Nat × Nat)
    (calls : List (Callback D)) (result : LexerResult) : Prop :=
  match result with
  | LexerResult.success => h.accepts s calls = true
  | LexerResult.failure f =>
    h.accepts s calls = true ∨
    ∃ pre cb msg, calls = pre ++ [cb] ∧ h.accepts s pre = true ∧
      h.answer (h.replay s pre) cb = some msg ∧
      (f.err_line_no_, f.err_line_offset_) = pos ∧
      (f.err_msg_ = msg ∨
        (cb = Callback.LexerEndOp ∧ f.err_msg_ = bytes "Redundant closing parenthesis") ∨
        ((∃ t, cb = Callback.LexerUnhandledValue t) ∧ msg = []))

/-- The compiler `Compiler(context.env)` that `slang::Execute` constructs: no
program yet and an empty `error_builder_`. -/
def Compiler.fresh (D : Type) (env : Env) : Compiler D :=
  { env_ := env, cur_program_ := { code_ := [] }, error_builder_ := [] }

/-- A property `G` of the handler's state that every method keeps when it
accepts its call, with a property `B` of the names that `begin_op` accepts in
such a state and the relation `E` between a name it rejects and the message it
returns. -/
structure Handler.Keeps {D H : Type} (h : Handler D H) (G : H → Prop) (B : List Nat → Prop)
    (E : List Nat → List Nat → Prop) : Prop where
  begin_ok : ∀ s name, G s → (h.LexerBeginOp s name).1 = none →
    G (h.LexerBeginOp s name).2 ∧ B name
  begin_err : ∀ s name msg, G s → (h.LexerBeginOp s name).1 = some msg → E name msg
  end_ok : ∀ s, G s → (h.LexerEndOp s).1 = none → G (h.LexerEndOp s).2
  str_ok : ∀ s v, G s → (h.LexerStrValue s v).1 = none → G (h.LexerStrValue s v).2
  int_ok : ∀ s v, G s → (h.LexerIntValue s v).1 = none → G (h.LexerIntValue s v).2
  double_ok : ∀ s v, G s → (h.LexerDoubleValue s v).1 = none → G (h.LexerDoubleValue s v).2
  unhandled_ok : ∀ s v, G s → (h.LexerUnhandledValue s v).1 = none →
    G (h.LexerUnhandledValue s v).2
  custom_ok : ∀ s tok rd, G s → (h.LexerCustomData s tok rd).1 = none →
    G (h.LexerCustomData s tok rd).2.1

/-- What a piece of the lexer that started with the handler in a state with
`G` has kept: after a success the handler's state has `G`, and every name
passed to `begin_op` was accepted (`B`) or made the piece fail with the
message `E` gives for it. -/
def Kept {D H : Type} (G : H → Prop) (B : List Nat → Prop) (E : List Nat → List Nat → Prop)
    (result : LexerResult) (calls : List (Callback D)) (lexer : Lexer H) : Prop :=
  (result = LexerResult.success → G lexer.handler_) ∧
  ∀ name, Callback.LexerBeginOp name ∈ calls →
    B name ∨ ∃ f, result = LexerResult.failure f ∧ E name f.err_msg_

/-! ## The parentheses of a source text, as the grammar counts them -/

/-- Where a left-to-right reading of a source text stands: outside string
literals and comments, inside a string literal (with whether the next byte is
escaped by a backslash), or inside a comment. -/
inductive ScanMode
  | normal
  | str (escaped : Bool)
  | comment
  deriving DecidableEq, Repr

/-- What the parentheses of a text amount to. -/
inductive ParenVerdict
  | balanced
  | strayClose
  | openParen
  | openString
  | payload
  deriving DecidableEq, Repr

/-- The parentheses of a text outside string literals and comments, read from
nesting depth `depth` in mode `mode`: `strayClose` at a `)` with no open `(`,
`openParen` when the text ends with an open `(`, `openString` when it ends
inside a string literal, `balanced` otherwise.  A string literal runs from a
`"` to the next `"` that no backslash escapes, a comment from a `;` to the end
of its line.  At a `!` outside both a custom payload begins, whose extent only
its handler knows: the reading stops with `payload`. -/
def parenScan : Nat → ScanMode → List Nat → ParenVerdict
  | depth, ScanMode.normal, [] =>
    if depth = 0 then ParenVerdict.balanced else ParenVerdict.openParen
  | _, ScanMode.str _, [] => ParenVerdict.openString
  | depth, ScanMode.comment, [] =>
    if depth = 0 then ParenVerdict.balanced else ParenVerdict.openParen
  | depth, ScanMode.normal, c :: rest =>
    if c = 40 then parenScan (depth + 1) ScanMode.normal rest
    else if c = 41 then
      if depth = 0 then ParenVerdict.strayClose else parenScan (depth - 1) ScanMode.normal rest
    else if c = 34 then parenScan depth (ScanMode.str false) rest
    else if c = 33 then ParenVerdict.payload
    else if c = 59 then parenScan depth ScanMode.comment rest
    else parenScan depth ScanMode.normal rest
  | depth, ScanMode.str escaped, c :: rest =>
    if c = 34 ∧ escaped = false then parenScan depth ScanMode.normal rest
    else parenScan depth (ScanMode.str (decide (c = 92) && !escaped)) rest
  | depth, ScanMode.comment, c :: rest =>
    if c = 10 then parenScan depth ScanMode.normal rest
    else parenScan depth ScanMode.comment rest

/-- The lexer in state `a` stands where the reading of the text stands at depth
`depth` in mode `mode`: the nesting depths agree, and the lexer is inside a
string literal (with the same escape flag) exactly when the reading is.
Between two turns of its loop the lexer is never inside a comment. -/
structure Abs.Sim (a : Abs.State) (depth : Nat) (mode : ScanMode) : Prop where
  h_depth : a.op_depth_ = (depth : Int)
  h_mode : match mode with
    | ScanMode.normal => a.term_type_ ≠ TermType.kStr
    | ScanMode.str escaped =>
      a.term_type_ = TermType.kStr ∧ a.is_escaped_ = escaped ∧ a.term.isSome = true
    | ScanMode.comment => False

/-- The result of a piece of the lexer is the handler's answer to the calls made
from handler state `s`: a success when every call was accepted, a failure when
a call was rejected. -/
def Answered {D H : Type} (h : Handler D H) (s : H) (calls : List (Callback D))
    (result : LexerResult) : Prop :=
  match result with
  | LexerResult.success => h.accepts s calls = true
  | LexerResult.failure _ => h.accepts s calls = false

/-! ## String literals, as the grammar reads them -/

/-- The mode in which a left-to-right reading of a text ends, started in mode
`mode`: a `"` outside comments opens a string literal, the next `"` that no
backslash escapes closes it, a `;` outside string literals opens a comment and
the end of the line closes it. -/
def ScanMode.after : ScanMode → List Nat → ScanMode
  | mode, [] => mode
  | ScanMode.normal, c :: rest =>
    if c = 34 then ScanMode.after (ScanMode.str false) rest
    else if c = 59 then ScanMode.after ScanMode.comment rest
    else ScanMode.after ScanMode.normal rest
  | ScanMode.str escaped, c :: rest =>
    if c = 34 ∧ escaped = false then ScanMode.after ScanMode.normal rest
    else ScanMode.after (ScanMode.str (decide (c = 92) && !escaped)) rest
  | ScanMode.comment, c :: rest =>
    if c = 10 then ScanMode.after ScanMode.normal rest
    else ScanMode.after ScanMode.comment rest

/-- The text that follows an opening `"`, cut at the first `"` that is not
escaped: the body of the literal and what follows its closing `"`.  `escaped`
tells whether the first byte is escaped; `none` when no `"` closes the
literal. -/
def literalSplit : Bool → List Nat → Option (List Nat × List Nat)
  | _, [] => none
  | escaped, c :: rest =>
    if c = 34 ∧ escaped = false then some ([], rest)
    else (literalSplit (decide (c = 92) && !escaped) rest).map (fun r => (c :: r.1, r.2))

/-- The body of a string literal with its escapes collapsed, as the
specification words it: every escaping backslash is removed and the byte after
it is kept as it is. -/
def unescaped : List Nat → List Nat
  | [] => []
  | [c] => if c = 92 then [] else [c]
  | c :: c2 :: rest => if c = 92 then c2 :: unescaped rest else c :: unescaped (c2 :: rest)

/-- The number of escaping backslashes of the body of a string literal: a
backslash escapes the byte after it unless it is itself escaped. -/
def escapingBackslashes : List Nat → Nat
  | [] => 0
  | [c] => if c = 92 then 1 else 0
  | c :: c2 :: rest =>
    if c = 92 then 1 + escapingBackslashes rest else escapingBackslashes (c2 :: rest)

/-- The values of the string literals that a text closes, in the order in which
it closes them, read from mode `mode`; `acc` is the part already read of the
body of the literal that is open.  The value of a literal is its body with the
escapes collapsed. -/
def literalValues : ScanMode → List Nat → List Nat → List (List Nat)
  | _, _, [] => []
  | ScanMode.normal, _, c :: rest =>
    if c = 34 then literalValues (ScanMode.str false) [] rest
    else if c = 59 then literalValues ScanMode.comment [] rest
    else literalValues ScanMode.normal [] rest
  | ScanMode.str escaped, acc, c :: rest =>
    if c = 34 ∧ escaped = false then unescaped acc :: literalValues ScanMode.normal [] rest
    else literalValues (ScanMode.str (decide (c = 92) && !escaped)) (acc ++ [c]) rest
  | ScanMode.comment, _, c :: rest =>
    if c = 10 then literalValues ScanMode.normal [] rest
    else literalValues ScanMode.comment [] rest

/-- The values passed to `LexerStrValue` among the calls of a run, in order. -/
def strValues {D : Type} : List (Callback D) → List (List Nat)
  | [] => []
  | Callback.LexerStrValue v :: rest => v :: strValues rest
  | _ :: rest => strValues rest

/-- The mode of the reading of the text that the lexer's state stands for:
inside a string literal when the current term is a string. -/
def Abs.State.mode (a : Abs.State) : ScanMode :=
  if a.term_type_ = TermType.kStr then ScanMode.str a.is_escaped_ else ScanMode.normal

/-- The bytes `t` begin the body of a string literal and no `"` among them
closes it; `escaped` tells whether the byte after them is escaped. -/
def literalOpen (t : List Nat) (escaped : Bool) : Prop :=
  ∀ post, literalSplit false (t ++ post) =
    (literalSplit escaped post).map (fun r => (t ++ r.1, r.2))

/-- The bytes `v` are the value of a string literal of `text`: the literal opens
at a `"` outside string literals and comments, its body runs to the first `"`
that is not escaped, and `v` is what `LexerParseString` makes of the body. -/
def IsLiteralValue (text v : List Nat) : Prop :=
  ∃ pre body post, text = pre ++ 34 :: (body ++ 34 :: post) ∧
    ScanMode.after ScanMode.normal pre = ScanMode.normal ∧
    literalSplit false (body ++ 34 :: post) = some (body, post) ∧
    v = LexerParseString.loop false body

/-- What holds of the lexer's state after it has read `consumed`: outside a
string literal `was_escaped_` is clear; inside one the current term is the body
read so far, and `was_escaped_` is set when the body holds a backslash. -/
structure Abs.StrInv (consumed : List Nat) (a : Abs.State) : Prop where
  h_out : a.term_type_ ≠ TermType.kStr →
    a.was_escaped_ = false ∧ ScanMode.after ScanMode.normal consumed = ScanMode.normal
  h_in : a.term_type_ = TermType.kStr →
    ∃ pre t, consumed = pre ++ 34 :: t ∧ a.term = some t ∧
      ScanMode.after ScanMode.normal pre = ScanMode.normal ∧
      ScanMode.after (ScanMode.str false) t = ScanMode.str a.is_escaped_ ∧
      literalOpen t a.is_escaped_ ∧
      (a.is_escaped_ = true → a.was_escaped_ = true) ∧
      (a.was_escaped_ = false → 92 ∉ t)

/-- The text of `TEST(SlangLexerTest, ParseEscaptedStrValue)`. -/
def escapedStrText : List Nat := bytes "(+ \"Test Str \\\"325\\\"\")"

/-- The handler of `TEST(SlangLexerTest, SyntaxError)`: `begin_op` rejects every
name that does not begin with `x`; the state counts the calls. -/
def syntaxErrorHandler : Handler Unit Nat :=
  { countingHandler with
    LexerBeginOp := fun n op =>
      if op.head? = some 120 then (none, n + 1) else (some (bytes "<error>"), n + 1) }

/-- The source text of `TEST(SlangLexerTest, SyntaxError)`. -/
def syntaxErrorText : List Nat := bytes "\n(x\n    (y 1 2))\n"

/-- A handler whose `end_op` returns the error `<error>`. -/
def endOpErrorHandler : Handler Unit Nat :=
  { countingHandler with LexerEndOp := fun n => (some (bytes "<error>"), n + 1) }

/-! ## tests/slang/program.cc -/

/-- Function pointer of `func_table["nop"]` of `CreateTestEnv`. -/
def fn_nop : Nat := 1

/-- The `nop` entry of the function table of `CreateTestEnv`. -/
def testEnv : Env := { functions_ := [(bytes "nop", fn_nop)], payload_handlers_ := [] }

/-- The `nop` of `CreateTestEnv`: it skips its arguments, counts the call in the
user data (`nop_count`) and returns `true`. -/
def nop_fn {D : Type} : HostFn D Nat := fun cc =>
  (true, { cc with user_data := cc.user_data + 1 })

/-- The host functions behind the pointers of `testEnv`. -/
def testFns {D : Type} : Nat → HostFn D Nat := fun _ => nop_fn

end slang

/-! ## base/stream.cc, base/stream.h: the other operations of the reader -/

/-- `StreamReader::Available`: the buffered bytes of the window. -/
def StreamReader.Available (r : StreamReader) : List Nat :=
  slice r.read_buf_ r.available_begin_ r.available_end_

/-- `StreamReader::AvailableOrRead`: the returned span (`none` for an error) and
the reader afterwards. -/
def StreamReader.AvailableOrRead (r : StreamReader) : Option (List Nat) × StreamReader :=
  if r.available_begin_ ≠ r.available_end_ then (some r.Available, r)
  else
    match r.stream_.Read r.read_buf_.length with
    | (none, s) => (none, { r with stream_ := s })
    | (some chunk, s) =>
      (some chunk, { read_buf_ := overwrite r.read_buf_ 0 chunk, stream_ := s,
                     available_begin_ := 0, available_end_ := chunk.length })

/-- `StreamReader::DrainOrRead`: the returned span (`none` for an error) and the
reader afterwards.  After a read the window pointers are left as they were. -/
def StreamReader.DrainOrRead (r : StreamReader) : Option (List Nat) × StreamReader :=
  if r.available_begin_ ≠ r.available_end_ then
    (some r.Available, { r with available_begin_ := r.available_end_ })
  else
    match r.stream_.Read r.read_buf_.length with
    | (none, s) => (none, { r with stream_ := s })
    | (some chunk, s) =>
      (some chunk, { r with read_buf_ := overwrite r.read_buf_ 0 chunk, stream_ := s })

/-- `StreamReader::Advance`; the source asserts `add_offset <= Available().Size()`. -/
def StreamReader.Advance (r : StreamReader) (add_offset : Nat) : StreamReader :=
  { r with available_begin_ := r.available_begin_ + add_offset }

/-- `StreamReader::NormalizeAvailable`: the window is moved to the start of the
buffer (`memmove`).  The reader afterwards; the returned span is its window
`[available_begin_, available_end_)`.  (For the null window of a reader that has
not read yet the source also takes the branch and moves no byte: the window is
the empty one at the buffer start either way.) -/
def StreamReader.NormalizeAvailable (r : StreamReader) : StreamReader :=
  if r.available_begin_ ≠ 0 then
    let sz := r.available_end_ - r.available_begin_
    { r with read_buf_ := overwrite r.read_buf_ 0 r.Available,
             available_begin_ := 0, available_end_ := sz }
  else r

/-- The loop of `StreamReader::ReadValue<T>` and the copy of the value, for
`size = sizeof(T)`: `some (none, r)` for a stream error, `some (some v, r)` for
the bytes of the value, `none` when the loop has not ended within `fuel` turns.
The span handed to `stream_.Read` is the one `NormalizeAvailable` returns, the
window itself, and the bytes read are written at its start. -/
def StreamReader.ReadValue.loop (size : Nat) :
    Nat → StreamReader → Option (Option (List Nat) × StreamReader)
  | 0, _ => none
  | fuel + 1, r =>
    if r.available_begin_ + size > r.available_end_ then
      let r1 := r.NormalizeAvailable
      match r1.stream_.Read (r1.available_end_ - r1.available_begin_) with
      | (none, s) => some (none, { r1 with stream_ := s })
      | (some chunk, s) =>
        StreamReader.ReadValue.loop size fuel
          { read_buf_ := overwrite r1.read_buf_ r1.available_begin_ chunk, stream_ := s,
            available_begin_ := 0, available_end_ := r1.available_end_ + chunk.length }
    else
      some (some (slice r.read_buf_ r.available_begin_ (r.available_begin_ + size)),
            { r with available_begin_ := r.available_begin_ + size })

/-- `StreamReader::ReadValue<T>` for `size = sizeof(T)`; the source asserts
`sizeof(T) <= read_buf_.Size()` and that the window start is aligned for `T`. -/
def StreamReader.ReadValue (size fuel : Nat) (r : StreamReader) :
    Option (Option (List Nat) × StreamReader) :=
  StreamReader.ReadValue.loop size fuel r

/-- The invariant of the window: `available_begin <= available_end <= buffer_end`. -/
def StreamReader.WindowOk (r : StreamReader) : Prop :=
  r.available_begin_ ≤ r.available_end_ ∧ r.available_end_ ≤ r.read_buf_.length

instance (r : StreamReader) : Decidable r.WindowOk := by
  unfold StreamReader.WindowOk
  infer_instance

/-! ## base/stream.cc: what the writer hands to the stream -/

/-- The spans the loop of `StreamWriter::WriteData` hands to `stream_.Write`
through `Flush`, in order: the same loop as `StreamWriter.WriteData.loop`,
recording the `written_size_` bytes of the buffer at each `Flush`. -/
def StreamWriter.WriteData.handoffs : Nat → StreamWriter → List Nat → List (List Nat)
  | 0, _, _ => []
  | fuel + 1, w, rest =>
    if rest = [] then []
    else
      let sz := min rest.length (w.write_buf_size - w.buffered.length)
      let w1 : StreamWriter := { w with buffered := w.buffered ++ rest.take sz }
      let rest1 := rest.drop sz
      if rest1 = [] then []
      else
        let r := w1.Flush
        w1.buffered :: (if !r.1 then [] else StreamWriter.WriteData.handoffs fuel r.2 rest1)

/-- A sequence of `WriteData`/`Write` calls, one for each of `bufs`, and a final
`Flush`: whether every call succeeded, the writer at the end, and the spans
handed to the stream, in order.  `none` when a call does not return. -/
def StreamWriter.WriteAll :
    List (List Nat) → StreamWriter → Option (Bool × StreamWriter × List (List Nat))
  | [], w => some (w.Flush.1, w.Flush.2, [w.buffered])
  | buf :: more, w =>
    match w.WriteData buf with
    | none => none
    | some r =>
      (StreamWriter.WriteAll more r.2).map fun p =>
        (r.1 && p.1, p.2.1, StreamWriter.WriteData.handoffs (buf.length + 1) w buf ++ p.2.2)

/-! ## base/str_build_types.cc: the buffer and the returned size -/

/-- The loop of `CountDigits`: `while (value != 0) { value /= 10; ++count; }`. -/
def CountDigits.loop : Nat → Nat → Nat → Nat
  | 0, _, count => count
  | fuel + 1, value, count =>
    if value ≠ 0 then CountDigits.loop fuel (value / 10) (count + 1) else count

/-- `CountDigits`: the number of decimal digits of a value other than 0 (the
loop ends within `value` turns). -/
def CountDigits (value : Nat) : Nat :=
  CountDigits.loop value value 0

/-- The digit loop of `StrBuildUIntToStr` on the buffer:
`buf[--i] = '0' + (value - 10 * next_val); value = next_val` while `value > 0`. -/
def StrBuildUIntToStr.fill : Nat → Nat → Nat → List Nat → List Nat
  | 0, _, _, buf => buf
  | fuel + 1, value, i, buf =>
    if 0 < value then
      let next_val := value / 10
      StrBuildUIntToStr.fill fuel next_val (i - 1)
        (overwrite buf (i - 1) [48 + (value - 10 * next_val)])
    else buf

/-- `detail::StrBuildUIntToStr(value, buf)`: the returned size and the buffer
afterwards. -/
def StrBuildUIntToStr.run (value : Nat) (buf : List Nat) : Nat × List Nat :=
  if value = 0 then (1, overwrite buf 0 [48])
  else
    let num_digits := CountDigits value
    (num_digits, StrBuildUIntToStr.fill value value num_digits buf)

/-- `detail::StrBuildIntToStr(value, buf)` of an `int64_t`: the returned size and
the buffer afterwards.  `(uint64_t)-value` is taken modulo `2^64`. -/
def StrBuildIntToStr.run (value : Int) (buf : List Nat) : Nat × List Nat :=
  if value < 0 then
    let r := StrBuildUIntToStr.run ((-value) % 2 ^ 64).toNat (buf.drop 1)
    (1 + r.1, (overwrite buf 0 [45]).take 1 ++ r.2)
  else StrBuildUIntToStr.run value.toNat buf

/-! ### Decimal texts (the reading of the specification) -/

/-- The number a text of decimal digits denotes, read from the left. -/
def decimalValue (text : List Nat) : Nat :=
  text.foldl (fun acc c => 10 * acc + (c - 48)) 0

/-- The integer a decimal text with an optional leading `-` denotes. -/
def signedDecimalValue : List Nat → Int
  | 45 :: rest => - (decimalValue rest : Int)
  | text => (decimalValue text : Int)

/-- A canonical unsigned decimal text: one or more digits `0`..`9`, with a
leading `0` only for the text `0`. -/
def CanonicalDecimal (text : List Nat) : Prop :=
  text ≠ [] ∧ (∀ c ∈ text, 48 ≤ c ∧ c ≤ 57) ∧ (text.head? = some 48 → text = [48])

/-- A canonical signed decimal text: a canonical unsigned text, or `-` followed
by a canonical unsigned text other than `0`. -/
def CanonicalSignedDecimal (text : List Nat) : Prop :=
  CanonicalDecimal text ∨
    ∃ rest, text = 45 :: rest ∧ CanonicalDecimal rest ∧ rest ≠ [48]

/-! ## containers/MRSWRing.h -/

/-- `class MRSWRing<T>`: the slots `data_` and the `unsigned` (32-bit) indices
`r_` and `w_`. -/
structure MRSWRing (T : Type) where
  data_ : List T
  r_ : Nat
  w_ : Nat
  deriving DecidableEq, Repr

/-- `MRSWRing(max_size)`: `data_.resize(max_size)`, `r_ = w_ = 0`. -/
def MRSWRing.create {T : Type} [Inhabited T] (max_size : Nat) : MRSWRing T :=
  { data_ := List.replicate max_size default, r_ := 0, w_ := 0 }

/-- `MRSWRing::IsEmpty`. -/
def MRSWRing.IsEmpty {T : Type} (q : MRSWRing T) : Bool :=
  decide (q.r_ = q.w_)

/-- `MRSWRing::IsFull`. -/
def MRSWRing.IsFull {T : Type} (q : MRSWRing T) : Bool :=
  decide (q.r_ % q.data_.length = q.w_ % q.data_.length) && !q.IsEmpty

/-- `MRSWRing::Push`: the result and the ring afterwards; `w_++` wraps at `2^32`. -/
def MRSWRing.Push {T : Type} (q : MRSWRing T) (value : T) : Bool × MRSWRing T :=
  if q.IsFull then (false, q)
  else (true, { q with data_ := q.data_.set (q.w_ % q.data_.length) value,
                       w_ := (q.w_ + 1) % 2 ^ 32 })

/-- `MRSWRing::Pop`: the value (`none` when the call returns false) and the ring
afterwards; `r_++` wraps at `2^32`. -/
def MRSWRing.Pop {T : Type} [Inhabited T] (q : MRSWRing T) : Option T × MRSWRing T :=
  if q.IsEmpty then (none, q)
  else (some (q.data_.getD (q.r_ % q.data_.length) default),
        { q with r_ := (q.r_ + 1) % 2 ^ 32 })

/-- A call on a queue. -/
inductive QueueCall (T : Type) where
  | Push (value : T)
  | Pop
  deriving DecidableEq, Repr

/-- What a call returns: whether it returned true, and the value of a `Pop`. -/
abbrev QueueResult (T : Type) := Bool × Option T

/-- One call on the ring. -/
def MRSWRing.call {T : Type} [Inhabited T] (q : MRSWRing T) :
    QueueCall T → QueueResult T × MRSWRing T
  | QueueCall.Push value => (((q.Push value).1, none), (q.Push value).2)
  | QueueCall.Pop => (((q.Pop.1).isSome, q.Pop.1), q.Pop.2)

/-- A sequential series of calls on the ring: the results in order and the ring
afterwards. -/
def MRSWRing.run {T : Type} [Inhabited T] (q : MRSWRing T) :
    List (QueueCall T) → List (QueueResult T) × MRSWRing T
  | [] => ([], q)
  | c :: rest =>
    ((q.call c).1 :: ((q.call c).2.run rest).1, ((q.call c).2.run rest).2)

/-- The number of `Push` calls in a series. -/
def pushCount {T : Type} : List (QueueCall T) → Nat
  | [] => 0
  | QueueCall.Push _ :: rest => pushCount rest + 1
  | QueueCall.Pop :: rest => pushCount rest

/-- The `unsigned` difference `w_ - r_`. -/
def MRSWRing.Size {T : Type} (q : MRSWRing T) : Nat :=
  (q.w_ + 2 ^ 32 - q.r_) % 2 ^ 32

/-! ### A bounded FIFO queue (the reading of the specification) -/

/-- One call on a bounded FIFO queue of capacity `cap` holding `items`, oldest
first: `Push` fails exactly when `cap` items are held, `Pop` fails exactly when
none is, and returns the oldest otherwise. -/
def BoundedFifo.call {T : Type} (cap : Nat) (items : List T) :
    QueueCall T → QueueResult T × List T
  | QueueCall.Push value =>
    if items.length = cap then ((false, none), items) else ((true, none), items ++ [value])
  | QueueCall.Pop =>
    match items with
    | [] => ((false, none), [])
    | x :: rest => ((true, some x), rest)

/-- A series of calls on a bounded FIFO queue. -/
def BoundedFifo.run {T : Type} (cap : Nat) (items : List T) :
    List (QueueCall T) → List (QueueResult T) × List T
  | [] => ([], items)
  | c :: rest =>
    ((BoundedFifo.call cap items c).1 ::
      (BoundedFifo.run cap (BoundedFifo.call cap items c).2 rest).1,
     (BoundedFifo.run cap (BoundedFifo.call cap items c).2 rest).2)

/-! ## base/allocator.h, base/arena.h, base/scratch_allocator.h, base/scratch_allocator.cc

Addresses and sizes are 64-bit values: sums and differences are taken modulo
`2^64`. -/

/-- `detail::AlignPointer`: `(ptr_val + alignment - 1) & ~(alignment - 1)`. -/
def detail.AlignPointer (ptr alignment : Nat) : Nat :=
  ((ptr + alignment + 2 ^ 64 - 1) % 2 ^ 64) &&&
    ((2 ^ 64 - 1) ^^^ ((alignment + 2 ^ 64 - 1) % 2 ^ 64))

/-- `detail::IsValidAlignment`: `(alignment & (alignment - 1)) == 0`. -/
def detail.IsValidAlignment (alignment : Nat) : Bool :=
  alignment &&& ((alignment + 2 ^ 64 - 1) % 2 ^ 64) == 0

/-- The allocator behind a `ScratchAllocator` (`real_allocator_`): the address
its `AllocAligned(alignment, size)` returns for the chunk number `k`. -/
abbrev BaseAllocator := Nat → Nat → Nat → Nat

/-- `class Arena`: a chunk `[bytes_, bytes_end_)`; the `next` chain is kept as a
list in `ScratchAllocator`. -/
structure Arena where
  bytes_ : Nat
  bytes_end_ : Nat
  deriving DecidableEq, Repr

/-- `Arena::Begin`. -/
def Arena.Begin (a : Arena) : Nat := a.bytes_

/-- `Arena::End`. -/
def Arena.End (a : Arena) : Nat := a.bytes_end_

/-- `Arena::Size`: `bytes_end_ - bytes_`. -/
def Arena.Size (a : Arena) : Nat := (a.bytes_end_ + 2 ^ 64 - a.bytes_) % 2 ^ 64

/-- `Arena::Create(allocator, size, alignment)` for the chunk number `k`. -/
def Arena.Create (allocator : BaseAllocator) (k size alignment : Nat) : Arena :=
  { bytes_ := allocator k alignment size,
    bytes_end_ := (allocator k alignment size + size) % 2 ^ 64 }

/-- `class ScratchAllocator`: `chunks` is `head_arena_` followed by its `next`
chain, `cur_arena_` the position of the current chunk in it. -/
structure ScratchAllocator where
  real_allocator_ : BaseAllocator
  chunks : List Arena
  cur_arena_ : Nat
  cur_ptr_ : Nat
  total_size_ : Nat

/-- `ScratchAllocator(reserve_size, allocator)` for a `reserve_size > 0`. -/
def ScratchAllocator.create (reserve_size : Nat) (allocator : BaseAllocator) :
    ScratchAllocator :=
  { real_allocator_ := allocator,
    chunks := [Arena.Create allocator 0 reserve_size 16],
    cur_arena_ := 0,
    cur_ptr_ := (Arena.Create allocator 0 reserve_size 16).Begin,
    total_size_ := (Arena.Create allocator 0 reserve_size 16).Size }

/-- The chunk `*cur_arena_`. -/
def ScratchAllocator.cur (s : ScratchAllocator) : Arena :=
  s.chunks.getD s.cur_arena_ { bytes_ := 0, bytes_end_ := 0 }

/-- The loop of `ScratchAllocator::AllocAligned`, on the current chunk `cur` and
its `next` chain: the allocator with `cur_arena_`, `cur_ptr_`, `total_size_` as
the loop leaves them, and `ptr_aligned`. -/
def ScratchAllocator.AllocAligned.loop (alignment size : Nat) :
    Arena → List Arena → ScratchAllocator → Nat → ScratchAllocator × Nat
  | cur, next, s, ptr_aligned =>
    if (ptr_aligned + size) % 2 ^ 64 > cur.End then
      match next with
      | [] =>
        let created := Arena.Create s.real_allocator_ s.chunks.length
          (max (s.total_size_ * 2 % 2 ^ 64) size) alignment
        ({ s with chunks := s.chunks ++ [created],
                  cur_arena_ := s.chunks.length,
                  cur_ptr_ := created.Begin,
                  total_size_ := (s.total_size_ + created.Size) % 2 ^ 64 },
         created.Begin)
      | nxt :: rest =>
        ScratchAllocator.AllocAligned.loop alignment size nxt rest
          { s with cur_arena_ := s.cur_arena_ + 1, cur_ptr_ := nxt.Begin }
          (detail.AlignPointer nxt.Begin alignment)
    else (s, ptr_aligned)

/-- `ScratchAllocator::AllocAligned`: the returned address and the allocator
afterwards. -/
def ScratchAllocator.AllocAligned (s : ScratchAllocator) (alignment size : Nat) :
    Nat × ScratchAllocator :=
  let r := ScratchAllocator.AllocAligned.loop alignment size s.cur
    (s.chunks.drop (s.cur_arena_ + 1)) s (detail.AlignPointer s.cur_ptr_ alignment)
  (r.2, { r.1 with cur_ptr_ := (r.2 + size) % 2 ^ 64 })

/-- `ScratchAllocator::Alloc`: `AllocAligned(alignof(max_align_t), size)`. -/
def ScratchAllocator.Alloc (s : ScratchAllocator) (size : Nat) : Nat × ScratchAllocator :=
  s.AllocAligned 16 size

/-- `ScratchAllocator::Free` does nothing. -/
def ScratchAllocator.Free (s : ScratchAllocator) (_mem : Nat) : ScratchAllocator := s

/-- `ScratchAllocator::Purge`. -/
def ScratchAllocator.Purge (s : ScratchAllocator) : ScratchAllocator :=
  { s with cur_arena_ := 0,
           cur_ptr_ := (s.chunks.getD 0 { bytes_ := 0, bytes_end_ := 0 }).Begin }

/-- The loop of `ScratchAllocator::SizeAllocated` over the chain from the chunk
at position `i`: `while (cur != nullptr && cur_arena_ != cur)`. -/
def ScratchAllocator.SizeAllocated.loop (cur_arena_ : Nat) : List Arena → Nat → Nat → Nat
  | [], _, sz => sz
  | cur :: next, i, sz =>
    if cur_arena_ ≠ i then
      ScratchAllocator.SizeAllocated.loop cur_arena_ next (i + 1) ((sz + cur.Size) % 2 ^ 64)
    else sz

/-- `ScratchAllocator::SizeAllocated`. -/
def ScratchAllocator.SizeAllocated (s : ScratchAllocator) : Nat :=
  (ScratchAllocator.SizeAllocated.loop s.cur_arena_ s.chunks 0 0 +
    (s.cur_ptr_ + 2 ^ 64 - s.cur.Begin) % 2 ^ 64) % 2 ^ 64

/-- A handler passed to `ScratchAllocator::Scoped`: the calls it makes on the
allocator, each followed by what it does with the result. -/
inductive ScratchHandler where
  | done
  | Alloc (size : Nat) (k : Nat → ScratchHandler)
  | AllocAligned (alignment size : Nat) (k : Nat → ScratchHandler)
  | Free (mem : Nat) (k : ScratchHandler)
  | Purge (k : ScratchHandler)
  | SizeAllocated (k : Nat → ScratchHandler)
  | Scoped (handler : ScratchHandler) (k : ScratchHandler)

/-- Running a handler on the allocator.  A nested `Scoped` saves `cur_arena_`
and `cur_ptr_`, runs its handler and puts the two back. -/
def ScratchHandler.run : ScratchHandler → ScratchAllocator → ScratchAllocator
  | ScratchHandler.done, s => s
  | ScratchHandler.Alloc size k, s => (k (s.Alloc size).1).run (s.Alloc size).2
  | ScratchHandler.AllocAligned alignment size k, s =>
    (k (s.AllocAligned alignment size).1).run (s.AllocAligned alignment size).2
  | ScratchHandler.Free mem k, s => k.run (s.Free mem)
  | ScratchHandler.Purge k, s => k.run s.Purge
  | ScratchHandler.SizeAllocated k, s => (k s.SizeAllocated).run s
  | ScratchHandler.Scoped handler k, s =>
    k.run { handler.run s with cur_arena_ := s.cur_arena_, cur_ptr_ := s.cur_ptr_ }

/-- `ScratchAllocator::Scoped(handler)`. -/
def ScratchAllocator.Scoped (s : ScratchAllocator) (handler : ScratchHandler) :
    ScratchAllocator :=
  let prev_arena := s.cur_arena_
  let prev_ptr := s.cur_ptr_
  let s1 := handler.run s
  { s1 with cur_arena_ := prev_arena, cur_ptr_ := prev_ptr }

/-- The state of an allocator with a current chunk: `cur_arena_` names a chunk,
`cur_ptr_` lies in it, and every chunk is a range of 64-bit addresses. -/
structure ScratchAllocator.Wf (s : ScratchAllocator) : Prop where
  cur_lt : s.cur_arena_ < s.chunks.length
  ptr_ge : s.cur.Begin ≤ s.cur_ptr_
  ptr_le : s.cur_ptr_ ≤ s.cur.End
  chunk_ok : ∀ c ∈ s.chunks, c.bytes_ ≤ c.bytes_end_ ∧ c.bytes_end_ < 2 ^ 64

/-- An allocator for the examples: it places the chunk number `k` at the address
`65536 * (k + 1)`, which suits every alignment up to 65536 and chunks of up to
65536 bytes. -/
def spacedAllocator : BaseAllocator := fun k _ _ => 65536 * (k + 1)

/-! ## task/task.h, task/task.cc, task/task_context.cc, task/worker_thread.cc

One worker thread.  A task's function is the series of suspending calls it makes
on its `TaskContext` before it returns; tasks, event sources and flags are
numbers.  The switches of `platform::ExecContext` follow the comments of
`task.h`: `Execute` and `Resume` pass control to the fiber, `Suspend` and the
return of the function pass it back to the context they were entered from. -/

/-- `enum class TaskState`. -/
inductive TaskState where
  | NotStarted
  | Executing
  | Suspended
  deriving DecidableEq, Repr

/-- A suspending call of a task's function on its `TaskContext`. -/
inductive FiberCall where
  | WaitEvent (event_source event_flags : Nat)
  | Yield
  | Exit
  deriving DecidableEq, Repr

/-- `class Task`: `state_`, and in `func_` the calls the function has yet to make
before it returns. -/
structure Task where
  state_ : TaskState
  func_ : List FiberCall
  deriving DecidableEq, Repr

/-- `WorkerThread::ExecutionState`. -/
structure ExecutionState where
  current_task_ : Option Nat
  pending_event_ : Option Nat
  pending_event_flags_ : Nat
  has_pending_event_ : Bool
  yield_ : Bool
  tasks_queued_ : Nat
  deriving DecidableEq, Repr

/-- A call `EventQueue::AddEvent(event_source, event_flags, user_handle)`, with
what held when it was made: the state of the task `user_handle` and whether
control was in a fiber. -/
structure AddEventCall where
  event_source : Nat
  event_flags : Nat
  user_handle : Nat
  task_state : Option TaskState
  in_fiber : Bool
  deriving DecidableEq, Repr

/-- `class WorkerThread`: `exec_`, `running_`, `local_task_queue_`; the tasks by
handle (`none` once destroyed), the calls made on `events_` so far, and whether
control is in a fiber (and not in the main context of the thread). -/
structure WorkerThread where
  exec_ : ExecutionState
  running_ : Bool
  local_task_queue_ : List Nat
  tasks : List (Option Task)
  events_ : List AddEventCall
  in_fiber : Bool
  deriving DecidableEq, Repr

/-- A worker over tasks that have not started, with `exec_` as declared. -/
def WorkerThread.create (funcs : List (List FiberCall)) : WorkerThread :=
  { exec_ := { current_task_ := none, pending_event_ := none, pending_event_flags_ := 0,
               has_pending_event_ := false, yield_ := false, tasks_queued_ := 0 },
    running_ := true,
    local_task_queue_ := [],
    tasks := funcs.map fun f => some { state_ := TaskState.NotStarted, func_ := f },
    events_ := [],
    in_fiber := false }

/-- `task->State()` of the task with handle `task`. -/
def WorkerThread.State (w : WorkerThread) (task : Nat) : Option TaskState :=
  (w.tasks.getD task none).map fun t => t.state_

/-- Changing the task with handle `task`. -/
def WorkerThread.mapTask (w : WorkerThread) (task : Nat) (f : Task → Task) : WorkerThread :=
  { w with tasks := w.tasks.modify (Option.map f) task }

/-- `Task::Suspend` of the current task: `state_ = TaskState::Suspended;
context_.Suspend()`, which passes control back to the main context. -/
def Task.Suspend (w : WorkerThread) : WorkerThread :=
  match w.exec_.current_task_ with
  | none => w
  | some task =>
    { w.mapTask task (fun t => { t with state_ := TaskState.Suspended }) with
      in_fiber := false }

/-- `TaskContext::WaitEvent`. -/
def TaskContext.WaitEvent (w : WorkerThread) (event_source event_flags : Nat) : WorkerThread :=
  Task.Suspend
    { w with exec_ := { w.exec_ with pending_event_ := some event_source,
                                     pending_event_flags_ := event_flags,
                                     has_pending_event_ := true } }

/-- `WorkerThread::DelayedStop` (through `DeferredExit`). -/
def WorkerThread.DelayedStop (w : WorkerThread) : WorkerThread :=
  { w with running_ := false }

/-- `TaskContext::Exit`. -/
def TaskContext.Exit (w : WorkerThread) : WorkerThread :=
  Task.Suspend w.DelayedStop

/-- `TaskContext::Yield`. -/
def TaskContext.Yield (w : WorkerThread) : WorkerThread :=
  Task.Suspend { w with exec_ := { w.exec_ with yield_ := true } }

/-- The fiber of the task `task` has control and runs on: the function makes its
next suspending call, or returns when it has none left. -/
def Task.proceed (w : WorkerThread) (task : Nat) : WorkerThread :=
  match (w.tasks.getD task none).map (fun t => t.func_) with
  | none => { w with in_fiber := false }
  | some [] => { w with in_fiber := false }
  | some (call :: rest) =>
    let w1 := { w.mapTask task (fun t => { t with func_ := rest }) with in_fiber := true }
    match call with
    | FiberCall.WaitEvent event_source event_flags =>
      TaskContext.WaitEvent w1 event_source event_flags
    | FiberCall.Yield => TaskContext.Yield w1
    | FiberCall.Exit => TaskContext.Exit w1

/-- `Task::Execute`: `state_ = TaskState::Executing; context_.Execute(...)`. -/
def Task.Execute (w : WorkerThread) (task : Nat) : WorkerThread :=
  Task.proceed
    { w.mapTask task (fun t => { t with state_ := TaskState.Executing }) with in_fiber := true }
    task

/-- `Task::Resume`: `state_ = TaskState::Executing; context_.Resume(prev)`. -/
def Task.Resume (w : WorkerThread) (task : Nat) : WorkerThread :=
  Task.proceed
    { w.mapTask task (fun t => { t with state_ := TaskState.Executing }) with in_fiber := true }
    task

/-- `WorkerThread::QueueTask`: a `Push` on the ring of 1024 entries. -/
def WorkerThread.QueueTask (w : WorkerThread) (task : Nat) : WorkerThread :=
  if w.local_task_queue_.length = 1024 then w
  else { w with local_task_queue_ := w.local_task_queue_ ++ [task] }

/-- `WorkerThread::DestroyTask`. -/
def WorkerThread.DestroyTask (w : WorkerThread) (task : Nat) : WorkerThread :=
  { w with tasks := w.tasks.set task none }

/-- `EventQueue::AddEvent` as called by the worker. -/
def WorkerThread.AddEvent (w : WorkerThread) (event_source event_flags user_handle : Nat) :
    WorkerThread :=
  { w with events_ := w.events_ ++
      [{ event_source := event_source, event_flags := event_flags, user_handle := user_handle,
         task_state := w.State user_handle, in_fiber := w.in_fiber }] }

/-- `WorkerThread::PreTask`. -/
def WorkerThread.PreTask (w : WorkerThread) (task : Nat) : WorkerThread :=
  { w with exec_ := { w.exec_ with tasks_queued_ := 0, current_task_ := some task } }

/-- `WorkerThread::PostTask`. -/
def WorkerThread.PostTask (w : WorkerThread) (task : Nat) : WorkerThread :=
  let w1 :=
    if w.exec_.has_pending_event_ then
      let w2 := w.AddEvent (w.exec_.pending_event_.getD 0) w.exec_.pending_event_flags_ task
      { w2 with exec_ := { w2.exec_ with pending_event_ := none, has_pending_event_ := false } }
    else if w.exec_.yield_ then
      let w2 := w.QueueTask (w.exec_.current_task_.getD 0)
      { w2 with exec_ := { w2.exec_ with yield_ := false } }
    else w.DestroyTask (w.exec_.current_task_.getD 0)
  { w1 with exec_ := { w1.exec_ with current_task_ := none } }

/-- `WorkerThread::ExecuteTask`. -/
def WorkerThread.ExecuteTask (w : WorkerThread) (task : Nat) : WorkerThread :=
  (Task.Execute (w.PreTask task) task).PostTask task

/-- `WorkerThread::ResumeTask`. -/
def WorkerThread.ResumeTask (w : WorkerThread) (task : Nat) : WorkerThread :=
  (Task.Resume (w.PreTask task) task).PostTask task

/-- What `WorkerThread::ThreadProc` does with a dequeued task. -/
def WorkerThread.RunTask (w : WorkerThread) (task : Nat) : WorkerThread :=
  if w.State task = some TaskState.NotStarted then w.ExecuteTask task
  else if w.State task = some TaskState.Suspended then w.ResumeTask task
  else w

/-- A step of `WorkerThread::ThreadProc`: a triggered event with its user handle
(queued unless the handle is null), a task taken from the local queue, or a task
taken from the queue of another thread. -/
inductive WorkerStep where
  | Event (user_handle : Option Nat)
  | Dequeue
  | Steal (task : Nat)
  deriving DecidableEq, Repr

/-- One step of the worker. -/
def WorkerThread.step (w : WorkerThread) : WorkerStep → WorkerThread
  | WorkerStep.Event none => w
  | WorkerStep.Event (some task) => w.QueueTask task
  | WorkerStep.Dequeue =>
    match w.local_task_queue_ with
    | [] => w
    | task :: rest => WorkerThread.RunTask { w with local_task_queue_ := rest } task
  | WorkerStep.Steal task => w.RunTask task

/-- A series of steps of the worker. -/
def WorkerThread.steps (w : WorkerThread) : List WorkerStep → WorkerThread
  | [] => w
  | s :: rest => (w.step s).steps rest

/-- A registration made as the specification wants it: control was in the main
context of the worker and the task was suspended. -/
def AddEventCall.Safe (c : AddEventCall) : Prop :=
  c.in_fiber = false ∧ c.task_state = some TaskState.Suspended

instance (c : AddEventCall) : Decidable c.Safe := by
  unfold AddEventCall.Safe
  infer_instance

/-! ### Relations used in the proofs about the ring and the worker -/

/-- The ring `q` holds `items`, oldest first; `R` and `W` are the numbers of
values read and written so far (the indices before wrapping). -/
structure MRSWRing.Holds {T : Type} (n : Nat) (q : MRSWRing T) (items : List T) (R W : Nat) :
    Prop where
  len : q.data_.length = n
  r : q.r_ = R % 2 ^ 32
  w : q.w_ = W % 2 ^ 32
  size : R + items.length = W
  bound : items.length ≤ n
  slot : ∀ i, i < items.length → q.data_[(R + i) % n]? = items[i]?

/-- Indices up to `x` mean the same slot before and after wrapping at `2^32`. -/
def MRSWRing.Safe (n x : Nat) : Prop :=
  (n ∣ 2 ^ 32 ∧ n < 2 ^ 32) ∨ x < 2 ^ 32

/-- A worker between tasks: control is in the main context, no event is pending,
and every registration so far was made in the main context for a suspended
task. -/
structure WorkerThread.Idle (w : WorkerThread) : Prop where
  main : w.in_fiber = false
  pending : w.exec_.has_pending_event_ = false
  safe : ∀ c ∈ w.events_, c.Safe

/-! ### The worker between two tasks -/

/-- A block handed out by the scratch allocator: its address, its size, and the
position in the chain of the chunk that was current when it was returned. -/
structure ScratchBlock where
  addr : Nat
  size : Nat
  chunk : Nat
  deriving DecidableEq, Repr

/-- A series of `AllocAligned(alignment, size)` calls with nothing else in
between: the blocks returned, in order, and the allocator afterwards. -/
def ScratchAllocator.allocs : ScratchAllocator → List (Nat × Nat) →
    List ScratchBlock × ScratchAllocator
  | s, [] => ([], s)
  | s, (alignment, size) :: rest =>
    ({ addr := (s.AllocAligned alignment size).1, size := size,
       chunk := (s.AllocAligned alignment size).2.cur_arena_ } ::
       (ScratchAllocator.allocs (s.AllocAligned alignment size).2 rest).1,
     (ScratchAllocator.allocs (s.AllocAligned alignment size).2 rest).2)

/-- There is room for the request in the address space: the alignment is a
power of two below `2^64`, no chunk ends within `alignment + size` bytes of the
end of the 64-bit address space, and the backing allocator, if it is asked for
a new chunk, returns a multiple of the alignment for a chunk that lies within
the address space. -/
def ScratchAllocator.Roomy (s : ScratchAllocator) (alignment size : Nat) : Prop :=
  (∃ k, k < 64 ∧ alignment = 2 ^ k) ∧
  (∀ c ∈ s.chunks, c.bytes_end_ + alignment + size ≤ 2 ^ 64) ∧
  alignment ∣ s.real_allocator_ s.chunks.length alignment
    (max (s.total_size_ * 2 % 2 ^ 64) size) ∧
  s.real_allocator_ s.chunks.length alignment (max (s.total_size_ * 2 % 2 ^ 64) size) +
    max (s.total_size_ * 2 % 2 ^ 64) size < 2 ^ 64

/-- There is room for every request of the series, each at the state in which
it is made. -/
def ScratchAllocator.RoomyAll : ScratchAllocator → List (Nat × Nat) → Prop
  | _, [] => True
  | s, (alignment, size) :: rest =>
    s.Roomy alignment size ∧
    ScratchAllocator.RoomyAll (s.AllocAligned alignment size).2 rest

/-- What holds of the blocks handed out so far: each lies within the chunk at
its position, which is not after the current chunk, and a block of the current
chunk ends at or before the bump pointer. -/
def ScratchAllocator.Covers (s : ScratchAllocator) (b : ScratchBlock) : Prop :=
  b.chunk ≤ s.cur_arena_ ∧
  (b.chunk = s.cur_arena_ → b.addr + b.size ≤ s.cur_ptr_) ∧
  ∃ c, s.chunks[b.chunk]? = some c ∧ c.Begin ≤ b.addr ∧ b.addr + b.size ≤ c.End

/-! ### Task manager start-up (`task/task_manager.cc`, `task/worker_thread.cc`) -/

/-- One invocation of a per-thread hook: the `thread_index` argument and the
slot of `threads_` whose `user_data_` storage is passed. -/
structure ThreadHookCall where
  thread_index : Nat
  user_data : Nat
  deriving DecidableEq, Repr

/-- What `TaskManager::Run` has done: the workers it constructed, each with its
slot in `threads_` and the `index_` given to the constructor, in the order of
their `Start()`, and the invocations of `hooks.before_thread_start`. -/
structure TaskManager.Started where
  threads_ : List (Nat × Nat)
  before_thread_start : List ThreadHookCall
  deriving DecidableEq, Repr

/-- The `for` loop of `TaskManager::Run` over the slots `threads_ + 1 ..`:
each turn constructs the worker of slot `thread_mem` with `index`, invokes the
hook with `index` and that worker's storage, and increments `index`. Returns
the final `index` as well. -/
def TaskManager.Run.loop (num_threads_ : Nat) :
    Nat → Nat → Nat → TaskManager.Started → Option (Nat × TaskManager.Started)
  | 0, _, _, _ => none
  | fuel + 1, thread_mem, index, s =>
    if thread_mem = num_threads_ then some (index, s)
    else
      TaskManager.Run.loop num_threads_ fuel (thread_mem + 1) (index + 1)
        { threads_ := s.threads_ ++ [(thread_mem, index)],
          before_thread_start := s.before_thread_start ++ [⟨index, thread_mem⟩] }

/-- `TaskManager::Run`: after the loop the worker of slot 0 is constructed with
index 0 and the hook is invoked with the variable `index` as the loop left it.
`none` stands for the failed assertion `num_threads_ > 0`. -/
def TaskManager.Run (num_threads_ : Nat) : Option TaskManager.Started :=
  if num_threads_ = 0 then none
  else
    (TaskManager.Run.loop num_threads_ num_threads_ 1 1
        { threads_ := [], before_thread_start := [] }).map fun r =>
      { threads_ := r.2.threads_ ++ [(0, 0)],
        before_thread_start := r.2.before_thread_start ++ [⟨r.1, 0⟩] }

/-- The last statement of `WorkerThread::ThreadProc` of the worker in `slot`:
`hooks.after_thread_stop.Invoke(index_, UserData())`. -/
def WorkerThread.ThreadProc.after_thread_stop (slot index_ : Nat) : ThreadHookCall :=
  ⟨index_, slot⟩

/-- The `after_thread_stop` invocations of the workers that were started. -/
def TaskManager.Started.after_thread_stop (s : TaskManager.Started) : List ThreadHookCall :=
  s.threads_.map fun t => WorkerThread.ThreadProc.after_thread_stop t.1 t.2

/-! ### Type vault (`types/type_vault.h`, `types/type_vault.cc`) -/

/-- A `TypeSchema` as far as the vault looks at it. -/
structure TypeSchema where
  name : List Nat
  field_count : Nat
  deriving DecidableEq, Repr

/-- A node of `TypeManager::types_list_`. -/
structure detail.TypeNode where
  schema : TypeSchema
  owned : Bool
  deriving DecidableEq, Repr

/-- The state of a `TypeVault`: the dirty flag `updated_`, the name cache
`schemas_map_`, and `current_`, the last node that went into the cache. A
pointer to a schema is the position of its node in `types_list_`; `none` is
`k_types_invalid_schema`. -/
structure TypeVault where
  updated_ : Bool
  schemas_map_ : List (List Nat × Nat)
  current_ : Option Nat
  deriving DecidableEq, Repr

/-- The state of a `TypeManager` with its vaults. -/
structure TypeManager where
  vaults_ : List TypeVault
  types_list_ : List detail.TypeNode
  deriving DecidableEq, Repr

/-- `schemas_map_.find(type_name)`. -/
def TypeVault.find (map : List (List Nat × Nat)) (type_name : List Nat) : Option Nat :=
  (map.find? fun e => e.1 = type_name).map fun e => e.2

/-- `schemas_map_.insert`: an existing key keeps its value. -/
def TypeVault.insert (map : List (List Nat × Nat)) (e : List Nat × Nat) :
    List (List Nat × Nat) :=
  if (TypeVault.find map e.1).isSome then map else map ++ [e]

/-- `TypeVault::InvalidateCache`. -/
def TypeVault.InvalidateCache (v : TypeVault) : TypeVault :=
  { v with updated_ := false }

/-- `TypeManager::InvalidateCaches`. -/
def TypeManager.InvalidateCaches (m : TypeManager) : TypeManager :=
  { m with vaults_ := m.vaults_.map TypeVault.InvalidateCache }

/-- `TypeManager::EnqueueSchema`: a new node at the back of the list, then every
vault is marked dirty. Returns the position of the node. -/
def TypeManager.EnqueueSchema (m : TypeManager) (schema : TypeSchema) (owned : Bool) :
    Nat × TypeManager :=
  (m.types_list_.length,
   TypeManager.InvalidateCaches
     { m with types_list_ := m.types_list_ ++ [{ schema := schema, owned := owned }] })

/-- The constructor of `TypeManager`: the initial types are enqueued, not owned. -/
def TypeManager.create (initial_types : List TypeSchema) : TypeManager :=
  initial_types.foldl (fun m s => (m.EnqueueSchema s false).2)
    { vaults_ := [], types_list_ := [] }

/-- `TypeManager::CreateVault`: a new vault with `updated_` clear, an empty cache
and no `current_`. Returns the vault's position in `vaults_`. -/
def TypeManager.CreateVault (m : TypeManager) : Nat × TypeManager :=
  (m.vaults_.length,
   { m with vaults_ := m.vaults_ ++ [{ updated_ := false, schemas_map_ := [], current_ := none }] })

/-- The refresh inside `TypeVault::FindSchema`: the nodes after `current_` (all
of them when `current_` is null) are inserted, `current_` becomes `Last()`. -/
def TypeVault.refresh (types_list_ : List detail.TypeNode) (v : TypeVault) : TypeVault :=
  let first := match v.current_ with
    | some c => c + 1
    | none => 0
  let nodes := (List.range types_list_.length).drop first
  { v with
    schemas_map_ := nodes.foldl
      (fun map i => match types_list_[i]? with
        | some node => TypeVault.insert map (node.schema.name, i)
        | none => map) v.schemas_map_,
    current_ := if types_list_.length = 0 then none else some (types_list_.length - 1) }

/-- `TypeVault::FindSchema` on one vault: `updated_.test_and_set()` first; when
the flag was clear the cache is refreshed; then the cache is searched. -/
def TypeVault.FindSchema (types_list_ : List detail.TypeNode) (v : TypeVault)
    (type_name : List Nat) : Option Nat × TypeVault :=
  let v1 := if v.updated_ then v else TypeVault.refresh types_list_ { v with updated_ := true }
  (TypeVault.find v1.schemas_map_ type_name, v1)

/-- `FindSchema` of the vault at position `vault` of a manager. -/
def TypeManager.FindSchema (m : TypeManager) (vault : Nat) (type_name : List Nat) :
    Option (Option Nat × TypeManager) :=
  (m.vaults_[vault]?).map fun v =>
    let r := TypeVault.FindSchema m.types_list_ v type_name
    (r.1, { m with vaults_ := m.vaults_.set vault r.2 })

/-- `HasType` of the vault at position `vault` of a manager. -/
def TypeManager.HasType (m : TypeManager) (vault : Nat) (type_name : List Nat) :
    Option (Bool × TypeManager) :=
  (m.FindSchema vault type_name).map fun r => (r.1.isSome, r.2)

/-- `TypeVault::CreateSchema` of the vault at position `vault`. `allocated`
says whether `AllocateSchema` returned memory, `handler` is the result of the
caller's handler. The flag `updated_` is set before the search for a duplicate. -/
def TypeManager.CreateSchema (m : TypeManager) (vault : Nat) (type_name : List Nat)
    (field_count : Nat) (allocated handler : Bool) : Option (Option Nat × TypeManager) :=
  (m.vaults_[vault]?).map fun v =>
    let r := TypeVault.FindSchema m.types_list_ { v with updated_ := true } type_name
    let dup_schema := r.1
    let m1 : TypeManager := { m with vaults_ := m.vaults_.set vault r.2 }
    let dirty : TypeManager :=
      { m1 with vaults_ := m1.vaults_.set vault (TypeVault.InvalidateCache r.2) }
    if dup_schema.isSome then (none, dirty)
    else if !allocated then (none, dirty)
    else if !handler then (none, dirty)
    else
      let e := m1.EnqueueSchema { name := type_name, field_count := field_count } true
      (some e.1, e.2)

/-- The names in `types_list_`, front to back. -/
def TypeManager.names (m : TypeManager) : List (List Nat) :=
  m.types_list_.map fun n => n.schema.name

/-! ### Config merge (`config/config.cc`, `config/config_detail.cc`) -/

/-- A `ConfigValue`: the variant over nothing, `int64_t`, `double` (its bit
pattern), `bool` and a string. -/
inductive detail.ConfigValue where
  | monostate
  | int (v : Int)
  | double (bits : Nat)
  | bool (b : Bool)
  | string (s : List Nat)
  deriving DecidableEq, Repr

/-- A `ConfigValueNode` with the chain hanging from `next_`: `last` has
`next_ == nullptr`. -/
inductive detail.ConfigValueNode where
  | last (value_ : detail.ConfigValue)
  | node (value_ : detail.ConfigValue) (next_ : detail.ConfigValueNode)
  deriving DecidableEq, Repr

/-- The default-constructed `ConfigValueNode{}`. -/
def detail.ConfigValueNode.empty : detail.ConfigValueNode :=
  detail.ConfigValueNode.last detail.ConfigValue.monostate

/-- The values a `ConfigList` over the node iterates: the chain of `next_`. -/
def detail.ConfigValueNode.values : detail.ConfigValueNode → List detail.ConfigValue
  | .last v => [v]
  | .node v n => v :: n.values

/-- `ConfigValueNode::CloneNode(head, cloned)`: the value of each node of
`head` is copied (strings by content); a fresh node is linked in only when
`head` has a next node, so `next_` of the last node written keeps what it held. -/
def detail.ConfigValueNode.CloneNode :
    detail.ConfigValueNode → detail.ConfigValueNode → detail.ConfigValueNode
  | .last v, .last _ => .last v
  | .last v, .node _ n => .node v n
  | .node v rest, _ => .node v (detail.ConfigValueNode.CloneNode rest detail.ConfigValueNode.empty)

/-- A `ConfigMap`: keys with their head nodes, each key once. -/
abbrev detail.ConfigMap := List (List Nat × detail.ConfigValueNode)

/-- `values_.find(key)`. -/
def detail.ConfigMap.find (m : detail.ConfigMap) (key : List Nat) :
    Option detail.ConfigValueNode :=
  (List.find? (fun e => e.1 = key) m).map fun e => e.2

/-- `left.insert(make_pair(key, ConfigValueNode{}))` followed by `CloneNode`
into the element the returned iterator points at: the element of an existing
key is written over in place, a new key gets a default node first. -/
def detail.ConfigMap.insertClone :
    detail.ConfigMap → List Nat → detail.ConfigValueNode → detail.ConfigMap
  | [], key, head => [(key, detail.ConfigValueNode.CloneNode head detail.ConfigValueNode.empty)]
  | e :: rest, key, head =>
    if e.1 = key then (e.1, detail.ConfigValueNode.CloneNode head e.2) :: rest
    else e :: detail.ConfigMap.insertClone rest key head

/-- `Config::MergeValues(left, right)`: the loop over the elements of `right`. -/
def Config.MergeValues (left right : detail.ConfigMap) : detail.ConfigMap :=
  right.foldl (fun l it => detail.ConfigMap.insertClone l it.1 it.2) left

/-- A `Config`: its `values_`. -/
structure Config where
  values_ : detail.ConfigMap
  deriving DecidableEq, Repr

/-- `Config::Merge(left, right)`. -/
def Config.Merge (left right : Config) : Config :=
  { values_ := Config.MergeValues left.values_ right.values_ }

/-- `Config::GetList(key)`: the values of the key's list, `none` for
`DoesNotExist`. -/
def Config.GetList (c : Config) (key : List Nat) : Option (List detail.ConfigValue) :=
  (detail.ConfigMap.find c.values_ key).map fun n => n.values

namespace slang

/-! ### The order of host calls -/

/-- The function pointers of the `Call` instructions of a program, in the order
of execution. -/
def calledFns {D : Type} (code : List (Instruction D)) : List Nat :=
  (code.filter fun i => decide (i.code = OpCode.Call)).map fun i => i.data.value.get_ptr

mutual
/-- The operation names of an expression in the order of their opening
brackets in the source. -/
def Expr.ops {D : Type} : Expr D → List (List Nat)
  | Expr.lit _ => []
  | Expr.call op_name args => op_name :: args.ops
/-- The operation names in the arguments, in source order. -/
def Args.ops {D : Type} : Args D → List (List Nat)
  | Args.nil => []
  | Args.cons e rest => e.ops ++ rest.ops
end

mutual
/-- Post-order as the specification words it: for every operation, its nested
operations in source order, left to right, then the operation itself. -/
def Expr.postOrder {D : Type} : Expr D → List (List Nat)
  | Expr.lit _ => []
  | Expr.call op_name args => args.postOrder ++ [op_name]
/-- The operations of the arguments in post-order, first argument first. -/
def Args.postOrder {D : Type} : Args D → List (List Nat)
  | Args.nil => []
  | Args.cons e rest => e.postOrder ++ rest.postOrder
end

mutual
/-- Post-order from the right: for every operation, its nested operations from
the last to the first, then the operation itself. -/
def Expr.postOrderRev {D : Type} : Expr D → List (List Nat)
  | Expr.lit _ => []
  | Expr.call op_name args => args.postOrderRev ++ [op_name]
/-- The operations of the arguments in post-order from the right, last
argument first. -/
def Args.postOrderRev {D : Type} : Args D → List (List Nat)
  | Args.nil => []
  | Args.cons e rest => rest.postOrderRev ++ e.postOrderRev
end

/-! ### Counting `begin_op` and `end_op` calls -/

/-- The call is `LexerBeginOp`. -/
def Callback.isBegin {D : Type} : Callback D → Bool
  | Callback.LexerBeginOp _ => true
  | _ => false

/-- The call is `LexerEndOp`. -/
def Callback.isEnd {D : Type} : Callback D → Bool
  | Callback.LexerEndOp => true
  | _ => false

/-- The number of `LexerBeginOp` calls in a sequence of handler calls. -/
def beginOps {D : Type} (calls : List (Callback D)) : Nat := calls.countP Callback.isBegin

/-- The number of `LexerEndOp` calls in a sequence of handler calls. -/
def endOps {D : Type} (calls : List (Callback D)) : Nat := calls.countP Callback.isEnd

/-- By how many the `LexerEndOp` calls exceed the `LexerBeginOp` calls. -/
def opExcess {D : Type} (calls : List (Callback D)) : Int :=
  (endOps calls : Int) - (beginOps calls : Int)

/-- The number of `LexerEndOp` calls that the rest of the run owes at least:
the depth, less one while the term is the name of an operation that has not
been reported yet. -/
def LexerState.owed (st : LexerState) : Int :=
  st.op_depth_ - (if st.term_type_ = TermType.kOp then 1 else 0)

/-- A sequence of handler calls in which no suffix has more `LexerBeginOp` than
`LexerEndOp` calls and the whole has at least `n` more `LexerEndOp` calls. -/
structure Bal {D : Type} (n : Int) (calls : List (Callback D)) : Prop where
  suffix : ∀ T, T <:+ calls → 0 ≤ opExcess T
  least : n ≤ opExcess calls

/-- The handler leaves its state alone when it accepts a custom payload. -/
def Handler.PayloadNeutral {D H : Type} (h : Handler D H) : Prop :=
  ∀ s token reader, (h.LexerCustomData s token reader).1 = none →
    (h.LexerCustomData s token reader).2.1 = s

/-- What an instruction adds to the number of `FrameBarrier` values on the
stack, counted before the reversal: a `Call` takes one away, a `Push` of a
`FrameBarrier` adds one. -/
def Instruction.weight {D : Type} (i : Instruction D) : Int :=
  match i.code with
  | OpCode.Call => -1
  | OpCode.Push => if i.data.type = TypeSchemaPtr.FrameBarrier then 1 else 0
  | OpCode.Invalid => 0

/-- The number of `FrameBarrier` values on a stack. -/
def barriers {D : Type} (stack : List (TypedValue D)) : Nat :=
  stack.countP fun v => decide (v.type = TypeSchemaPtr.FrameBarrier)

/-- By how many the `FrameBarrier` pushes exceed the `Call` instructions in a
piece of code. -/
def frameExcess {D : Type} (code : List (Instruction D)) : Int :=
  (code.map Instruction.weight).sum

/-- The instructions the compiler appends to the program at one handler call. -/
def Compiler.emitted {D : Type} (env : Env) : Callback D → List (Instruction D)
  | Callback.LexerBeginOp name =>
    if env.FindCall name = 0 then []
    else [{ code := OpCode.Call,
            data := { type := TypeSchemaPtr.invalid, value := Value.ptr (env.FindCall name) } }]
  | Callback.LexerEndOp =>
    [{ code := OpCode.Push,
       data := { type := TypeSchemaPtr.FrameBarrier, value := Value.i64 0 } }]
  | Callback.LexerStrValue value =>
    [{ code := OpCode.Push, data := { type := TypeSchemaPtr.StrSpan, value := Value.str value } }]
  | Callback.LexerIntValue value =>
    [{ code := OpCode.Push, data := { type := TypeSchemaPtr.int64_t, value := Value.i64 value } }]
  | Callback.LexerDoubleValue value =>
    [{ code := OpCode.Push, data := { type := TypeSchemaPtr.double, value := Value.dbl value } }]
  | Callback.LexerUnhandledValue value =>
    if 1 < value.length ∧ value.head? = some 58 then
      [{ code := OpCode.Push,
         data := { type := TypeSchemaPtr.Field, value := Value.str (value.drop 1) } }]
    else
      [{ code := OpCode.Push,
         data := { type := TypeSchemaPtr.StrSpan, value := Value.str value } }]
  | Callback.LexerCustomData _ => []

/-- The instructions appended at a sequence of handler calls. -/
def Compiler.emittedAll {D : Type} (env : Env) : List (Callback D) → List (Instruction D)
  | [] => []
  | cb :: rest => Compiler.emitted env cb ++ Compiler.emittedAll env rest

/-! ### A zero byte in the input -/

/-- The state with the same fields whose unread input goes on with a zero byte
and the bytes `post`. -/
def Abs.State.extend (b : Abs.State) (post : List Nat) : Abs.State :=
  { b with input := b.input ++ 0 :: post }

/-- The outcome of a piece of the lexer with the state extended. -/
def Abs.Done.extend {D H : Type} (d : Abs.Done D H) (post : List Nat) : Abs.Done D H :=
  { d with state := d.state.extend post }

/-- Every semicolon of the text has a line feed somewhere after it, so that no
comment of the text runs up to its end. -/
def commentsClosed : List Nat → Bool
  | [] => true
  | c :: rest => (c != 59 || decide (10 ∈ rest)) && commentsClosed rest

/-- Two results that are equal, or two failures with the same message on the
same line, the first one column further on. -/
def LexerResult.SameButColumn (ra rb : LexerResult) : Prop :=
  ra = rb ∨
  ∃ fa fb, ra = LexerResult.failure fa ∧ rb = LexerResult.failure fb ∧
    fa.err_msg_ = fb.err_msg_ ∧ fa.err_line_no_ = fb.err_line_no_ ∧
    fa.err_line_offset_ = fb.err_line_offset_ + 1

/-- The state `a` has read the zero byte where the state `b` has met the end of
its input: `post` is what `a` has left, and `a` is one column further on. -/
structure Abs.State.PastNul (a b : Abs.State) (post : List Nat) : Prop where
  input_a : a.input = post
  input_b : b.input = []
  line : a.cur_line_ = b.cur_line_
  column : a.cur_line_offset_ = b.cur_line_offset_ + 1
  depth : a.op_depth_ = b.op_depth_
  type : a.term_type_ = b.term_type_

/-- The expression `(+ (- 3 4) (* 2 5))`. -/
def twoNested : Expr Unit :=
  Expr.call (bytes "+")
    (Args.cons
      (Expr.call (bytes "-")
        (Args.cons (Expr.lit (Literal.int 3)) (Args.cons (Expr.lit (Literal.int 4)) Args.nil)))
      (Args.cons
        (Expr.call (bytes "*")
          (Args.cons (Expr.lit (Literal.int 2)) (Args.cons (Expr.lit (Literal.int 5)) Args.nil)))
        Args.nil))

end slang

/-! ## Theorems

### Spans of a buffer -/

theorem slice_self (buf : List Nat) (b : Nat) : slice buf b b = [] := by
  simp [slice]

theorem slice_succ (buf : List Nat) (b e : Nat) (hbe : b ≤ e) (hel : e < buf.length) :
    slice buf b (e + 1) = slice buf b e ++ [buf.getD e 0] := by
  unfold slice
  have h1 : e + 1 - b = (e - b) + 1 := by omega
  rw [h1, List.take_succ]
  congr 1
  have h2 : (List.drop b buf)[e - b]? = some (buf.getD e 0) := by
    rw [List.getElem?_drop]
    have h3 : b + (e - b) = e := by omega
    rw [h3, List.getD_eq_getElem?_getD, List.getElem?_eq_getElem hel]
    rfl
  rw [h2]
  rfl

theorem slice_cons (buf : List Nat) (b e : Nat) (hbe : b < e) (hel : e ≤ buf.length) :
    slice buf b e = buf.getD b 0 :: slice buf (b + 1) e := by
  unfold slice
  have hb : b < buf.length := by omega
  rw [List.drop_eq_getElem_cons hb]
  have h1 : e - b = (e - (b + 1)) + 1 := by omega
  rw [h1, List.take_succ_cons, List.getD_eq_getElem?_getD, List.getElem?_eq_getElem hb]
  rfl

theorem slice_getElem? (buf : List Nat) (e c : Nat) (he : 0 < e) (h : buf[e - 1]? = some c) :
    slice buf (e - 1) e = [c] := by
  have hlt : e - 1 < buf.length := by
    rcases Nat.lt_or_ge (e - 1) buf.length with h1 | h1
    · exact h1
    · rw [List.getElem?_eq_none h1] at h; cases h
  have h2 := slice_succ buf (e - 1) (e - 1) (Nat.le_refl _) hlt
  have h3 : e - 1 + 1 = e := by omega
  rw [h3, slice_self] at h2
  rw [h2, List.getD_eq_getElem?_getD, h]
  rfl

theorem overwrite_length (buf src : List Nat) (pos : Nat) (h : pos + src.length ≤ buf.length) :
    (overwrite buf pos src).length = buf.length := by
  simp [overwrite]
  omega

theorem overwrite_drop (buf src : List Nat) (pos k : Nat) (h : pos + src.length ≤ buf.length)
    (hk : pos + src.length ≤ k) : (overwrite buf pos src).drop k = buf.drop k := by
  unfold overwrite
  have hp : pos ≤ buf.length := by omega
  have h1 : (List.take pos buf ++ src).length = pos + src.length := by
    simp [List.length_take, Nat.min_eq_left hp]
  rw [List.drop_append_eq_append_drop]
  have h2 : List.drop k (List.take pos buf ++ src) = [] := by
    apply List.drop_eq_nil_of_le
    omega
  rw [h2, h1, List.drop_drop]
  simp
  congr 1
  omega

theorem slice_overwrite (buf src : List Nat) (pos b e : Nat) (h : pos + src.length ≤ buf.length)
    (hb : pos + src.length ≤ b) : slice (overwrite buf pos src) b e = slice buf b e := by
  unfold slice
  rw [overwrite_drop buf src pos b h hb]

theorem slice_overwrite_zero (buf src : List Nat) (b : Nat)  :
    slice (overwrite buf 0 src) b src.length = src.drop b := by
  simp only [overwrite, slice, List.take_zero, List.nil_append, Nat.zero_add]
  rcases Nat.le_total b src.length with h | h
  · rw [List.drop_append_of_le_length h]
    have h1 : src.length - b = (List.drop b src).length := by simp
    rw [h1, List.take_left']
    rfl
  · have h1 : src.length - b = 0 := by omega
    rw [h1, List.take_zero, List.drop_eq_nil_of_le h]

/-! ### Reading a byte: `NextChar` and the unread input -/

theorem InStream.Read_nil (s : InStream) (cap : Nat) (h : s.data = []) :
    s.Read cap = (none, { s with read_error_ := StreamError.Closed }) := by
  unfold InStream.Read
  rw [if_pos h]

theorem InStream.Read_cons (s : InStream) (cap : Nat) (h : s.data ≠ []) (hc : 0 < cap) :
    ∃ n, 0 < n ∧ n ≤ cap ∧ n ≤ s.data.length ∧
      s.Read cap = (some (s.data.take n),
        { s with data := s.data.drop n, plan := s.plan.tail }) := by
  refine ⟨min (InStream.want s.plan cap) (min cap s.data.length), ?_, ?_, ?_, ?_⟩
  · have h1 : 0 < s.data.length := List.length_pos.mpr h
    have h2 : 0 < InStream.want s.plan cap := by
      unfold InStream.want
      cases s.plan <;> simp <;> omega
    omega
  · omega
  · omega
  · unfold InStream.Read
    rw [if_neg h]

namespace slang

theorem Inv1.toInv {st : LexerState} {c : Nat} (h : Inv1 st c) : Inv st where
  h_be := h.h_be
  h_el := h.h_el
  h_cap := Or.inl (by have := h.h_pos; have := h.h_be; have := h.h_el; omega)
  h_tb := fun b hb => Nat.le_of_lt (h.h_tb b hb)
  h_buf := fun hn => Or.inl (h.h_buf hn)

theorem NextChar_abs (st : LexerState) (hI : Inv st) :
    st.NextChar.1 = (Abs.of st).NextChar.1 ∧ Abs.of st.NextChar.2 = (Abs.of st).NextChar.2 ∧
      Inv st.NextChar.2 ∧ ((Abs.of st).input ≠ [] → Inv1 st.NextChar.2 st.NextChar.1) := by
  obtain ⟨hbe, hel, hcap, htb, hbuf⟩ := hI
  obtain ⟨⟨buf, strm, ab, ae⟩, se, ln, col, dep, esc, wesc, tt, tb, tbuf⟩ := st
  simp only at hbe hel hcap htb hbuf
  by_cases hEq : ab = ae
  · -- the window is empty: RefillBuffer
    subst hEq
    by_cases hd : strm.data = []
    · have hR := InStream.Read_nil strm buf.length hd
      cases tb with
      | none =>
        simp [LexerState.NextChar, LexerState.RefillBuffer, LexerState.SaveTerm,
          StreamReader.RefillAvailable, hR, Abs.of, Abs.State.NextChar, slice_self,
          LexerState.HasTerm, LexerState.BufferEnd, hd]
        exact ⟨hbe, hel, Or.inr rfl, by simp, by simp [hd]⟩
      | some b =>
        simp [LexerState.NextChar, LexerState.RefillBuffer, LexerState.SaveTerm,
          StreamReader.RefillAvailable, hR, Abs.of, Abs.State.NextChar, slice_self,
          LexerState.HasTerm, LexerState.BufferEnd, hd]
        exact ⟨hbe, hel, Or.inr rfl, by simp, by simp [hd]⟩
    · have hcap : 0 < buf.length := by
        rcases hcap with h | h
        · exact h
        · exact absurd h hd
      obtain ⟨n, hn0, hncap, hnlen, hR⟩ := InStream.Read_cons strm buf.length hd hcap
      have hlen : (List.take n strm.data).length = n := by
        simp [List.length_take, Nat.min_eq_left hnlen]
      have hov : (overwrite buf 0 (List.take n strm.data)).length = buf.length :=
        overwrite_length _ _ _ (by omega)
      obtain ⟨d0, ds, hds⟩ : ∃ d0 ds, strm.data = d0 :: ds := by
        cases hdd : strm.data with
        | nil => exact absurd hdd hd
        | cons d0 ds => exact ⟨d0, ds, rfl⟩
      obtain ⟨m, rfl⟩ : ∃ m, n = m + 1 := ⟨n - 1, by omega⟩
      have hget : (overwrite buf 0 (List.take (m + 1) strm.data))[0]? = some d0 := by
        simp [overwrite, hds]
      have hsl : slice (overwrite buf 0 (List.take (m + 1) strm.data)) 1 (m + 1)
          ++ List.drop (m + 1) strm.data = ds := by
        have := slice_overwrite_zero buf (List.take (m + 1) strm.data) 1
        rw [hlen] at this
        rw [this, hds]
        simp
      have hsl0 : slice (overwrite buf 0 (List.take (m + 1) strm.data)) 0 1 = [d0] := by
        simp [overwrite, slice, hds]
      have hin : (Abs.of { stream_ := { read_buf_ := buf, stream_ := strm, available_begin_ := ab, available_end_ := ab }, single_expr_ := se, cur_line_ := ln, cur_line_offset_ := col, op_depth_ := dep, is_escaped_ := esc, was_escaped_ := wesc, term_type_ := tt, term_begin_ := tb, term_buf_ := tbuf }).input = d0 :: ds := by
        simp [Abs.of, slice_self, hds]
      have hNC : LexerState.NextChar { stream_ := { read_buf_ := buf, stream_ := strm, available_begin_ := ab, available_end_ := ab }, single_expr_ := se, cur_line_ := ln, cur_line_offset_ := col, op_depth_ := dep, is_escaped_ := esc, was_escaped_ := wesc, term_type_ := tt, term_begin_ := tb, term_buf_ := tbuf }
          = (d0, { stream_ := { read_buf_ := overwrite buf 0 (List.take (m + 1) strm.data), stream_ := { strm with data := strm.data.drop (m + 1), plan := strm.plan.tail }, available_begin_ := 1, available_end_ := m + 1 }, single_expr_ := se, cur_line_ := ln, cur_line_offset_ := col + 1, op_depth_ := dep, is_escaped_ := esc, was_escaped_ := wesc, term_type_ := tt, term_begin_ := tb.map (fun _ => 0), term_buf_ := tbuf ++ (tb.map (fun b => slice buf b ab)).getD [] }) := by
        cases tb <;>
        simp [LexerState.NextChar, LexerState.RefillBuffer, LexerState.SaveTerm,
          StreamReader.RefillAvailable, hR, LexerState.HasTerm, LexerState.BufferEnd,
          StreamReader.ReadAvailableChar, hlen, List.getD_eq_getElem?_getD, hget]
      rw [hNC]
      refine ⟨?_, ?_, ?_, ?_⟩
      · simp [Abs.State.NextChar, hin]
      · simp only [Abs.State.NextChar, hin]
        cases tb with
        | none => simp [Abs.of, hsl]
        | some b => simp [Abs.of, hsl, hsl0]
      · refine ⟨by simp, by first | (simp [hov]; done) | (simp [hov]; omega), Or.inl (by rw [hov]; exact hcap), ?_, ?_⟩
        · cases tb <;> simp
        · cases tb with
          | none =>
            simp
            rcases hbuf rfl with h | h
            · exact Or.inl h
            · exact absurd h.2 hd
          | some b => simp
      · intro _
        refine ⟨by simp, by first | (simp [hov]; done) | (simp [hov]; omega), by simp, ?_, ?_, by simpa using hget⟩
        · cases tb <;> simp
        · cases tb with
          | none =>
            simp
            rcases hbuf rfl with h | h
            · exact h
            · exact absurd h.2 hd
          | some b => simp
  · have hlt : ab < ae := by omega
    have hget : buf[ab]? = some (buf.getD ab 0) := by
      rw [List.getD_eq_getElem?_getD, List.getElem?_eq_getElem (by omega)]
      rfl
    have hNC : LexerState.NextChar { stream_ := { read_buf_ := buf, stream_ := strm, available_begin_ := ab, available_end_ := ae }, single_expr_ := se, cur_line_ := ln, cur_line_offset_ := col, op_depth_ := dep, is_escaped_ := esc, was_escaped_ := wesc, term_type_ := tt, term_begin_ := tb, term_buf_ := tbuf }
        = (buf.getD ab 0, { stream_ := { read_buf_ := buf, stream_ := strm, available_begin_ := ab + 1, available_end_ := ae }, single_expr_ := se, cur_line_ := ln, cur_line_offset_ := col + 1, op_depth_ := dep, is_escaped_ := esc, was_escaped_ := wesc, term_type_ := tt, term_begin_ := tb, term_buf_ := tbuf }) := by
      simp [LexerState.NextChar, hEq, StreamReader.ReadAvailableChar]
    have hin : (Abs.of { stream_ := { read_buf_ := buf, stream_ := strm, available_begin_ := ab, available_end_ := ae }, single_expr_ := se, cur_line_ := ln, cur_line_offset_ := col, op_depth_ := dep, is_escaped_ := esc, was_escaped_ := wesc, term_type_ := tt, term_begin_ := tb, term_buf_ := tbuf }).input = buf.getD ab 0 :: (slice buf (ab + 1) ae ++ strm.data) := by
      simp only [Abs.of]
      rw [slice_cons buf ab ae hlt hel]
      rfl
    rw [hNC]
    refine ⟨?_, ?_, ?_, ?_⟩
    · simp [Abs.State.NextChar, hin]
    · simp only [Abs.State.NextChar, hin]
      cases tb with
      | none => simp [Abs.of]
      | some b =>
        have := slice_succ buf b ab (htb b rfl) (by omega)
        simp [Abs.of, this]
    · refine ⟨by simp; omega, by simpa using hel, by simpa using hcap, ?_, ?_⟩
      · intro b hb
        have := htb b hb
        simp; omega
      · intro hn
        rcases hbuf hn with h | h
        · exact Or.inl h
        · exact absurd h.1 hEq
    · intro _
      refine ⟨by simp; omega, by simpa using hel, by simp, ?_, ?_, by simpa using hget⟩
      · intro b hb
        have := htb b hb
        simp; omega
      · intro hn
        rcases hbuf hn with h | h
        · exact h
        · exact absurd h.1 hEq

/-! ### The current term -/

theorem rewriteTerm_Fail (st : LexerState) (term : TermSpan) (s : List Nat) :
    (st.rewriteTerm term s).Fail = st.Fail := by
  funext m
  unfold LexerState.rewriteTerm LexerState.Fail
  cases term.loc <;> rfl

theorem FinalizeTerm_eq {D H : Type} (fl : FloatLib D) (h : Handler D H) (lx : Lexer H)
    (st : LexerState) (hT : st.HasTerm = true) (hd : 0 < st.op_depth_) :
    Lexer.FinalizeTerm fl h lx st =
      { result := (termAction fl h lx st.Term.2.term_type_ st.Term.1.data
                    st.Term.2.was_escaped_ st.Term.2.Fail).1,
        calls := (termAction fl h lx st.Term.2.term_type_ st.Term.1.data
                    st.Term.2.was_escaped_ st.Term.2.Fail).2.1,
        lexer := (termAction fl h lx st.Term.2.term_type_ st.Term.1.data
                    st.Term.2.was_escaped_ st.Term.2.Fail).2.2,
        state := match st.Term.2.term_type_ with
          | TermType.kStr =>
            LexerState.FinishTerm
              { st.Term.2.rewriteTerm st.Term.1
                  (LexerParseString st.Term.1.data st.Term.2.was_escaped_) with
                was_escaped_ := false }
          | _ => st.Term.2.FinishTerm } := by
  unfold Lexer.FinalizeTerm
  rw [if_neg (by rw [hT]; decide), if_neg (not_le.mpr hd)]
  generalize st.Term = ts
  obtain ⟨term, st2⟩ := ts
  unfold termAction
  simp only
  cases htt : st2.term_type_ with
  | kOp =>
    simp only
    split_ifs <;> rfl
  | kValue =>
    simp only
    split_ifs
    · rfl
    · cases LexerParseInt64 term.data with
      | some lval => rfl
      | none =>
        simp only
        cases LexerParseDouble fl term.data with
        | some dval => rfl
        | none =>
          simp only
          cases (h.LexerUnhandledValue lx.handler_ term.data).1 with
          | none => rfl
          | some err_msg =>
            simp only
            split_ifs <;> rfl
  | kStr =>
    simp only [mapFail, rewriteTerm_Fail]

theorem LexerParseString_loop_length (t : List Nat) :
    ∀ e : Bool, (LexerParseString.loop e t).length ≤ t.length := by
  induction t with
  | nil => intro e; simp [LexerParseString.loop]
  | cons ch rest ih =>
    intro e
    unfold LexerParseString.loop
    split_ifs
    · have := ih true
      simp
      omega
    · have := ih false
      simp
      omega

theorem LexerParseString_length (t : List Nat) (e : Bool) :
    (LexerParseString t e).length ≤ t.length := by
  unfold LexerParseString
  split_ifs
  · exact Nat.le_refl _
  · exact LexerParseString_loop_length t false

theorem slice_length (buf : List Nat) (b e : Nat) (h : e ≤ buf.length) :
    (slice buf b e).length = e - b := by
  simp [slice]
  omega

theorem Term_abs (st : LexerState) (c b : Nat) (hI : Inv1 st c) (hb : st.term_begin_ = some b) :
    st.Term.1.data = (st.term_buf_ ++ slice st.stream_.read_buf_ b st.stream_.available_begin_).dropLast
    ∧ st.Term.2.term_type_ = st.term_type_ ∧ st.Term.2.was_escaped_ = st.was_escaped_
    ∧ st.Term.2.Fail = st.Fail
    ∧ st.Term.2.stream_ = st.stream_
    ∧ st.Term.2.single_expr_ = st.single_expr_ ∧ st.Term.2.cur_line_ = st.cur_line_
    ∧ st.Term.2.cur_line_offset_ = st.cur_line_offset_ ∧ st.Term.2.op_depth_ = st.op_depth_
    ∧ st.Term.2.is_escaped_ = st.is_escaped_
    ∧ (∀ x, st.Term.1.loc = some x → x = b ∧ st.Term.1.data.length + b + 1 = st.stream_.available_begin_) := by
  obtain ⟨hbe, hel, hpos, htb, hbuf, hlast⟩ := hI
  obtain ⟨⟨buf, strm, ab, ae⟩, se, ln, col, dep, esc, wesc, tt, tb, tbuf⟩ := st
  simp only at hbe hel hpos htb hbuf hlast hb
  subst hb
  have hbl := htb b rfl
  have h1 : slice buf b ab = slice buf b (ab - 1) ++ [c] := by
    have h2 := slice_succ buf b (ab - 1) (by omega) (by omega)
    have h3 : ab - 1 + 1 = ab := by omega
    rw [h3] at h2
    rw [h2, List.getD_eq_getElem?_getD, hlast]
    rfl
  have h4 : (tbuf ++ slice buf b ab).dropLast = tbuf ++ slice buf b (ab - 1) := by
    rw [h1, ← List.append_assoc, List.dropLast_concat]
  simp only [h4]
  unfold LexerState.Term
  by_cases hl : 0 < tbuf.length
  · simp [hl, LexerState.SaveTerm, LexerState.Buffer]
    rfl
  · have : tbuf = [] := by
      cases tbuf with
      | nil => rfl
      | cons x xs => simp at hl
    subst this
    simp [LexerState.Buffer]
    rw [slice_length _ _ _ (by omega)]
    omega

/-! ### `FinalizeTerm` on the unread input -/

theorem FinalizeTerm_abs {D H : Type} (fl : FloatLib D) (h : Handler D H) (lx : Lexer H)
    (st : LexerState) (c : Nat) (hI : Inv1 st c) :
    (Lexer.FinalizeTerm fl h lx st).result = (Abs.FinalizeTerm fl h lx (Abs.of st)).result ∧
    (Lexer.FinalizeTerm fl h lx st).calls = (Abs.FinalizeTerm fl h lx (Abs.of st)).calls ∧
    (Lexer.FinalizeTerm fl h lx st).lexer = (Abs.FinalizeTerm fl h lx (Abs.of st)).lexer ∧
    Abs.of (Lexer.FinalizeTerm fl h lx st).state = (Abs.FinalizeTerm fl h lx (Abs.of st)).state ∧
    Inv (Lexer.FinalizeTerm fl h lx st).state ∧
    ((Lexer.FinalizeTerm fl h lx st).state.term_begin_ = none →
      (Lexer.FinalizeTerm fl h lx st).state.term_buf_ = []) := by
  cases htb : st.term_begin_ with
  | none =>
    have h1 : st.HasTerm = false := by simp [LexerState.HasTerm, htb]
    have h2 : (Abs.of st).term.isSome = false := by simp [Abs.of, htb]
    have e1 : (!st.HasTerm) = true := by rw [h1]; rfl
    have e2 : (!(Abs.of st).term.isSome) = true := by rw [h2]; rfl
    unfold Lexer.FinalizeTerm Abs.FinalizeTerm
    rw [if_pos e1, if_pos e2]
    exact ⟨rfl, rfl, rfl, rfl, hI.toInv, hI.h_buf⟩
  | some b =>
    have h1 : st.HasTerm = true := by simp [LexerState.HasTerm, htb]
    have h2 : (Abs.of st).term.isSome = true := by simp [Abs.of, htb]
    have e1 : ¬ ((!st.HasTerm) = true) := by rw [h1]; decide
    have e2 : ¬ ((!(Abs.of st).term.isSome) = true) := by rw [h2]; decide
    by_cases hd : st.op_depth_ ≤ 0
    · have hd3 : (Abs.of st).op_depth_ ≤ 0 := hd
      unfold Lexer.FinalizeTerm Abs.FinalizeTerm
      rw [if_neg e1, if_neg e2, if_pos hd, if_pos hd3]
      exact ⟨rfl, rfl, rfl, rfl, hI.toInv, hI.h_buf⟩
    · have hd2 : 0 < st.op_depth_ := not_le.mp hd
      rw [FinalizeTerm_eq fl h lx st h1 hd2]
      unfold Abs.FinalizeTerm
      have hd3 : ¬ (Abs.of st).op_depth_ ≤ 0 := hd
      rw [if_neg e2, if_neg hd3]
      obtain ⟨hdata, htt, hwe, hfail, hstream, hse, hln, hcol, hdep, hesc, hloc⟩ :=
        Term_abs st c b hI htb
      have hterm : ((Abs.of st).term.getD []).dropLast = st.Term.1.data := by
        rw [hdata]
        simp [Abs.of, htb]
      have hfail2 : (Abs.of st).Fail = st.Fail := rfl
      simp only [hterm, hfail2, htt, hwe, hfail]
      obtain ⟨hbe, hel, hpos, htb2, hbuf, hlast⟩ := hI
      have hlenP := LexerParseString_length st.Term.1.data st.was_escaped_
      generalize LexerParseString st.Term.1.data st.was_escaped_ = sv at hlenP
      generalize st.Term = ts at hdata htt hwe hfail hstream hse hln hcol hdep hesc hloc hterm hlenP
      obtain ⟨⟨data, loc⟩, st2⟩ := ts
      obtain ⟨strm2, se2, ln2, col2, dep2, esc2, wesc2, tt2, tb2, tbuf2⟩ := st2
      obtain ⟨⟨buf, strm, ab, ae⟩, se, ln, col, dep, esc, wesc, tt, tb, tbuf⟩ := st
      simp only at hdata htt hwe hstream hse hln hcol hdep hesc hloc hbe hel hpos hlast hlenP
      subst hstream hse hln hcol hdep hesc htt hwe
      refine ⟨rfl, rfl, rfl, ?_, ?_, ?_⟩
      · cases tt2 with
        | kOp => simp [Abs.of, LexerState.FinishTerm, Abs.State.FinishTerm]
        | kValue => simp [Abs.of, LexerState.FinishTerm, Abs.State.FinishTerm]
        | kStr =>
          cases loc with
          | none =>
            simp [Abs.of, LexerState.FinishTerm, Abs.State.FinishTerm, LexerState.rewriteTerm]
          | some x =>
            obtain ⟨hx, hx2⟩ := hloc x rfl
            subst hx
            simp [Abs.of, LexerState.FinishTerm, Abs.State.FinishTerm, LexerState.rewriteTerm]
            rw [slice_overwrite _ _ _ _ _ (by omega) (by omega)]
      · cases tt2 with
        | kOp => exact ⟨hbe, hel, Or.inl (by simp [LexerState.FinishTerm]; omega), by simp [LexerState.FinishTerm], by simp [LexerState.FinishTerm]⟩
        | kValue => exact ⟨hbe, hel, Or.inl (by simp [LexerState.FinishTerm]; omega), by simp [LexerState.FinishTerm], by simp [LexerState.FinishTerm]⟩
        | kStr =>
          cases loc with
          | none =>
            exact ⟨hbe, hel, Or.inl (by simp [LexerState.FinishTerm, LexerState.rewriteTerm]; omega),
              by simp [LexerState.FinishTerm], by simp [LexerState.FinishTerm]⟩
          | some x =>
            obtain ⟨hx, hx2⟩ := hloc x rfl
            subst hx
            have hov := overwrite_length buf sv x (by omega)
            exact ⟨hbe, by simp [LexerState.FinishTerm, LexerState.rewriteTerm, hov]; omega,
              Or.inl (by simp [LexerState.FinishTerm, LexerState.rewriteTerm, hov]; omega),
              by simp [LexerState.FinishTerm], by simp [LexerState.FinishTerm]⟩

      · cases tt2 <;> simp [LexerState.FinishTerm]

theorem Abs.FinalizeTerm_success {D H : Type} (fl : FloatLib D) (h : Handler D H) (lx : Lexer H)
    (a : Abs.State) (hs : (Abs.FinalizeTerm fl h lx a).result = LexerResult.success) :
    (Abs.FinalizeTerm fl h lx a).state.term = none := by
  unfold Abs.FinalizeTerm at hs ⊢
  by_cases h1 : (!a.term.isSome) = true
  · rw [if_pos h1]
    cases hterm : a.term with
    | none => rfl
    | some t => simp [hterm] at h1
  · rw [if_neg h1] at hs ⊢
    by_cases h2 : a.op_depth_ ≤ 0
    · rw [if_pos h2] at hs
      cases hs
    · rw [if_neg h2]
      cases a.term_type_ <;> rfl

/-! ### The comment and payload-tag loops -/

theorem skipComment_abs : ∀ (fuel : Nat) (st : LexerState), Inv st →
    (skipComment fuel st).map Abs.of = Abs.skipComment fuel (Abs.of st) ∧
    ∀ st2, skipComment fuel st = some st2 → Inv st2 := by
  intro fuel
  induction fuel with
  | zero => intro st _; simp [skipComment, Abs.skipComment]
  | succ n ih =>
    intro st hI
    obtain ⟨h1, h2, h3, _⟩ := NextChar_abs st hI
    unfold skipComment Abs.skipComment
    simp only [← h1, ← h2]
    by_cases hc : st.NextChar.1 = k_lexer_invalid_char ∨ st.NextChar.1 = 10
    · rw [if_pos hc, if_pos hc]
      refine ⟨rfl, ?_⟩
      intro st2 hst2
      cases hst2
      exact h3
    · rw [if_neg hc, if_neg hc]
      exact ih st.NextChar.2 h3

theorem readPayloadTag_abs : ∀ (k tok : Nat) (st : LexerState), Inv st →
    (readPayloadTag k tok st).1 = (Abs.readPayloadTag k tok (Abs.of st)).1 ∧
    (readPayloadTag k tok st).2.1 = (Abs.readPayloadTag k tok (Abs.of st)).2.1 ∧
    Abs.of (readPayloadTag k tok st).2.2 = (Abs.readPayloadTag k tok (Abs.of st)).2.2 ∧
    Inv (readPayloadTag k tok st).2.2 := by
  intro k
  induction k with
  | zero =>
    intro tok st hI
    obtain ⟨h1, h2, h3, _⟩ := NextChar_abs st hI
    unfold readPayloadTag Abs.readPayloadTag
    exact ⟨h1, rfl, h2, h3⟩
  | succ n ih =>
    intro tok st hI
    obtain ⟨h1, h2, h3, _⟩ := NextChar_abs st hI
    unfold readPayloadTag Abs.readPayloadTag
    simp only [← h1, ← h2]
    by_cases hc : st.NextChar.1 ≠ k_lexer_invalid_char ∧ st.NextChar.1 ≠ 91
    · rw [if_pos hc, if_pos hc]
      exact ih _ st.NextChar.2 h3
    · rw [if_neg hc, if_neg hc]
      exact ⟨rfl, rfl, rfl, h3⟩

/-! ### The cases of the main loop -/

theorem inString_abs {D H : Type} (c : Nat) (e : Bool) (lx : Lexer H) (st : LexerState)
    (hI : Inv1 st c) :
    RelT (Lexer.inString (D := D) c e lx st) (Abs.inString c e lx (Abs.of st)) := by
  have hInv := hI.toInv
  unfold Lexer.inString Abs.inString RelT Rel
  refine ⟨rfl, rfl, rfl, rfl, ?_, fun _ => ⟨?_, ?_⟩⟩
  · simp only
    split_ifs <;> rfl
  · simp only
    split_ifs <;> rfl
  · simp only
    split_ifs <;> exact ⟨hInv.h_be, hInv.h_el, hInv.h_cap, hInv.h_tb, hInv.h_buf⟩

theorem caseOther_abs {D H : Type} (c : Nat) (lx : Lexer H) (st : LexerState)
    (hI : Inv1 st c) :
    RelT (Lexer.caseOther (D := D) lx st) (Abs.caseOther c lx (Abs.of st)) := by
  have hInv := hI.toInv
  obtain ⟨hbe, hel, hpos, htb, hbuf, hlast⟩ := hI
  unfold Lexer.caseOther Abs.caseOther RelT Rel
  cases htbe : st.term_begin_ with
  | none =>
    have h1 : (!st.HasTerm) = true := by simp [LexerState.HasTerm, htbe]
    have h2 : (!(Abs.of st).term.isSome) = true := by simp [Abs.of, htbe]
    rw [if_pos h1, if_pos h2]
    have hsl := slice_getElem? _ _ _ hpos hlast
    have hb := hbuf htbe
    refine ⟨rfl, rfl, rfl, rfl, rfl, fun _ => ⟨?_, ?_⟩⟩
    · simp [Abs.of, LexerState.StartTerm, LexerState.Buffer, hsl, hb]
    · exact ⟨hbe, hel, hInv.h_cap, by simp [LexerState.StartTerm, LexerState.Buffer],
        by simp [LexerState.StartTerm]⟩
  | some b =>
    have h1 : ¬ ((!st.HasTerm) = true) := by simp [LexerState.HasTerm, htbe]
    have h2 : ¬ ((!(Abs.of st).term.isSome) = true) := by simp [Abs.of, htbe]
    rw [if_neg h1, if_neg h2]
    exact ⟨rfl, rfl, rfl, rfl, rfl, fun _ => ⟨rfl, hInv⟩⟩

theorem caseSpace_abs {D H : Type} (fl : FloatLib D) (h : Handler D H) (c : Nat) (lx : Lexer H)
    (st : LexerState) (hI : Inv1 st c) :
    RelT (Lexer.caseSpace fl h c lx st) (Abs.caseSpace fl h c lx (Abs.of st)) := by
  unfold Lexer.caseSpace Abs.caseSpace RelT Rel
  by_cases hc : c = 10
  · rw [if_pos hc, if_pos hc]
    have hF := FinalizeTerm_abs fl h lx st.NewLine c
      ⟨hI.h_be, hI.h_el, hI.h_pos, hI.h_tb, hI.h_buf, hI.h_last⟩
    have han : (Abs.of st).NewLine = Abs.of st.NewLine := rfl
    rw [han]
    obtain ⟨h1, h2, h3, h4, h5, _⟩ := hF
    exact ⟨congrArg flowOf h1, h1, h2, h3, congrArg Abs.State.input h4, fun _ => ⟨h4, h5⟩⟩
  · rw [if_neg hc, if_neg hc]
    obtain ⟨h1, h2, h3, h4, h5, _⟩ := FinalizeTerm_abs fl h lx st c hI
    exact ⟨congrArg flowOf h1, h1, h2, h3, congrArg Abs.State.input h4, fun _ => ⟨h4, h5⟩⟩

theorem caseQuote_abs {D H : Type} (fl : FloatLib D) (h : Handler D H) (c : Nat) (lx : Lexer H)
    (st : LexerState) (hI : Inv1 st c) :
    RelT (Lexer.caseQuote fl h lx st) (Abs.caseQuote fl h lx (Abs.of st)) := by
  obtain ⟨h1, h2, h3, h4, h5, h6⟩ := FinalizeTerm_abs fl h lx st c hI
  unfold Lexer.caseQuote Abs.caseQuote RelT Rel
  by_cases hk : st.term_type_ = TermType.kStr
  · have hkA : (Abs.of st).term_type_ = TermType.kStr := hk
    rw [if_pos hk, if_pos hkA]
    exact ⟨congrArg flowOf h1, h1, h2, h3, congrArg Abs.State.input h4, fun _ => ⟨h4, h5⟩⟩
  · have hkA : ¬ (Abs.of st).term_type_ = TermType.kStr := hk
    rw [if_neg hk, if_neg hkA]
    simp only
    have hS := Abs.FinalizeTerm_success fl h lx (Abs.of st)
    rw [← h1]
    cases hres : (Lexer.FinalizeTerm fl h lx st).result with
    | failure f =>
      simp only
      exact ⟨trivial, h1, h2, h3, congrArg Abs.State.input h4, fun hh => by cases hh⟩
    | success =>
      simp only
      have hterm := hS (h1 ▸ hres)
      rw [← h4] at hterm
      have htb : (Lexer.FinalizeTerm fl h lx st).state.term_begin_ = none := by
        cases htb2 : (Lexer.FinalizeTerm fl h lx st).state.term_begin_ with
        | none => rfl
        | some b => simp [Abs.of, htb2] at hterm
      have hbuf := h6 htb
      refine ⟨trivial, trivial, h2, h3, ?_, fun _ => ⟨?_, ?_⟩⟩
      · rw [← h4]; rfl
      · rw [← h4]
        simp [Abs.of, LexerState.StartTerm, LexerState.Buffer, slice_self, hbuf]
      · exact ⟨h5.h_be, h5.h_el, h5.h_cap, by simp [LexerState.StartTerm, LexerState.Buffer],
          by simp [LexerState.StartTerm]⟩

theorem flowOf_cont (r : LexerResult) (h : flowOf r = Flow.cont) : r = LexerResult.success := by
  cases r with
  | success => rfl
  | failure f => simp [flowOf, LexerResult.IsRight] at h

theorem FinalizeTerm_success_clean {D H : Type} (fl : FloatLib D) (h : Handler D H)
    (lx : Lexer H) (st : LexerState) (c : Nat) (hI : Inv1 st c)
    (hres : (Lexer.FinalizeTerm fl h lx st).result = LexerResult.success) :
    (Lexer.FinalizeTerm fl h lx st).state.term_begin_ = none ∧
    (Lexer.FinalizeTerm fl h lx st).state.term_buf_ = [] := by
  obtain ⟨h1, _, _, h4, _, h6⟩ := FinalizeTerm_abs fl h lx st c hI
  have hterm := Abs.FinalizeTerm_success fl h lx (Abs.of st) (h1 ▸ hres)
  rw [← h4] at hterm
  have htb : (Lexer.FinalizeTerm fl h lx st).state.term_begin_ = none := by
    cases htb2 : (Lexer.FinalizeTerm fl h lx st).state.term_begin_ with
    | none => rfl
    | some b => simp [Abs.of, htb2] at hterm
  exact ⟨htb, h6 htb⟩

theorem caseOpen_abs {D H : Type} (fl : FloatLib D) (h : Handler D H) (c : Nat) (lx : Lexer H)
    (st : LexerState) (hI : Inv1 st c) :
    RelT (Lexer.caseOpen fl h lx st) (Abs.caseOpen fl h lx (Abs.of st)) := by
  obtain ⟨h1, h2, h3, h4, h5, h6⟩ := FinalizeTerm_abs fl h lx st c hI
  unfold Lexer.caseOpen Abs.caseOpen RelT Rel
  refine ⟨congrArg flowOf h1, h1, h2, h3, ?_, fun hc => ⟨?_, ?_⟩⟩
  · dsimp only
    rw [← h4]; rfl
  · have hres := flowOf_cont _ hc
    obtain ⟨htb, hbuf⟩ := FinalizeTerm_success_clean fl h lx st c hI hres
    dsimp only
    rw [← h4]
    simp [Abs.of, LexerState.StartTerm, LexerState.Buffer, slice_self, hbuf]
  · exact ⟨h5.h_be, h5.h_el, h5.h_cap, by simp [LexerState.StartTerm, LexerState.Buffer],
      by simp [LexerState.StartTerm]⟩

theorem caseClose_abs {D H : Type} (fl : FloatLib D) (h : Handler D H) (c : Nat) (lx : Lexer H)
    (st : LexerState) (hI : Inv1 st c) :
    RelT (Lexer.caseClose fl h lx st) (Abs.caseClose fl h lx (Abs.of st)) := by
  obtain ⟨h1, h2, h3, h4, h5, h6⟩ := FinalizeTerm_abs fl h lx st c hI
  unfold Lexer.caseClose Abs.caseClose
  generalize Lexer.FinalizeTerm fl h lx st = d at h1 h2 h3 h4 h5 h6
  generalize Abs.FinalizeTerm fl h lx (Abs.of st) = ad at h1 h2 h3 h4
  obtain ⟨res, calls, lexer, state⟩ := d
  obtain ⟨ares, acalls, alexer, astate⟩ := ad
  simp only at h1 h2 h3 h4 h5 h6
  subst h1 h2 h3 h4
  have hInv2 : Inv { state with op_depth_ := state.op_depth_ - 1 } :=
    ⟨h5.h_be, h5.h_el, h5.h_cap, h5.h_tb, h5.h_buf⟩
  cases res with
  | failure f =>
    simp only
    have e1 : (Abs.of state).op_depth_ = state.op_depth_ := rfl
    have e2 : (Abs.of state).single_expr_ = state.single_expr_ := rfl
    rw [e1, e2]
    split_ifs
    · exact ⟨rfl, rfl, rfl, rfl, rfl, fun hh => by cases hh⟩
    · exact ⟨rfl, rfl, rfl, rfl, rfl, fun hh => by cases hh⟩
    · exact ⟨rfl, rfl, rfl, rfl, rfl, fun _ => ⟨rfl, hInv2⟩⟩
  | success =>
    simp only
    have e1 : (Abs.of state).op_depth_ = state.op_depth_ := rfl
    have e2 : (Abs.of state).single_expr_ = state.single_expr_ := rfl
    have e3 : mapFail state (h.LexerEndOp lexer.handler_).1 =
        (match (h.LexerEndOp lexer.handler_).1 with
          | none => LexerResult.success
          | some err_msg => LexerResult.failure ((Abs.of state).Fail err_msg)) := by
      unfold mapFail
      cases (h.LexerEndOp lexer.handler_).1 <;> rfl
    rw [e1, e2, e3]
    split_ifs
    · exact ⟨rfl, rfl, rfl, rfl, rfl, fun hh => by cases hh⟩
    · exact ⟨rfl, rfl, rfl, rfl, rfl, fun hh => by cases hh⟩
    · exact ⟨rfl, rfl, rfl, rfl, rfl, fun _ => ⟨rfl, hInv2⟩⟩

theorem casePayload_abs {D H : Type} (h : Handler D H) (lx : Lexer H)
    (st : LexerState) (hI : Inv st) :
    match Abs.casePayload (D := D) lx (Abs.of st) with
    | none => ∃ tok, Callback.LexerCustomData tok ∈ (Lexer.casePayload h lx st).2.calls
    | some ar => RelT (Lexer.casePayload h lx st) ar := by
  obtain ⟨h1, h2, h3, h4⟩ := readPayloadTag_abs 4 0 st hI
  unfold Lexer.casePayload Abs.casePayload
  simp only [← h1, ← h3]
  by_cases hc : (readPayloadTag 4 0 st).1 = 91
  · rw [if_pos hc, if_pos hc]
    exact ⟨_, List.mem_singleton.mpr rfl⟩
  · rw [if_neg hc, if_neg hc]
    exact ⟨rfl, rfl, rfl, rfl, rfl, fun hh => by cases hh⟩

theorem caseComment_abs {D H : Type} (fuel : Nat) (lx : Lexer H)
    (st : LexerState) (hI : Inv st) :
    match Abs.caseComment (D := D) fuel lx (Abs.of st) with
    | none => Lexer.caseComment (D := D) fuel lx st = none
    | some ar => ∃ r, Lexer.caseComment (D := D) fuel lx st = some r ∧ RelT r ar := by
  obtain ⟨h1, h2⟩ := skipComment_abs fuel st hI
  unfold Lexer.caseComment Abs.caseComment
  rw [← h1]
  cases hs : skipComment fuel st with
  | none => simp
  | some st2 =>
    have hI2 := h2 st2 hs
    simp only [Option.map_some']
    exact ⟨_, rfl, rfl, rfl, rfl, rfl, rfl, fun _ =>
      ⟨rfl, hI2.h_be, hI2.h_el, hI2.h_cap, hI2.h_tb, hI2.h_buf⟩⟩

/-! ### One turn and the whole loop -/

theorem Inv1_ResetEscape {st : LexerState} {c : Nat} (h : Inv1 st c) : Inv1 st.ResetEscape c :=
  ⟨h.h_be, h.h_el, h.h_pos, h.h_tb, h.h_buf, h.h_last⟩

theorem Body_abs {D H : Type} (fl : FloatLib D) (h : Handler D H) (fuel c : Nat) (lx : Lexer H)
    (st : LexerState) (hI : Inv1 st c) :
    match Abs.Body fl h fuel c lx (Abs.of st) with
    | none => Lexer.Body fl h fuel c lx st = none
    | some Abs.Turn.payload =>
      ∃ r, Lexer.Body fl h fuel c lx st = some r ∧
        ∃ tok, Callback.LexerCustomData tok ∈ r.2.calls
    | some (Abs.Turn.flow f ad) =>
      ∃ r, Lexer.Body fl h fuel c lx st = some r ∧ RelT r (f, ad) := by
  have hI2 := Inv1_ResetEscape hI
  unfold Lexer.Body Abs.Body
  dsimp only
  have ha : (Abs.of st).ResetEscape = Abs.of st.ResetEscape := rfl
  rw [ha]
  have e1 : (Abs.of st.ResetEscape).term_type_ = st.ResetEscape.term_type_ := rfl
  have e2 : (Abs.of st).is_escaped_ = st.is_escaped_ := rfl
  rw [e1, e2]
  by_cases hstr : st.ResetEscape.term_type_ = TermType.kStr ∧ (c ≠ 34 ∨ st.is_escaped_ = true)
  · rw [if_pos hstr, if_pos hstr]
    exact ⟨_, rfl, inString_abs c st.is_escaped_ lx st.ResetEscape hI2⟩
  · rw [if_neg hstr, if_neg hstr]
    by_cases h40 : c = 40
    · rw [if_pos h40, if_pos h40]
      exact ⟨_, rfl, caseOpen_abs fl h c lx st.ResetEscape hI2⟩
    · rw [if_neg h40, if_neg h40]
      by_cases h41 : c = 41
      · rw [if_pos h41, if_pos h41]
        exact ⟨_, rfl, caseClose_abs fl h c lx st.ResetEscape hI2⟩
      · rw [if_neg h41, if_neg h41]
        by_cases h34 : c = 34
        · rw [if_pos h34, if_pos h34]
          exact ⟨_, rfl, caseQuote_abs fl h c lx st.ResetEscape hI2⟩
        · rw [if_neg h34, if_neg h34]
          by_cases h33 : c = 33
          · rw [if_pos h33, if_pos h33]
            have hP := casePayload_abs h lx st.ResetEscape hI2.toInv
            cases hAP : Abs.casePayload (D := D) lx (Abs.of st.ResetEscape) with
            | none =>
              rw [hAP] at hP
              exact ⟨_, rfl, hP⟩
            | some ar =>
              rw [hAP] at hP
              exact ⟨_, rfl, hP⟩
          · rw [if_neg h33, if_neg h33]
            by_cases h59 : c = 59
            · rw [if_pos h59, if_pos h59]
              have hC := caseComment_abs (D := D) fuel lx st.ResetEscape hI2.toInv
              cases hAC : Abs.caseComment (D := D) fuel lx (Abs.of st.ResetEscape) with
              | none =>
                rw [hAC] at hC
                exact hC
              | some ar =>
                rw [hAC] at hC
                exact hC
            · rw [if_neg h59, if_neg h59]
              by_cases hsp : c = 10 ∨ c = 32 ∨ c = 9 ∨ c = 13
              · rw [if_pos hsp, if_pos hsp]
                exact ⟨_, rfl, caseSpace_abs fl h c lx st.ResetEscape hI2⟩
              · rw [if_neg hsp, if_neg hsp]
                exact ⟨_, rfl, caseOther_abs c lx st.ResetEscape hI2⟩

theorem RunLoop_abs {D H : Type} (fl : FloatLib D) (h : Handler D H) :
    ∀ (fuel : Nat) (lx : Lexer H) (st : LexerState), Inv st →
    match Abs.RunLoop fl h fuel lx (Abs.of st) with
    | none => Lexer.RunLoop fl h fuel lx st = none
    | some (Abs.Out.done o) => (Lexer.RunLoop fl h fuel lx st).map Done.observed = some o
    | some Abs.Out.payload =>
      ∀ d, Lexer.RunLoop fl h fuel lx st = some d →
        ∃ tok, Callback.LexerCustomData tok ∈ d.calls := by
  intro fuel
  induction fuel with
  | zero =>
    intro lx st _
    simp [Abs.RunLoop, Lexer.RunLoop]
  | succ n ih =>
    intro lx st hI
    obtain ⟨h1, h2, h3, h4⟩ := NextChar_abs st hI
    unfold Abs.RunLoop Lexer.RunLoop
    dsimp only
    rw [← h1, ← h2]
    by_cases hc : st.NextChar.1 = k_lexer_invalid_char
    · rw [if_pos hc, if_pos hc]
      rfl
    · rw [if_neg hc, if_neg hc]
      have hin : (Abs.of st).input ≠ [] := by
        intro hnil
        apply hc
        rw [h1]
        simp [Abs.State.NextChar, hnil]
      have hI1 := h4 hin
      have hB := Body_abs fl h n st.NextChar.1 lx st.NextChar.2 hI1
      cases hAB : Abs.Body fl h n st.NextChar.1 lx (Abs.of st.NextChar.2) with
      | none =>
        rw [hAB] at hB
        dsimp only at hB ⊢
        rw [hB]
      | some t =>
        rw [hAB] at hB
        cases t with
        | payload =>
          dsimp only at hB ⊢
          obtain ⟨r, hr, tok, htok⟩ := hB
          rw [hr]
          obtain ⟨f, d⟩ := r
          intro d2 hd2
          cases f with
          | ret =>
            dsimp only at hd2
            cases hd2
            exact ⟨tok, htok⟩
          | cont =>
            dsimp only at hd2
            cases hrec : Lexer.RunLoop fl h n d.lexer d.state with
            | none => rw [hrec] at hd2; cases hd2
            | some d3 =>
              rw [hrec] at hd2
              cases hd2
              exact ⟨tok, List.mem_append_left _ htok⟩
        | flow f ad =>
          dsimp only at hB
          obtain ⟨r, hr, hf, hres, hcalls, hlex, hinp, hcont⟩ := hB
          obtain ⟨f2, d⟩ := r
          dsimp only at hf hres hcalls hlex hinp hcont
          subst hf
          rw [hr]
          cases f2 with
          | ret =>
            dsimp only
            simp only [Option.map_some', Done.observed, hres, hcalls, hlex]
            rw [← hinp]
            rfl
          | cont =>
            dsimp only
            obtain ⟨hst, hInv⟩ := hcont rfl
            have hrec := ih d.lexer d.state hInv
            rw [← hlex, ← hst]
            cases hA : Abs.RunLoop fl h n d.lexer (Abs.of d.state) with
            | none =>
              rw [hA] at hrec
              dsimp only at hrec ⊢
              rw [hrec]
            | some o =>
              rw [hA] at hrec
              cases o with
              | payload =>
                dsimp only at hrec ⊢
                intro d2 hd2
                cases hrec2 : Lexer.RunLoop fl h n d.lexer d.state with
                | none => rw [hrec2] at hd2; cases hd2
                | some d3 =>
                  rw [hrec2] at hd2
                  cases hd2
                  obtain ⟨tok, htok⟩ := hrec d3 hrec2
                  exact ⟨tok, List.mem_append_right _ htok⟩
              | done o2 =>
                dsimp only at hrec ⊢
                cases hrec2 : Lexer.RunLoop fl h n d.lexer d.state with
                | none => rw [hrec2] at hrec; cases hrec
                | some d3 =>
                  rw [hrec2] at hrec
                  simp only [Option.map_some', Option.some.injEq] at hrec
                  subst hrec
                  simp only [Option.map_some', Done.observed, hcalls]

/-! ### Streaming and whole-buffer lexing agree -/

/-- C1. Lexing a byte sequence `S` through a `StreamReader` with a read buffer of
at least one byte, whatever the buffer held before and however the stream
splits `S` into reads, gives what lexing `S` held whole in one buffer gives,
when that run made no `LexerCustomData` call: the same handler calls with the
same arguments, the same result (success, or the same message, line and
column), the same handler state and the same unread input. -/
theorem lexer_streaming_equiv {D H : Type} (fl : FloatLib D) (h : Handler D H) (lx : Lexer H)
    (S buf0 plan : List Nat) (single_expr : Bool) (fuel : Nat) (hcap : 1 ≤ buf0.length)
    (d : Done D H)
    (hw : Lexer.Run fl h fuel lx (StreamReader.preloaded S DummyInStream S.length)
      single_expr = some d)
    (hno : ∀ tok, Callback.LexerCustomData tok ∉ d.calls) :
    ∃ d2, Lexer.Run fl h fuel lx (StreamReader.mk0 buf0 (InStream.of S plan))
        single_expr = some d2 ∧
      d2.calls = d.calls ∧ d2.result = d.result ∧ d2.lexer = d.lexer ∧
      d2.observed = d.observed := by
  unfold Lexer.Run at hw ⊢
  generalize hsw : LexerState.init (StreamReader.preloaded S DummyInStream S.length)
    single_expr = stw at hw
  generalize hss : LexerState.init (StreamReader.mk0 buf0 (InStream.of S plan))
    single_expr = sts
  have hIw : Inv stw := by
    subst hsw
    exact ⟨Nat.zero_le _, Nat.le_refl _, Or.inr rfl, by simp [LexerState.init],
      fun _ => Or.inl rfl⟩
  have hIs : Inv sts := by
    subst hss
    exact ⟨Nat.le_refl _, Nat.zero_le _, Or.inl hcap, by simp [LexerState.init],
      fun _ => Or.inl rfl⟩
  have hA : Abs.of sts = Abs.of stw := by
    subst hsw hss
    simp [Abs.of, LexerState.init, slice, DummyInStream, StreamReader.preloaded,
      StreamReader.mk0, InStream.of]
  have hRw := RunLoop_abs fl h fuel lx stw hIw
  have hRs := RunLoop_abs fl h fuel lx sts hIs
  rw [hA] at hRs
  cases hAR : Abs.RunLoop fl h fuel lx (Abs.of stw) with
  | none =>
    rw [hAR] at hRw
    dsimp only at hRw
    rw [hRw] at hw
    cases hw
  | some o =>
    rw [hAR] at hRw hRs
    cases o with
    | payload =>
      dsimp only at hRw
      obtain ⟨tok, htok⟩ := hRw d hw
      exact absurd htok (hno tok)
    | done o2 =>
      dsimp only at hRw hRs
      rw [hw] at hRw
      simp only [Option.map_some', Option.some.injEq] at hRw
      cases hrun : Lexer.RunLoop fl h fuel lx sts with
      | none => rw [hrun] at hRs; cases hRs
      | some d2 =>
        rw [hrun] at hRs
        simp only [Option.map_some', Option.some.injEq] at hRs
        have hobs : d2.observed = d.observed := hRs.trans hRw.symm
        refine ⟨d2, rfl, ?_, ?_, ?_, hobs⟩
        · exact congrArg Observed.calls hobs
        · exact congrArg Observed.result hobs
        · exact congrArg Observed.lexer hobs

/-- Witness of C1: a text with an operation, an integer and an escaped string,
read through a buffer of three bytes in reads of at most 1, 3 and 2 bytes. -/
theorem lexer_streaming_equiv_witness :
    1 ≤ [7, 7, 7].length ∧
    Lexer.Run noFloat countingHandler 20 { handler_ := 0, err_description_ := [] }
      (StreamReader.preloaded sampleText DummyInStream sampleText.length) false
      = some sampleDone ∧
    (∀ tok, Callback.LexerCustomData tok ∉ sampleDone.calls) ∧
    ∃ d2, Lexer.Run noFloat countingHandler 20 { handler_ := 0, err_description_ := [] }
        (StreamReader.mk0 [7, 7, 7] (InStream.of sampleText [0, 4, 1])) false = some d2 ∧
      d2.calls = sampleDone.calls ∧ d2.result = sampleDone.result ∧
      d2.lexer = sampleDone.lexer ∧ d2.observed = sampleDone.observed :=
  ⟨by decide, rfl, by intro tok h; simp [sampleDone] at h,
    lexer_streaming_equiv noFloat countingHandler { handler_ := 0, err_description_ := [] }
      sampleText [7, 7, 7] [0, 4, 1] false 20 (by decide) sampleDone rfl
      (by intro tok h; simp [sampleDone] at h)⟩

/-! ### The lexer ends -/

theorem Abs.NextChar_input (a : Abs.State) :
    a.NextChar.2.input <:+ a.input ∧
    (a.NextChar.1 ≠ k_lexer_invalid_char → a.input = a.NextChar.1 :: a.NextChar.2.input) := by
  unfold Abs.State.NextChar
  cases hin : a.input with
  | nil => simp
  | cons c rest => simp

theorem Abs.FinalizeTerm_input {D H : Type} (fl : FloatLib D) (h : Handler D H) (lx : Lexer H)
    (a : Abs.State) : (Abs.FinalizeTerm fl h lx a).state.input = a.input := by
  unfold Abs.FinalizeTerm
  split_ifs
  · rfl
  · rfl
  · dsimp only
    cases a.term_type_ <;> rfl

theorem Abs.caseOpen_input {D H : Type} (fl : FloatLib D) (h : Handler D H) (lx : Lexer H)
    (a : Abs.State) : (Abs.caseOpen fl h lx a).2.state.input = a.input := by
  unfold Abs.caseOpen
  exact Abs.FinalizeTerm_input fl h lx a

theorem Abs.caseClose_input {D H : Type} (fl : FloatLib D) (h : Handler D H) (lx : Lexer H)
    (a : Abs.State) : (Abs.caseClose fl h lx a).2.state.input = a.input := by
  have hF := Abs.FinalizeTerm_input fl h lx a
  unfold Abs.caseClose
  dsimp only
  cases hr : (Abs.FinalizeTerm fl h lx a).result with
  | success =>
    dsimp only
    split_ifs <;> exact hF
  | failure f =>
    dsimp only
    split_ifs <;> exact hF

theorem Abs.caseQuote_input {D H : Type} (fl : FloatLib D) (h : Handler D H) (lx : Lexer H)
    (a : Abs.State) : (Abs.caseQuote fl h lx a).2.state.input = a.input := by
  have hF := Abs.FinalizeTerm_input fl h lx a
  unfold Abs.caseQuote
  split_ifs
  · exact hF
  · dsimp only
    cases hr : (Abs.FinalizeTerm fl h lx a).result with
    | success => exact hF
    | failure f => exact hF

theorem Abs.caseSpace_input {D H : Type} (fl : FloatLib D) (h : Handler D H) (c : Nat)
    (lx : Lexer H) (a : Abs.State) : (Abs.caseSpace fl h c lx a).2.state.input = a.input := by
  unfold Abs.caseSpace
  dsimp only
  rw [Abs.FinalizeTerm_input]
  split_ifs <;> rfl

theorem Abs.caseOther_input {D H : Type} (c : Nat) (lx : Lexer H) (a : Abs.State) :
    (Abs.caseOther (D := D) c lx a).2.state.input = a.input := by
  unfold Abs.caseOther
  dsimp only
  split_ifs <;> rfl

theorem Abs.inString_input {D H : Type} (c : Nat) (e : Bool) (lx : Lexer H) (a : Abs.State) :
    (Abs.inString (D := D) c e lx a).2.state.input = a.input := by
  unfold Abs.inString
  dsimp only
  split_ifs <;> rfl

theorem Abs.skipComment_returns :
    ∀ (fuel : Nat) (a : Abs.State), a.input.length < fuel →
      ∃ s, Abs.skipComment fuel a = some s ∧ s.input <:+ a.input := by
  intro fuel
  induction fuel with
  | zero =>
    intro a hlt
    omega
  | succ n ih =>
    intro a hlt
    obtain ⟨hsuf, hcons⟩ := Abs.NextChar_input a
    unfold Abs.skipComment
    dsimp only
    by_cases hc : a.NextChar.1 = k_lexer_invalid_char ∨ a.NextChar.1 = 10
    · rw [if_pos hc]
      exact ⟨_, rfl, hsuf⟩
    · rw [if_neg hc]
      have hne : a.NextChar.1 ≠ k_lexer_invalid_char := fun h0 => hc (Or.inl h0)
      have hin := hcons hne
      have hlen : a.NextChar.2.input.length < n := by
        have : a.input.length = a.NextChar.2.input.length + 1 := by
          rw [hin]
          simp
        omega
      obtain ⟨s, hs, hsuf2⟩ := ih a.NextChar.2 hlen
      exact ⟨s, hs, hsuf2.trans hsuf⟩

theorem Abs.Body_returns {D H : Type} (fl : FloatLib D) (h : Handler D H) (fuel c : Nat)
    (lx : Lexer H) (a : Abs.State) (hc : c ≠ 33) (hlt : a.input.length < fuel) :
    ∃ f d, Abs.Body fl h fuel c lx a = some (Abs.Turn.flow f d) ∧
      d.state.input <:+ a.input := by
  have hre : a.ResetEscape.input = a.input := rfl
  unfold Abs.Body
  dsimp only
  split_ifs with h1 h2 h3 h4 h5 h6
  · exact ⟨_, _, rfl, by rw [Abs.inString_input]; exact List.suffix_refl _⟩
  · exact ⟨_, _, rfl, by rw [Abs.caseOpen_input]; exact List.suffix_refl _⟩
  · exact ⟨_, _, rfl, by rw [Abs.caseClose_input]; exact List.suffix_refl _⟩
  · exact ⟨_, _, rfl, by rw [Abs.caseQuote_input]; exact List.suffix_refl _⟩
  · obtain ⟨s, hs, hsuf⟩ := Abs.skipComment_returns fuel a.ResetEscape hlt
    have hcm : Abs.caseComment (D := D) fuel lx a.ResetEscape =
        some (Flow.cont, { result := LexerResult.success, calls := [], lexer := lx,
                           state := s.NewLine }) := by
      simp only [Abs.caseComment, hs]
    rw [hcm]
    exact ⟨Flow.cont, _, rfl, hsuf⟩
  · exact ⟨_, _, rfl, by rw [Abs.caseSpace_input]; exact List.suffix_refl _⟩
  · exact ⟨_, _, rfl, by rw [Abs.caseOther_input]; exact List.suffix_refl _⟩

theorem Abs.RunLoop_returns {D H : Type} (fl : FloatLib D) (h : Handler D H) :
    ∀ (fuel : Nat) (lx : Lexer H) (a : Abs.State), a.input.length < fuel → 33 ∉ a.input →
      ∃ o, Abs.RunLoop fl h fuel lx a = some (Abs.Out.done o) := by
  intro fuel
  induction fuel with
  | zero =>
    intro lx a hlt _
    omega
  | succ n ih =>
    intro lx a hlt hbang
    obtain ⟨hsuf, hcons⟩ := Abs.NextChar_input a
    unfold Abs.RunLoop
    dsimp only
    by_cases hc : a.NextChar.1 = k_lexer_invalid_char
    · rw [if_pos hc]
      exact ⟨_, rfl⟩
    · rw [if_neg hc]
      have hin := hcons hc
      have hlen : a.NextChar.2.input.length < n := by
        have : a.input.length = a.NextChar.2.input.length + 1 := by
          rw [hin]
          simp
        omega
      have hc33 : a.NextChar.1 ≠ 33 := by
        intro h33
        apply hbang
        rw [hin, h33]
        exact List.mem_cons_self _ _
      obtain ⟨f, d, hB, hsufB⟩ := Abs.Body_returns fl h n a.NextChar.1 lx a.NextChar.2 hc33 hlen
      rw [hB]
      cases f with
      | ret => exact ⟨_, rfl⟩
      | cont =>
        dsimp only
        have hsuf2 := hsufB.trans hsuf
        have hlen2 : d.state.input.length < n := by
          have := hsufB.length_le
          omega
        have hbang2 : 33 ∉ d.state.input := fun hm => hbang (hsuf2.subset hm)
        obtain ⟨o, ho⟩ := ih d.lexer d.state hlen2 hbang2
        rw [ho]
        exact ⟨_, rfl⟩

/-- Lexing a byte sequence `S` that holds no `!` (so that no custom-payload block
can start) ends within `S.length + 1` turns of the main loop, held whole in one
buffer as well as through a `StreamReader` with a read buffer of at least one
byte and any split of `S` into reads, and both runs make the same handler
calls and give the same result, handler state and unread input. -/
theorem lexer_streaming_total {D H : Type} (fl : FloatLib D) (h : Handler D H) (lx : Lexer H)
    (S buf0 plan : List Nat) (single_expr : Bool) (fuel : Nat) (hcap : 1 ≤ buf0.length)
    (hfuel : S.length < fuel) (hbang : 33 ∉ S) :
    ∃ d d2, Lexer.Run fl h fuel lx (StreamReader.preloaded S DummyInStream S.length)
        single_expr = some d ∧
      Lexer.Run fl h fuel lx (StreamReader.mk0 buf0 (InStream.of S plan))
        single_expr = some d2 ∧
      d2.calls = d.calls ∧ d2.result = d.result ∧ d2.lexer = d.lexer ∧
      d2.observed = d.observed := by
  unfold Lexer.Run
  generalize hsw : LexerState.init (StreamReader.preloaded S DummyInStream S.length)
    single_expr = stw
  generalize hss : LexerState.init (StreamReader.mk0 buf0 (InStream.of S plan))
    single_expr = sts
  have hIw : Inv stw := by
    subst hsw
    exact ⟨Nat.zero_le _, Nat.le_refl _, Or.inr rfl, by simp [LexerState.init],
      fun _ => Or.inl rfl⟩
  have hIs : Inv sts := by
    subst hss
    exact ⟨Nat.le_refl _, Nat.zero_le _, Or.inl hcap, by simp [LexerState.init],
      fun _ => Or.inl rfl⟩
  have hA : Abs.of sts = Abs.of stw := by
    subst hsw hss
    simp [Abs.of, LexerState.init, slice, DummyInStream, StreamReader.preloaded,
      StreamReader.mk0, InStream.of]
  have hin : (Abs.of stw).input = S := by
    subst hsw
    simp [Abs.of, LexerState.init, slice, DummyInStream, StreamReader.preloaded]
  have hRw := RunLoop_abs fl h fuel lx stw hIw
  have hRs := RunLoop_abs fl h fuel lx sts hIs
  rw [hA] at hRs
  obtain ⟨o, ho⟩ := Abs.RunLoop_returns fl h fuel lx (Abs.of stw)
    (by rw [hin]; exact hfuel) (by rw [hin]; exact hbang)
  rw [ho] at hRw hRs
  dsimp only at hRw hRs
  cases hrw : Lexer.RunLoop fl h fuel lx stw with
  | none => rw [hrw] at hRw; cases hRw
  | some d =>
    cases hrs : Lexer.RunLoop fl h fuel lx sts with
    | none => rw [hrs] at hRs; cases hRs
    | some d2 =>
      rw [hrw] at hRw
      rw [hrs] at hRs
      simp only [Option.map_some', Option.some.injEq] at hRw hRs
      have hobs : d2.observed = d.observed := hRs.trans hRw.symm
      exact ⟨d, d2, rfl, rfl, congrArg Observed.calls hobs, congrArg Observed.result hobs,
        congrArg Observed.lexer hobs, hobs⟩

/-- The total form of the equivalence at the sample text, read through a buffer
of two bytes. -/
theorem lexer_streaming_total_witness :
    1 ≤ [0, 0].length ∧ sampleText.length < 20 ∧ 33 ∉ sampleText ∧
    ∃ d d2, Lexer.Run noFloat countingHandler 20 { handler_ := 0, err_description_ := [] }
        (StreamReader.preloaded sampleText DummyInStream sampleText.length) false = some d ∧
      Lexer.Run noFloat countingHandler 20 { handler_ := 0, err_description_ := [] }
        (StreamReader.mk0 [0, 0] (InStream.of sampleText [])) false = some d2 ∧
      d2.calls = d.calls ∧ d2.result = d.result ∧ d2.lexer = d.lexer ∧
      d2.observed = d.observed :=
  ⟨by decide, by decide, by decide,
    lexer_streaming_total noFloat countingHandler { handler_ := 0, err_description_ := [] }
      sampleText [0, 0] [] false 20 (by decide) (by decide) (by decide)⟩

/-! ### One call of the VM -/

theorem PurgeStackFrame_loop_append {D : Type} (B A : List (TypedValue D)) (barrier : TypedValue D)
    (hb : barrier.type = TypeSchemaPtr.FrameBarrier) :
    ∀ (k : Nat) (A1 A2 : List (TypedValue D)), A = A1 ++ A2 → A1.length = k →
      (∀ v ∈ A1, v.type ≠ TypeSchemaPtr.FrameBarrier) →
      PurgeStackFrame.loop (B ++ [barrier] ++ A) (B.length + 1 + k) = B := by
  intro k
  induction k with
  | zero =>
    intro A1 A2 _ _ _
    show PurgeStackFrame.loop (B ++ [barrier] ++ A) (B.length + 1) = B
    unfold PurgeStackFrame.loop
    have hget : (B ++ [barrier] ++ A).get? B.length = some barrier := by
      have : B ++ [barrier] ++ A = B ++ (barrier :: A) := by simp
      rw [this, List.get?_eq_getElem?, List.getElem?_append_right (Nat.le_refl _)]
      simp
    rw [hget]
    simp [hb]
  | succ n ih =>
    intro A1 A2 hA hlen hno
    have hne : A1 ≠ [] := by
      intro h
      rw [h] at hlen
      simp at hlen
    obtain ⟨A1i, x, rfl⟩ : ∃ A1i x, A1 = A1i ++ [x] :=
      ⟨A1.dropLast, A1.getLast hne, (List.dropLast_append_getLast hne).symm⟩
    have hlen2 : A1i.length = n := by simpa using hlen
    show PurgeStackFrame.loop (B ++ [barrier] ++ A) (B.length + 1 + n + 1) = B
    unfold PurgeStackFrame.loop
    have hget : (B ++ [barrier] ++ A).get? (B.length + 1 + n) = some x := by
      rw [hA]
      have : B ++ [barrier] ++ (A1i ++ [x] ++ A2) = (B ++ [barrier] ++ A1i) ++ (x :: A2) := by
        simp
      have hl : (B ++ [barrier] ++ A1i).length = B.length + 1 + n := by simp [hlen2]; omega
      rw [this, List.get?_eq_getElem?, List.getElem?_append_right (by rw [hl]), hl]
      simp
    rw [hget]
    have hx : x.type ≠ TypeSchemaPtr.FrameBarrier := hno x (by simp)
    simp only [hx, if_false]
    exact ih A1i (x :: A2) (by rw [hA]; simp) hlen2
      (fun v hv => hno v (List.mem_append_left _ hv))

theorem PurgeStackFrame_frame {D : Type} (B A : List (TypedValue D)) (barrier : TypedValue D)
    (hb : barrier.type = TypeSchemaPtr.FrameBarrier)
    (hA : ∀ v ∈ A, v.type ≠ TypeSchemaPtr.FrameBarrier) :
    PurgeStackFrame (B ++ [barrier] ++ A) = B := by
  unfold PurgeStackFrame
  have hl : (B ++ [barrier] ++ A).length = B.length + 1 + A.length := by simp; omega
  rw [hl]
  exact PurgeStackFrame_loop_append B A barrier hb A.length A [] (by simp) rfl hA

/-- C3. On a stack `B ++ [FrameBarrier] ++ A` in which `A` holds no barrier, a
`Call` of a host function that returns ok with the output `O` leaves the stack
`B ++ O`: execution goes on from that stack (so it is the final stack when the
call is the last instruction), after recording the one call. -/
theorem call_ok_replaces_frame {D U : Type} (fns : Nat → HostFn D U) (instr : Instruction D)
    (rest : List (Instruction D)) (B A O : List (TypedValue D)) (barrier : TypedValue D)
    (cc cc2 : CallContext D U) (hcode : instr.code = OpCode.Call)
    (hb : barrier.type = TypeSchemaPtr.FrameBarrier)
    (hA : ∀ v ∈ A, v.type ≠ TypeSchemaPtr.FrameBarrier)
    (hf : fns instr.data.value.get_ptr { cc with args := B ++ [barrier] ++ A, output := [] }
      = (true, cc2))
    (hO : cc2.output = O) :
    (Program.ExecuteLoop fns [instr] (B ++ [barrier] ++ A) cc).stack = B ++ O ∧
    Program.ExecuteLoop fns (instr :: rest) (B ++ [barrier] ++ A) cc =
      { Program.ExecuteLoop fns rest (B ++ O) cc2 with
        calls := { fn := instr.data.value.get_ptr, stack := B ++ [barrier] ++ A, ok := true,
                   output := O, error_text := cc2.error_text }
                 :: (Program.ExecuteLoop fns rest (B ++ O) cc2).calls,
        steps := (Program.ExecuteLoop fns rest (B ++ O) cc2).steps + 1 } := by
  have hP := PurgeStackFrame_frame B A barrier hb hA
  constructor
  · unfold Program.ExecuteLoop
    simp only [hcode, hf, hP, hO]
    simp [Program.ExecuteLoop]
  · conv => lhs; unfold Program.ExecuteLoop
    simp only [hcode, hf, hP, hO]
    simp

/-! ### A failing call ends the program -/

/-- C4. If a host function returns failure, `Program::Execute` stops there: the
failing call is the last host call made, the only call on the serializer is
`Serialize(error_text)` with the text of that call's context, the residual
stack is not serialized, and the last instruction executed (number `steps`)
is that `Call`. -/
theorem execute_stops_at_failure {D U : Type} (fns : Nat → HostFn D U) :
    ∀ (code : List (Instruction D)) (stack : List (TypedValue D)) (cc : CallContext D U)
      (r : CallRecord D),
      r ∈ (Program.ExecuteLoop fns code stack cc).calls → r.ok = false →
      (Program.ExecuteLoop fns code stack cc).calls.getLast? = some r ∧
      (Program.ExecuteLoop fns code stack cc).serialized = [SerializeCall.str r.error_text] ∧
      0 < (Program.ExecuteLoop fns code stack cc).steps ∧
      ∃ instr, code.get? ((Program.ExecuteLoop fns code stack cc).steps - 1) = some instr ∧
        instr.code = OpCode.Call ∧ instr.data.value.get_ptr = r.fn := by
  intro code
  induction code with
  | nil =>
    intro stack cc r hr _
    simp [Program.ExecuteLoop] at hr
  | cons instr rest ih =>
    intro stack cc r hr hok
    unfold Program.ExecuteLoop at hr ⊢
    cases hcode : instr.code with
    | Invalid =>
      simp only [hcode] at hr ⊢
      obtain ⟨h1, h2, h3, i, h4, h5⟩ := ih stack cc r hr hok
      refine ⟨h1, h2, Nat.succ_pos _, i, ?_, h5⟩
      have : (Program.ExecuteLoop fns rest stack cc).steps + 1 - 1 =
          ((Program.ExecuteLoop fns rest stack cc).steps - 1) + 1 := by omega
      rw [this]
      simpa using h4
    | Push =>
      simp only [hcode] at hr ⊢
      obtain ⟨h1, h2, h3, i, h4, h5⟩ := ih (stack ++ [instr.data]) cc r hr hok
      refine ⟨h1, h2, Nat.succ_pos _, i, ?_, h5⟩
      have : (Program.ExecuteLoop fns rest (stack ++ [instr.data]) cc).steps + 1 - 1 =
          ((Program.ExecuteLoop fns rest (stack ++ [instr.data]) cc).steps - 1) + 1 := by omega
      rw [this]
      simpa using h4
    | Call =>
      simp only [hcode] at hr ⊢
      cases hres : (fns instr.data.value.get_ptr { cc with args := stack, output := [] }).1 with
      | false =>
        simp only [hres, Bool.not_false, if_true] at hr ⊢
        simp only [List.mem_singleton] at hr
        subst hr
        exact ⟨rfl, rfl, Nat.one_pos, instr, rfl, hcode, rfl⟩
      | true =>
        simp only [hres, Bool.not_true, Bool.false_eq_true, if_false] at hr ⊢
        rcases List.mem_cons.mp hr with h0 | h0
        · rw [h0] at hok
          simp [hres] at hok
        · obtain ⟨h1, h2, h3, i, h4, h5⟩ := ih _ _ r h0 hok
          refine ⟨?_, h2, Nat.succ_pos _, i, ?_, h5⟩
          · rw [List.getLast?_cons, h1]
            rfl
          · generalize (Program.ExecuteLoop fns rest _ _).steps = k at h3 h4 ⊢
            have : k + 1 - 1 = (k - 1) + 1 := by omega
            rw [this]
            simpa using h4

/-- Witness of C3: `+` called on the frame `2, 1` above the string `x` leaves the
string and the sum 3. -/
theorem call_ok_replaces_frame_witness :
    (Program.ExecuteLoop (builtinFns noFloat) [callInstr Unit fn_add]
      ([strValue Unit [120]] ++ [barrierValue Unit] ++ [intValue Unit 2, intValue Unit 1])
      (emptyContext Unit)).stack = [strValue Unit [120]] ++ [intValue Unit 3] :=
  (call_ok_replaces_frame (builtinFns noFloat) (callInstr Unit fn_add) []
    [strValue Unit [120]] [intValue Unit 2, intValue Unit 1] [intValue Unit 3]
    (barrierValue Unit) (emptyContext Unit) sampleContext
    rfl rfl (by decide) rfl rfl).1

/-- Witness of C4: a program whose first call, `+` on a string, fails. -/
theorem execute_stops_at_failure_witness :
    failingRecord ∈
      (Program.ExecuteLoop (builtinFns noFloat) failingCode [] (emptyContext Unit)).calls ∧
    failingRecord.ok = false ∧
    (Program.ExecuteLoop (builtinFns noFloat) failingCode [] (emptyContext Unit)).serialized
      = [SerializeCall.str failingRecord.error_text] :=
  have hm : failingRecord ∈
      (Program.ExecuteLoop (builtinFns noFloat) failingCode [] (emptyContext Unit)).calls := by
    decide
  ⟨hm, rfl,
    (execute_stops_at_failure (builtinFns noFloat) failingCode [] (emptyContext Unit)
      failingRecord hm rfl).2.1⟩

/-! ### Runs of small programs -/

/-- C10 (as claimed, refuted). The program compiled from `(+ 1 2)` is not the
sequence Push 1, Push 2, Push FrameBarrier, Call + that the claim gives. -/
theorem compile_add_claimed_order_fails :
    compiledCode noFloat 20 builtinEnv (bytes "(+ 1 2)") ≠
      some [pushInstr (intValue Unit 1), pushInstr (intValue Unit 2),
            pushInstr (barrierValue Unit), callInstr Unit fn_add] := by
  decide

/-- C10 (amended). Compiling `(+ 1 2)` yields, after the reversal, exactly
Push FrameBarrier, Push 2, Push 1, Call + in that order, with any fuel from
the 8 turns of the lexer loop on; run from an empty stack, these instructions
put the FrameBarrier at the bottom of the frame and the first argument 1 on top
when `+` is called. -/
theorem compile_add_reversed_order (k : Nat) :
    compiledCode noFloat (k + 8) builtinEnv (bytes "(+ 1 2)") =
      some [pushInstr (barrierValue Unit), pushInstr (intValue Unit 2),
            pushInstr (intValue Unit 1), callInstr Unit fn_add] ∧
    ((Program.Execute (builtinFns noFloat)
        { code_ := [pushInstr (barrierValue Unit), pushInstr (intValue Unit 2),
                    pushInstr (intValue Unit 1), callInstr Unit fn_add] } ()).calls.map
      fun r => r.stack) = [[barrierValue Unit, intValue Unit 2, intValue Unit 1]] :=
  ⟨rfl, rfl⟩

/-- C7. The built-in `-` and `*` compute in `int16_t`: `(- 100000 1)` answers
-31073 and `(* 300 300)` answers 24464, each typed `int16_t`, where 64-bit
arithmetic gives 99999 and 90000; `+` on the same kind of arguments answers in
`int64_t`. -/
theorem sub_mul_truncate_to_int16 :
    (math_sub noFloat { emptyContext Unit with
        args := [barrierValue Unit, intValue Unit 1, intValue Unit 100000] }).2.output =
      [{ type := TypeSchemaPtr.int16_t, value := Value.i64 (-31073) }] ∧
    (math_mul noFloat { emptyContext Unit with
        args := [barrierValue Unit, intValue Unit 300, intValue Unit 300] }).2.output =
      [{ type := TypeSchemaPtr.int16_t, value := Value.i64 24464 }] ∧
    (math_add noFloat { emptyContext Unit with
        args := [barrierValue Unit, intValue Unit 1, intValue Unit 100000] }).2.output =
      [{ type := TypeSchemaPtr.int64_t, value := Value.i64 100001 }] ∧
    runJson 40 16 (bytes "(- 100000 1)") = some (bytes "[-31073]\n") ∧
    runJson 40 16 (bytes "(* 300 300)") = some (bytes "[24464]\n") := by
  decide

/-- C5 (as claimed, refuted). Running the sum with the built-in `+` and the
JSON serializer does not write `25` and a newline. -/
theorem sum_output_not_25 :
    runJson 100 16
      (bytes "(+ 100 -1000 900 -9223372036854775808 9223372036854775807 25)") ≠
      some (bytes "25\n") := by
  decide

end slang

/-! ### What the writer and the JSON serializer write -/

theorem StreamWriter.Wrote.refl (w : StreamWriter) (h : w.Ok) : StreamWriter.Wrote w w [] :=
  ⟨h, by simp, rfl⟩

theorem StreamWriter.Wrote.trans {w w1 w2 : StreamWriter} {a b : List Nat}
    (h1 : StreamWriter.Wrote w w1 a) (h2 : StreamWriter.Wrote w1 w2 b) :
    StreamWriter.Wrote w w2 (a ++ b) :=
  ⟨h2.ok, by rw [h2.sent, h1.sent, List.append_assoc], h2.error.trans h1.error⟩

theorem StreamWriter.Flush_accepts (w : StreamWriter) (h : w.stream_.closed = false) :
    w.Flush.1 = true ∧ w.Flush.2.buffered = [] ∧
      w.Flush.2.stream_.received = w.stream_.received ++ w.buffered ∧
      w.Flush.2.write_buf_size = w.write_buf_size ∧ w.Flush.2.stream_.closed = false ∧
      w.Flush.2.stream_.write_error_ = w.stream_.write_error_ := by
  simp [StreamWriter.Flush, OutStream.Write, h]

theorem StreamWriter.WriteData_loop_wrote :
    ∀ (fuel : Nat) (w : StreamWriter) (rest : List Nat), w.Ok →
      rest.length + (if w.buffered.length = w.write_buf_size then 1 else 0) ≤ fuel →
      ∃ w2, StreamWriter.WriteData.loop fuel w rest = some (true, w2) ∧
        StreamWriter.Wrote w w2 rest := by
  intro fuel
  induction fuel with
  | zero =>
    intro w rest hok hf
    have hrest : rest = [] := List.length_eq_zero.mp (by omega)
    subst hrest
    exact ⟨w, by simp [StreamWriter.WriteData.loop], StreamWriter.Wrote.refl w hok⟩
  | succ n ih =>
    intro w rest hok hf
    by_cases hrest : rest = []
    · subst hrest
      exact ⟨w, by simp [StreamWriter.WriteData.loop], StreamWriter.Wrote.refl w hok⟩
    · have hpos : 0 < rest.length := List.length_pos.mpr hrest
      have hcap := hok.cap
      have hfits := hok.fits
      unfold StreamWriter.WriteData.loop
      rw [if_neg hrest]
      dsimp only
      generalize hsz : min rest.length (w.write_buf_size - w.buffered.length) = sz
      have hsz1 : sz ≤ rest.length := by omega
      have hsz2 : w.buffered.length + sz ≤ w.write_buf_size := by omega
      by_cases hdrop : List.drop sz rest = []
      · rw [if_pos hdrop]
        have htake : List.take sz rest = rest := by
          have := List.take_append_drop sz rest
          rw [hdrop, List.append_nil] at this
          exact this
        refine ⟨_, rfl, ⟨⟨hcap, ?_, hok.accepts⟩, ?_, rfl⟩⟩
        · simp only [List.length_append, List.length_take]
          omega
        · simp only [StreamWriter.sent, htake, List.append_assoc]
      · rw [if_neg hdrop]
        generalize hw1 : ({ w with buffered := w.buffered ++ List.take sz rest } : StreamWriter)
          = w1
        have hw1b : w1.buffered = w.buffered ++ List.take sz rest := by rw [← hw1]
        have hw1s : w1.stream_ = w.stream_ := by rw [← hw1]
        have hw1c : w1.write_buf_size = w.write_buf_size := by rw [← hw1]
        obtain ⟨hf1, hf2, hf3, hf4, hf5, hf6⟩ := StreamWriter.Flush_accepts w1
          (by rw [hw1s]; exact hok.accepts)
        rw [hf1]
        simp only [Bool.not_true, Bool.false_eq_true, if_false]
        have hlen : (List.drop sz rest).length +
            (if w1.Flush.2.buffered.length = w1.Flush.2.write_buf_size then 1 else 0) ≤ n := by
          have h0 : ¬ (w1.Flush.2.buffered.length = w1.Flush.2.write_buf_size) := by
            rw [hf2, hf4, hw1c, List.length_nil]
            omega
          rw [if_neg h0, List.length_drop]
          by_cases hfull : w.buffered.length = w.write_buf_size
          · rw [if_pos hfull] at hf
            omega
          · rw [if_neg hfull] at hf
            have : 1 ≤ sz := by omega
            omega
        obtain ⟨w2, hrun, hw⟩ := ih w1.Flush.2 (List.drop sz rest)
          ⟨by rw [hf4, hw1c]; exact hcap, by rw [hf2]; simp, hf5⟩ hlen
        refine ⟨w2, hrun, ⟨hw.ok, ?_, ?_⟩⟩
        · rw [hw.sent]
          simp only [StreamWriter.sent, hf2, hf3, hw1b, hw1s, List.append_nil,
            List.append_assoc, List.take_append_drop]
        · rw [hw.error, hf6, hw1s]

theorem StreamWriter.put_wrote (w : StreamWriter) (buf : List Nat) (hok : w.Ok) :
    ∃ w2, w.put buf = some w2 ∧ StreamWriter.Wrote w w2 buf := by
  obtain ⟨w2, h, hw⟩ := StreamWriter.WriteData_loop_wrote (buf.length + 1) w buf hok
    (by split <;> omega)
  exact ⟨w2, by simp [StreamWriter.put, StreamWriter.WriteData, h], hw⟩

theorem StreamWriter.putLiteral_wrote (w : StreamWriter) (lit : String) (hok : w.Ok) :
    ∃ w2, w.putLiteral lit = some w2 ∧ StreamWriter.Wrote w w2 (bytes lit ++ [0]) :=
  StreamWriter.put_wrote w _ hok

theorem StreamWriter.Emits.put (buf : List Nat) :
    StreamWriter.Emits (fun w => w.put buf) buf :=
  fun w hok => StreamWriter.put_wrote w buf hok

theorem StreamWriter.Emits.putLiteral (lit : String) :
    StreamWriter.Emits (fun w => w.putLiteral lit) (bytes lit ++ [0]) :=
  fun w hok => StreamWriter.putLiteral_wrote w lit hok

theorem StreamWriter.Emits.bind {f g : StreamWriter → Option StreamWriter} {a b t : List Nat}
    (hf : StreamWriter.Emits f a) (hg : StreamWriter.Emits g b) (ht : t = a ++ b) :
    StreamWriter.Emits (fun w => (f w).bind g) t := by
  intro w hok
  obtain ⟨w1, h1, hw1⟩ := hf w hok
  obtain ⟨w2, h2, hw2⟩ := hg w1 hw1.ok
  refine ⟨w2, ?_, ?_⟩
  · simp only [h1, Option.some_bind, h2]
  · rw [ht]
    exact hw1.trans hw2

theorem JsonSerializer.WriteEscapedString_loop_emits (str : List Nat) :
    StreamWriter.Emits (JsonSerializer.WriteEscapedString.loop str [])
      (JsonSerializer.escapedText str) := by
  induction str with
  | nil =>
    intro w hok
    exact StreamWriter.put_wrote w [] hok
  | cons c rest ih =>
    have hlit : ∀ lit : String, StreamWriter.Emits
        (fun w => (w.put []).bind fun w => (w.putLiteral lit).bind fun w =>
          JsonSerializer.WriteEscapedString.loop rest [] w)
        (bytes lit ++ [0] ++ JsonSerializer.escapedText rest) := fun lit =>
      (StreamWriter.Emits.put []).bind ((StreamWriter.Emits.putLiteral lit).bind ih rfl)
        (by simp)
    have hesc : ∀ esc : List Nat, StreamWriter.Emits
        (fun w => (w.put []).bind fun w => (w.put esc).bind fun w =>
          JsonSerializer.WriteEscapedString.loop rest [] w)
        (esc ++ JsonSerializer.escapedText rest) := fun esc =>
      (StreamWriter.Emits.put []).bind ((StreamWriter.Emits.put esc).bind ih rfl) (by simp)
    have hplain : StreamWriter.Emits
        (fun w => (w.put [c]).bind fun w => JsonSerializer.WriteEscapedString.loop rest [] w)
        ([c] ++ JsonSerializer.escapedText rest) :=
      (StreamWriter.Emits.put [c]).bind ih rfl
    intro w hok
    unfold JsonSerializer.WriteEscapedString.loop JsonSerializer.escapedText
    by_cases h1 : c = 92 ∨ c = 34
    · rw [if_pos h1, if_pos h1]; exact hlit _ w hok
    rw [if_neg h1, if_neg h1]
    by_cases h2 : c = 8
    · rw [if_pos h2, if_pos h2]; exact hlit _ w hok
    rw [if_neg h2, if_neg h2]
    by_cases h3 : c = 9
    · rw [if_pos h3, if_pos h3]; exact hlit _ w hok
    rw [if_neg h3, if_neg h3]
    by_cases h4 : c = 10
    · rw [if_pos h4, if_pos h4]; exact hlit _ w hok
    rw [if_neg h4, if_neg h4]
    by_cases h5 : c = 12
    · rw [if_pos h5, if_pos h5]; exact hlit _ w hok
    rw [if_neg h5, if_neg h5]
    by_cases h6 : c = 13
    · rw [if_pos h6, if_pos h6]; exact hlit _ w hok
    rw [if_neg h6, if_neg h6]
    by_cases h7 : c < 16
    · rw [if_pos h7, if_pos h7]; exact hesc _ w hok
    rw [if_neg h7, if_neg h7]
    by_cases h8 : c < 32
    · rw [if_pos h8, if_pos h8]; exact hesc _ w hok
    rw [if_neg h8, if_neg h8]
    exact hplain w hok

theorem JsonSerializer.WriteEscapedString_emits (str : List Nat) :
    StreamWriter.Emits (fun w => JsonSerializer.WriteEscapedString w str)
      ([34] ++ JsonSerializer.escapedText str ++ [34]) :=
  (StreamWriter.Emits.put [34]).bind
    ((JsonSerializer.WriteEscapedString_loop_emits str).bind (StreamWriter.Emits.put [34]) rfl)
    (by simp)

theorem JsonSerializer.WriteBasicValue_emits {D : Type} (fl : FloatLib D)
    (value : TypedValue D) :
    StreamWriter.Emits (fun w => JsonSerializer.WriteBasicValue fl w value)
      (JsonSerializer.basicText fl value) := by
  intro w hok
  unfold JsonSerializer.WriteBasicValue JsonSerializer.basicText
  beta_reduce
  by_cases h1 : value.type.IsUnsignedInt = true
  · rw [if_pos h1, if_pos h1]; exact StreamWriter.put_wrote w _ hok
  rw [if_neg h1, if_neg h1]
  by_cases h2 : value.type.IsSignedInt = true
  · rw [if_pos h2, if_pos h2]; exact StreamWriter.put_wrote w _ hok
  rw [if_neg h2, if_neg h2]
  by_cases h3 : value.type.IsFloatingPoint = true
  · rw [if_pos h3, if_pos h3]; exact StreamWriter.put_wrote w _ hok
  rw [if_neg h3, if_neg h3]
  by_cases h4 : value.type = TypeSchemaPtr.StrSpan
  · rw [if_pos h4, if_pos h4]
    exact ((JsonSerializer.WriteEscapedString_emits _).bind (StreamWriter.Emits.put [])
      (by simp)) w hok
  rw [if_neg h4, if_neg h4]
  exact StreamWriter.put_wrote w _ hok

theorem JsonSerializer.writeValue_emits {D : Type} (fl : FloatLib D)
    (objects : Nat → TypeSchemaPtr → List Nat) (value : TypedValue D) :
    StreamWriter.Emits (fun w => JsonSerializer.writeValue fl objects w value)
      (JsonSerializer.valueText fl objects value) := by
  intro w hok
  unfold JsonSerializer.writeValue JsonSerializer.valueText
  beta_reduce
  by_cases h1 : value.type.IsBasic = true
  · rw [if_pos h1, if_pos h1]; exact JsonSerializer.WriteBasicValue_emits fl value w hok
  rw [if_neg h1, if_neg h1]
  · exact ((StreamWriter.Emits.put [123]).bind
      ((StreamWriter.Emits.put _).bind (StreamWriter.Emits.put [125]) rfl)
      (by simp)) w hok

theorem JsonSerializer.SerializeValues_loop_emits {D : Type} (fl : FloatLib D)
    (objects : Nat → TypeSchemaPtr → List Nat) (vs : List (TypedValue D)) :
    StreamWriter.Emits (JsonSerializer.SerializeValues.loop fl objects vs)
      (JsonSerializer.valuesText fl objects vs) := by
  induction vs with
  | nil =>
    intro w hok
    exact ⟨w, rfl, StreamWriter.Wrote.refl w hok⟩
  | cons v rest ih =>
    intro w hok
    unfold JsonSerializer.SerializeValues.loop JsonSerializer.valuesText
    by_cases hr : rest.isEmpty = true
    · simp only [hr, if_true]
      exact ((JsonSerializer.writeValue_emits fl objects v).bind ih (by simp)) w hok
    · simp only [hr, if_false]
      exact ((JsonSerializer.writeValue_emits fl objects v).bind
        ((StreamWriter.Emits.putLiteral ", ").bind ih rfl) (by simp)) w hok

theorem JsonSerializer.FinalizeWrite_received (w : StreamWriter) (hok : w.Ok) :
    ∃ w2, JsonSerializer.FinalizeWrite w = some w2 ∧ w2.Ok ∧ w2.buffered = [] ∧
      w2.stream_.received = w.sent ++ [10] ∧
      w2.stream_.write_error_ = w.stream_.write_error_ := by
  obtain ⟨w1, h1, hw1⟩ := StreamWriter.put_wrote w [10] hok
  obtain ⟨hf1, hf2, hf3, hf4, hf5, hf6⟩ := StreamWriter.Flush_accepts w1 hw1.ok.accepts
  refine ⟨w1.Flush.2, by simp [JsonSerializer.FinalizeWrite, h1], ⟨?_, ?_, hf5⟩, hf2, ?_, ?_⟩
  · rw [hf4]; exact hw1.ok.cap
  · rw [hf2]; simp
  · rw [hf3, ← hw1.sent]; rfl
  · rw [hf6, hw1.error]

theorem JsonSerializer.Serialize_received {D : Type} (fl : FloatLib D)
    (objects : Nat → TypeSchemaPtr → List Nat) (c : slang.SerializeCall D)
    (w : StreamWriter) (hok : w.Ok) :
    ∃ w2, JsonSerializer.Serialize fl objects w c = some w2 ∧ w2.Ok ∧ w2.buffered = [] ∧
      w2.stream_.received = w.sent ++ JsonSerializer.callText fl objects c ++ [10] ∧
      w2.stream_.write_error_ = w.stream_.write_error_ := by
  have key : ∃ w1, (match c with
      | slang.SerializeCall.value v => JsonSerializer.writeValue fl objects w v
      | slang.SerializeCall.values vs =>
        (w.put [91]).bind fun w =>
          (JsonSerializer.SerializeValues.loop fl objects vs w).bind fun w => w.put [93]
      | slang.SerializeCall.str s => JsonSerializer.WriteEscapedString w s) = some w1 ∧
      StreamWriter.Wrote w w1 (JsonSerializer.callText fl objects c) := by
    cases c with
    | value v => exact JsonSerializer.writeValue_emits fl objects v w hok
    | values vs =>
      exact ((StreamWriter.Emits.put [91]).bind
        ((JsonSerializer.SerializeValues_loop_emits fl objects vs).bind
          (StreamWriter.Emits.put [93]) rfl) (by simp [JsonSerializer.callText])) w hok
    | str s => exact JsonSerializer.WriteEscapedString_emits s w hok
  obtain ⟨w1, h1, hw1⟩ := key
  obtain ⟨w2, h2, hk, hb, hr, he⟩ := JsonSerializer.FinalizeWrite_received w1 hw1.ok
  refine ⟨w2, ?_, hk, hb, ?_, ?_⟩
  · cases c with
    | value v =>
      simp only [JsonSerializer.Serialize]
      simp only at h1
      rw [h1]
      exact h2
    | values vs =>
      simp only [JsonSerializer.Serialize]
      simp only at h1
      cases hp : w.put [91] with
      | none => rw [hp] at h1; simp at h1
      | some wa =>
        rw [hp] at h1
        simp only [Option.some_bind] at h1 ⊢
        cases hl : JsonSerializer.SerializeValues.loop fl objects vs wa with
        | none => rw [hl] at h1; simp at h1
        | some wb =>
          rw [hl] at h1
          simp only [Option.some_bind] at h1 ⊢
          rw [h1]
          exact h2
    | str s =>
      simp only [JsonSerializer.Serialize]
      simp only at h1
      rw [h1]
      exact h2
  · rw [hr, hw1.sent]
  · rw [he, hw1.error]

theorem JsonSerializer.SerializeAll_single {D : Type} (fl : FloatLib D)
    (objects : Nat → TypeSchemaPtr → List Nat) (c : slang.SerializeCall D)
    (w : StreamWriter) (hok : w.Ok) :
    ∃ w2, JsonSerializer.SerializeAll fl objects [c] w = some w2 ∧ w2.Ok ∧ w2.buffered = [] ∧
      w2.stream_.received = w.sent ++ JsonSerializer.callText fl objects c ++ [10] ∧
      w2.stream_.write_error_ = w.stream_.write_error_ := by
  obtain ⟨w2, h2, hk, hb, hr, he⟩ := JsonSerializer.Serialize_received fl objects c w hok
  exact ⟨w2, by simp [JsonSerializer.SerializeAll, h2], hk, hb, hr, he⟩

theorem StreamWriter.fresh_ok (cap : Nat) (hcap : 1 ≤ cap) : (StreamWriter.fresh cap).Ok :=
  ⟨hcap, Nat.zero_le _, rfl⟩

namespace slang

theorem ExecuteLoop_serialized_ok {D U : Type} (fns : Nat → HostFn D U) :
    ∀ (code : List (Instruction D)) (stack : List (TypedValue D)) (cc : CallContext D U),
      (∀ r ∈ (Program.ExecuteLoop fns code stack cc).calls, r.ok = true) →
      (Program.ExecuteLoop fns code stack cc).serialized =
        [SerializeCall.values (Program.ExecuteLoop fns code stack cc).stack] := by
  intro code
  induction code with
  | nil =>
    intro stack cc _
    rfl
  | cons instr rest ih =>
    intro stack cc hall
    unfold Program.ExecuteLoop at hall ⊢
    cases hcode : instr.code with
    | Invalid =>
      simp only [hcode] at hall ⊢
      exact ih stack cc hall
    | Push =>
      simp only [hcode] at hall ⊢
      exact ih _ cc hall
    | Call =>
      simp only [hcode] at hall ⊢
      cases hres : (fns instr.data.value.get_ptr { cc with args := stack, output := [] }).1 with
      | false =>
        simp only [hres, Bool.not_false, if_true] at hall
        have := hall _ (List.mem_singleton.mpr rfl)
        simp [hres] at this
      | true =>
        simp only [hres, Bool.not_true, Bool.false_eq_true, if_false] at hall ⊢
        exact ih _ _ (fun r hr => hall r (List.mem_cons_of_mem _ hr))

theorem ExecuteLoop_serialized_failed {D U : Type} (fns : Nat → HostFn D U) :
    ∀ (code : List (Instruction D)) (stack : List (TypedValue D)) (cc : CallContext D U)
      (r : CallRecord D),
      r ∈ (Program.ExecuteLoop fns code stack cc).calls → r.ok = false →
      (Program.ExecuteLoop fns code stack cc).serialized = [SerializeCall.str r.error_text] := by
  intro code
  induction code with
  | nil =>
    intro stack cc r hr _
    simp [Program.ExecuteLoop] at hr
  | cons instr rest ih =>
    intro stack cc r hr hok
    unfold Program.ExecuteLoop at hr ⊢
    cases hcode : instr.code with
    | Invalid =>
      simp only [hcode] at hr ⊢
      exact ih stack cc r hr hok
    | Push =>
      simp only [hcode] at hr ⊢
      exact ih _ cc r hr hok
    | Call =>
      simp only [hcode] at hr ⊢
      cases hres : (fns instr.data.value.get_ptr { cc with args := stack, output := [] }).1 with
      | false =>
        simp only [hres, Bool.not_false, if_true] at hr ⊢
        simp only [List.mem_singleton] at hr
        subst hr
        rfl
      | true =>
        simp only [hres, Bool.not_true, Bool.false_eq_true, if_false] at hr ⊢
        rcases List.mem_cons.mp hr with h0 | h0
        · rw [h0] at hok
          simp [hres] at hok
        · exact ih _ _ r h0 hok

/-- C5 (amended). Compiling and running the sum with the built-in `+` and the
JSON serializer writes exactly the bytes `[24]` followed by a newline, whatever
the size (at least one byte) of the writer's buffer and with any fuel from 62
turns of the lexer loop on. -/
theorem sum_output_is_bracketed_24 (k cap : Nat) (hcap : 1 ≤ cap) :
    runJson (k + 62) cap
      (bytes "(+ 100 -1000 900 -9223372036854775808 9223372036854775807 25)") =
      some (bytes "[24]\n") := by
  obtain ⟨w2, h2, _, _, hr, _⟩ := JsonSerializer.SerializeAll_single noFloat (fun _ _ => [])
    (SerializeCall.values [intValue Unit 24]) (StreamWriter.fresh cap)
    (StreamWriter.fresh_ok cap hcap)
  have hrun : runJson (k + 62) cap
      (bytes "(+ 100 -1000 900 -9223372036854775808 9223372036854775807 25)") =
      (JsonSerializer.SerializeAll noFloat (fun _ _ => [])
        [SerializeCall.values [intValue Unit 24]] (StreamWriter.fresh cap)).map
        fun w => w.stream_.received := rfl
  rw [hrun, h2, Option.map_some', hr]
  rfl

/-- Witness of C5 (amended) with a writer buffer of four bytes. -/
theorem sum_output_is_bracketed_24_witness :
    1 ≤ 4 ∧ runJson (0 + 62) 4
      (bytes "(+ 100 -1000 900 -9223372036854775808 9223372036854775807 25)") =
      some (bytes "[24]\n") :=
  ⟨by decide, sum_output_is_bracketed_24 0 4 (by decide)⟩

/-- C6 (as claimed, refuted). After `(+ 1 2)` exactly one value, 3, remains on
the VM stack, and the JSON written is `[3]` and a newline, not the single
value alone. -/
theorem single_value_is_bracketed :
    (compiledCode noFloat 20 builtinEnv (bytes "(+ 1 2)")).map
      (fun code => (Program.Execute (builtinFns noFloat) { code_ := code } ()).stack) =
      some [intValue Unit 3] ∧
    runJson 20 16 (bytes "(+ 1 2)") = some (bytes "[3]\n") ∧
    runJson 20 16 (bytes "(+ 1 2)") ≠ some (bytes "3\n") := by
  decide

/-- C6 (amended). Whatever program runs, `Program::Execute` makes one call on the
serializer and the JSON serializer writes one line: if no host call failed, the
residual stack between `[` and `]` however many values remain (for exactly one
value `v` the bytes `[`, the text of `v`, `]`), and after a failed call the
error text of that call as a JSON string between double quotes; in both cases
followed by a line feed, with nothing left in the writer's buffer. -/
theorem json_result_always_bracketed {D U : Type} (fl : FloatLib D)
    (objects : Nat → TypeSchemaPtr → List Nat) (fns : Nat → HostFn D U) (p : Program D)
    (user_data : U) (w : StreamWriter) (hok : w.Ok) :
    ∃ w2, JsonSerializer.SerializeAll fl objects (p.Execute fns user_data).serialized w
        = some w2 ∧ w2.buffered = [] ∧
      ((∀ r ∈ (p.Execute fns user_data).calls, r.ok = true) →
        w2.stream_.received = w.sent ++ [91] ++
          JsonSerializer.valuesText fl objects (p.Execute fns user_data).stack ++ [93, 10] ∧
        ∀ v, (p.Execute fns user_data).stack = [v] →
          w2.stream_.received = w.sent ++ [91] ++ JsonSerializer.valueText fl objects v ++
            [93, 10]) ∧
      (∀ r ∈ (p.Execute fns user_data).calls, r.ok = false →
        w2.stream_.received = w.sent ++ [34] ++ JsonSerializer.escapedText r.error_text ++
          [34, 10]) := by
  by_cases hall : ∀ r ∈ (p.Execute fns user_data).calls, r.ok = true
  · have hs := ExecuteLoop_serialized_ok fns p.code_ []
      { args := [], output := [], error_text := [], user_data := user_data } hall
    obtain ⟨w2, h2, _, hb, hr, _⟩ := JsonSerializer.SerializeAll_single fl objects
      (SerializeCall.values (p.Execute fns user_data).stack) w hok
    have hrec : w2.stream_.received = w.sent ++ [91] ++
        JsonSerializer.valuesText fl objects (p.Execute fns user_data).stack ++ [93, 10] := by
      rw [hr]
      simp [JsonSerializer.callText]
    refine ⟨w2, ?_, hb, fun _ => ⟨hrec, ?_⟩, ?_⟩
    · show JsonSerializer.SerializeAll fl objects
        (Program.ExecuteLoop fns p.code_ [] _).serialized w = some w2
      rw [hs]
      exact h2
    · intro v hv
      rw [hrec, hv]
      simp [JsonSerializer.valuesText]
    · intro r hr hfalse
      rw [hall r hr] at hfalse
      cases hfalse
  · have hex : ∃ r ∈ (p.Execute fns user_data).calls, r.ok = false := by
      by_contra hno
      apply hall
      intro r hr
      cases hrok : r.ok with
      | true => rfl
      | false => exact absurd ⟨r, hr, hrok⟩ hno
    obtain ⟨r0, hr0, hf0⟩ := hex
    have hs := ExecuteLoop_serialized_failed fns p.code_ []
      { args := [], output := [], error_text := [], user_data := user_data } r0 hr0 hf0
    obtain ⟨w2, h2, _, hb, hr, _⟩ := JsonSerializer.SerializeAll_single fl objects
      (SerializeCall.str r0.error_text) w hok
    refine ⟨w2, ?_, hb, fun h => absurd h hall, ?_⟩
    · show JsonSerializer.SerializeAll fl objects
        (Program.ExecuteLoop fns p.code_ [] _).serialized w = some w2
      rw [hs]
      exact h2
    · intro r hr1 hf1
      have hs1 := ExecuteLoop_serialized_failed fns p.code_ []
        { args := [], output := [], error_text := [], user_data := user_data } r hr1 hf1
      have heq : r.error_text = r0.error_text := by
        have := hs.symm.trans hs1
        simpa using this.symm
      rw [hr, heq]
      simp [JsonSerializer.callText]

/-- Witness of C6 (amended): the program of `(+ 1 2)` over a writer with a buffer
of two bytes writes `[3]` and a line feed. -/
theorem json_result_always_bracketed_witness :
    (StreamWriter.fresh 2).Ok ∧
    ∃ w2, JsonSerializer.SerializeAll noFloat (fun _ _ => [])
        (Program.Execute (builtinFns noFloat)
          { code_ := [pushInstr (barrierValue Unit), pushInstr (intValue Unit 2),
                      pushInstr (intValue Unit 1), callInstr Unit fn_add] } ()).serialized
        (StreamWriter.fresh 2) = some w2 ∧ w2.buffered = [] ∧ w2.stream_.received = bytes "[3]\n" :=
  have hw : (StreamWriter.fresh 2).Ok := StreamWriter.fresh_ok 2 (by decide)
  ⟨hw,
    (json_result_always_bracketed noFloat (fun _ _ => []) (builtinFns noFloat)
      { code_ := [pushInstr (barrierValue Unit), pushInstr (intValue Unit 2),
                  pushInstr (intValue Unit 1), callInstr Unit fn_add] } ()
      (StreamWriter.fresh 2) hw).elim
      fun w2 h => ⟨w2, h.1, h.2.1, (h.2.2.1 (by decide)).1⟩⟩

/-! ### The arithmetic built-ins check their argument types -/

theorem CheckOperationType_loop_invalid {D : Type} :
    ∀ (it : List (TypedValue D)) (is_float : Bool),
      (∃ v ∈ it.takeWhile (fun v => !decide (v.type = TypeSchemaPtr.FrameBarrier)),
        v.type.IsNumeric = false) →
      (CheckOperationType.loop it is_float).2 = false := by
  intro it
  induction it with
  | nil =>
    intro is_float h
    simp at h
  | cons x rest ih =>
    intro is_float h
    unfold CheckOperationType.loop
    by_cases hx : x.type = TypeSchemaPtr.FrameBarrier
    · simp [List.takeWhile, hx] at h
    · rw [if_neg hx]
      cases hn : x.type.IsNumeric with
      | false => simp
      | true =>
        simp only [if_true]
        apply ih
        obtain ⟨v, hv, hvn⟩ := h
        simp only [List.takeWhile, hx, decide_False, Bool.not_false, List.mem_cons] at hv
        rcases hv with rfl | hv
        · rw [hn] at hvn
          cases hvn
        · exact ⟨v, hv, hvn⟩

theorem CheckOperationType_loop_numeric {D : Type} :
    ∀ (it : List (TypedValue D)) (is_float : Bool),
      (∀ v ∈ it.takeWhile (fun v => !decide (v.type = TypeSchemaPtr.FrameBarrier)),
        v.type.IsNumeric = true) →
      (CheckOperationType.loop it is_float).2 = true ∧
      ((is_float = true ∨
          ∃ v ∈ it.takeWhile (fun v => !decide (v.type = TypeSchemaPtr.FrameBarrier)),
            v.type.IsFloatingPoint = true) →
        (CheckOperationType.loop it is_float).1 = true) := by
  intro it
  induction it with
  | nil =>
    intro is_float _
    refine ⟨rfl, ?_⟩
    intro h
    rcases h with h | h
    · exact h
    · simp at h
  | cons x rest ih =>
    intro is_float h
    unfold CheckOperationType.loop
    by_cases hx : x.type = TypeSchemaPtr.FrameBarrier
    · rw [if_pos hx]
      refine ⟨rfl, ?_⟩
      intro hf
      rcases hf with hf | hf
      · exact hf
      · simp [List.takeWhile, hx] at hf
    · rw [if_neg hx]
      have htw : List.takeWhile (fun v => !decide (v.type = TypeSchemaPtr.FrameBarrier))
          (x :: rest) = x :: List.takeWhile
            (fun v => !decide (v.type = TypeSchemaPtr.FrameBarrier)) rest := by
        simp [List.takeWhile, hx]
      rw [htw] at h ⊢
      have hn : x.type.IsNumeric = true := h x (List.mem_cons_self _ _)
      rw [if_pos hn]
      obtain ⟨h1, h2⟩ := ih (is_float || x.type.IsFloatingPoint)
        (fun v hv => h v (List.mem_cons_of_mem _ hv))
      refine ⟨h1, ?_⟩
      intro hf
      apply h2
      rcases hf with hf | ⟨v, hv, hvf⟩
      · left
        rw [hf]
        rfl
      · rcases List.mem_cons.mp hv with rfl | hv
        · left
          rw [hvf]
          simp
        · right
          exact ⟨v, hv, hvf⟩

theorem CheckOperationType_invalid {D : Type} (args : List (TypedValue D))
    (h : ∃ v ∈ CallArgs.toList args, v.type.IsNumeric = false) :
    CheckOperationType args = MathOpType.Invalid := by
  unfold CheckOperationType
  have := CheckOperationType_loop_invalid (CallArgs.Begin args) false h
  simp [this]

theorem CheckOperationType_numeric {D : Type} (args : List (TypedValue D))
    (h : ∀ v ∈ CallArgs.toList args, v.type.IsNumeric = true) :
    (CheckOperationType args = MathOpType.Double ∨
      CheckOperationType args = MathOpType.SignedInt) ∧
    ((∃ v ∈ CallArgs.toList args, v.type.IsFloatingPoint = true) →
      CheckOperationType args = MathOpType.Double) := by
  unfold CheckOperationType
  obtain ⟨h1, h2⟩ := CheckOperationType_loop_numeric (CallArgs.Begin args) false h
  dsimp only
  rw [h1]
  constructor
  · cases (CheckOperationType.loop (CallArgs.Begin args) false).1 <;> simp
  · intro hf
    rw [h2 (Or.inr hf)]
    simp

/-- C8. For each of the built-ins `+ - * /`: if some argument of the call is not
numeric, the call returns failure, appends `Operation expects numeric type` to
the error text (which is then exactly that text when the error text was empty,
as it is in a run of `Program::Execute`) and leaves the output as it was; if
all arguments are numeric, the call returns ok and adds exactly one value to
the output, which has type double if any argument is floating-point. -/
theorem math_funcs_numeric_contract {D U : Type} (fl : FloatLib D) (p : Nat)
    (hp : p = fn_add ∨ p = fn_sub ∨ p = fn_mul ∨ p = fn_div) (cc : CallContext D U) :
    ((∃ v ∈ CallArgs.toList cc.args, v.type.IsNumeric = false) →
      (builtinFns fl p cc).1 = false ∧
      (builtinFns fl p cc).2.output = cc.output ∧
      (builtinFns fl p cc).2.error_text =
        StrBuilder.BestEffortWrite 128 cc.error_text k_invalid_type_error ∧
      (cc.error_text = [] → (builtinFns fl p cc).2.error_text = k_invalid_type_error)) ∧
    ((∀ v ∈ CallArgs.toList cc.args, v.type.IsNumeric = true) →
      (builtinFns fl p cc).1 = true ∧
      ∃ r, (builtinFns fl p cc).2.output = cc.output ++ [r] ∧
        ((∃ v ∈ CallArgs.toList cc.args, v.type.IsFloatingPoint = true) →
          r.type = TypeSchemaPtr.double)) := by
  have hfn : @builtinFns D U fl p = math_add fl ∨ @builtinFns D U fl p = math_sub fl ∨
      @builtinFns D U fl p = math_mul fl ∨ @builtinFns D U fl p = math_div fl := by
    rcases hp with rfl | rfl | rfl | rfl
    · left; rfl
    · right; left; rfl
    · right; right; left; rfl
    · right; right; right; rfl
  constructor
  · intro hbad
    have hc := CheckOperationType_invalid cc.args hbad
    have hinv : builtinFns fl p cc = mathInvalid cc := by
      rcases hfn with h | h | h | h <;> rw [h] <;>
        simp only [math_add, math_sub, math_mul, math_div, hc]
    rw [hinv]
    refine ⟨rfl, rfl, rfl, ?_⟩
    intro he
    show StrBuilder.BestEffortWrite 128 cc.error_text k_invalid_type_error = _
    rw [he]
    decide
  · intro hnum
    obtain ⟨hc, hd⟩ := CheckOperationType_numeric cc.args hnum
    rcases hfn with h | h | h | h <;> rw [h] <;> rcases hc with hc | hc
    all_goals
      simp only [math_add, math_sub, math_mul, math_div, hc, CallContext.Add, true_and]
      refine ⟨_, rfl, ?_⟩
      intro hf
      first
        | rfl
        | (have hdf := hd hf; rw [hc] at hdf; cases hdf)

/-- Witness of C8: `+` on the arguments 1 and the string `two`. -/
theorem math_funcs_numeric_contract_witness :
    (fn_add = fn_add ∨ fn_add = fn_sub ∨ fn_add = fn_mul ∨ fn_add = fn_div) ∧
    (∃ v ∈ CallArgs.toList [barrierValue Unit, strValue Unit [116, 119, 111], intValue Unit 1],
      v.type.IsNumeric = false) ∧
    (builtinFns (U := Unit) noFloat fn_add { emptyContext Unit with
        args := [barrierValue Unit, strValue Unit [116, 119, 111], intValue Unit 1] }).1 = false ∧
    (builtinFns (U := Unit) noFloat fn_add { emptyContext Unit with
        args := [barrierValue Unit, strValue Unit [116, 119, 111], intValue Unit 1] }).2.error_text
      = k_invalid_type_error :=
  have hbad : ∃ v ∈ CallArgs.toList
      [barrierValue Unit, strValue Unit [116, 119, 111], intValue Unit 1],
      v.type.IsNumeric = false := ⟨strValue Unit [116, 119, 111], by decide, rfl⟩
  ⟨Or.inl rfl, hbad,
    ((math_funcs_numeric_contract noFloat fn_add (Or.inl rfl)
      { emptyContext Unit with
        args := [barrierValue Unit, strValue Unit [116, 119, 111], intValue Unit 1] }).1
      hbad).1,
    ((math_funcs_numeric_contract noFloat fn_add (Or.inl rfl)
      { emptyContext Unit with
        args := [barrierValue Unit, strValue Unit [116, 119, 111], intValue Unit 1] }).1
      hbad).2.2.2 rfl⟩

/-! ### Compiling and running expression trees -/

theorem takeWhile_frame {D : Type} (b : TypedValue D) (T : List (TypedValue D))
    (hb : b.type = TypeSchemaPtr.FrameBarrier) :
    ∀ L : List (TypedValue D), (∀ v ∈ L, v.type ≠ TypeSchemaPtr.FrameBarrier) →
      List.takeWhile (fun v => !decide (v.type = TypeSchemaPtr.FrameBarrier)) (L ++ b :: T) = L := by
  intro L
  induction L with
  | nil =>
    intro _
    simp [List.takeWhile, hb]
  | cons x xs ih =>
    intro h
    have hx : x.type ≠ TypeSchemaPtr.FrameBarrier := h x (List.mem_cons_self _ _)
    have ih2 := ih (fun v hv => h v (List.mem_cons_of_mem _ hv))
    simp only [List.cons_append, List.takeWhile, hx, decide_False, Bool.not_false]
    exact congrArg (List.cons x) ih2

theorem CallArgs.toList_frame {D : Type} (S A : List (TypedValue D)) (b : TypedValue D)
    (hb : b.type = TypeSchemaPtr.FrameBarrier)
    (hA : ∀ v ∈ A, v.type ≠ TypeSchemaPtr.FrameBarrier) :
    CallArgs.toList (S ++ [b] ++ A) = A.reverse := by
  unfold CallArgs.toList CallArgs.Begin
  have : (S ++ [b] ++ A).reverse = A.reverse ++ b :: S.reverse := by simp
  rw [this]
  exact takeWhile_frame b S.reverse hb A.reverse (fun v hv => hA v (List.mem_reverse.mp hv))

theorem Executed.after_after {D U : Type} (r1 r2 : List (CallRecord D)) (n1 n2 : Nat)
    (e : Executed D U) :
    (e.after r2 n2).after r1 n1 = e.after (r1 ++ r2) (n2 + n1) := by
  simp [Executed.after, Nat.add_assoc]

theorem ExecuteLoop_push {D U : Type} (fns : Nat → HostFn D U) (v : TypedValue D)
    (rest : List (Instruction D)) (stack : List (TypedValue D)) (cc : CallContext D U) :
    Program.ExecuteLoop fns ({ code := OpCode.Push, data := v } :: rest) stack cc =
      (Program.ExecuteLoop fns rest (stack ++ [v]) cc).after [] 1 := by
  conv => lhs; unfold Program.ExecuteLoop
  simp [Executed.after]

theorem ExecuteLoop_call_ok {D U : Type} (fns : Nat → HostFn D U) (p : Nat) (t : TypeSchemaPtr)
    (rest : List (Instruction D)) (stack out : List (TypedValue D)) (cc : CallContext D U)
    (hf : fns p { cc with args := stack, output := [] } =
      (true, { cc with args := stack, output := out })) :
    Program.ExecuteLoop fns
        ({ code := OpCode.Call, data := { type := t, value := Value.ptr p } } :: rest) stack cc =
      (Program.ExecuteLoop fns rest (PurgeStackFrame stack ++ out)
        { cc with args := stack, output := out }).after
        [{ fn := p, stack := stack, ok := true, output := out, error_text := cc.error_text }] 1 := by
  conv => lhs; unfold Program.ExecuteLoop
  simp [Executed.after, Value.get_ptr, hf]

theorem Literal.value_not_barrier {D : Type} (l : Literal D) :
    l.value.type ≠ TypeSchemaPtr.FrameBarrier := by
  cases l with
  | int v => simp [Literal.value]
  | double v => simp [Literal.value]
  | str s => simp [Literal.value]
  | unhandled s =>
    simp only [Literal.value]
    split_ifs <;> simp

theorem literal_values_not_barrier {D : Type} (ls : List (Literal D)) :
    ∀ v ∈ (ls.map Literal.value).reverse, v.type ≠ TypeSchemaPtr.FrameBarrier := by
  intro v hv
  rw [List.mem_reverse, List.mem_map] at hv
  obtain ⟨l, _, rfl⟩ := hv
  exact Literal.value_not_barrier l

mutual
theorem Expr.run_eval {D U : Type} (env : Env) (fns : Nat → HostFn D U)
    (sem : Nat → List (TypedValue D) → TypedValue D) :
    ∀ (e : Expr D) (rest : List (Instruction D)) (stack : List (TypedValue D))
      (cc : CallContext D U),
      (∀ pa ∈ e.calls env sem, HostOk fns sem pa) →
      (e.eval env sem).type ≠ TypeSchemaPtr.FrameBarrier ∧
      ∃ cc2 recs, Program.ExecuteLoop fns ((e.emit env).reverse ++ rest) stack cc =
          (Program.ExecuteLoop fns rest (stack ++ [e.eval env sem]) cc2).after recs
            (e.emit env).length ∧
        recs.map CallRecord.given = e.calls env sem ∧
        ∀ r ∈ recs, r.ok = true ∧ r.output = [sem r.fn (CallArgs.toList r.stack)]
  | Expr.lit l, rest, stack, cc, _ => by
    refine ⟨Literal.value_not_barrier l, cc, [], ?_, rfl, ?_⟩
    · simp only [Expr.emit, Expr.eval, List.reverse_singleton, List.singleton_append,
        List.length_singleton]
      exact ExecuteLoop_push fns l.value rest stack cc
    · intro r hr
      cases hr
  | Expr.call op_name args, rest, stack, cc, h => by
    have hargs : ∀ pa ∈ args.calls env sem, HostOk fns sem pa := fun pa hpa =>
      h pa (by simp only [Expr.calls]; exact List.mem_append_left _ hpa)
    have hop : HostOk fns sem (env.FindCall op_name, args.evals env sem) :=
      h _ (by simp only [Expr.calls]; exact List.mem_append_right _ (List.mem_singleton.mpr rfl))
    obtain ⟨hnb, cc1, recs1, hrun1, hmap1, hall1⟩ := Args.run_evals env fns sem args
      ({ code := OpCode.Call,
         data := { type := TypeSchemaPtr.invalid,
                   value := Value.ptr (env.FindCall op_name) } } :: rest)
      (stack ++ [{ type := TypeSchemaPtr.FrameBarrier, value := Value.i64 0 }]) cc hargs
    have hnbr : ∀ v ∈ (args.evals env sem).reverse, v.type ≠ TypeSchemaPtr.FrameBarrier :=
      fun v hv => hnb v (List.mem_reverse.mp hv)
    have htl : CallArgs.toList
        (stack ++ [{ type := TypeSchemaPtr.FrameBarrier, value := Value.i64 0 }] ++
          (args.evals env sem).reverse) = args.evals env sem := by
      rw [CallArgs.toList_frame stack _ _ rfl hnbr, List.reverse_reverse]
    have hpurge : PurgeStackFrame
        (stack ++ [{ type := TypeSchemaPtr.FrameBarrier, value := Value.i64 0 }] ++
          (args.evals env sem).reverse) = stack :=
      PurgeStackFrame_frame stack _ _ rfl hnbr
    have hf := hop.2 { cc1 with
      args := stack ++ [{ type := TypeSchemaPtr.FrameBarrier, value := Value.i64 0 }] ++
        (args.evals env sem).reverse,
      output := [] } htl rfl
    obtain ⟨cc2, rec0, hcall, hstack0, hfn0, hok0, hout0⟩ : ∃ cc2 rec0,
        Program.ExecuteLoop fns
          ({ code := OpCode.Call,
             data := { type := TypeSchemaPtr.invalid,
                       value := Value.ptr (env.FindCall op_name) } } :: rest)
          (stack ++ [{ type := TypeSchemaPtr.FrameBarrier, value := Value.i64 0 }] ++
            (args.evals env sem).reverse) cc1 =
          (Program.ExecuteLoop fns rest
            (PurgeStackFrame
              (stack ++ [{ type := TypeSchemaPtr.FrameBarrier, value := Value.i64 0 }] ++
                (args.evals env sem).reverse) ++
              [sem (env.FindCall op_name) (args.evals env sem)]) cc2).after [rec0] 1 ∧
        rec0.stack = stack ++ [{ type := TypeSchemaPtr.FrameBarrier, value := Value.i64 0 }] ++
            (args.evals env sem).reverse ∧
        rec0.fn = env.FindCall op_name ∧ rec0.ok = true ∧
        rec0.output = [sem (env.FindCall op_name) (args.evals env sem)] :=
      ⟨_, _, ExecuteLoop_call_ok fns (env.FindCall op_name) TypeSchemaPtr.invalid rest
        (stack ++ [{ type := TypeSchemaPtr.FrameBarrier, value := Value.i64 0 }] ++
          (args.evals env sem).reverse)
        [sem (env.FindCall op_name) (args.evals env sem)] cc1 hf, rfl, rfl, rfl, rfl⟩
    refine ⟨hop.1, cc2, recs1 ++ [rec0], ?_, ?_, ?_⟩
    · have hcode : (Expr.emit env (Expr.call op_name args)).reverse ++ rest =
          { code := OpCode.Push,
            data := { type := TypeSchemaPtr.FrameBarrier, value := Value.i64 0 } } ::
          ((args.emit env).reverse ++
            ({ code := OpCode.Call,
               data := { type := TypeSchemaPtr.invalid,
                         value := Value.ptr (env.FindCall op_name) } } :: rest)) := by
        simp [Expr.emit]
      rw [hcode, ExecuteLoop_push, hrun1, hcall, hpurge, Executed.after_after,
        Executed.after_after]
      simp only [Expr.eval, Expr.emit, List.nil_append, List.length_append,
        List.length_singleton, List.length_cons, List.length_reverse]
      rfl
    · rw [List.map_append, hmap1]
      simp only [Expr.calls, List.map_cons, List.map_nil, CallRecord.given, hstack0, hfn0, htl]
    · intro r hr
      rcases List.mem_append.mp hr with hr | hr
      · exact hall1 r hr
      · rw [List.mem_singleton] at hr
        subst hr
        exact ⟨hok0, by rw [hout0, hstack0, hfn0, htl]⟩
theorem Args.run_evals {D U : Type} (env : Env) (fns : Nat → HostFn D U)
    (sem : Nat → List (TypedValue D) → TypedValue D) :
    ∀ (a : Args D) (rest : List (Instruction D)) (stack : List (TypedValue D))
      (cc : CallContext D U),
      (∀ pa ∈ a.calls env sem, HostOk fns sem pa) →
      (∀ v ∈ a.evals env sem, v.type ≠ TypeSchemaPtr.FrameBarrier) ∧
      ∃ cc2 recs, Program.ExecuteLoop fns ((a.emit env).reverse ++ rest) stack cc =
          (Program.ExecuteLoop fns rest (stack ++ (a.evals env sem).reverse) cc2).after recs
            (a.emit env).length ∧
        recs.map CallRecord.given = a.calls env sem ∧
        ∀ r ∈ recs, r.ok = true ∧ r.output = [sem r.fn (CallArgs.toList r.stack)]
  | Args.nil, rest, stack, cc, _ => by
    refine ⟨?_, cc, [], ?_, rfl, ?_⟩
    · intro v hv
      cases hv
    · simp [Args.emit, Args.evals, Executed.after]
    · intro r hr
      cases hr
  | Args.cons e more, rest, stack, cc, h => by
    have hmore : ∀ pa ∈ more.calls env sem, HostOk fns sem pa := fun pa hpa =>
      h pa (by simp only [Args.calls]; exact List.mem_append_left _ hpa)
    have he : ∀ pa ∈ e.calls env sem, HostOk fns sem pa := fun pa hpa =>
      h pa (by simp only [Args.calls]; exact List.mem_append_right _ hpa)
    obtain ⟨hnb1, cc1, recs1, hrun1, hmap1, hall1⟩ := Args.run_evals env fns sem more
      ((e.emit env).reverse ++ rest) stack cc hmore
    obtain ⟨hnb2, cc2, recs2, hrun2, hmap2, hall2⟩ := Expr.run_eval env fns sem e rest
      (stack ++ (more.evals env sem).reverse) cc1 he
    refine ⟨?_, cc2, recs1 ++ recs2, ?_, ?_, ?_⟩
    · intro v hv
      simp only [Args.evals, List.mem_cons] at hv
      rcases hv with rfl | hv
      · exact hnb2
      · exact hnb1 v hv
    · have hcode : (Args.emit env (Args.cons e more)).reverse ++ rest =
          (more.emit env).reverse ++ ((e.emit env).reverse ++ rest) := by
        simp [Args.emit]
      rw [hcode, hrun1, hrun2, Executed.after_after]
      simp only [Args.evals, Args.emit, List.reverse_cons, List.append_assoc,
        List.length_append]
    · rw [List.map_append, hmap1, hmap2]
      simp only [Args.calls]
    · intro r hr
      rcases List.mem_append.mp hr with hr | hr
      · exact hall1 r hr
      · exact hall2 r hr
end

/-! ### The handler's state is the replay of the calls -/

theorem Handler.replay_append {D H : Type} (h : Handler D H) (s : H) (a b : List (Callback D)) :
    h.replay s (a ++ b) = h.replay (h.replay s a) b := by
  simp [Handler.replay, List.foldl_append]

theorem termAction_replay {D H : Type} (fl : FloatLib D) (h : Handler D H) (lx : Lexer H)
    (type : TermType) (term : List Nat) (was_escaped : Bool) (fail : List Nat → LexerFailure) :
    (termAction fl h lx type term was_escaped fail).2.2.handler_ =
      h.replay lx.handler_ (termAction fl h lx type term was_escaped fail).2.1 := by
  unfold termAction
  cases type with
  | kOp =>
    dsimp only
    split_ifs <;> rfl
  | kValue =>
    dsimp only
    split_ifs
    · rfl
    · cases LexerParseInt64 term with
      | some lval => rfl
      | none =>
        dsimp only
        cases LexerParseDouble fl term with
        | some dval => rfl
        | none =>
          dsimp only
          cases (h.LexerUnhandledValue lx.handler_ term).1 with
          | none => rfl
          | some err_msg =>
            dsimp only
            split_ifs <;> rfl
  | kStr => rfl

theorem Abs.FinalizeTerm_replay {D H : Type} (fl : FloatLib D) (h : Handler D H) (lx : Lexer H)
    (a : Abs.State) :
    (Abs.FinalizeTerm fl h lx a).lexer.handler_ =
      h.replay lx.handler_ (Abs.FinalizeTerm fl h lx a).calls := by
  unfold Abs.FinalizeTerm
  split_ifs
  · rfl
  · rfl
  · exact termAction_replay fl h lx _ _ _ _

theorem Abs.caseClose_replay {D H : Type} (fl : FloatLib D) (h : Handler D H) (lx : Lexer H)
    (a : Abs.State) :
    (Abs.caseClose fl h lx a).2.lexer.handler_ =
      h.replay lx.handler_ (Abs.caseClose fl h lx a).2.calls := by
  have hF := Abs.FinalizeTerm_replay fl h lx a
  unfold Abs.caseClose
  dsimp only
  cases hr : (Abs.FinalizeTerm fl h lx a).result with
  | failure f =>
    dsimp only
    split_ifs <;> exact hF
  | success =>
    dsimp only
    have hE : (h.LexerEndOp (Abs.FinalizeTerm fl h lx a).lexer.handler_).2 =
        h.replay lx.handler_ ((Abs.FinalizeTerm fl h lx a).calls ++ [Callback.LexerEndOp]) := by
      rw [Handler.replay_append, ← hF]
      rfl
    split_ifs <;> exact hE

theorem Abs.caseQuote_replay {D H : Type} (fl : FloatLib D) (h : Handler D H) (lx : Lexer H)
    (a : Abs.State) :
    (Abs.caseQuote fl h lx a).2.lexer.handler_ =
      h.replay lx.handler_ (Abs.caseQuote fl h lx a).2.calls := by
  have hF := Abs.FinalizeTerm_replay fl h lx a
  unfold Abs.caseQuote
  split_ifs
  · exact hF
  · dsimp only
    cases hr : (Abs.FinalizeTerm fl h lx a).result with
    | success => exact hF
    | failure f => exact hF

theorem Abs.Body_replay {D H : Type} (fl : FloatLib D) (h : Handler D H) (fuel c : Nat)
    (lx : Lexer H) (a : Abs.State) (f : Flow) (d : Abs.Done D H)
    (hB : Abs.Body fl h fuel c lx a = some (Abs.Turn.flow f d)) :
    d.lexer.handler_ = h.replay lx.handler_ d.calls := by
  unfold Abs.Body at hB
  dsimp only at hB
  split_ifs at hB with h1 h2 h3 h4 h5 h6 h7
  · simp only [Option.some.injEq, Abs.Turn.flow.injEq] at hB
    rw [← hB.2]
    rfl
  · simp only [Option.some.injEq, Abs.Turn.flow.injEq] at hB
    rw [← hB.2]
    exact Abs.FinalizeTerm_replay fl h lx _
  · simp only [Option.some.injEq, Abs.Turn.flow.injEq] at hB
    rw [← hB.2]
    exact Abs.caseClose_replay fl h lx _
  · simp only [Option.some.injEq, Abs.Turn.flow.injEq] at hB
    rw [← hB.2]
    exact Abs.caseQuote_replay fl h lx _
  · unfold Abs.casePayload at hB
    dsimp only at hB
    split_ifs at hB
    · cases hB
    · simp only [Option.some.injEq, Abs.Turn.flow.injEq] at hB
      rw [← hB.2]
      rfl
  · unfold Abs.caseComment at hB
    cases hs : Abs.skipComment fuel a.ResetEscape with
    | none => rw [hs] at hB; cases hB
    | some s =>
      rw [hs] at hB
      simp only [Option.map_some', Option.some.injEq, Abs.Turn.flow.injEq] at hB
      rw [← hB.2]
      rfl
  · simp only [Option.some.injEq, Abs.Turn.flow.injEq] at hB
    rw [← hB.2]
    exact Abs.FinalizeTerm_replay fl h lx _
  · simp only [Option.some.injEq, Abs.Turn.flow.injEq] at hB
    rw [← hB.2]
    rfl

theorem Abs.RunLoop_replay {D H : Type} (fl : FloatLib D) (h : Handler D H) :
    ∀ (fuel : Nat) (lx : Lexer H) (a : Abs.State) (o : Observed D H),
      Abs.RunLoop fl h fuel lx a = some (Abs.Out.done o) →
      o.lexer.handler_ = h.replay lx.handler_ o.calls := by
  intro fuel
  induction fuel with
  | zero =>
    intro lx a o hR
    simp [Abs.RunLoop] at hR
  | succ n ih =>
    intro lx a o hR
    unfold Abs.RunLoop at hR
    dsimp only at hR
    split_ifs at hR with hc
    · simp only [Option.some.injEq, Abs.Out.done.injEq] at hR
      rw [← hR]
      rfl
    · cases hB : Abs.Body fl h n a.NextChar.1 lx a.NextChar.2 with
      | none => rw [hB] at hR; cases hR
      | some t =>
        rw [hB] at hR
        cases t with
        | payload => cases hR
        | flow f d =>
          have hd := Abs.Body_replay fl h n _ lx _ f d hB
          cases f with
          | ret =>
            simp only [Option.some.injEq, Abs.Out.done.injEq] at hR
            rw [← hR]
            exact hd
          | cont =>
            dsimp only at hR
            cases hrec : Abs.RunLoop fl h n d.lexer d.state with
            | none => rw [hrec] at hR; cases hR
            | some o2 =>
              rw [hrec] at hR
              cases o2 with
              | payload => cases hR
              | done o3 =>
                simp only [Option.some.injEq, Abs.Out.done.injEq] at hR
                rw [← hR]
                have h3 := ih d.lexer d.state o3 hrec
                show o3.lexer.handler_ = h.replay lx.handler_ (d.calls ++ o3.calls)
                rw [Handler.replay_append, ← hd]
                exact h3

mutual
theorem Expr.callbacks_no_custom {D : Type} : ∀ (e : Expr D) (tok : Nat),
    Callback.LexerCustomData tok ∉ e.callbacks
  | Expr.lit l, tok => by
    cases l <;> simp [Expr.callbacks, Literal.callback]
  | Expr.call op_name args, tok => by
    have := Args.callbacks_no_custom_args args tok
    simp [Expr.callbacks, this]
theorem Args.callbacks_no_custom_args {D : Type} : ∀ (a : Args D) (tok : Nat),
    Callback.LexerCustomData tok ∉ a.callbacks
  | Args.nil, tok => by
    simp [Args.callbacks]
  | Args.cons e rest, tok => by
    have h1 := Expr.callbacks_no_custom e tok
    have h2 := Args.callbacks_no_custom_args rest tok
    simp [Args.callbacks, h1, h2]
end

theorem Literal.replay_value {D : Type} (l : Literal D) (c : Compiler D) :
    (Compiler.handler D).replay c [l.callback] = c.emit OpCode.Push l.value := by
  cases l with
  | int v => rfl
  | double v => rfl
  | str s => rfl
  | unhandled s =>
    show (Compiler.LexerUnhandledValue c s).2 = _
    unfold Compiler.LexerUnhandledValue Literal.value
    by_cases h : 1 < s.length ∧ s.head? = some 58
    · simp only [h, and_self, if_true]
      rfl
    · simp only [h, if_false]
      rfl

mutual
theorem Expr.replay_emit {D : Type} : ∀ (e : Expr D) (c : Compiler D),
    e.known c.env_ = true →
    (Compiler.handler D).replay c e.callbacks =
      { c with cur_program_ := { code_ := c.cur_program_.code_ ++ e.emit c.env_ } }
  | Expr.lit l, c, _ => by
    simp only [Expr.callbacks, Literal.replay_value, Expr.emit, Compiler.emit]
  | Expr.call op_name args, c, h => by
    simp only [Expr.known, Bool.and_eq_true, bne_iff_ne, ne_eq] at h
    have hb : (Compiler.handler D).replay c [Callback.LexerBeginOp op_name] =
        c.emit OpCode.Call
          { type := TypeSchemaPtr.invalid, value := Value.ptr (c.env_.FindCall op_name) } := by
      show (Compiler.LexerBeginOp c op_name).2 = _
      simp [Compiler.LexerBeginOp, h.1]
    have ha := Args.replay_emit_args args (c.emit OpCode.Call
        { type := TypeSchemaPtr.invalid, value := Value.ptr (c.env_.FindCall op_name) }) h.2
    simp only [Expr.callbacks, Handler.replay_append, hb, ha]
    simp [Handler.replay, Handler.step, Compiler.handler, Compiler.LexerEndOp, Compiler.emit,
      Expr.emit]
theorem Args.replay_emit_args {D : Type} : ∀ (a : Args D) (c : Compiler D),
    a.known c.env_ = true →
    (Compiler.handler D).replay c a.callbacks =
      { c with cur_program_ := { code_ := c.cur_program_.code_ ++ a.emit c.env_ } }
  | Args.nil, c, _ => by
    simp [Args.callbacks, Args.emit, Handler.replay]
  | Args.cons e rest, c, h => by
    simp only [Args.known, Bool.and_eq_true] at h
    have he := Expr.replay_emit e c h.1
    have hr := Args.replay_emit_args rest { c with cur_program_ :=
      { code_ := c.cur_program_.code_ ++ e.emit c.env_ } } h.2
    simp only [Args.callbacks, Handler.replay_append, he, hr]
    simp [Args.emit]
end

theorem Compiler.Build_of_callbacks {D : Type} (fl : FloatLib D) (fuel : Nat) (env : Env)
    (text : List Nat) (e : Expr D)
    (hlex : Compiler.Lexes fl fuel env text e) (hknown : e.known env = true) :
    compiledCode fl fuel env text = some (e.emit env).reverse := by
  unfold Compiler.Lexes at hlex
  cases hd : Compiler.lex fl fuel env text with
  | none => rw [hd] at hlex; cases hlex
  | some d =>
    rw [hd] at hlex
    simp only [Option.map_some', Option.some.injEq, Prod.mk.injEq] at hlex
    obtain ⟨hres, hcalls⟩ := hlex
    have hrun : Lexer.RunLoop fl (Compiler.handler D) fuel
        { handler_ := { env_ := env, cur_program_ := { code_ := [] }, error_builder_ := [] },
          err_description_ := [] }
        (LexerState.init (StreamReader.preloaded text DummyInStream text.length) true) =
        some d := hd
    have hI : Inv (LexerState.init (StreamReader.preloaded text DummyInStream text.length)
        true) :=
      ⟨Nat.zero_le _, Nat.le_refl _, Or.inr rfl, by simp [LexerState.init],
        fun _ => Or.inl rfl⟩
    have hR := RunLoop_abs fl (Compiler.handler D) fuel
      { handler_ := { env_ := env, cur_program_ := { code_ := [] }, error_builder_ := [] },
        err_description_ := [] } _ hI
    have hcode : d.lexer.handler_.cur_program_.code_ = e.emit env := by
      cases hA : Abs.RunLoop fl (Compiler.handler D) fuel
          { handler_ := { env_ := env, cur_program_ := { code_ := [] }, error_builder_ := [] },
            err_description_ := [] }
          (Abs.of (LexerState.init (StreamReader.preloaded text DummyInStream text.length)
            true)) with
      | none =>
        rw [hA] at hR
        dsimp only at hR
        rw [hrun] at hR
        cases hR
      | some o =>
        rw [hA] at hR
        cases o with
        | payload =>
          dsimp only at hR
          obtain ⟨tok, htok⟩ := hR d hrun
          rw [hcalls] at htok
          exact absurd htok (Expr.callbacks_no_custom e tok)
        | done o2 =>
          dsimp only at hR
          rw [hrun] at hR
          simp only [Option.map_some', Option.some.injEq] at hR
          have hrep := Abs.RunLoop_replay fl (Compiler.handler D) fuel _ _ o2 hA
          have hl : d.lexer = o2.lexer := congrArg Observed.lexer hR
          have hc : d.calls = o2.calls := congrArg Observed.calls hR
          rw [hl, hrep, ← hc, hcalls]
          rw [Expr.replay_emit e _ hknown]
          simp
    unfold compiledCode Compiler.Build
    have hrun2 : Lexer.Run fl (Compiler.handler D) fuel
        { handler_ := { env_ := env, cur_program_ := { code_ := [] }, error_builder_ := [] },
          err_description_ := [] }
        (StreamReader.preloaded text DummyInStream text.length) true = some d := hd
    simp only [hrun2, hres, hcode]

/-! ### The built-ins read only the arguments of their frame -/

theorem foldArgs_toList {D A : Type} (step : A → TypedValue D → A) :
    ∀ (it : List (TypedValue D)) (acc : A),
      foldArgs step it acc =
        List.foldl step acc
          (it.takeWhile (fun v => !decide (v.type = TypeSchemaPtr.FrameBarrier))) := by
  intro it
  induction it with
  | nil =>
    intro acc
    rfl
  | cons x xs ih =>
    intro acc
    unfold foldArgs
    by_cases hx : x.type = TypeSchemaPtr.FrameBarrier
    · simp [List.takeWhile, hx]
    · rw [if_neg hx, ih]
      simp [List.takeWhile, hx]

theorem CheckOperationType_loop_toList {D : Type} :
    ∀ (it : List (TypedValue D)) (is_float : Bool),
      CheckOperationType.loop it is_float =
        CheckOperationType.loop
          (it.takeWhile (fun v => !decide (v.type = TypeSchemaPtr.FrameBarrier))) is_float := by
  intro it
  induction it with
  | nil =>
    intro is_float
    rfl
  | cons x xs ih =>
    intro is_float
    by_cases hx : x.type = TypeSchemaPtr.FrameBarrier
    · simp [List.takeWhile, hx, CheckOperationType.loop]
    · have htw : List.takeWhile (fun v => !decide (v.type = TypeSchemaPtr.FrameBarrier))
          (x :: xs) = x :: List.takeWhile
            (fun v => !decide (v.type = TypeSchemaPtr.FrameBarrier)) xs := by
        simp [List.takeWhile, hx]
      rw [htw]
      unfold CheckOperationType.loop
      rw [if_neg hx, if_neg hx, ← ih]

theorem CheckOperationType_toList {D : Type} (args : List (TypedValue D)) :
    CheckOperationType args =
      (let r := CheckOperationType.loop (CallArgs.toList args) false
       if !r.2 then MathOpType.Invalid
       else if r.1 then MathOpType.Double else MathOpType.SignedInt) := by
  unfold CheckOperationType CallArgs.toList
  rw [← CheckOperationType_loop_toList]

theorem sum_int64_toList {D : Type} (fl : FloatLib D) (args : List (TypedValue D)) :
    sum_int64 fl args =
      List.foldl (fun result v => wrap64 (result + Get_int64 fl v)) 0 (CallArgs.toList args) := by
  unfold sum_int64 CallArgs.toList
  exact foldArgs_toList _ _ _

theorem sub_int16_toList {D : Type} (fl : FloatLib D) (args : List (TypedValue D)) :
    sub_int16 fl args =
      (match CallArgs.toList args with
       | [] => 0
       | v :: it => List.foldl (fun res x => wrap16 (res - Get_int16 fl x)) (Get_int16 fl v) it) := by
  unfold sub_int16 CallArgs.toList
  cases hB : CallArgs.Begin args with
  | nil => rfl
  | cons v it =>
    by_cases hv : v.type = TypeSchemaPtr.FrameBarrier
    · simp [List.takeWhile, hv]
    · simp only [List.takeWhile, hv, decide_False, Bool.not_false, if_false]
      exact foldArgs_toList _ _ _

theorem Expr.emit_runs {D U : Type} (env : Env) (fns : Nat → HostFn D U)
    (sem : Nat → List (TypedValue D) → TypedValue D) (op_name : List Nat) (args : Args D)
    (user_data : U)
    (hfns : ∀ pa ∈ (Expr.call op_name args).calls env sem, HostOk fns sem pa) :
    (Program.Execute fns { code_ := ((Expr.call op_name args).emit env).reverse }
        user_data).stack = [(Expr.call op_name args).eval env sem] ∧
      (Program.Execute fns { code_ := ((Expr.call op_name args).emit env).reverse }
        user_data).calls.map CallRecord.given = (Expr.call op_name args).calls env sem ∧
      (Program.Execute fns { code_ := ((Expr.call op_name args).emit env).reverse }
        user_data).calls.getLast?.map CallRecord.given =
        some (env.FindCall op_name, args.evals env sem) ∧
      ∀ r ∈ (Program.Execute fns { code_ := ((Expr.call op_name args).emit env).reverse }
          user_data).calls,
        r.ok = true ∧ r.output = [sem r.fn (CallArgs.toList r.stack)] := by
  obtain ⟨_, cc2, recs, hrun, hmap, hall⟩ := Expr.run_eval env fns sem (Expr.call op_name args)
    [] [] { args := [], output := [], error_text := [], user_data := user_data } hfns
  have hexec : Program.Execute fns { code_ := ((Expr.call op_name args).emit env).reverse }
      user_data =
      (Program.ExecuteLoop fns [] ([] ++ [(Expr.call op_name args).eval env sem]) cc2).after
        recs ((Expr.call op_name args).emit env).length := by
    unfold Program.Execute
    rw [← hrun, List.append_nil]
  rw [hexec]
  have hcalls : ((Program.ExecuteLoop fns [] ([] ++ [(Expr.call op_name args).eval env sem])
      cc2).after recs ((Expr.call op_name args).emit env).length).calls = recs := by
    simp [Executed.after, Program.ExecuteLoop]
  rw [hcalls]
  refine ⟨by simp [Executed.after, Program.ExecuteLoop], hmap, ?_, hall⟩
  rw [← List.getLast?_map, hmap]
  simp [Expr.calls]

/-- C2. For a source text for which the lexer, run by `Compiler::Build`, succeeds
with the handler calls of an expression tree `(op_name args...)` whose operation
names are all functions of the environment, and for host functions that each
return ok with exactly one value (`sem`) on the arguments they are given:
`Compiler::Build` returns a program, and executing it (the reversed
instructions) gives every host call the values of its argument sub-expressions
in source order, a nested result standing where the nested expression stood
(the calls are those of the reference semantics, arguments evaluated last to
first), every call returns ok, and the stack ends holding only the value of
the root operation. -/
theorem vm_passes_arguments_in_source_order {D U : Type} (fl : FloatLib D) (fuel : Nat)
    (env : Env) (text : List Nat) (fns : Nat → HostFn D U)
    (sem : Nat → List (TypedValue D) → TypedValue D) (op_name : List Nat) (args : Args D)
    (user_data : U)
    (hlex : Compiler.Lexes fl fuel env text (Expr.call op_name args))
    (hknown : (Expr.call op_name args).known env = true)
    (hfns : ∀ pa ∈ (Expr.call op_name args).calls env sem, HostOk fns sem pa) :
    ∃ code, compiledCode fl fuel env text = some code ∧
      (Program.Execute fns { code_ := code } user_data).stack =
        [(Expr.call op_name args).eval env sem] ∧
      (Program.Execute fns { code_ := code } user_data).calls.map CallRecord.given =
        (Expr.call op_name args).calls env sem ∧
      (Program.Execute fns { code_ := code } user_data).calls.getLast?.map CallRecord.given =
        some (env.FindCall op_name, args.evals env sem) ∧
      ∀ r ∈ (Program.Execute fns { code_ := code } user_data).calls,
        r.ok = true ∧ r.output = [sem r.fn (CallArgs.toList r.stack)] := by
  have hcode := Compiler.Build_of_callbacks fl fuel env text (Expr.call op_name args) hlex hknown
  exact ⟨_, hcode, Expr.emit_runs env fns sem op_name args user_data hfns⟩

/-- Witness of C2 with the built-ins on `(+ (- 3 4) 5)`: the lexer makes the
calls of the tree, `-` is given 3, 4, then `+` is given -1, 5, and 4 is
left. -/
theorem vm_passes_arguments_in_source_order_witness :
    Compiler.Lexes noFloat 20 builtinEnv (bytes "(+ (- 3 4) 5)") sampleExpr ∧
    sampleExpr.known builtinEnv = true ∧
    ∃ code, compiledCode noFloat 20 builtinEnv (bytes "(+ (- 3 4) 5)") = some code ∧
      (Program.Execute (builtinFns noFloat) { code_ := code } ()).stack = [intValue Unit 4] ∧
      (Program.Execute (builtinFns noFloat) { code_ := code } ()).calls.map CallRecord.given =
        [(fn_sub, [intValue Unit 3, intValue Unit 4]),
         (fn_add, [{ type := TypeSchemaPtr.int16_t, value := Value.i64 (-1) }, intValue Unit 5])] :=
  have hfns : ∀ pa ∈ sampleExpr.calls builtinEnv builtinSem,
      HostOk (U := Unit) (builtinFns noFloat) builtinSem pa := by
    intro pa hpa
    have hpa2 : pa = (fn_sub, [intValue Unit 3, intValue Unit 4]) ∨
        pa = (fn_add, [{ type := TypeSchemaPtr.int16_t, value := Value.i64 (-1) },
          intValue Unit 5]) := by
      have : sampleExpr.calls builtinEnv builtinSem =
          [(fn_sub, [intValue Unit 3, intValue Unit 4]),
           (fn_add, [{ type := TypeSchemaPtr.int16_t, value := Value.i64 (-1) },
             intValue Unit 5])] := by decide
      rw [this] at hpa
      simpa using hpa
    rcases hpa2 with rfl | rfl
    · refine ⟨by decide, ?_⟩
      intro cc hargs hout
      show math_sub noFloat cc = _
      unfold math_sub
      rw [CheckOperationType_toList, sub_int16_toList, hargs]
      simp only [CallContext.Add, hout]
      rfl
    · refine ⟨by decide, ?_⟩
      intro cc hargs hout
      show math_add noFloat cc = _
      unfold math_add
      rw [CheckOperationType_toList, sum_int64_toList, hargs]
      simp only [CallContext.Add, hout]
      rfl
  have hlex : Compiler.Lexes noFloat 20 builtinEnv (bytes "(+ (- 3 4) 5)") sampleExpr := by
    unfold Compiler.Lexes
    decide
  ⟨hlex, by decide,
    (vm_passes_arguments_in_source_order noFloat 20 builtinEnv (bytes "(+ (- 3 4) 5)")
      (builtinFns noFloat) builtinSem (bytes "+")
      (Args.cons
        (Expr.call (bytes "-")
          (Args.cons (Expr.lit (Literal.int 3))
            (Args.cons (Expr.lit (Literal.int 4)) Args.nil)))
        (Args.cons (Expr.lit (Literal.int 5)) Args.nil)) () hlex (by decide) hfns).elim
      fun code h => ⟨code, h.1, h.2.1, h.2.2.1⟩⟩

/-! ### `list` -/

theorem list_loop_output {D U : Type} :
    ∀ (it : List (TypedValue D)) (cc : CallContext D U),
      list_loop it cc =
        { cc with
          output := (cc.output ++
            List.takeWhile (fun v => !decide (v.type = TypeSchemaPtr.FrameBarrier)) it) } := by
  intro it
  induction it with
  | nil =>
    intro cc
    simp [list_loop]
  | cons x xs ih =>
    intro cc
    unfold list_loop
    by_cases hx : x.type = TypeSchemaPtr.FrameBarrier
    · simp [List.takeWhile, hx]
    · rw [if_neg hx, ih]
      simp [List.takeWhile, hx, CallContext.Add]

theorem ExecuteLoop_call_list {D U : Type} (fns : Nat → HostFn D U) (p : Nat) (t : TypeSchemaPtr)
    (hp : fns p = list_fn) (rest : List (Instruction D)) (S A : List (TypedValue D))
    (hA : ∀ v ∈ A, v.type ≠ TypeSchemaPtr.FrameBarrier) (cc : CallContext D U) :
    ∃ cc2 rec0, Program.ExecuteLoop fns
        ({ code := OpCode.Call, data := { type := t, value := Value.ptr p } } :: rest)
        (S ++ [{ type := TypeSchemaPtr.FrameBarrier, value := Value.i64 0 }] ++ A) cc =
      (Program.ExecuteLoop fns rest (S ++ A.reverse) cc2).after [rec0] 1 ∧
      rec0.given = (p, A.reverse) ∧ rec0.ok = true := by
  have htl := CallArgs.toList_frame S A
    { type := TypeSchemaPtr.FrameBarrier, value := Value.i64 0 } rfl hA
  have hf : fns p { cc with
      args := S ++ [{ type := TypeSchemaPtr.FrameBarrier, value := Value.i64 0 }] ++ A,
      output := [] } = (true, { cc with
      args := S ++ [{ type := TypeSchemaPtr.FrameBarrier, value := Value.i64 0 }] ++ A,
      output := A.reverse }) := by
    rw [hp]
    unfold list_fn
    rw [list_loop_output]
    unfold CallArgs.toList at htl
    simp only [htl, List.nil_append]
  have hcall := ExecuteLoop_call_ok fns p t rest _ _ cc hf
  rw [PurgeStackFrame_frame S A _ rfl hA] at hcall
  exact ⟨_, _, hcall, by simp only [CallRecord.given, htl], rfl⟩

theorem ExecuteLoop_last_call {D U : Type} (fns : Nat → HostFn D U) (p : Nat) (t : TypeSchemaPtr)
    (stack : List (TypedValue D)) (cc : CallContext D U) :
    (Program.ExecuteLoop fns
      [{ code := OpCode.Call, data := { type := t, value := Value.ptr p } }] stack cc).calls.map
      CallRecord.given = [(p, CallArgs.toList stack)] := by
  unfold Program.ExecuteLoop
  cases h : (fns p { cc with args := stack, output := [] }).1 <;>
    simp [h, Value.get_ptr, CallRecord.given, Program.ExecuteLoop]

theorem litArgs_known {D : Type} (env : Env) (ls : List (Literal D)) :
    (litArgs ls).known env = true := by
  induction ls with
  | nil => rfl
  | cons l rest ih => simp [litArgs, Args.known, Expr.known, ih]

theorem litArgs_emit {D : Type} (env : Env) (ls : List (Literal D)) :
    (litArgs ls).emit env = ls.map fun l => { code := OpCode.Push, data := l.value } := by
  induction ls with
  | nil => rfl
  | cons l rest ih => simp [litArgs, Args.emit, Expr.emit, ih]

theorem ExecuteLoop_literals {D U : Type} (fns : Nat → HostFn D U) (env : Env) :
    ∀ (ls : List (Literal D)) (rest : List (Instruction D)) (stack : List (TypedValue D))
      (cc : CallContext D U),
      Program.ExecuteLoop fns (((litArgs ls).emit env).reverse ++ rest) stack cc =
        (Program.ExecuteLoop fns rest (stack ++ (ls.map Literal.value).reverse) cc).after []
          ls.length := by
  intro ls
  induction ls with
  | nil =>
    intro rest stack cc
    simp [litArgs, Args.emit, Executed.after]
  | cons l more ih =>
    intro rest stack cc
    have hcode : ((litArgs (l :: more)).emit env).reverse ++ rest =
        ((litArgs more).emit env).reverse ++
          ({ code := OpCode.Push, data := l.value } :: rest) := by
      simp [litArgs, Args.emit, Expr.emit]
    rw [hcode, ih, ExecuteLoop_push, Executed.after_after]
    simp [Nat.add_comm]

/-- C9 (as claimed, refuted). With the built-ins, `(- (list 3 4))` gives `-` the
arguments 4, 3 and answers 1, where `(- 3 4)` gives it 3, 4 and answers -1; and
`(list (list 1 2 3))` leaves 3, 2, 1 where `(list 1 2 3)` leaves 1, 2, 3. -/
theorem list_is_not_identity :
    runCalls 40 (bytes "(- (list 3 4))") =
      some [(fn_list, [intValue Unit 3, intValue Unit 4]),
            (fn_sub, [intValue Unit 4, intValue Unit 3])] ∧
    runCalls 40 (bytes "(- 3 4)") = some [(fn_sub, [intValue Unit 3, intValue Unit 4])] ∧
    runJson 40 16 (bytes "(- (list 3 4))") = some (bytes "[1]\n") ∧
    runJson 40 16 (bytes "(- 3 4)") = some (bytes "[-1]\n") ∧
    runSerialized 40 (bytes "(list (list 1 2 3))") =
      some [SerializeCall.values [intValue Unit 3, intValue Unit 2, intValue Unit 1]] ∧
    runSerialized 40 (bytes "(list 1 2 3)") =
      some [SerializeCall.values [intValue Unit 1, intValue Unit 2, intValue Unit 3]] := by
  decide

/-- C9 (amended). `list` answers its arguments in order, which reverses them for
the enclosing call: for literal arguments `a1 … an` with the values `vals`, any
host function `f` and source texts that are the four expressions,
`(f (list a1 … an))` calls `list` with `vals` and then `f` with `vals`
reversed, where `(f a1 … an)` calls `f` with `vals`; and `(list a1 … an)`
leaves the stack `vals`, `(list (list a1 … an))` the stack `vals` reversed. -/
theorem list_reverses_for_enclosing_call {D U : Type} (fl : FloatLib D) (fuel : Nat) (env : Env)
    (fns : Nat → HostFn D U) (list_name f_name : List Nat) (ls : List (Literal D))
    (user_data : U) (t1 t2 t3 t4 : List Nat)
    (hlist : env.FindCall list_name ≠ 0) (hfn : fns (env.FindCall list_name) = list_fn)
    (hf : env.FindCall f_name ≠ 0)
    (h1 : Compiler.Lexes fl fuel env t1
      (Expr.call f_name (Args.cons (Expr.call list_name (litArgs ls)) Args.nil)))
    (h2 : Compiler.Lexes fl fuel env t2 (Expr.call f_name (litArgs ls)))
    (h3 : Compiler.Lexes fl fuel env t3
      (Expr.call list_name (Args.cons (Expr.call list_name (litArgs ls)) Args.nil)))
    (h4 : Compiler.Lexes fl fuel env t4 (Expr.call list_name (litArgs ls))) :
    ∃ c1 c2 c3 c4 : List (Instruction D),
      compiledCode fl fuel env t1 = some c1 ∧ compiledCode fl fuel env t2 = some c2 ∧
      compiledCode fl fuel env t3 = some c3 ∧ compiledCode fl fuel env t4 = some c4 ∧
      (Program.Execute fns { code_ := c1 } user_data).calls.map CallRecord.given =
        [(env.FindCall list_name, ls.map Literal.value),
         (env.FindCall f_name, (ls.map Literal.value).reverse)] ∧
      (Program.Execute fns { code_ := c2 } user_data).calls.map CallRecord.given =
        [(env.FindCall f_name, ls.map Literal.value)] ∧
      (Program.Execute fns { code_ := c3 } user_data).stack = (ls.map Literal.value).reverse ∧
      (Program.Execute fns { code_ := c4 } user_data).stack = ls.map Literal.value := by
  have hk := litArgs_known env ls
  have hnb := literal_values_not_barrier ls
  have hnb2 : ∀ v ∈ ls.map Literal.value, v.type ≠ TypeSchemaPtr.FrameBarrier :=
    fun v hv => hnb v (List.mem_reverse.mpr hv)
  refine ⟨_, _, _, _,
    Compiler.Build_of_callbacks fl fuel env t1 _ h1
      (by simp [Expr.known, Args.known, hlist, hf, hk]),
    Compiler.Build_of_callbacks fl fuel env t2 _ h2 (by simp [Expr.known, hf, hk]),
    Compiler.Build_of_callbacks fl fuel env t3 _ h3
      (by simp [Expr.known, Args.known, hlist, hk]),
    Compiler.Build_of_callbacks fl fuel env t4 _ h4 (by simp [Expr.known, hlist, hk]),
    ?_, ?_, ?_, ?_⟩
  · have hcode : (Expr.emit env
        (Expr.call f_name (Args.cons (Expr.call list_name (litArgs ls)) Args.nil))).reverse =
        { code := OpCode.Push,
          data := { type := TypeSchemaPtr.FrameBarrier, value := Value.i64 0 } } ::
        { code := OpCode.Push,
          data := { type := TypeSchemaPtr.FrameBarrier, value := Value.i64 0 } } ::
        (((litArgs ls).emit env).reverse ++
          ({ code := OpCode.Call,
             data := { type := TypeSchemaPtr.invalid,
                       value := Value.ptr (env.FindCall list_name) } } ::
           [{ code := OpCode.Call,
              data := { type := TypeSchemaPtr.invalid,
                        value := Value.ptr (env.FindCall f_name) } }])) := by
      simp [Expr.emit, Args.emit]
    unfold Program.Execute
    simp only [hcode]
    rw [ExecuteLoop_push, ExecuteLoop_push, ExecuteLoop_literals]
    obtain ⟨cc2, rec0, hrun, hgiven, _⟩ := ExecuteLoop_call_list fns (env.FindCall list_name)
      TypeSchemaPtr.invalid hfn
      [{ code := OpCode.Call,
         data := { type := TypeSchemaPtr.invalid, value := Value.ptr (env.FindCall f_name) } }]
      ([] ++ [{ type := TypeSchemaPtr.FrameBarrier, value := Value.i64 0 }])
      (ls.map Literal.value).reverse hnb
      { args := [], output := [], error_text := [], user_data := user_data }
    rw [hrun]
    simp only [Executed.after, List.nil_append, List.map_append, List.map_cons, List.map_nil,
      List.singleton_append, hgiven, List.reverse_reverse]
    rw [ExecuteLoop_last_call]
    have := CallArgs.toList_frame [] (ls.map Literal.value)
      { type := TypeSchemaPtr.FrameBarrier, value := Value.i64 0 } rfl hnb2
    simp only [List.nil_append, List.singleton_append] at this
    rw [this]
  · have hcode : (Expr.emit env (Expr.call f_name (litArgs ls))).reverse =
        { code := OpCode.Push,
          data := { type := TypeSchemaPtr.FrameBarrier, value := Value.i64 0 } } ::
        (((litArgs ls).emit env).reverse ++
           [{ code := OpCode.Call,
              data := { type := TypeSchemaPtr.invalid,
                        value := Value.ptr (env.FindCall f_name) } }]) := by
      simp [Expr.emit, Args.emit]
    unfold Program.Execute
    simp only [hcode]
    rw [ExecuteLoop_push, ExecuteLoop_literals]
    simp only [Executed.after, List.nil_append]
    rw [ExecuteLoop_last_call]
    have := CallArgs.toList_frame [] (ls.map Literal.value).reverse
      { type := TypeSchemaPtr.FrameBarrier, value := Value.i64 0 } rfl hnb
    simp only [List.nil_append, List.reverse_reverse] at this
    rw [this]
  · have hcode : (Expr.emit env
        (Expr.call list_name (Args.cons (Expr.call list_name (litArgs ls)) Args.nil))).reverse =
        { code := OpCode.Push,
          data := { type := TypeSchemaPtr.FrameBarrier, value := Value.i64 0 } } ::
        { code := OpCode.Push,
          data := { type := TypeSchemaPtr.FrameBarrier, value := Value.i64 0 } } ::
        (((litArgs ls).emit env).reverse ++
          ({ code := OpCode.Call,
             data := { type := TypeSchemaPtr.invalid,
                       value := Value.ptr (env.FindCall list_name) } } ::
           [{ code := OpCode.Call,
              data := { type := TypeSchemaPtr.invalid,
                        value := Value.ptr (env.FindCall list_name) } }])) := by
      simp [Expr.emit, Args.emit]
    unfold Program.Execute
    simp only [hcode]
    rw [ExecuteLoop_push, ExecuteLoop_push, ExecuteLoop_literals]
    obtain ⟨cc2, rec0, hrun, _, _⟩ := ExecuteLoop_call_list fns (env.FindCall list_name)
      TypeSchemaPtr.invalid hfn
      [{ code := OpCode.Call,
         data := { type := TypeSchemaPtr.invalid,
                   value := Value.ptr (env.FindCall list_name) } }]
      ([] ++ [{ type := TypeSchemaPtr.FrameBarrier, value := Value.i64 0 }])
      (ls.map Literal.value).reverse hnb
      { args := [], output := [], error_text := [], user_data := user_data }
    rw [hrun, List.reverse_reverse]
    obtain ⟨cc3, rec1, hrun2, _, _⟩ := ExecuteLoop_call_list fns (env.FindCall list_name)
      TypeSchemaPtr.invalid hfn [] [] (ls.map Literal.value) hnb2 cc2
    rw [hrun2]
    simp [Executed.after, Program.ExecuteLoop]
  · have hcode : (Expr.emit env (Expr.call list_name (litArgs ls))).reverse =
        { code := OpCode.Push,
          data := { type := TypeSchemaPtr.FrameBarrier, value := Value.i64 0 } } ::
        (((litArgs ls).emit env).reverse ++
           [{ code := OpCode.Call,
              data := { type := TypeSchemaPtr.invalid,
                        value := Value.ptr (env.FindCall list_name) } }]) := by
      simp [Expr.emit, Args.emit]
    unfold Program.Execute
    simp only [hcode]
    rw [ExecuteLoop_push, ExecuteLoop_literals]
    obtain ⟨cc2, rec0, hrun, _, _⟩ := ExecuteLoop_call_list fns (env.FindCall list_name)
      TypeSchemaPtr.invalid hfn [] [] (ls.map Literal.value).reverse hnb
      { args := [], output := [], error_text := [], user_data := user_data }
    rw [hrun]
    simp [Executed.after, Program.ExecuteLoop]

/-- Witness of C9 (amended) with the built-ins, `f` the function `-` and the
literals 3 and 4. -/
theorem list_reverses_for_enclosing_call_witness :
    builtinEnv.FindCall (bytes "list") ≠ 0 ∧
    @builtinFns Unit Unit noFloat (builtinEnv.FindCall (bytes "list")) = list_fn ∧
    builtinEnv.FindCall (bytes "-") ≠ 0 ∧
    Compiler.Lexes noFloat 30 builtinEnv (bytes "(- (list 3 4))")
      (Expr.call (bytes "-")
        (Args.cons (Expr.call (bytes "list") (litArgs [Literal.int 3, Literal.int 4]))
          Args.nil)) ∧
    ∃ c1 c2 c3 c4 : List (Instruction Unit),
      compiledCode noFloat 30 builtinEnv (bytes "(- (list 3 4))") = some c1 ∧
      compiledCode noFloat 30 builtinEnv (bytes "(- 3 4)") = some c2 ∧
      compiledCode noFloat 30 builtinEnv (bytes "(list (list 3 4))") = some c3 ∧
      compiledCode noFloat 30 builtinEnv (bytes "(list 3 4)") = some c4 ∧
      (Program.Execute (builtinFns noFloat) { code_ := c1 } ()).calls.map CallRecord.given =
        [(fn_list, [intValue Unit 3, intValue Unit 4]),
         (fn_sub, [intValue Unit 4, intValue Unit 3])] ∧
      (Program.Execute (builtinFns noFloat) { code_ := c2 } ()).calls.map CallRecord.given =
        [(fn_sub, [intValue Unit 3, intValue Unit 4])] ∧
      (Program.Execute (builtinFns noFloat) { code_ := c3 } ()).stack =
        [intValue Unit 4, intValue Unit 3] ∧
      (Program.Execute (builtinFns noFloat) { code_ := c4 } ()).stack =
        [intValue Unit 3, intValue Unit 4] :=
  have h1 : Compiler.Lexes noFloat 30 builtinEnv (bytes "(- (list 3 4))")
      (Expr.call (bytes "-")
        (Args.cons (Expr.call (bytes "list") (litArgs [Literal.int 3, Literal.int 4]))
          Args.nil)) := by
    unfold Compiler.Lexes
    decide
  ⟨by decide, rfl, by decide, h1,
    list_reverses_for_enclosing_call noFloat 30 builtinEnv (builtinFns noFloat) (bytes "list")
      (bytes "-") [Literal.int 3, Literal.int 4] () (bytes "(- (list 3 4))") (bytes "(- 3 4)")
      (bytes "(list (list 3 4))") (bytes "(list 3 4)") (by decide) rfl (by decide) h1
      (by unfold Compiler.Lexes; decide) (by unfold Compiler.Lexes; decide)
      (by unfold Compiler.Lexes; decide)⟩

/-! ### Operation names -/

theorem take_min_length (n : Nat) (l : List Nat) : l.take (min n l.length) = l.take n := by
  rcases le_total n l.length with hle | hle
  · rw [min_eq_left hle]
  · rw [min_eq_right hle, List.take_length, List.take_of_length_le hle]

theorem IsOpChar_iff (b : Nat) (hb : b < 256) :
    IsOpChar b = true ↔
      33 ≤ b ∧ b ≤ 127 ∧ ¬ (48 ≤ b ∧ b ≤ 57) ∧ b ∉ [40, 41, 123, 125, 91, 93, 34, 39, 58, 59] := by
  unfold IsOpChar charOf
  by_cases h128 : b < 128
  · rw [if_pos h128]
    simp only [Bool.and_eq_true, decide_eq_true_eq, Bool.not_eq_true', Bool.and_eq_false_imp,
      bne_iff_ne, ne_eq, List.mem_cons, List.mem_singleton, not_or, decide_eq_false_iff_not,
      List.not_mem_nil, or_false]
    constructor
    · rintro ⟨⟨⟨⟨h1, h2⟩, h3⟩, h4⟩, h5⟩
      refine ⟨by omega, by omega, by omega, ?_⟩
      tauto
    · rintro ⟨h1, h2, h3, h4⟩
      refine ⟨⟨⟨⟨by omega, by omega⟩, ?_⟩, ?_⟩, ?_⟩ <;> tauto
  · rw [if_neg h128]
    simp only [Bool.and_eq_true, decide_eq_true_eq]
    constructor
    · rintro ⟨⟨⟨⟨h1, _⟩, _⟩, _⟩, _⟩
      omega
    · rintro ⟨_, h2, _⟩
      omega

theorem LexerCheckOpName_iff (c : Nat) (rest : List Nat) (hbytes : ∀ b ∈ c :: rest, b < 256) :
    LexerCheckOpName (c :: rest) = true ↔
      (33 ≤ c ∧ c ≤ 127 ∧ ¬ (48 ≤ c ∧ c ≤ 57) ∧
        c ∉ [40, 41, 123, 125, 91, 93, 34, 39, 58, 59]) ∧
      ∀ b ∈ rest, 33 ≤ b ∧ b ≤ 127 ∧ b ∉ [40, 41, 123, 125, 91, 93, 34, 39, 58, 59] := by
  have hc := IsOpChar_iff c (hbytes c (List.mem_cons_self _ _))
  unfold LexerCheckOpName
  dsimp only
  by_cases h1 : IsOpChar c = true
  · have e1 : ¬ ((!IsOpChar c) = true) := by rw [h1]; decide
    rw [if_neg e1, List.all_eq_true]
    constructor
    · intro hall
      refine ⟨hc.mp h1, ?_⟩
      intro b hb
      have hb256 := hbytes b (List.mem_cons_of_mem _ hb)
      have h2 := hall b hb
      rw [Bool.or_eq_true] at h2
      rcases h2 with h2 | h2
      · obtain ⟨a1, a2, _, a4⟩ := (IsOpChar_iff b hb256).mp h2
        exact ⟨a1, a2, a4⟩
      · simp only [Bool.and_eq_true, decide_eq_true_eq] at h2
        refine ⟨by omega, by omega, ?_⟩
        simp only [List.mem_cons, List.mem_singleton, List.not_mem_nil, or_false, not_or]
        omega
    · rintro ⟨_, hall⟩ b hb
      have hb256 := hbytes b (List.mem_cons_of_mem _ hb)
      obtain ⟨a1, a2, a4⟩ := hall b hb
      rw [Bool.or_eq_true]
      by_cases hd : 48 ≤ b ∧ b ≤ 57
      · right
        simp only [Bool.and_eq_true, decide_eq_true_eq]
        exact hd
      · left
        exact (IsOpChar_iff b hb256).mpr ⟨a1, a2, hd, a4⟩
  · have e1 : (!IsOpChar c) = true := by
      cases hx : IsOpChar c with
      | true => exact absurd hx h1
      | false => rfl
    rw [if_pos e1]
    constructor
    · intro hf
      cases hf
    · rintro ⟨hcc, _⟩
      exact absurd (hc.mpr hcc) h1

/-- C17 (counterexample). The name `é` (the UTF-8 bytes 0xC3 0xA9, both greater
than 0x20 and neither a digit nor punctuation) is not accepted: `IsOpChar`
compares a signed `char` with 0x20, the check fails, and lexing `(é)` ends with
`Invalid op name` without a call of `begin_op`. -/
theorem op_name_high_byte_rejected :
    LexerCheckOpName [195, 169] = false ∧
    (Lexer.RunText noFloat countingHandler 8 { handler_ := 0, err_description_ := [] }
        [40, 195, 169, 41]).map (fun d => (d.result, d.calls)) =
      some (LexerResult.failure
        { err_line_no_ := 1, err_line_offset_ := 4,
          err_msg_ := bytes "Invalid op name: " ++ [195, 169] }, []) := by
  constructor
  · decide
  · rfl

/-- C17 (amended). With `char` signed, a non-empty operation name is accepted
exactly when its first byte lies in 0x21..0x7F and is neither a digit nor one of
`( ) { } [ ] " ' : ;`, and every later byte lies in 0x21..0x7F and is none of
that punctuation (digits allowed); bytes 0x80..0xFF are rejected.  An accepted
name is handed to `begin_op`; a rejected one makes no handler call and fails
with `err_description_` extended by `Invalid op name: ` and the name, as far as
they fit in 63 bytes (for a fresh lexer the message begins with
`Invalid op name: `). -/
theorem op_name_accepted_iff {D H : Type} (fl : FloatLib D) (h : Handler D H) (lx : Lexer H)
    (c : Nat) (rest : List Nat) (was_escaped : Bool) (fail : List Nat → LexerFailure)
    (hbytes : ∀ b ∈ c :: rest, b < 256) :
    (LexerCheckOpName (c :: rest) = true ↔
      (33 ≤ c ∧ c ≤ 127 ∧ ¬ (48 ≤ c ∧ c ≤ 57) ∧
        c ∉ [40, 41, 123, 125, 91, 93, 34, 39, 58, 59]) ∧
      ∀ b ∈ rest, 33 ≤ b ∧ b ≤ 127 ∧ b ∉ [40, 41, 123, 125, 91, 93, 34, 39, 58, 59]) ∧
    (LexerCheckOpName (c :: rest) = true →
      (termAction fl h lx TermType.kOp (c :: rest) was_escaped fail).2.1 =
        [Callback.LexerBeginOp (c :: rest)]) ∧
    (LexerCheckOpName (c :: rest) = false →
      (termAction fl h lx TermType.kOp (c :: rest) was_escaped fail).2.1 = [] ∧
      (termAction fl h lx TermType.kOp (c :: rest) was_escaped fail).1 =
        LexerResult.failure (fail (StrBuilder.BestEffortWrite 64
          (StrBuilder.BestEffortWrite 64 lx.err_description_ (bytes "Invalid op name: "))
          (c :: rest))) ∧
      (lx.err_description_ = [] →
        (termAction fl h lx TermType.kOp (c :: rest) was_escaped fail).1 =
          LexerResult.failure (fail (bytes "Invalid op name: " ++ (c :: rest).take 46)))) := by
  refine ⟨LexerCheckOpName_iff c rest hbytes, ?_, ?_⟩
  · intro hok
    unfold termAction
    simp [hok]
  · intro hbad
    have hres : (termAction fl h lx TermType.kOp (c :: rest) was_escaped fail).1 =
        LexerResult.failure (fail (StrBuilder.BestEffortWrite 64
          (StrBuilder.BestEffortWrite 64 lx.err_description_ (bytes "Invalid op name: "))
          (c :: rest))) := by
      unfold termAction
      simp [hbad]
    refine ⟨?_, hres, ?_⟩
    · unfold termAction
      simp [hbad]
    · intro hempty
      rw [hres, hempty]
      have e1 : StrBuilder.BestEffortWrite 64 [] (bytes "Invalid op name: ") =
          bytes "Invalid op name: " := by decide
      rw [e1]
      unfold StrBuilder.BestEffortWrite
      have e2 : (bytes "Invalid op name: ").length = 17 := by decide
      rw [e2]
      rw [show 64 - 1 - 17 = 46 from rfl, take_min_length]

/-- The amended claim at the names `a7` (accepted) and the rejected `7a`. -/
theorem op_name_accepted_iff_witness :
    (∀ b ∈ [97, 55], b < 256) ∧
    LexerCheckOpName [97, 55] = true ∧
    (termAction noFloat countingHandler { handler_ := 0, err_description_ := [] }
        TermType.kOp [97, 55] false
        ({ err_line_no_ := 1, err_line_offset_ := 4, err_msg_ := · })).2.1 =
      [Callback.LexerBeginOp [97, 55]] :=
  ⟨by decide, by decide,
   (op_name_accepted_iff noFloat countingHandler { handler_ := 0, err_description_ := [] }
      97 [55] false ({ err_line_no_ := 1, err_line_offset_ := 4, err_msg_ := · })
      (by decide)).2.1 (by decide)⟩

/-! ### Integer terms -/

theorem strtoll_sign (rest : List Nat) :
    ∃ sign r, rest = sign ++ r ∧ (sign = [] ∨ sign = [45] ∨ sign = [43]) ∧
      (match rest with
        | 45 :: r => (true, r, 1)
        | 43 :: r => (false, r, 1)
        | _ => ((false, rest, 0) : Bool × List Nat × Nat)) =
        (decide (sign = [45]), r, sign.length) ∧
      (sign = [] → ∀ c, rest.head? = some c → c ≠ 45 ∧ c ≠ 43) := by
  rcases rest with _ | ⟨c, r⟩
  · exact ⟨[], [], rfl, Or.inl rfl, rfl, by simp⟩
  · by_cases h45 : c = 45
    · subst h45
      exact ⟨[45], r, rfl, Or.inr (Or.inl rfl), rfl, by simp⟩
    · by_cases h43 : c = 43
      · subst h43
        exact ⟨[43], r, rfl, Or.inr (Or.inr rfl), rfl, by simp⟩
      · refine ⟨[], c :: r, rfl, Or.inl rfl, ?_, ?_⟩
        · split
          · rename_i heq
            simp only [List.cons.injEq] at heq
            exact absurd heq.1 h45
          · rename_i heq
            simp only [List.cons.injEq] at heq
            exact absurd heq.1 h43
          · rfl
        · intro _ c2 hc2
          simp only [List.head?_cons, Option.some.injEq] at hc2
          subst hc2
          exact ⟨h45, h43⟩

theorem strtoll_body (neg : Bool) (r : List Nat) (wl sl : Nat) :
    ((if (r.takeWhile isdigit).isEmpty then ((0, 0, false) : Int × Nat × Bool)
      else
        let mag : Nat := (r.takeWhile isdigit).foldl (fun acc d => acc * 10 + (d - 48)) 0
        let v : Int := if neg then -(mag : Int) else (mag : Int)
        let consumed := wl + sl + (r.takeWhile isdigit).length
        if v < -(2 ^ 63 : Int) then (-(2 ^ 63 : Int), consumed, true)
        else if (2 ^ 63 : Int) - 1 < v then ((2 ^ 63 : Int) - 1, consumed, true)
        else (v, consumed, false)) = (0, 0, false) ∧ r.takeWhile isdigit = []) ∨
    (r.takeWhile isdigit ≠ [] ∧
      ∃ out : Int × Nat × Bool,
        (if (r.takeWhile isdigit).isEmpty then ((0, 0, false) : Int × Nat × Bool)
          else
            let mag : Nat := (r.takeWhile isdigit).foldl (fun acc d => acc * 10 + (d - 48)) 0
            let v : Int := if neg then -(mag : Int) else (mag : Int)
            let consumed := wl + sl + (r.takeWhile isdigit).length
            if v < -(2 ^ 63 : Int) then (-(2 ^ 63 : Int), consumed, true)
            else if (2 ^ 63 : Int) - 1 < v then ((2 ^ 63 : Int) - 1, consumed, true)
            else (v, consumed, false)) = out ∧
        out.2.1 = wl + sl + (r.takeWhile isdigit).length ∧
        (out.2.2 = false →
          out.1 = (if neg then
              -(((r.takeWhile isdigit).foldl (fun acc d => acc * 10 + (d - 48)) 0 : Nat) : Int)
            else (((r.takeWhile isdigit).foldl (fun acc d => acc * 10 + (d - 48)) 0 : Nat) : Int)) ∧
          -(2 ^ 63 : Int) ≤ out.1 ∧ out.1 ≤ 2 ^ 63 - 1)) := by
  by_cases hd : (r.takeWhile isdigit).isEmpty = true
  · left
    rw [if_pos hd]
    exact ⟨rfl, List.isEmpty_iff.mp hd⟩
  · right
    rw [if_neg hd]
    refine ⟨fun h0 => hd (by rw [h0]; rfl), ?_⟩
    dsimp only
    cases neg with
    | true =>
      simp only [if_true]
      split_ifs with h1 h2
      · exact ⟨_, rfl, rfl, fun hf => by cases hf⟩
      · exact ⟨_, rfl, rfl, fun hf => by cases hf⟩
      · exact ⟨_, rfl, rfl, fun _ => ⟨rfl, not_lt.mp h1, not_lt.mp h2⟩⟩
    | false =>
      simp only [Bool.false_eq_true, if_false]
      split_ifs with h1 h2
      · exact ⟨_, rfl, rfl, fun hf => by cases hf⟩
      · exact ⟨_, rfl, rfl, fun hf => by cases hf⟩
      · exact ⟨_, rfl, rfl, fun _ => ⟨rfl, not_lt.mp h1, not_lt.mp h2⟩⟩

theorem drop_length_takeWhile (p : Nat → Bool) (l : List Nat) :
    l.drop (l.takeWhile p).length = l.dropWhile p := by
  induction l with
  | nil => rfl
  | cons a t ih => by_cases h : p a = true <;> simp [List.takeWhile, List.dropWhile, h, ih]

theorem strtoll_spec (s : List Nat) :
    (strtoll s).2.1 = 0 ∨
    ∃ ws sign digits tail, s.takeWhile (fun c => c != 0) = ws ++ sign ++ digits ++ tail ∧
      (∀ c ∈ ws, isspace c = true) ∧ (sign = [] ∨ sign = [45] ∨ sign = [43]) ∧
      digits ≠ [] ∧ (∀ c ∈ digits, isdigit c = true) ∧
      (strtoll s).2.1 = ws.length + sign.length + digits.length ∧
      ((strtoll s).2.2 = false →
        (strtoll s).1 = (if sign = [45] then
            -((digits.foldl (fun acc d => acc * 10 + (d - 48)) 0 : Nat) : Int)
          else ((digits.foldl (fun acc d => acc * 10 + (d - 48)) 0 : Nat) : Int)) ∧
        -(2 ^ 63 : Int) ≤ (strtoll s).1 ∧ (strtoll s).1 ≤ 2 ^ 63 - 1) := by
  obtain ⟨sign, r, hrest, hsg, hm, _⟩ := strtoll_sign
    (List.drop (List.takeWhile isspace (s.takeWhile (fun c => c != 0))).length
      (s.takeWhile (fun c => c != 0)))
  have hstr : s.takeWhile (fun c => c != 0) =
      (s.takeWhile (fun c => c != 0)).takeWhile isspace ++ (sign ++ r) := by
    rw [← hrest, drop_length_takeWhile, List.takeWhile_append_dropWhile]
  have hws : ∀ c ∈ (s.takeWhile (fun c => c != 0)).takeWhile isspace, isspace c = true :=
    fun c hc => List.mem_takeWhile_imp hc
  have hval : strtoll s =
      (if (r.takeWhile isdigit).isEmpty then ((0, 0, false) : Int × Nat × Bool)
        else
          let mag : Nat := (r.takeWhile isdigit).foldl (fun acc d => acc * 10 + (d - 48)) 0
          let v : Int := if decide (sign = [45]) then -(mag : Int) else (mag : Int)
          let consumed := ((s.takeWhile (fun c => c != 0)).takeWhile isspace).length +
            sign.length + (r.takeWhile isdigit).length
          if v < -(2 ^ 63 : Int) then (-(2 ^ 63 : Int), consumed, true)
          else if (2 ^ 63 : Int) - 1 < v then ((2 ^ 63 : Int) - 1, consumed, true)
          else (v, consumed, false)) := by
    unfold strtoll
    dsimp only
    rw [hm]
  rcases strtoll_body (decide (sign = [45])) r
      ((s.takeWhile (fun c => c != 0)).takeWhile isspace).length sign.length with
    ⟨heq, _⟩ | ⟨hne, out, heq, h1, h2⟩
  · left
    rw [hval, heq]
  · right
    rw [hval, heq]
    refine ⟨_, sign, r.takeWhile isdigit, r.dropWhile isdigit, ?_, hws, hsg, hne,
      fun c hc => List.mem_takeWhile_imp hc, h1, ?_⟩
    · rw [List.append_assoc, List.append_assoc, List.takeWhile_append_dropWhile]
      exact hstr
    · intro hf
      obtain ⟨e1, e2, e3⟩ := h2 hf
      refine ⟨?_, e2, e3⟩
      rw [e1]
      by_cases hs : sign = [45]
      · simp [hs]
      · simp [hs]

theorem takeWhile_append_stop (p : Nat → Bool) (a b : List Nat) (ha : ∀ x ∈ a, p x = true)
    (hb : ∀ x, b.head? = some x → p x = false) : (a ++ b).takeWhile p = a := by
  induction a with
  | nil =>
    rcases b with _ | ⟨x, t⟩
    · rfl
    · simp [List.takeWhile, hb x rfl]
  | cons x t ih =>
    have hx := ha x (List.mem_cons_self _ _)
    simp only [List.cons_append, List.takeWhile, hx]
    exact congrArg (List.cons x) (ih (fun y hy => ha y (List.mem_cons_of_mem _ hy)))

theorem takeWhile_all (p : Nat → Bool) (a : List Nat) (ha : ∀ x ∈ a, p x = true) :
    a.takeWhile p = a := by
  have h := takeWhile_append_stop p a [] ha (by simp)
  rwa [List.append_nil] at h

theorem strtoll_sign_of (sign digits : List Nat)
    (hsg : sign = [] ∨ sign = [45] ∨ sign = [43]) (hd : digits ≠ [])
    (hdig : ∀ c ∈ digits, isdigit c = true) :
    (match sign ++ digits with
      | 45 :: r => (true, r, 1)
      | 43 :: r => (false, r, 1)
      | _ => ((false, sign ++ digits, 0) : Bool × List Nat × Nat)) =
      (decide (sign = [45]), digits, sign.length) := by
  rcases hsg with h | h | h
  · subst h
    rcases digits with _ | ⟨c, r⟩
    · exact absurd rfl hd
    · have hc := hdig c (List.mem_cons_self _ _)
      simp only [isdigit, Bool.and_eq_true, decide_eq_true_eq] at hc
      simp only [List.nil_append]
      split
      · rename_i heq
        simp only [List.cons.injEq] at heq
        omega
      · rename_i heq
        simp only [List.cons.injEq] at heq
        omega
      · rfl
  · subst h
    rfl
  · subst h
    rfl

theorem strtoll_of_form (ws sign digits : List Nat) (hws : ∀ c ∈ ws, isspace c = true)
    (hsg : sign = [] ∨ sign = [45] ∨ sign = [43]) (hd : digits ≠ [])
    (hdig : ∀ c ∈ digits, isdigit c = true) :
    strtoll (ws ++ sign ++ digits) =
      (if (if sign = [45] then
              -((digits.foldl (fun acc d => acc * 10 + (d - 48)) 0 : Nat) : Int)
            else ((digits.foldl (fun acc d => acc * 10 + (d - 48)) 0 : Nat) : Int)) <
            -(2 ^ 63 : Int) then
          (-(2 ^ 63 : Int), ws.length + sign.length + digits.length, true)
        else if (2 ^ 63 : Int) - 1 <
            (if sign = [45] then
              -((digits.foldl (fun acc d => acc * 10 + (d - 48)) 0 : Nat) : Int)
            else ((digits.foldl (fun acc d => acc * 10 + (d - 48)) 0 : Nat) : Int)) then
          ((2 ^ 63 : Int) - 1, ws.length + sign.length + digits.length, true)
        else
          ((if sign = [45] then
              -((digits.foldl (fun acc d => acc * 10 + (d - 48)) 0 : Nat) : Int)
            else ((digits.foldl (fun acc d => acc * 10 + (d - 48)) 0 : Nat) : Int)),
           ws.length + sign.length + digits.length, false)) := by
  have hsd : ∀ c ∈ sign ++ digits, isspace c = false ∧ c ≠ 0 := by
    intro c hc
    rcases List.mem_append.mp hc with h | h
    · rcases hsg with e | e | e <;> subst e <;> simp at h <;> subst h <;> decide
    · have := hdig c h
      simp only [isdigit, Bool.and_eq_true, decide_eq_true_eq] at this
      refine ⟨?_, by omega⟩
      simp only [isspace, Bool.or_eq_false_iff, decide_eq_false_iff_not, Bool.and_eq_false_imp,
        decide_eq_true_eq]
      omega
  have h0 : (ws ++ sign ++ digits).takeWhile (fun c => c != 0) = ws ++ (sign ++ digits) := by
    rw [List.append_assoc]
    apply takeWhile_all
    intro c hc
    rcases List.mem_append.mp hc with h | h
    · have := hws c h
      simp only [isspace, Bool.or_eq_true, decide_eq_true_eq, Bool.and_eq_true] at this
      simp only [bne_iff_ne, ne_eq]
      omega
    · simpa using (hsd c h).2
  have h1 : (ws ++ (sign ++ digits)).takeWhile isspace = ws := by
    apply takeWhile_append_stop _ _ _ hws
    intro x hx
    exact (hsd x (List.mem_of_mem_head? hx)).1
  have h2 : List.drop ws.length (ws ++ (sign ++ digits)) = sign ++ digits := by
    simp
  have h3 : digits.takeWhile isdigit = digits := takeWhile_all _ _ hdig
  have h4 : ¬ (digits.isEmpty = true) := fun h => hd (List.isEmpty_iff.mp h)
  unfold strtoll
  dsimp only
  rw [h0, h1, h2, strtoll_sign_of sign digits hsg hd hdig]
  dsimp only
  rw [h3, if_neg h4]
  by_cases hs : sign = [45]
  · simp only [hs, decide_True, if_true]
  · simp only [hs, decide_False, if_false, Bool.false_eq_true]

theorem takeWhile_length_eq (p : Nat → Bool) (l : List Nat)
    (h : l.length ≤ (l.takeWhile p).length) : l.takeWhile p = l := by
  induction l with
  | nil => rfl
  | cons a t ih =>
    by_cases ha : p a = true
    · simp only [List.takeWhile, ha, List.length_cons] at h ⊢
      exact congrArg (List.cons a) (ih (by omega))
    · simp only [List.takeWhile, ha, List.length_cons, List.length_nil] at h
      omega

theorem takeWhile_length_le (p : Nat → Bool) (l : List Nat) :
    (l.takeWhile p).length ≤ l.length := by
  induction l with
  | nil => exact Nat.le_refl _
  | cons a t ih =>
    by_cases ha : p a = true
    · simp only [List.takeWhile, ha, List.length_cons]
      omega
    · simp only [List.takeWhile, ha, List.length_cons, List.length_nil]
      omega

theorem LexerParseInt64_iff (term : List Nat) (hne : term ≠ []) (n : Int) :
    LexerParseInt64 term = some n ↔
      term.length ≤ 63 ∧
      ∃ ws sign digits, term = ws ++ sign ++ digits ∧ (∀ c ∈ ws, isspace c = true) ∧
        (sign = [] ∨ sign = [45] ∨ sign = [43]) ∧ digits ≠ [] ∧
        (∀ c ∈ digits, isdigit c = true) ∧
        n = (if sign = [45] then
            -((digits.foldl (fun acc d => acc * 10 + (d - 48)) 0 : Nat) : Int)
          else ((digits.foldl (fun acc d => acc * 10 + (d - 48)) 0 : Nat) : Int)) ∧
        -(2 ^ 63 : Int) ≤ n ∧ n ≤ 2 ^ 63 - 1 := by
  have hlen0 : 0 < term.length := List.length_pos.mpr hne
  constructor
  · intro h
    unfold LexerParseInt64 at h
    dsimp only at h
    split_ifs at h with hc
    obtain ⟨hcons, herr⟩ := hc
    simp only [Option.some.injEq] at h
    rcases strtoll_spec (term.take (min term.length 63)) with h0 | ⟨ws, sign, digits, tail, hstr, hws, hsg, hd, hdig, hcon, hval⟩
    · omega
    · have hl1 : ((term.take (min term.length 63)).takeWhile (fun c => c != 0)).length ≤
          (term.take (min term.length 63)).length := takeWhile_length_le _ _
      have hl2 : (term.take (min term.length 63)).length = min (min term.length 63) term.length :=
        List.length_take _ _
      have hl3 : ((term.take (min term.length 63)).takeWhile (fun c => c != 0)).length =
          ws.length + sign.length + digits.length + tail.length := by
        rw [hstr]
        simp only [List.length_append]
      have ht : tail = [] := List.length_eq_zero.mp (by omega)
      have h63 : term.length ≤ 63 := by omega
      have htb : term.take (min term.length 63) = term := by
        rw [List.take_of_length_le]
        rw [min_eq_left h63]
      rw [htb] at hstr hval hcon hl1 hl3 hcons herr h
      have hterm : term.takeWhile (fun c => c != 0) = term :=
        takeWhile_length_eq _ _ (by omega)
      rw [hterm, ht, List.append_nil] at hstr
      obtain ⟨e1, e2, e3⟩ := hval herr
      refine ⟨h63, ws, sign, digits, hstr, hws, hsg, hd, hdig, ?_, ?_, ?_⟩
      · rw [← h]
        exact e1
      · rw [← h]
        exact e2
      · rw [← h]
        exact e3
  · rintro ⟨h63, ws, sign, digits, hterm, hws, hsg, hd, hdig, hn, hlo, hhi⟩
    have htb : term.take (min term.length 63) = term := by
      rw [List.take_of_length_le]
      rw [min_eq_left h63]
    have hlen : term.length = ws.length + sign.length + digits.length := by
      rw [hterm]
      simp only [List.length_append]
    unfold LexerParseInt64
    dsimp only
    rw [htb]
    have hst := strtoll_of_form ws sign digits hws hsg hd hdig
    rw [← hterm, ← hn, if_neg (not_lt.mpr hlo), if_neg (not_lt.mpr hhi)] at hst
    rw [hst]
    dsimp only
    rw [if_pos ⟨hlen.symm, rfl⟩]

theorem termAction_value_calls {D H : Type} (fl : FloatLib D) (h : Handler D H) (lx : Lexer H)
    (term : List Nat) (hne : term ≠ []) (was_escaped : Bool) (fail : List Nat → LexerFailure) :
    (termAction fl h lx TermType.kValue term was_escaped fail).2.1 =
      match LexerParseInt64 term with
      | some lval => [Callback.LexerIntValue lval]
      | none =>
        match LexerParseDouble fl term with
        | some dval => [Callback.LexerDoubleValue dval]
        | none => [Callback.LexerUnhandledValue term] := by
  have he : ¬ (term.isEmpty = true) := fun h0 => hne (List.isEmpty_iff.mp h0)
  unfold termAction
  dsimp only
  rw [if_neg he]
  cases LexerParseInt64 term with
  | some lval => rfl
  | none =>
    dsimp only
    cases LexerParseDouble fl term with
    | some dval => rfl
    | none =>
      dsimp only
      cases (h.LexerUnhandledValue lx.handler_ term).1 with
      | none => rfl
      | some err_msg =>
        dsimp only
        split_ifs <;> rfl

/-- C16 (counterexample). The value term `+25` does not consist of an optional
`-` and digits, yet it is reported through `int_value(25)`: `strtoll` accepts a
`+` sign.  And the term of 63 zeros followed by `1` consists of digits only and
has the value 1, yet it is not reported through `int_value`: only the first 63
bytes of a term are converted. -/
theorem plus_sign_is_int_value :
    (Lexer.RunText noFloat countingHandler 16 { handler_ := 0, err_description_ := [] }
        (bytes "(f +25)")).map (fun d => d.calls) =
      some [Callback.LexerBeginOp (bytes "f"), Callback.LexerIntValue 25, Callback.LexerEndOp] ∧
    LexerParseInt64 (List.replicate 63 48 ++ [49]) = none := by
  constructor
  · decide!
  · cases hp : LexerParseInt64 (List.replicate 63 48 ++ [49]) with
    | none => rfl
    | some n =>
      have h63 := ((LexerParseInt64_iff _ (by simp) n).mp hp).1
      simp at h63

/-- C16 (amended). A non-empty value term is reported through `int_value(n)` if
and only if it is at most 63 bytes long and consists of optional leading white
space of the C library (inside a term that can only be `\v` and `\f`), an
optional `-` or `+`, and one or more decimal digits whose value with that sign
lies in the signed 64-bit range; `n` is then exactly that value.  Every other
non-empty value term goes to `double_value` or to `unhandled_value`. -/
theorem int_value_iff {D H : Type} (fl : FloatLib D) (h : Handler D H) (lx : Lexer H)
    (term : List Nat) (hne : term ≠ []) (n : Int) (was_escaped : Bool)
    (fail : List Nat → LexerFailure) :
    ((termAction fl h lx TermType.kValue term was_escaped fail).2.1 =
        [Callback.LexerIntValue n] ↔
      term.length ≤ 63 ∧
      ∃ ws sign digits, term = ws ++ sign ++ digits ∧ (∀ c ∈ ws, isspace c = true) ∧
        (sign = [] ∨ sign = [45] ∨ sign = [43]) ∧ digits ≠ [] ∧
        (∀ c ∈ digits, isdigit c = true) ∧
        n = (if sign = [45] then
            -((digits.foldl (fun acc d => acc * 10 + (d - 48)) 0 : Nat) : Int)
          else ((digits.foldl (fun acc d => acc * 10 + (d - 48)) 0 : Nat) : Int)) ∧
        -(2 ^ 63 : Int) ≤ n ∧ n ≤ 2 ^ 63 - 1) ∧
    ((∀ m, (termAction fl h lx TermType.kValue term was_escaped fail).2.1 ≠
        [Callback.LexerIntValue m]) →
      (∃ v, (termAction fl h lx TermType.kValue term was_escaped fail).2.1 =
        [Callback.LexerDoubleValue v]) ∨
      (termAction fl h lx TermType.kValue term was_escaped fail).2.1 =
        [Callback.LexerUnhandledValue term]) := by
  rw [termAction_value_calls fl h lx term hne was_escaped fail]
  constructor
  · rw [← LexerParseInt64_iff term hne n]
    cases LexerParseInt64 term with
    | some lval => simp
    | none =>
      dsimp only
      cases LexerParseDouble fl term <;> simp
  · intro hno
    cases hp : LexerParseInt64 term with
    | some lval =>
      rw [hp] at hno
      exact absurd rfl (hno lval)
    | none =>
      dsimp only
      cases LexerParseDouble fl term with
      | some dval => exact Or.inl ⟨dval, rfl⟩
      | none => exact Or.inr rfl

/-- The amended claim at the term `-25`: it is reported through `int_value(-25)`. -/
theorem int_value_iff_witness :
    bytes "-25" ≠ [] ∧
    (termAction noFloat countingHandler { handler_ := 0, err_description_ := [] }
        TermType.kValue (bytes "-25") false
        (fun m => { err_line_no_ := 1, err_line_offset_ := 1, err_msg_ := m })).2.1 =
      [Callback.LexerIntValue (-25)] :=
  ⟨by decide,
   ((int_value_iff noFloat countingHandler { handler_ := 0, err_description_ := [] }
      (bytes "-25") (by decide) (-25) false
      (fun m => { err_line_no_ := 1, err_line_offset_ := 1, err_msg_ := m })).1).mpr
     ⟨by decide, [], [45], bytes "25", by decide, by decide, by decide, by decide, by decide,
      by decide, by decide, by decide⟩⟩

/-! ### The request loop of an endpoint -/

/-- C14 (as claimed, refuted). Serving `(nop) (nop) (nop)` followed by end of
stream does not write exactly three empty-array lines. -/
theorem repl_three_nops_not_three_lines :
    (Endpoint.ServeCommandMode noFloat (fun _ _ => []) testFns 32 8 testEnv 0
        (InStream.of (bytes "(nop) (nop) (nop)") [])).map
      (fun s => s.writer.stream_.received) ≠ some (bytes "[]\n[]\n[]\n") := by
  decide!

/-- C14 (amended). Serving `(nop) (nop) (nop)` followed by end of stream,
delivered in one read or byte by byte, the loop calls `slang::Execute` four
times and `nop` exactly three times (`nop_count` is 3), and writes four
empty-array lines: one for each request, and one more for the fourth call,
which finds the stream closed, compiles the empty program and serializes its
empty stack.  Only then is the reader no longer good and the loop stops. -/
theorem repl_three_nops_four_lines :
    (Endpoint.ServeCommandMode noFloat (fun _ _ => []) testFns 32 8 testEnv 0
        (InStream.of (bytes "(nop) (nop) (nop)") [])).map
      (fun s => (s.executed, s.calls.map (fun r => r.fn), s.user_data,
                 s.writer.stream_.received, s.reader.IsGood)) =
      some (4, [fn_nop, fn_nop, fn_nop], 3, bytes "[]\n[]\n[]\n[]\n", false) ∧
    (Endpoint.ServeCommandMode noFloat (fun _ _ => []) testFns 32 8 testEnv 0
        (InStream.of (bytes "(nop) (nop) (nop)") (List.replicate 17 0))).map
      (fun s => (s.executed, s.calls.map (fun r => r.fn), s.user_data,
                 s.writer.stream_.received, s.reader.IsGood)) =
      some (4, [fn_nop, fn_nop, fn_nop], 3, bytes "[]\n[]\n[]\n[]\n", false) := by
  decide!

/-- C13. Serving the one request `(xxx 1 2)` with a function table without `xxx`
writes three error strings and an empty array: `slang::Execute` returns at the
byte that ended the name `xxx` and leaves `1 2)` unread, and the loop parses
these bytes as further requests. -/
theorem rejected_request_is_not_skipped :
    (Execute (U := Nat) noFloat testFns 32 testEnv 0
        (StreamReader.mk0 (List.replicate 1024 0) (InStream.of (bytes "(xxx 1 2)") []))).map
      (fun r => (r.serialized, r.reader.available_end_ - r.reader.available_begin_,
                 slice r.reader.read_buf_ r.reader.available_begin_ r.reader.available_end_)) =
      some ([SerializeCall.str (bytes "Error(ln 1, col 5): Unknown function 'xxx'")], 4,
            bytes "1 2)") ∧
    (Endpoint.ServeCommandMode noFloat (fun _ _ => []) testFns 32 8 testEnv 0
        (InStream.of (bytes "(xxx 1 2)") [])).map
      (fun s => (s.executed, s.writer.stream_.received)) =
      some (4, bytes ("\"Error(ln 1, col 5): Unknown function 'xxx'\"\n" ++
                      "\"Error(ln 1, col 2): Expected opening bracket\"\n" ++
                      "\"Error(ln 1, col 2): Redundant closing parenthesis\"\n[]\n")) := by
  decide!

/-- C20. A comment that directly follows a term does not end the term: for
`(f 12;c` + line feed + `)` the handler is given the value `12;c` + line feed
through `unhandled_value`, while the same text without the comment's bytes
reports `int_value(12)`; after the operation name, `(f;c` + line feed + ` 12)`
fails with `Invalid op name` where the text without the comment succeeds. -/
theorem comment_after_term_joins_it :
    (Lexer.RunText noFloat countingHandler 16 { handler_ := 0, err_description_ := [] }
        (bytes "(f 12;c\n)")).map (fun d => (d.result, d.calls)) =
      some (LexerResult.success,
        [Callback.LexerBeginOp (bytes "f"), Callback.LexerUnhandledValue (bytes "12;c\n"),
         Callback.LexerEndOp]) ∧
    (Lexer.RunText noFloat countingHandler 16 { handler_ := 0, err_description_ := [] }
        (bytes "(f 12\n)")).map (fun d => (d.result, d.calls)) =
      some (LexerResult.success,
        [Callback.LexerBeginOp (bytes "f"), Callback.LexerIntValue 12, Callback.LexerEndOp]) ∧
    (Lexer.RunText noFloat countingHandler 16 { handler_ := 0, err_description_ := [] }
        (bytes "(f;c\n 12)")).map (fun d => (d.result, d.calls)) =
      some (LexerResult.failure
        { err_line_no_ := 2, err_line_offset_ := 1,
          err_msg_ := bytes "Invalid op name: f;c\n" }, []) ∧
    (Lexer.RunText noFloat countingHandler 16 { handler_ := 0, err_description_ := [] }
        (bytes "(f\n 12)")).map (fun d => (d.result, d.calls)) =
      some (LexerResult.success,
        [Callback.LexerBeginOp (bytes "f"), Callback.LexerIntValue 12, Callback.LexerEndOp]) := by
  decide!

/-! ### Handler errors -/

theorem Handler.accepts_append {D H : Type} (h : Handler D H) :
    ∀ (a b : List (Callback D)) (s : H),
      h.accepts s (a ++ b) = (h.accepts s a && h.accepts (h.replay s a) b) := by
  intro a
  induction a with
  | nil =>
    intro b s
    simp [Handler.accepts, Handler.replay]
  | cons cb rest ih =>
    intro b s
    have e := ih b (h.step s cb)
    simp only [List.cons_append, Handler.accepts, Handler.replay, List.foldl_cons,
      Bool.and_assoc] at e ⊢
    rw [← e]
    rfl

theorem Handler.accepts_answer {D H : Type} (h : Handler D H) (s : H)
    (pre : List (Callback D)) (cb : Callback D) (post : List (Callback D))
    (hacc : h.accepts s (pre ++ cb :: post) = true) :
    h.answer (h.replay s pre) cb = none := by
  rw [Handler.accepts_append, Bool.and_eq_true] at hacc
  have h2 := hacc.2
  simp only [Handler.accepts, Bool.and_eq_true, Option.isNone_iff_eq_none] at h2
  exact h2.1

theorem positionAfter_append (p : Nat × Nat) (a b : List Nat) :
    positionAfter p (a ++ b) = positionAfter (positionAfter p a) b := by
  induction a generalizing p with
  | nil => rfl
  | cons c rest ih => exact ih _

theorem positionAfter_no_lf (p : Nat × Nat) (a : List Nat) (h : 10 ∉ a) :
    positionAfter p a = (p.1, p.2 + a.length) := by
  induction a generalizing p with
  | nil => rfl
  | cons c rest ih =>
    have hc : c ≠ 10 := fun e => h (e ▸ List.mem_cons_self _ _)
    have hr : 10 ∉ rest := fun m => h (List.mem_cons_of_mem _ m)
    simp only [positionAfter, if_neg hc, ih _ hr, List.length_cons]
    congr 1
    omega

theorem Propagated.of_accepts {D H : Type} (h : Handler D H) (s : H) (pos : Nat × Nat)
    (calls : List (Callback D)) (r : LexerResult) (hacc : h.accepts s calls = true) :
    Propagated h s pos calls r := by
  cases r with
  | success => exact hacc
  | failure f => exact Or.inl hacc

theorem Propagated.append {D H : Type} (h : Handler D H) (s : H) (pos : Nat × Nat)
    (c1 c2 : List (Callback D)) (r : LexerResult) (h1 : h.accepts s c1 = true)
    (h2 : Propagated h (h.replay s c1) pos c2 r) : Propagated h s pos (c1 ++ c2) r := by
  cases r with
  | success =>
    show h.accepts s (c1 ++ c2) = true
    rw [Handler.accepts_append, h1]
    exact h2
  | failure f =>
    rcases h2 with h2 | ⟨pre, cb, msg, e1, e2, e3, e4, e5⟩
    · left
      rw [Handler.accepts_append, h1]
      exact h2
    · right
      refine ⟨c1 ++ pre, cb, msg, ?_, ?_, ?_, e4, e5⟩
      · rw [e1, List.append_assoc]
      · rw [Handler.accepts_append, h1]
        exact e2
      · rw [Handler.replay_append]
        exact e3

theorem Propagated.single {D H : Type} (h : Handler D H) (s : H) (l c : Nat)
    (cb : Callback D) (fail : List Nat → LexerFailure)
    (hfail : ∀ m, fail m = { err_line_no_ := l, err_line_offset_ := c, err_msg_ := m }) :
    Propagated h s (l, c) [cb]
      (match h.answer s cb with
       | none => LexerResult.success
       | some err_msg => LexerResult.failure (fail err_msg)) := by
  cases hr : h.answer s cb with
  | none =>
    show h.accepts s [cb] = true
    simp [Handler.accepts, hr]
  | some msg =>
    right
    refine ⟨[], cb, msg, rfl, rfl, hr, ?_, Or.inl ?_⟩
    · rw [hfail]
    · rw [hfail]

theorem termAction_propagated {D H : Type} (fl : FloatLib D) (h : Handler D H) (lx : Lexer H)
    (type : TermType) (term : List Nat) (was_escaped : Bool) (l c : Nat)
    (fail : List Nat → LexerFailure)
    (hfail : ∀ m, fail m = { err_line_no_ := l, err_line_offset_ := c, err_msg_ := m }) :
    Propagated h lx.handler_ (l, c) (termAction fl h lx type term was_escaped fail).2.1
      (termAction fl h lx type term was_escaped fail).1 := by
  unfold termAction
  cases type with
  | kOp =>
    dsimp only
    split_ifs
    · exact rfl
    · exact Or.inl rfl
    · exact Propagated.single h lx.handler_ l c (Callback.LexerBeginOp term) fail hfail
  | kValue =>
    dsimp only
    split_ifs
    · exact rfl
    · cases LexerParseInt64 term with
      | some lval =>
        exact Propagated.single h lx.handler_ l c (Callback.LexerIntValue lval) fail hfail
      | none =>
        dsimp only
        cases LexerParseDouble fl term with
        | some dval =>
          exact Propagated.single h lx.handler_ l c (Callback.LexerDoubleValue dval) fail hfail
        | none =>
          dsimp only
          cases hr : (h.LexerUnhandledValue lx.handler_ term).1 with
          | none =>
            show h.accepts lx.handler_ [Callback.LexerUnhandledValue term] = true
            simp [Handler.accepts, Handler.answer, hr]
          | some err_msg =>
            dsimp only
            split_ifs with hlen
            · right
              refine ⟨[], _, err_msg, rfl, rfl, hr, ?_, Or.inl ?_⟩
              · rw [hfail]
              · rw [hfail]
            · right
              refine ⟨[], _, err_msg, rfl, rfl, hr, ?_, Or.inr (Or.inr ⟨⟨term, rfl⟩, ?_⟩)⟩
              · rw [hfail]
              · exact List.length_eq_zero.mp (by omega)
  | kStr =>
    exact Propagated.single h lx.handler_ l c (Callback.LexerStrValue _) fail hfail

theorem Abs.FinalizeTerm_propagated {D H : Type} (fl : FloatLib D) (h : Handler D H)
    (lx : Lexer H) (a : Abs.State) :
    Propagated h lx.handler_ (a.cur_line_, a.cur_line_offset_)
      (Abs.FinalizeTerm fl h lx a).calls (Abs.FinalizeTerm fl h lx a).result ∧
    (a.op_depth_ ≤ 0 → (Abs.FinalizeTerm fl h lx a).calls = []) ∧
    (Abs.FinalizeTerm fl h lx a).state.cur_line_ = a.cur_line_ ∧
    (Abs.FinalizeTerm fl h lx a).state.cur_line_offset_ = a.cur_line_offset_ ∧
    (Abs.FinalizeTerm fl h lx a).state.op_depth_ = a.op_depth_ := by
  unfold Abs.FinalizeTerm
  split_ifs with h1 h2
  · exact ⟨rfl, fun _ => rfl, rfl, rfl, rfl⟩
  · exact ⟨Or.inl rfl, fun _ => rfl, rfl, rfl, rfl⟩
  · refine ⟨termAction_propagated fl h lx _ _ _ _ _ a.Fail (fun _ => rfl),
      fun hd => absurd hd h2, ?_, ?_, ?_⟩
    · cases a.term_type_ <;> rfl
    · cases a.term_type_ <;> rfl
    · cases a.term_type_ <;> rfl

theorem Abs.caseClose_propagated {D H : Type} (fl : FloatLib D) (h : Handler D H)
    (lx : Lexer H) (a : Abs.State) :
    Propagated h lx.handler_ (a.cur_line_, a.cur_line_offset_)
      (Abs.caseClose fl h lx a).2.calls (Abs.caseClose fl h lx a).2.result ∧
    (Abs.caseClose fl h lx a).2.state.cur_line_ = a.cur_line_ ∧
    (Abs.caseClose fl h lx a).2.state.cur_line_offset_ = a.cur_line_offset_ := by
  obtain ⟨hP, hD, hl, hc, hdep⟩ := Abs.FinalizeTerm_propagated fl h lx a
  have hrep := Abs.FinalizeTerm_replay fl h lx a
  unfold Abs.caseClose
  dsimp only
  cases hr : (Abs.FinalizeTerm fl h lx a).result with
  | failure f0 =>
    dsimp only
    rw [hr] at hP
    split_ifs with hneg hsingle
    · refine ⟨Or.inl ?_, hl, hc⟩
      dsimp only
      rw [hD (by rw [hdep] at hneg; omega)]
      rfl
    · rw [hr] at hsingle
      simp [LexerResult.IsRight] at hsingle
    · refine ⟨?_, hl, hc⟩
      dsimp only
      rw [hr]
      exact hP
  | success =>
    dsimp only
    rw [hr] at hP
    have hE := Propagated.single h (h.replay lx.handler_ (Abs.FinalizeTerm fl h lx a).calls)
      a.cur_line_ a.cur_line_offset_ Callback.LexerEndOp (Abs.FinalizeTerm fl h lx a).state.Fail
      (fun m => by simp only [Abs.State.Fail, hl, hc])
    have hE2 := Propagated.append h lx.handler_ _ _ _ _ hP hE
    rw [← hrep] at hE2
    split_ifs with hneg hsingle
    · refine ⟨?_, hl, hc⟩
      dsimp only
      have hD0 := hD (by rw [hdep] at hneg; omega)
      rw [hD0, List.nil_append]
      rw [hD0] at hrep
      cases hans : (h.LexerEndOp (Abs.FinalizeTerm fl h lx a).lexer.handler_).1 with
      | none =>
        left
        simp only [Handler.accepts, Handler.answer, Bool.and_true, Option.isNone_iff_eq_none]
        rw [hrep] at hans
        exact hans
      | some msg =>
        right
        refine ⟨[], Callback.LexerEndOp, msg, rfl, rfl, ?_, ?_, Or.inr (Or.inl ⟨rfl, rfl⟩)⟩
        · rw [hrep] at hans
          exact hans
        · simp only [Abs.State.Fail, hl, hc]
    · refine ⟨?_, hl, hc⟩
      dsimp only at hsingle ⊢
      cases hans : (h.LexerEndOp (Abs.FinalizeTerm fl h lx a).lexer.handler_).1 with
      | none =>
        simp only [Handler.answer, hans] at hE2
        exact hE2
      | some msg =>
        rw [hans] at hsingle
        simp [LexerResult.IsRight] at hsingle
    · exact ⟨hE2, hl, hc⟩

theorem Abs.NextChar_nil (a : Abs.State) (hin : a.input = []) :
    a.NextChar = (k_lexer_invalid_char, { a with term := none }) := by
  simp [Abs.State.NextChar, hin]

theorem Abs.NextChar_cons (a : Abs.State) (c : Nat) (rest : List Nat) (hin : a.input = c :: rest) :
    a.NextChar =
      (c, { a with input := rest, cur_line_offset_ := a.cur_line_offset_ + 1,
                   term := a.term.map (fun t => t ++ [c]) }) := by
  simp [Abs.State.NextChar, hin]

theorem Abs.skipComment_spec :
    ∀ (fuel : Nat) (a s : Abs.State), 0 ∉ a.input → Abs.skipComment fuel a = some s →
      s.cur_line_ = a.cur_line_ ∧ s.op_depth_ = a.op_depth_ ∧
      s.single_expr_ = a.single_expr_ ∧ s.term_type_ = a.term_type_ ∧
      s.is_escaped_ = a.is_escaped_ ∧ s.was_escaped_ = a.was_escaped_ ∧
      ((∃ body, a.input = body ++ 10 :: s.input ∧ 10 ∉ body) ∨
        (s.input = [] ∧ 10 ∉ a.input)) := by
  intro fuel
  induction fuel with
  | zero =>
    intro a s _ hs
    simp [Abs.skipComment] at hs
  | succ n ih =>
    intro a s hnul hs
    unfold Abs.skipComment at hs
    dsimp only at hs
    cases hin : a.input with
    | nil =>
      rw [Abs.NextChar_nil a hin] at hs
      simp only [true_or, if_true, Option.some.injEq] at hs
      subst hs
      exact ⟨rfl, rfl, rfl, rfl, rfl, rfl, Or.inr ⟨hin, by simp⟩⟩
    | cons c rest =>
      rw [Abs.NextChar_cons a c rest hin] at hs
      dsimp only at hs
      have hc0 : c ≠ 0 := by
        intro h0
        apply hnul
        rw [hin, h0]
        exact List.mem_cons_self _ _
      by_cases hc10 : c = 10
      · rw [if_pos (Or.inr hc10)] at hs
        simp only [Option.some.injEq] at hs
        subst hs
        refine ⟨rfl, rfl, rfl, rfl, rfl, rfl, Or.inl ⟨[], ?_, by simp⟩⟩
        rw [hc10]
        rfl
      · rw [if_neg (by
          intro hor
          rcases hor with h1 | h1
          · exact hc0 h1
          · exact hc10 h1)] at hs
        have hnul2 : (0 : Nat) ∉ rest := by
          intro hm
          apply hnul
          rw [hin]
          exact List.mem_cons_of_mem _ hm
        obtain ⟨e1, e2, e3, e4, e5, e6, e7⟩ := ih _ s hnul2 hs
        refine ⟨e1, e2, e3, e4, e5, e6, ?_⟩
        rcases e7 with ⟨body, hb, hnb⟩ | ⟨hnil, hn10⟩
        · left
          refine ⟨c :: body, ?_, ?_⟩
          · dsimp only at hb
            rw [hb]
            rfl
          · intro hm
            rcases List.mem_cons.mp hm with h1 | h1
            · exact hc10 h1.symm
            · exact hnb h1
        · right
          refine ⟨hnil, ?_⟩
          intro hm
          rcases List.mem_cons.mp hm with h1 | h1
          · exact hc10 h1.symm
          · exact hn10 h1

theorem Abs.readPayloadTag_input :
    ∀ (k tok : Nat) (a : Abs.State), (Abs.readPayloadTag k tok a).2.2.input <:+ a.input := by
  intro k
  induction k with
  | zero =>
    intro tok a
    exact (Abs.NextChar_input a).1
  | succ n ih =>
    intro tok a
    unfold Abs.readPayloadTag
    dsimp only
    split_ifs
    · exact (ih _ _).trans (Abs.NextChar_input a).1
    · exact (Abs.NextChar_input a).1

theorem Abs.caseClose_cont {D H : Type} (fl : FloatLib D) (h : Handler D H)
    (lx : Lexer H) (a : Abs.State) :
    (Abs.caseClose fl h lx a).1 = Flow.cont →
      (Abs.caseClose fl h lx a).2.result = LexerResult.success := by
  unfold Abs.caseClose
  dsimp only
  cases hr : (Abs.FinalizeTerm fl h lx a).result with
  | failure f0 =>
    dsimp only
    split_ifs <;> intro hf <;>
      first
      | exact flowOf_cont _ hf
      | rfl
      | (exfalso; simp [flowOf, LexerResult.IsRight] at hf)
  | success =>
    dsimp only
    split_ifs <;> intro hf <;>
      first
      | exact flowOf_cont _ hf
      | rfl
      | (exfalso; simp [flowOf, LexerResult.IsRight] at hf)

theorem Abs.caseQuote_cont {D H : Type} (fl : FloatLib D) (h : Handler D H)
    (lx : Lexer H) (a : Abs.State) :
    (Abs.caseQuote fl h lx a).1 = Flow.cont →
      (Abs.caseQuote fl h lx a).2.result = LexerResult.success := by
  unfold Abs.caseQuote
  split_ifs
  · exact flowOf_cont _
  · dsimp only
    cases hr : (Abs.FinalizeTerm fl h lx a).result with
    | success =>
      intro _
      rfl
    | failure f0 =>
      intro hf
      exact absurd hf (by simp)

theorem Abs.Body_cont {D H : Type} (fl : FloatLib D) (h : Handler D H) (fuel c : Nat)
    (lx : Lexer H) (a : Abs.State) (d : Abs.Done D H)
    (hB : Abs.Body fl h fuel c lx a = some (Abs.Turn.flow Flow.cont d)) :
    d.result = LexerResult.success := by
  unfold Abs.Body at hB
  dsimp only at hB
  split_ifs at hB with h1 h2 h3 h4 h5 h6 h7
  · simp only [Option.some.injEq, Abs.Turn.flow.injEq] at hB
    rw [← hB.2]
    rfl
  · simp only [Option.some.injEq, Abs.Turn.flow.injEq] at hB
    rw [← hB.2]
    exact flowOf_cont _ hB.1
  · simp only [Option.some.injEq, Abs.Turn.flow.injEq] at hB
    rw [← hB.2]
    exact Abs.caseClose_cont fl h lx _ hB.1
  · simp only [Option.some.injEq, Abs.Turn.flow.injEq] at hB
    rw [← hB.2]
    exact Abs.caseQuote_cont fl h lx _ hB.1
  · unfold Abs.casePayload at hB
    dsimp only at hB
    split_ifs at hB
    · cases hB
    · simp only [Option.some.injEq, Abs.Turn.flow.injEq] at hB
      cases hB.1
  · unfold Abs.caseComment at hB
    cases hs : Abs.skipComment fuel a.ResetEscape with
    | none => rw [hs] at hB; cases hB
    | some s =>
      rw [hs] at hB
      simp only [Option.map_some', Option.some.injEq, Abs.Turn.flow.injEq] at hB
      rw [← hB.2]
  · simp only [Option.some.injEq, Abs.Turn.flow.injEq] at hB
    rw [← hB.2]
    exact flowOf_cont _ hB.1
  · simp only [Option.some.injEq, Abs.Turn.flow.injEq] at hB
    rw [← hB.2]
    rfl

theorem positionAfter_single (l col c : Nat) :
    positionAfter (l, col) [c] = if c = 10 then (l + 1, 0) else (l, col + 1) := rfl

theorem Abs.Body_propagated {D H : Type} (fl : FloatLib D) (h : Handler D H) (fuel c : Nat)
    (lx : Lexer H) (a : Abs.State) (l col : Nat)
    (hl : a.cur_line_ = l) (hc : a.cur_line_offset_ = col + 1) (hnul : 0 ∉ a.input)
    (f : Flow) (d : Abs.Done D H)
    (hB : Abs.Body fl h fuel c lx a = some (Abs.Turn.flow f d)) :
    ∃ k, a.input = k ++ d.state.input ∧
      Propagated h lx.handler_ (positionAfter (l, col) (c :: k)) d.calls d.result ∧
      (f = Flow.cont →
        (d.state.cur_line_, d.state.cur_line_offset_) = positionAfter (l, col) (c :: k) ∨
        d.state.input = []) := by
  have hre : a.ResetEscape.input = a.input := rfl
  have hrl : a.ResetEscape.cur_line_ = l := hl
  have hrc : a.ResetEscape.cur_line_offset_ = col + 1 := hc
  unfold Abs.Body at hB
  dsimp only at hB
  split_ifs at hB with h1 h2 h3 h4 h5 h6 h7
  · -- inside a string literal
    simp only [Option.some.injEq, Abs.Turn.flow.injEq] at hB
    obtain ⟨_, hd⟩ := hB
    subst hd
    refine ⟨[], ?_, ?_, fun _ => Or.inl ?_⟩
    · rw [Abs.inString_input]
      rfl
    · exact rfl
    · rw [positionAfter_single]
      unfold Abs.inString
      dsimp only
      split_ifs <;> simp [Abs.State.NewLine, Abs.State.ResetEscape, hl, hc]
  · -- `(`
    simp only [Option.some.injEq, Abs.Turn.flow.injEq] at hB
    obtain ⟨_, hd⟩ := hB
    subst hd
    obtain ⟨hP, _, e1, e2, _⟩ := Abs.FinalizeTerm_propagated fl h lx a.ResetEscape
    have hpos : positionAfter (l, col) [c] = (l, col + 1) := by
      rw [positionAfter_single, if_neg (by omega)]
    refine ⟨[], ?_, ?_, fun _ => Or.inl ?_⟩
    · rw [Abs.caseOpen_input]
      rfl
    · rw [hpos, ← hrl, ← hrc]
      exact hP
    · rw [hpos, ← hrl, ← hrc, ← e1, ← e2]
      rfl
  · -- `)`
    simp only [Option.some.injEq, Abs.Turn.flow.injEq] at hB
    obtain ⟨_, hd⟩ := hB
    subst hd
    obtain ⟨hP, e1, e2⟩ := Abs.caseClose_propagated fl h lx a.ResetEscape
    have hpos : positionAfter (l, col) [c] = (l, col + 1) := by
      rw [positionAfter_single, if_neg (by omega)]
    refine ⟨[], ?_, ?_, fun _ => Or.inl ?_⟩
    · rw [Abs.caseClose_input]
      rfl
    · rw [hpos, ← hrl, ← hrc]
      exact hP
    · rw [hpos, ← hrl, ← hrc, ← e1, ← e2]
  · -- `"`
    simp only [Option.some.injEq, Abs.Turn.flow.injEq] at hB
    obtain ⟨_, hd⟩ := hB
    subst hd
    obtain ⟨hP, _, e1, e2, _⟩ := Abs.FinalizeTerm_propagated fl h lx a.ResetEscape
    have hpos : positionAfter (l, col) [c] = (l, col + 1) := by
      rw [positionAfter_single, if_neg (by omega)]
    refine ⟨[], ?_, ?_, fun _ => Or.inl ?_⟩
    · rw [Abs.caseQuote_input]
      rfl
    · rw [hpos, ← hrl, ← hrc]
      unfold Abs.caseQuote
      split_ifs
      · exact hP
      · dsimp only
        cases hr : (Abs.FinalizeTerm fl h lx a.ResetEscape).result with
        | success =>
          rw [hr] at hP
          exact hP
        | failure f0 =>
          dsimp only
          rw [hr]
          rw [hr] at hP
          exact hP
    · rw [hpos, ← hrl, ← hrc, ← e1, ← e2]
      unfold Abs.caseQuote
      split_ifs
      · rfl
      · dsimp only
        cases hr : (Abs.FinalizeTerm fl h lx a.ResetEscape).result <;> rfl
  · -- `!`
    unfold Abs.casePayload at hB
    dsimp only at hB
    split_ifs at hB
    · cases hB
    · simp only [Option.some.injEq, Abs.Turn.flow.injEq] at hB
      obtain ⟨hf, hd⟩ := hB
      subst hd
      obtain ⟨k, hk⟩ := Abs.readPayloadTag_input 4 0 a.ResetEscape
      refine ⟨k, ?_, Or.inl rfl, fun hcont => ?_⟩
      · rw [← hre, ← hk]
        rfl
      · rw [hcont] at hf
        cases hf
  · -- `;`
    unfold Abs.caseComment at hB
    cases hs : Abs.skipComment fuel a.ResetEscape with
    | none => rw [hs] at hB; cases hB
    | some s =>
      rw [hs] at hB
      simp only [Option.map_some', Option.some.injEq, Abs.Turn.flow.injEq] at hB
      obtain ⟨_, hd⟩ := hB
      subst hd
      obtain ⟨e1, _, _, _, _, _, e7⟩ := Abs.skipComment_spec fuel a.ResetEscape s hnul hs
      rcases e7 with ⟨body, hb, hnb⟩ | ⟨hnil, hn10⟩
      · refine ⟨body ++ [10], ?_, Propagated.of_accepts _ _ _ _ _ rfl, fun _ => Or.inl ?_⟩
        · rw [← hre, hb]
          simp [Abs.State.NewLine]
        · have hpos : positionAfter (l, col) (c :: (body ++ [10])) = (l + 1, 0) := by
            have e : c :: (body ++ [10]) = (c :: body) ++ [10] := rfl
            have hmem : 10 ∉ c :: body := by
              intro hm
              rcases List.mem_cons.mp hm with h10 | h10
              · omega
              · exact hnb h10
            rw [e, positionAfter_append, positionAfter_no_lf (l, col) (c :: body) hmem,
              positionAfter_single, if_pos rfl]
          rw [hpos]
          simp only [Abs.State.NewLine, e1, hrl]
      · refine ⟨a.input, ?_, Propagated.of_accepts _ _ _ _ _ rfl, fun _ => Or.inr ?_⟩
        · simp [Abs.State.NewLine, hnil]
        · exact hnil
  · -- white space
    simp only [Option.some.injEq, Abs.Turn.flow.injEq] at hB
    obtain ⟨_, hd⟩ := hB
    subst hd
    refine ⟨[], ?_, ?_, fun _ => Or.inl ?_⟩
    · rw [Abs.caseSpace_input]
      rfl
    · unfold Abs.caseSpace
      dsimp only
      by_cases h10 : c = 10
      · rw [if_pos h10]
        obtain ⟨hP, _, _, _, _⟩ := Abs.FinalizeTerm_propagated fl h lx a.ResetEscape.NewLine
        rw [positionAfter_single, if_pos h10, ← hrl]
        exact hP
      · rw [if_neg h10]
        obtain ⟨hP, _, _, _, _⟩ := Abs.FinalizeTerm_propagated fl h lx a.ResetEscape
        rw [positionAfter_single, if_neg h10, ← hrl, ← hrc]
        exact hP
    · unfold Abs.caseSpace
      dsimp only
      by_cases h10 : c = 10
      · rw [if_pos h10]
        obtain ⟨_, _, e1, e2, _⟩ := Abs.FinalizeTerm_propagated fl h lx a.ResetEscape.NewLine
        rw [positionAfter_single, if_pos h10, e1, e2, ← hrl]
        rfl
      · rw [if_neg h10]
        obtain ⟨_, _, e1, e2, _⟩ := Abs.FinalizeTerm_propagated fl h lx a.ResetEscape
        rw [positionAfter_single, if_neg h10, e1, e2, ← hrl, ← hrc]
  · -- any other byte
    simp only [Option.some.injEq, Abs.Turn.flow.injEq] at hB
    obtain ⟨_, hd⟩ := hB
    subst hd
    have h10 : c ≠ 10 := fun e => h7 (Or.inl e)
    refine ⟨[], ?_, rfl, fun _ => Or.inl ?_⟩
    · rw [Abs.caseOther_input]
      rfl
    · rw [positionAfter_single, if_neg h10, ← hrl, ← hrc]
      unfold Abs.caseOther
      dsimp only
      split_ifs <;> rfl

theorem Abs.RunLoop_nil {D H : Type} (fl : FloatLib D) (h : Handler D H) (fuel : Nat)
    (lx : Lexer H) (a : Abs.State) (o : Observed D H) (hin : a.input = [])
    (hR : Abs.RunLoop fl h fuel lx a = some (Abs.Out.done o)) :
    o.calls = [] ∧ o.rest = [] ∧ o.lexer = lx := by
  cases fuel with
  | zero => simp [Abs.RunLoop] at hR
  | succ n =>
    unfold Abs.RunLoop at hR
    dsimp only at hR
    rw [Abs.NextChar_nil a hin] at hR
    simp only [if_true, Option.some.injEq, Abs.Out.done.injEq] at hR
    rw [← hR]
    exact ⟨rfl, hin, rfl⟩

theorem Abs.RunLoop_propagated {D H : Type} (fl : FloatLib D) (h : Handler D H) :
    ∀ (fuel : Nat) (lx : Lexer H) (a : Abs.State) (o : Observed D H), 0 ∉ a.input →
      Abs.RunLoop fl h fuel lx a = some (Abs.Out.done o) →
      ∃ consumed, consumed ++ o.rest = a.input ∧
        Propagated h lx.handler_
          (positionAfter (a.cur_line_, a.cur_line_offset_) consumed) o.calls o.result := by
  intro fuel
  induction fuel with
  | zero =>
    intro lx a o _ hR
    simp [Abs.RunLoop] at hR
  | succ n ih =>
    intro lx a o hnul hR
    cases hin : a.input with
    | nil =>
      obtain ⟨e1, e2, _⟩ := Abs.RunLoop_nil fl h (n + 1) lx a o hin hR
      refine ⟨[], ?_, Propagated.of_accepts _ _ _ _ _ ?_⟩
      · rw [e2]
        rfl
      · rw [e1]
        rfl
    | cons c rest =>
      have hc0 : c ≠ k_lexer_invalid_char := by
        intro h0
        apply hnul
        rw [hin, h0]
        exact List.mem_cons_self _ _
      have hnul2 : (0 : Nat) ∉ rest := by
        intro hm
        apply hnul
        rw [hin]
        exact List.mem_cons_of_mem _ hm
      have e := Abs.NextChar_cons a c rest hin
      have e1 : a.NextChar.1 = c := by rw [e]
      have e2 : a.NextChar.2.input = rest := by rw [e]
      have e3 : a.NextChar.2.cur_line_ = a.cur_line_ := by rw [e]
      have e4 : a.NextChar.2.cur_line_offset_ = a.cur_line_offset_ + 1 := by rw [e]
      unfold Abs.RunLoop at hR
      dsimp only at hR
      rw [e1, if_neg hc0] at hR
      cases hBody : Abs.Body fl h n c lx a.NextChar.2 with
      | none => rw [hBody] at hR; cases hR
      | some t =>
        rw [hBody] at hR
        cases t with
        | payload => cases hR
        | flow f d =>
          obtain ⟨k, hk, hP, hpos⟩ := Abs.Body_propagated fl h n c lx a.NextChar.2 a.cur_line_
            a.cur_line_offset_ e3 e4 (by rw [e2]; exact hnul2) f d hBody
          rw [e2] at hk
          cases f with
          | ret =>
            simp only [Option.some.injEq, Abs.Out.done.injEq] at hR
            rw [← hR]
            refine ⟨c :: k, ?_, hP⟩
            dsimp only
            rw [List.cons_append, ← hk]
          | cont =>
            dsimp only at hR
            have hsucc := Abs.Body_cont fl h n c lx _ d hBody
            have hrep := Abs.Body_replay fl h n c lx _ Flow.cont d hBody
            rw [hsucc] at hP
            cases hrec : Abs.RunLoop fl h n d.lexer d.state with
            | none => rw [hrec] at hR; cases hR
            | some o2 =>
              rw [hrec] at hR
              cases o2 with
              | payload => cases hR
              | done o3 =>
                simp only [Option.some.injEq, Abs.Out.done.injEq] at hR
                rw [← hR]
                dsimp only
                rcases hpos rfl with hp | hnil
                · have hnul3 : (0 : Nat) ∉ d.state.input := by
                    intro hm
                    apply hnul2
                    rw [hk]
                    exact List.mem_append_right _ hm
                  obtain ⟨c2, hc2, hP2⟩ := ih d.lexer d.state o3 hnul3 hrec
                  refine ⟨(c :: k) ++ c2, ?_, ?_⟩
                  · rw [List.append_assoc, hc2, List.cons_append, ← hk]
                  · rw [positionAfter_append, ← hp]
                    apply Propagated.append h lx.handler_ _ _ _ _ hP
                    rw [← hrep]
                    exact hP2
                · obtain ⟨e1, e2, _⟩ := Abs.RunLoop_nil fl h n d.lexer d.state o3 hnil hrec
                  refine ⟨c :: k, ?_, ?_⟩
                  · rw [e2, List.append_nil, hk, hnil, List.append_nil]
                  · rw [e1, List.append_nil]
                    exact Propagated.of_accepts _ _ _ _ _ hP

theorem positionAfter_snoc (p : Nat × Nat) (l : List Nat) (c : Nat) :
    positionAfter p (l ++ [c]) =
      if c = 10 then ((positionAfter p l).1 + 1, 0)
      else ((positionAfter p l).1, (positionAfter p l).2 + 1) := by
  rw [positionAfter_append]
  rfl

theorem positionAfter_start (l : List Nat) :
    positionAfter (1, 0) l =
      (1 + l.count 10, (l.reverse.takeWhile (fun c => c != 10)).length) := by
  induction l using List.reverseRecOn with
  | nil => rfl
  | append_singleton l c ih =>
    rw [positionAfter_snoc, ih]
    by_cases hc : c = 10
    · subst hc
      simp [List.count_append]
      omega
    · rw [if_neg hc]
      have h0 : List.count 10 [c] = 0 := List.count_eq_zero.mpr (by simpa using Ne.symm hc)
      simp [List.count_append, List.takeWhile, hc, h0]

theorem Propagated.rejected {D H : Type} (h : Handler D H) (s : H) (pos : Nat × Nat)
    (calls : List (Callback D)) (result : LexerResult)
    (pre post : List (Callback D)) (cb : Callback D) (msg : List Nat)
    (hP : Propagated h s pos calls result) (hcalls : calls = pre ++ cb :: post)
    (hrej : h.answer (h.replay s pre) cb = some msg) :
    post = [] ∧ ∃ f, result = LexerResult.failure f ∧
      (f.err_line_no_, f.err_line_offset_) = pos ∧
      (f.err_msg_ = msg ∨
        (cb = Callback.LexerEndOp ∧ f.err_msg_ = bytes "Redundant closing parenthesis") ∨
        ((∃ t, cb = Callback.LexerUnhandledValue t) ∧ msg = [])) := by
  have hcontra : h.accepts s calls = true → False := by
    intro hacc
    rw [hcalls] at hacc
    have := Handler.accepts_answer h s pre cb post hacc
    rw [this] at hrej
    cases hrej
  cases result with
  | success => exact absurd hP hcontra
  | failure f =>
    rcases hP with hacc | ⟨pre2, cb2, msg2, e1, e2, e3, e4, e5⟩
    · exact absurd hacc hcontra
    · rw [hcalls] at e1
      have hlast : pre = pre2 ∧ cb = cb2 ∧ post = [] := by
        rcases List.append_eq_append_iff.mp e1 with ⟨a2, ha, hb⟩ | ⟨c2, ha, hb⟩
        · rcases a2 with _ | ⟨x, a3⟩
          · simp only [List.nil_append, List.cons.injEq] at hb
            rw [List.append_nil] at ha
            exact ⟨ha.symm, hb.1, hb.2⟩
          · simp only [List.cons_append, List.cons.injEq] at hb
            have hx := hb.1
            exfalso
            rw [ha, ← hx] at e2
            have := Handler.accepts_answer h s pre cb a3 e2
            rw [this] at hrej
            cases hrej
        · rcases c2 with _ | ⟨x, c3⟩
          · simp only [List.nil_append, List.cons.injEq] at hb
            rw [List.append_nil] at ha
            exact ⟨ha, hb.1.symm, hb.2.symm⟩
          · simp only [List.cons_append, List.cons.injEq] at hb
            have := hb.2
            simp at this
      obtain ⟨hp, hcb, hpost⟩ := hlast
      subst hp hcb
      rw [hrej] at e3
      simp only [Option.some.injEq] at e3
      subst e3
      exact ⟨hpost, f, rfl, e4, e5⟩

/-! ### Runs from a reader in any state -/

theorem Inv_init (reader : StreamReader) (single_expr : Bool) (hwf : reader.Wf) :
    Inv (LexerState.init reader single_expr) :=
  ⟨hwf.h_be, hwf.h_el, hwf.h_cap, by simp [LexerState.init], fun _ => Or.inl rfl⟩

theorem Abs.of_init (reader : StreamReader) (single_expr : Bool) :
    Abs.of (LexerState.init reader single_expr) =
      { input := reader.unread, single_expr_ := single_expr, cur_line_ := 1,
        cur_line_offset_ := 0, op_depth_ := 0, is_escaped_ := false, was_escaped_ := false,
        term_type_ := TermType.kValue, term := none } := rfl

theorem Lexer.Run_observed {D H : Type} (fl : FloatLib D) (h : Handler D H) (fuel : Nat)
    (lx : Lexer H) (reader : StreamReader) (single_expr : Bool) (hwf : reader.Wf)
    (d : Done D H) (hrun : Lexer.Run fl h fuel lx reader single_expr = some d)
    (hno : ∀ tok, Callback.LexerCustomData tok ∉ d.calls) :
    Abs.RunLoop fl h fuel lx (Abs.of (LexerState.init reader single_expr)) =
      some (Abs.Out.done d.observed) := by
  unfold Lexer.Run at hrun
  have hR := RunLoop_abs fl h fuel lx _ (Inv_init reader single_expr hwf)
  cases hA : Abs.RunLoop fl h fuel lx (Abs.of (LexerState.init reader single_expr)) with
  | none =>
    rw [hA] at hR
    dsimp only at hR
    rw [hR] at hrun
    cases hrun
  | some o =>
    rw [hA] at hR
    cases o with
    | payload =>
      dsimp only at hR
      obtain ⟨tok, htok⟩ := hR d hrun
      exact absurd htok (hno tok)
    | done o2 =>
      dsimp only at hR
      rw [hrun] at hR
      simp only [Option.map_some', Option.some.injEq] at hR
      rw [hR]

theorem Lexer.Run_of_abs {D H : Type} (fl : FloatLib D) (h : Handler D H) (fuel : Nat)
    (lx : Lexer H) (reader : StreamReader) (single_expr : Bool) (hwf : reader.Wf)
    (o : Observed D H)
    (hA : Abs.RunLoop fl h fuel lx (Abs.of (LexerState.init reader single_expr)) =
      some (Abs.Out.done o)) :
    ∃ d, Lexer.Run fl h fuel lx reader single_expr = some d ∧ d.observed = o := by
  unfold Lexer.Run
  have hR := RunLoop_abs fl h fuel lx _ (Inv_init reader single_expr hwf)
  rw [hA] at hR
  dsimp only at hR
  cases hrun : Lexer.RunLoop fl h fuel lx (LexerState.init reader single_expr) with
  | none => rw [hrun] at hR; cases hR
  | some d =>
    rw [hrun] at hR
    simp only [Option.map_some', Option.some.injEq] at hR
    exact ⟨d, rfl, hR⟩

/-- C15 (as claimed, refuted). A handler error is not always what `Lexer::Run`
returns.  For the input `)` and a handler whose `end_op` returns `<error>`, the
one call made is `end_op`, the handler answers `<error>`, and the failure
carries `Redundant closing parenthesis`.  With the compiler as handler, the
input `!ab[x` makes the call `custom_data`, which answers
`Unknown payload type: 24930`, and the failure carries
`No closing ] for custom data`. -/
theorem handler_error_can_be_replaced :
    (Lexer.RunText noFloat endOpErrorHandler 4 { handler_ := 0, err_description_ := [] }
        (bytes ")")).map (fun d => (d.result, d.calls)) =
      some (LexerResult.failure
        { err_line_no_ := 1, err_line_offset_ := 1,
          err_msg_ := bytes "Redundant closing parenthesis" }, [Callback.LexerEndOp]) ∧
    endOpErrorHandler.answer 0 Callback.LexerEndOp = some (bytes "<error>") ∧
    (Compiler.lex noFloat 8 builtinEnv (bytes "!ab[x")).map
        (fun d => (d.result, d.calls, d.lexer.handler_.error_builder_)) =
      some (LexerResult.failure
        { err_line_no_ := 1, err_line_offset_ := 5,
          err_msg_ := bytes "No closing ] for custom data" },
        [Callback.LexerCustomData 24930], bytes "Unknown payload type: 24930") := by
  decide!

/-- C15 (amended). In a run of `Lexer::Run` over an input without zero bytes
that makes no `custom_data` call, whenever a handler callback returns a
non-empty error message, that call is the last one made and the run returns a
failure whose line is 1 + the number of line feeds consumed and whose column is
the number of bytes consumed after the last of them (the byte that ended the
term included; 0 when that byte is a line feed).  The failure carries the
handler's message, except when the callback is the `end_op` of a `)` without an
open `(`: then it carries `Redundant closing parenthesis`. -/
theorem handler_error_is_propagated {D H : Type} (fl : FloatLib D) (h : Handler D H)
    (lx : Lexer H) (reader : StreamReader) (single_expr : Bool) (fuel : Nat) (d : Done D H)
    (hwf : reader.Wf) (hnul : 0 ∉ reader.unread)
    (hrun : Lexer.Run fl h fuel lx reader single_expr = some d)
    (hno : ∀ tok, Callback.LexerCustomData tok ∉ d.calls)
    (pre post : List (Callback D)) (cb : Callback D) (msg : List Nat)
    (hcalls : d.calls = pre ++ cb :: post)
    (hrej : h.answer (h.replay lx.handler_ pre) cb = some msg) (hmsg : msg ≠ []) :
    post = [] ∧
    ∃ f consumed, d.result = LexerResult.failure f ∧
      consumed ++ d.state.stream_.unread = reader.unread ∧
      f.err_line_no_ = 1 + consumed.count 10 ∧
      f.err_line_offset_ = (consumed.reverse.takeWhile (fun c => c != 10)).length ∧
      (f.err_msg_ = msg ∨
        (cb = Callback.LexerEndOp ∧ f.err_msg_ = bytes "Redundant closing parenthesis")) := by
  have hA := Lexer.Run_observed fl h fuel lx reader single_expr hwf d hrun hno
  obtain ⟨consumed, hcons, hP⟩ := Abs.RunLoop_propagated fl h fuel lx _ d.observed
    (by rw [Abs.of_init]; exact hnul) hA
  rw [Abs.of_init] at hcons hP
  dsimp only at hcons hP
  obtain ⟨hpost, f, hres, hpos, hm⟩ := Propagated.rejected h lx.handler_ _ _ _ pre post cb msg
    hP hcalls hrej
  rw [positionAfter_start] at hpos
  simp only [Prod.mk.injEq] at hpos
  refine ⟨hpost, f, consumed, hres, hcons, hpos.1, hpos.2, ?_⟩
  rcases hm with hm | hm | hm
  · exact Or.inl hm
  · exact Or.inr hm
  · exact absurd hm.2 hmsg

/-- The amended claim at the input of `TEST(SlangLexerTest, SyntaxError)`: with
`begin_op` rejecting `y`, the failure carries `<error>` at line 3, column 7. -/
theorem handler_error_is_propagated_witness :
    (Lexer.Run noFloat syntaxErrorHandler 32 { handler_ := 0, err_description_ := [] }
        (StreamReader.preloaded syntaxErrorText DummyInStream syntaxErrorText.length) false).map
      (fun d => (d.result, d.calls)) =
      some (LexerResult.failure
        { err_line_no_ := 3, err_line_offset_ := 7, err_msg_ := bytes "<error>" },
        [Callback.LexerBeginOp (bytes "x"), Callback.LexerBeginOp (bytes "y")]) ∧
    ∀ d, Lexer.Run noFloat syntaxErrorHandler 32 { handler_ := 0, err_description_ := [] }
        (StreamReader.preloaded syntaxErrorText DummyInStream syntaxErrorText.length) false =
        some d →
      ∃ f consumed, d.result = LexerResult.failure f ∧
        consumed ++ d.state.stream_.unread = syntaxErrorText ∧
        f.err_line_no_ = 1 + consumed.count 10 ∧
        f.err_line_offset_ = (consumed.reverse.takeWhile (fun c => c != 10)).length ∧
        (f.err_msg_ = bytes "<error>" ∨
          (Callback.LexerBeginOp (bytes "y") = (Callback.LexerEndOp : Callback Unit) ∧
            f.err_msg_ = bytes "Redundant closing parenthesis")) := by
  have hev : (Lexer.Run noFloat syntaxErrorHandler 32 { handler_ := 0, err_description_ := [] }
        (StreamReader.preloaded syntaxErrorText DummyInStream syntaxErrorText.length) false).map
      (fun d => (d.result, d.calls)) =
      some (LexerResult.failure
        { err_line_no_ := 3, err_line_offset_ := 7, err_msg_ := bytes "<error>" },
        [Callback.LexerBeginOp (bytes "x"), Callback.LexerBeginOp (bytes "y")]) := by
    decide!
  refine ⟨hev, fun d hd => ?_⟩
  rw [hd] at hev
  simp only [Option.map_some', Option.some.injEq, Prod.mk.injEq] at hev
  exact (handler_error_is_propagated noFloat syntaxErrorHandler
    { handler_ := 0, err_description_ := [] }
    (StreamReader.preloaded syntaxErrorText DummyInStream syntaxErrorText.length) false 32 d
    ⟨by decide, by decide, Or.inr rfl⟩ (by decide) hd
    (by rw [hev.2]; intro tok; simp)
    [Callback.LexerBeginOp (bytes "x")] [] (Callback.LexerBeginOp (bytes "y")) (bytes "<error>")
    hev.2 (by decide) (by decide)).2

/-! ### Properties of the handler that a run keeps -/

theorem Kept.nil {D H : Type} (G : H → Prop) (B : List Nat → Prop)
    (E : List Nat → List Nat → Prop) (r : LexerResult) (lx : Lexer H) (hG : G lx.handler_) :
    Kept (D := D) G B E r [] lx :=
  ⟨fun _ => hG, fun _ hm => absurd hm (List.not_mem_nil _)⟩

theorem Kept.other {D H : Type} (G : H → Prop) (B : List Nat → Prop)
    (E : List Nat → List Nat → Prop) (r : Option (List Nat) × H) (cb : Callback D)
    (lx : Lexer H) (fail : List Nat → LexerFailure)
    (hcb : ∀ name, cb ≠ Callback.LexerBeginOp name) (hok : r.1 = none → G r.2) :
    Kept G B E
      (match r.1 with
       | none => LexerResult.success
       | some err_msg => LexerResult.failure (fail err_msg)) [cb]
      { lx with handler_ := r.2 } := by
  refine ⟨?_, ?_⟩
  · intro hs
    cases hr : r.1 with
    | none => exact hok hr
    | some m =>
      rw [hr] at hs
      cases hs
  · intro name hm
    simp only [List.mem_singleton] at hm
    exact absurd hm.symm (hcb name)

theorem termAction_kept {D H : Type} (fl : FloatLib D) (h : Handler D H) (G : H → Prop)
    (B : List Nat → Prop) (E : List Nat → List Nat → Prop) (hK : h.Keeps G B E)
    (lx : Lexer H) (type : TermType) (term : List Nat) (was_escaped : Bool)
    (fail : List Nat → LexerFailure) (hfail : ∀ m, (fail m).err_msg_ = m)
    (hG : G lx.handler_) :
    Kept G B E (termAction fl h lx type term was_escaped fail).1
      (termAction fl h lx type term was_escaped fail).2.1
      (termAction fl h lx type term was_escaped fail).2.2 := by
  unfold termAction
  cases type with
  | kOp =>
    dsimp only
    split_ifs
    · exact Kept.nil G B E _ lx hG
    · exact ⟨fun hs => LexerResult.noConfusion hs, fun _ hm => absurd hm (List.not_mem_nil _)⟩
    · refine ⟨?_, ?_⟩
      · intro hs
        cases hr : (h.LexerBeginOp lx.handler_ term).1 with
        | none => exact (hK.begin_ok _ _ hG hr).1
        | some m =>
          rw [hr] at hs
          cases hs
      · intro name hm
        simp only [List.mem_singleton, Callback.LexerBeginOp.injEq] at hm
        subst hm
        cases hr : (h.LexerBeginOp lx.handler_ name).1 with
        | none => exact Or.inl (hK.begin_ok _ _ hG hr).2
        | some m =>
          right
          exact ⟨fail m, rfl, by rw [hfail]; exact hK.begin_err _ _ _ hG hr⟩
  | kValue =>
    dsimp only
    split_ifs
    · exact Kept.nil G B E _ lx hG
    · cases LexerParseInt64 term with
      | some lval =>
        exact Kept.other G B E (h.LexerIntValue lx.handler_ lval)
          (Callback.LexerIntValue lval : Callback D) lx
          fail (fun _ hc => Callback.noConfusion hc) (hK.int_ok _ _ hG)
      | none =>
        dsimp only
        cases LexerParseDouble fl term with
        | some dval =>
          exact Kept.other G B E (h.LexerDoubleValue lx.handler_ dval)
            (Callback.LexerDoubleValue dval) lx
            fail (fun _ hc => Callback.noConfusion hc) (hK.double_ok _ _ hG)
        | none =>
          dsimp only
          cases hr : (h.LexerUnhandledValue lx.handler_ term).1 with
          | none =>
            refine ⟨fun _ => hK.unhandled_ok _ _ hG hr, ?_⟩
            intro name hm
            simp at hm
          | some err_msg =>
            dsimp only
            split_ifs
            · refine ⟨fun hs => LexerResult.noConfusion hs, ?_⟩
              intro name hm
              simp at hm
            · refine ⟨fun hs => LexerResult.noConfusion hs, ?_⟩
              intro name hm
              simp at hm
  | kStr =>
    exact Kept.other G B E
      (h.LexerStrValue lx.handler_ (LexerParseString term was_escaped))
      (Callback.LexerStrValue (LexerParseString term was_escaped) : Callback D) lx
      fail (fun _ hc => Callback.noConfusion hc) (hK.str_ok _ _ hG)

theorem LexerState.Term_depth (st : LexerState) :
    st.Term.2.op_depth_ = st.op_depth_ ∧ (∀ m, (st.Term.2.Fail m).err_msg_ = m) := by
  refine ⟨?_, fun _ => rfl⟩
  unfold LexerState.Term
  split_ifs
  · unfold LexerState.SaveTerm
    cases st.term_begin_ <;> rfl
  · cases st.term_begin_ <;> rfl

theorem Lexer.FinalizeTerm_kept {D H : Type} (fl : FloatLib D) (h : Handler D H)
    (G : H → Prop) (B : List Nat → Prop) (E : List Nat → List Nat → Prop)
    (hK : h.Keeps G B E) (lx : Lexer H) (st : LexerState) (hG : G lx.handler_) :
    Kept G B E (Lexer.FinalizeTerm fl h lx st).result (Lexer.FinalizeTerm fl h lx st).calls
      (Lexer.FinalizeTerm fl h lx st).lexer ∧
    (st.op_depth_ ≤ 0 → (Lexer.FinalizeTerm fl h lx st).calls = []) ∧
    (Lexer.FinalizeTerm fl h lx st).state.op_depth_ = st.op_depth_ := by
  by_cases hT : st.HasTerm = true
  · by_cases hd : st.op_depth_ ≤ 0
    · unfold Lexer.FinalizeTerm
      rw [if_neg (by rw [hT]; decide), if_pos hd]
      exact ⟨⟨fun hs => LexerResult.noConfusion hs,
        fun _ hm => absurd hm (List.not_mem_nil _)⟩, fun _ => rfl, rfl⟩
    · rw [FinalizeTerm_eq fl h lx st hT (not_le.mp hd)]
      obtain ⟨e1, e2⟩ := LexerState.Term_depth st
      refine ⟨termAction_kept fl h G B E hK lx _ _ _ _ e2 hG, fun h0 => absurd h0 hd, ?_⟩
      dsimp only
      cases st.Term.2.term_type_
      · exact e1
      · exact e1
      · simp only [LexerState.FinishTerm]
        rw [← e1]
        unfold LexerState.rewriteTerm
        cases st.Term.1.loc <;> rfl
  · unfold Lexer.FinalizeTerm
    rw [if_pos (by simp only [Bool.not_eq_true] at hT; rw [hT]; rfl)]
    exact ⟨Kept.nil G B E _ lx hG, fun _ => rfl, rfl⟩

theorem Kept.followed {D H : Type} (G : H → Prop) (B : List Nat → Prop)
    (E : List Nat → List Nat → Prop) (c1 c2 : List (Callback D)) (lx1 lx2 : Lexer H)
    (r : LexerResult) (h1 : Kept G B E LexerResult.success c1 lx1)
    (h2 : G lx1.handler_ → Kept G B E r c2 lx2) : Kept G B E r (c1 ++ c2) lx2 := by
  have k2 := h2 (h1.1 rfl)
  refine ⟨k2.1, ?_⟩
  intro name hm
  rcases List.mem_append.mp hm with hm1 | hm2
  · rcases h1.2 name hm1 with hb | ⟨f, hf, _⟩
    · exact Or.inl hb
    · cases hf
  · exact k2.2 name hm2

theorem Kept.accepted {D H : Type} (G : H → Prop) (B : List Nat → Prop)
    (E : List Nat → List Nat → Prop) (calls : List (Callback D)) (lx : Lexer H)
    (f : LexerFailure) (h1 : Kept G B E LexerResult.success calls lx) :
    Kept G B E (LexerResult.failure f) calls lx := by
  refine ⟨fun hs => LexerResult.noConfusion hs, ?_⟩
  intro name hm
  rcases h1.2 name hm with hb | ⟨f2, hf, _⟩
  · exact Or.inl hb
  · cases hf

theorem Lexer.caseClose_kept {D H : Type} (fl : FloatLib D) (h : Handler D H)
    (G : H → Prop) (B : List Nat → Prop) (E : List Nat → List Nat → Prop)
    (hK : h.Keeps G B E) (lx : Lexer H) (st : LexerState) (hG : G lx.handler_) :
    Kept G B E (Lexer.caseClose fl h lx st).2.result (Lexer.caseClose fl h lx st).2.calls
      (Lexer.caseClose fl h lx st).2.lexer := by
  obtain ⟨hF, hD, hdep⟩ := Lexer.FinalizeTerm_kept fl h G B E hK lx st hG
  unfold Lexer.caseClose
  dsimp only
  cases hr : (Lexer.FinalizeTerm fl h lx st).result with
  | failure f0 =>
    dsimp only
    rw [hr] at hF
    split_ifs with hneg hsingle
    · refine ⟨fun hs => LexerResult.noConfusion hs, ?_⟩
      intro name hm
      dsimp only at hm
      rw [hD (by rw [hdep] at hneg; omega)] at hm
      exact absurd hm (List.not_mem_nil _)
    · rw [hr] at hsingle
      simp [LexerResult.IsRight] at hsingle
    · dsimp only
      rw [hr]
      exact hF
  | success =>
    dsimp only
    rw [hr] at hF
    have hE : Kept G B E (mapFail (Lexer.FinalizeTerm fl h lx st).state
          (h.LexerEndOp (Lexer.FinalizeTerm fl h lx st).lexer.handler_).1)
        ((Lexer.FinalizeTerm fl h lx st).calls ++ [Callback.LexerEndOp])
        { (Lexer.FinalizeTerm fl h lx st).lexer with
          handler_ := (h.LexerEndOp (Lexer.FinalizeTerm fl h lx st).lexer.handler_).2 } :=
      Kept.followed G B E _ _ _ _ _ hF (fun hG2 =>
        Kept.other G B E (h.LexerEndOp (Lexer.FinalizeTerm fl h lx st).lexer.handler_)
          Callback.LexerEndOp _ (Lexer.FinalizeTerm fl h lx st).state.Fail
          (fun _ hc => Callback.noConfusion hc) (hK.end_ok _ hG2))
    split_ifs with hneg hsingle
    · refine ⟨fun hs => LexerResult.noConfusion hs, ?_⟩
      intro name hm
      dsimp only at hm
      rcases List.mem_append.mp hm with hm1 | hm2
      · rcases hF.2 name hm1 with hb | ⟨f2, hf, _⟩
        · exact Or.inl hb
        · cases hf
      · simp at hm2
    · dsimp only at hsingle ⊢
      have hs : mapFail (Lexer.FinalizeTerm fl h lx st).state
          (h.LexerEndOp (Lexer.FinalizeTerm fl h lx st).lexer.handler_).1 =
          LexerResult.success := by
        cases hm : mapFail (Lexer.FinalizeTerm fl h lx st).state
          (h.LexerEndOp (Lexer.FinalizeTerm fl h lx st).lexer.handler_).1 with
        | success => rfl
        | failure f2 =>
          rw [hm] at hsingle
          simp [LexerResult.IsRight] at hsingle
      rw [hs] at hE
      exact hE
    · exact hE

theorem Lexer.caseClose_goes_on {D H : Type} (fl : FloatLib D) (h : Handler D H)
    (lx : Lexer H) (st : LexerState) :
    (Lexer.caseClose fl h lx st).1 = Flow.cont →
      (Lexer.caseClose fl h lx st).2.result = LexerResult.success := by
  unfold Lexer.caseClose
  dsimp only
  cases hr : (Lexer.FinalizeTerm fl h lx st).result with
  | failure f0 =>
    dsimp only
    split_ifs <;> intro hf <;>
      first
      | exact flowOf_cont _ hf
      | rfl
      | (exfalso; simp [flowOf, LexerResult.IsRight] at hf)
  | success =>
    dsimp only
    split_ifs <;> intro hf <;>
      first
      | exact flowOf_cont _ hf
      | rfl
      | (exfalso; simp [flowOf, LexerResult.IsRight] at hf)

theorem Lexer.casePayload_kept {D H : Type} (h : Handler D H)
    (G : H → Prop) (B : List Nat → Prop) (E : List Nat → List Nat → Prop)
    (hK : h.Keeps G B E) (lx : Lexer H) (st : LexerState) (hG : G lx.handler_) :
    Kept G B E (Lexer.casePayload h lx st).2.result (Lexer.casePayload h lx st).2.calls
      (Lexer.casePayload h lx st).2.lexer := by
  unfold Lexer.casePayload
  dsimp only
  split_ifs with h91 h93
  · refine ⟨fun hs => LexerResult.noConfusion hs, ?_⟩
    intro name hm
    simp at hm
  · refine ⟨?_, ?_⟩
    · intro hs
      dsimp only at hs ⊢
      apply hK.custom_ok _ _ _ hG
      cases hr : (h.LexerCustomData lx.handler_ (readPayloadTag 4 0 st).2.1
          (readPayloadTag 4 0 st).2.2.stream_).1 with
      | none => rfl
      | some m =>
        rw [hr] at hs
        simp [mapFail] at hs
    · intro name hm
      simp at hm
  · exact ⟨fun hs => LexerResult.noConfusion hs, fun _ hm => absurd hm (List.not_mem_nil _)⟩

theorem Lexer.casePayload_cont {D H : Type} (h : Handler D H) (lx : Lexer H)
    (st : LexerState) :
    (Lexer.casePayload h lx st).1 = Flow.cont →
      (Lexer.casePayload h lx st).2.result = LexerResult.success := by
  unfold Lexer.casePayload
  dsimp only
  split_ifs <;> intro hf <;>
    first
    | exact flowOf_cont _ hf
    | rfl
    | (exfalso; simp [flowOf, LexerResult.IsRight] at hf)

theorem Lexer.caseQuote_goes_on {D H : Type} (fl : FloatLib D) (h : Handler D H)
    (lx : Lexer H) (st : LexerState) :
    (Lexer.caseQuote fl h lx st).1 = Flow.cont →
      (Lexer.caseQuote fl h lx st).2.result = LexerResult.success := by
  unfold Lexer.caseQuote
  split_ifs
  · exact flowOf_cont _
  · dsimp only
    cases hr : (Lexer.FinalizeTerm fl h lx st).result with
    | success =>
      intro _
      rfl
    | failure f0 =>
      intro hf
      exact absurd hf (by simp)

theorem Lexer.caseQuote_kept {D H : Type} (fl : FloatLib D) (h : Handler D H)
    (G : H → Prop) (B : List Nat → Prop) (E : List Nat → List Nat → Prop)
    (hK : h.Keeps G B E) (lx : Lexer H) (st : LexerState) (hG : G lx.handler_) :
    Kept G B E (Lexer.caseQuote fl h lx st).2.result (Lexer.caseQuote fl h lx st).2.calls
      (Lexer.caseQuote fl h lx st).2.lexer := by
  obtain ⟨hF, _, _⟩ := Lexer.FinalizeTerm_kept fl h G B E hK lx st hG
  unfold Lexer.caseQuote
  split_ifs
  · exact hF
  · dsimp only
    cases hr : (Lexer.FinalizeTerm fl h lx st).result with
    | success =>
      rw [hr] at hF
      exact hF
    | failure f0 =>
      dsimp only
      rw [hr]
      rw [hr] at hF
      exact hF

theorem Lexer.Body_kept {D H : Type} (fl : FloatLib D) (h : Handler D H)
    (G : H → Prop) (B : List Nat → Prop) (E : List Nat → List Nat → Prop)
    (hK : h.Keeps G B E) (fuel c : Nat) (lx : Lexer H) (st : LexerState) (hG : G lx.handler_)
    (f : Flow) (d : Done D H) (hB : Lexer.Body fl h fuel c lx st = some (f, d)) :
    Kept G B E d.result d.calls d.lexer ∧ (f = Flow.cont → d.result = LexerResult.success) := by
  unfold Lexer.Body at hB
  dsimp only at hB
  split_ifs at hB with h1 h2 h3 h4 h5 h6 h7
  · simp only [Option.some.injEq] at hB
    have e1 := congrArg Prod.fst hB
    have e2 := congrArg Prod.snd hB
    dsimp only at e1 e2
    rw [← e2]
    exact ⟨Kept.nil G B E _ lx hG, fun _ => rfl⟩
  · simp only [Option.some.injEq] at hB
    have e1 := congrArg Prod.fst hB
    have e2 := congrArg Prod.snd hB
    dsimp only at e1 e2
    rw [← e2, ← e1]
    exact ⟨(Lexer.FinalizeTerm_kept fl h G B E hK lx _ hG).1, flowOf_cont _⟩
  · simp only [Option.some.injEq] at hB
    have e1 := congrArg Prod.fst hB
    have e2 := congrArg Prod.snd hB
    dsimp only at e1 e2
    rw [← e2, ← e1]
    exact ⟨Lexer.caseClose_kept fl h G B E hK lx _ hG, Lexer.caseClose_goes_on fl h lx _⟩
  · simp only [Option.some.injEq] at hB
    have e1 := congrArg Prod.fst hB
    have e2 := congrArg Prod.snd hB
    dsimp only at e1 e2
    rw [← e2, ← e1]
    exact ⟨Lexer.caseQuote_kept fl h G B E hK lx _ hG, Lexer.caseQuote_goes_on fl h lx _⟩
  · simp only [Option.some.injEq] at hB
    have e1 := congrArg Prod.fst hB
    have e2 := congrArg Prod.snd hB
    dsimp only at e1 e2
    rw [← e2, ← e1]
    exact ⟨Lexer.casePayload_kept h G B E hK lx _ hG, Lexer.casePayload_cont h lx _⟩
  · unfold Lexer.caseComment at hB
    cases hs : skipComment fuel st.ResetEscape with
    | none => rw [hs] at hB; cases hB
    | some s =>
      rw [hs] at hB
      simp only [Option.some.injEq] at hB
      have e2 := congrArg Prod.snd hB
      dsimp only at e2
      rw [← e2]
      exact ⟨Kept.nil G B E _ lx hG, fun _ => rfl⟩
  · simp only [Option.some.injEq] at hB
    have e1 := congrArg Prod.fst hB
    have e2 := congrArg Prod.snd hB
    dsimp only at e1 e2
    rw [← e2, ← e1]
    exact ⟨(Lexer.FinalizeTerm_kept fl h G B E hK lx _ hG).1, flowOf_cont _⟩
  · simp only [Option.some.injEq] at hB
    have e2 := congrArg Prod.snd hB
    dsimp only at e2
    rw [← e2]
    exact ⟨Kept.nil G B E _ lx hG, fun _ => rfl⟩

theorem Lexer.RunLoop_kept {D H : Type} (fl : FloatLib D) (h : Handler D H)
    (G : H → Prop) (B : List Nat → Prop) (E : List Nat → List Nat → Prop)
    (hK : h.Keeps G B E) :
    ∀ (fuel : Nat) (lx : Lexer H) (st : LexerState) (d : Done D H), G lx.handler_ →
      Lexer.RunLoop fl h fuel lx st = some d → Kept G B E d.result d.calls d.lexer := by
  intro fuel
  induction fuel with
  | zero =>
    intro lx st d _ hR
    simp [Lexer.RunLoop] at hR
  | succ n ih =>
    intro lx st d hG hR
    unfold Lexer.RunLoop at hR
    dsimp only at hR
    split_ifs at hR with hc
    · simp only [Option.some.injEq] at hR
      rw [← hR]
      exact Kept.nil G B E _ lx hG
    · cases hBody : Lexer.Body fl h n st.NextChar.1 lx st.NextChar.2 with
      | none => rw [hBody] at hR; cases hR
      | some r =>
        rw [hBody] at hR
        obtain ⟨f, d1⟩ := r
        obtain ⟨hk, hcont⟩ := Lexer.Body_kept fl h G B E hK n _ lx _ hG f d1 hBody
        cases f with
        | ret =>
          simp only [Option.some.injEq] at hR
          rw [← hR]
          exact hk
        | cont =>
          dsimp only at hR
          cases hrec : Lexer.RunLoop fl h n d1.lexer d1.state with
          | none => rw [hrec] at hR; cases hR
          | some d2 =>
            rw [hrec] at hR
            simp only [Option.some.injEq] at hR
            rw [← hR]
            rw [hcont rfl] at hk
            exact Kept.followed G B E _ _ _ _ _ hk (fun hG2 => ih d1.lexer d1.state d2 hG2 hrec)

/-! ### Unknown functions -/

theorem Compiler.emit_push_code {D : Type} (c : Compiler D) (v : TypedValue D)
    (P : Instruction D → Prop)
    (hP : ∀ i ∈ c.cur_program_.code_, i.code = OpCode.Call → P i) :
    ∀ i ∈ (c.emit OpCode.Push v).cur_program_.code_, i.code = OpCode.Call → P i := by
  intro i hi hcall
  simp only [Compiler.emit, List.mem_append, List.mem_singleton] at hi
  rcases hi with hi | hi
  · exact hP i hi hcall
  · rw [hi] at hcall
    cases hcall

theorem Compiler.handler_keeps (D : Type) (env : Env) :
    (Compiler.handler D).Keeps
      (fun c => c.env_ = env ∧ c.error_builder_ = [] ∧
        ∀ i ∈ c.cur_program_.code_, i.code = OpCode.Call →
          ∃ name, env.FindCall name ≠ 0 ∧
            i.data = { type := TypeSchemaPtr.invalid, value := Value.ptr (env.FindCall name) })
      (fun name => env.FindCall name ≠ 0)
      (fun name msg => msg = StrBuilder.BestEffortWrite 128
        (StrBuilder.BestEffortWrite 128
          (StrBuilder.BestEffortWrite 128 [] (bytes "Unknown function '")) name) (bytes "'")) where
  begin_ok := by
    rintro c name ⟨he, hb, hc⟩ hr
    simp only [Compiler.handler, Compiler.LexerBeginOp] at hr ⊢
    by_cases h0 : c.env_.FindCall name = 0
    · rw [if_pos h0] at hr
      cases hr
    · rw [if_neg h0]
      rw [he] at h0
      refine ⟨⟨he, hb, ?_⟩, h0⟩
      intro i hi hcall
      simp only [Compiler.emit, List.mem_append, List.mem_singleton] at hi
      rcases hi with hi | hi
      · exact hc i hi hcall
      · exact ⟨name, h0, by rw [hi, he]⟩
  begin_err := by
    rintro c name msg ⟨he, hb, hc⟩ hr
    simp only [Compiler.handler, Compiler.LexerBeginOp] at hr
    by_cases h0 : c.env_.FindCall name = 0
    · rw [if_pos h0] at hr
      simp only [Option.some.injEq] at hr
      rw [← hr, hb]
    · rw [if_neg h0] at hr
      cases hr
  end_ok := by
    rintro c ⟨he, hb, hc⟩ _
    exact ⟨he, hb, Compiler.emit_push_code c _ _ hc⟩
  str_ok := by
    rintro c v ⟨he, hb, hc⟩ _
    exact ⟨he, hb, Compiler.emit_push_code c _ _ hc⟩
  int_ok := by
    rintro c v ⟨he, hb, hc⟩ _
    exact ⟨he, hb, Compiler.emit_push_code c _ _ hc⟩
  double_ok := by
    rintro c v ⟨he, hb, hc⟩ _
    exact ⟨he, hb, Compiler.emit_push_code c _ _ hc⟩
  unhandled_ok := by
    rintro c v ⟨he, hb, hc⟩ _
    simp only [Compiler.handler, Compiler.LexerUnhandledValue]
    split_ifs
    · exact ⟨he, hb, Compiler.emit_push_code c _ _ hc⟩
    · exact ⟨he, hb, Compiler.emit_push_code c _ _ hc⟩
  custom_ok := by
    rintro c tok rd ⟨he, hb, hc⟩ hr
    simp only [Compiler.handler, Compiler.LexerCustomData] at hr ⊢
    cases hp : c.env_.FindPayloadHandler tok with
    | none =>
      rw [hp] at hr
      cases hr
    | some ph => exact ⟨he, hb, hc⟩

theorem StrBuilder.BestEffortWrite_append (Size : Nat) (buf str : List Nat) :
    ∃ t, StrBuilder.BestEffortWrite Size buf str = buf ++ t :=
  ⟨_, rfl⟩

theorem Compiler.Build_fresh {D : Type} (fl : FloatLib D) (fuel : Nat) (env : Env)
    (reader : StreamReader) :
    Compiler.Build fl fuel (Compiler.fresh D env) reader =
      match Lexer.Run fl (Compiler.handler D) fuel
          { handler_ := Compiler.fresh D env, err_description_ := [] } reader true with
      | none => none
      | some d =>
        match d.result with
        | LexerResult.failure f =>
          some (CompileResult.error { err_line_no_ := f.err_line_no_,
                                      err_line_offset_ := f.err_line_offset_,
                                      err_msg_ := f.err_msg_ },
                d.lexer.handler_, d.state.stream_)
        | LexerResult.success =>
          some (CompileResult.program { code_ := d.lexer.handler_.cur_program_.code_.reverse },
                d.lexer.handler_, d.state.stream_) := rfl

/-- C11. `Compiler::Build` with a fresh compiler, on any reader: every `Call` in a
program it returns holds the non-null function pointer that `FindCall` gives
for some name; if the lexer passed to `begin_op` a name that is absent from the
function table, `Build` returns an error whose message begins with
`Unknown function '`; and for a name that is present `begin_op` succeeds and
emits the `Call` of the function that `FindCall` gives. -/
theorem build_fails_on_unknown_function {D : Type} (fl : FloatLib D) (fuel : Nat) (env : Env)
    (reader : StreamReader) (res : CompileResult D)
    (hB : (Compiler.Build fl fuel (Compiler.fresh D env) reader).map (fun o => o.1) =
      some res) :
    (∀ p, res = CompileResult.program p → ∀ i ∈ p.code_, i.code = OpCode.Call →
      i.data.value.get_ptr ≠ 0 ∧
      ∃ name, i.data =
        { type := TypeSchemaPtr.invalid, value := Value.ptr (env.FindCall name) }) ∧
    (∀ d, Lexer.Run fl (Compiler.handler D) fuel
        { handler_ := Compiler.fresh D env, err_description_ := [] } reader true = some d →
      ∀ name, Callback.LexerBeginOp name ∈ d.calls → env.FindCall name = 0 →
        ∃ e t, res = CompileResult.error e ∧ e.err_msg_ = bytes "Unknown function '" ++ t) ∧
    (∀ (c : Compiler D) (name : List Nat), c.env_.FindCall name ≠ 0 →
      c.LexerBeginOp name =
        (none, c.emit OpCode.Call
          { type := TypeSchemaPtr.invalid, value := Value.ptr (c.env_.FindCall name) })) := by
  refine ⟨?_, ?_, ?_⟩
  · intro p hp i hi hcall
    rw [Compiler.Build_fresh] at hB
    cases hrun : Lexer.Run fl (Compiler.handler D) fuel
        { handler_ := Compiler.fresh D env, err_description_ := [] } reader true with
    | none =>
      rw [hrun] at hB
      cases hB
    | some d =>
      rw [hrun] at hB
      dsimp only at hB
      have hk := Lexer.RunLoop_kept fl (Compiler.handler D) _ _ _ (Compiler.handler_keeps D env)
        fuel _ _ d ⟨rfl, rfl, fun _ hm => absurd hm (List.not_mem_nil _)⟩ hrun
      cases hres : d.result with
      | failure f =>
        rw [hres] at hB
        simp only [Option.map_some', Option.some.injEq] at hB
        rw [hp] at hB
        cases hB
      | success =>
        rw [hres] at hB
        simp only [Option.map_some', Option.some.injEq] at hB
        rw [hp] at hB
        simp only [CompileResult.program.injEq] at hB
        have hcode : i ∈ d.lexer.handler_.cur_program_.code_ := by
          rw [← hB] at hi
          exact List.mem_reverse.mp hi
        obtain ⟨name, hne, hdata⟩ := (hk.1 hres).2.2 i hcode hcall
        refine ⟨?_, name, hdata⟩
        rw [hdata]
        exact hne
  · intro d hrun name hmem hzero
    rw [Compiler.Build_fresh] at hB
    rw [hrun] at hB
    dsimp only at hB
    have hk := Lexer.RunLoop_kept fl (Compiler.handler D) _ _ _ (Compiler.handler_keeps D env)
      fuel _ _ d ⟨rfl, rfl, fun _ hm => absurd hm (List.not_mem_nil _)⟩ hrun
    rcases hk.2 name hmem with hb | ⟨f, hf, hmsg⟩
    · exact absurd hzero hb
    · rw [hf] at hB
      simp only [Option.map_some', Option.some.injEq] at hB
      have e1 : StrBuilder.BestEffortWrite 128 [] (bytes "Unknown function '") =
          bytes "Unknown function '" := by decide
      rw [e1] at hmsg
      obtain ⟨t1, h1⟩ := StrBuilder.BestEffortWrite_append 128 (bytes "Unknown function '") name
      rw [h1] at hmsg
      obtain ⟨t2, h2⟩ := StrBuilder.BestEffortWrite_append 128
        (bytes "Unknown function '" ++ t1) (bytes "'")
      rw [h2, List.append_assoc] at hmsg
      exact ⟨_, t1 ++ t2, hB.symm, hmsg⟩
  · intro c name hne
    unfold Compiler.LexerBeginOp
    dsimp only
    rw [if_neg hne]

/-- C11 at the source `(xxx 1 2)` of `TEST(SlangCompilerTest, SyntaxErrorNoFunction)`:
`Build` returns the error `Unknown function 'xxx'`. -/
theorem build_fails_on_unknown_function_witness :
    (Compiler.Build noFloat 16 (Compiler.fresh Unit testEnv)
      (StreamReader.preloaded (bytes "(xxx 1 2)") DummyInStream 9)).map (fun o => o.1) =
      some (CompileResult.error
        { err_line_no_ := 1, err_line_offset_ := 5,
          err_msg_ := bytes "Unknown function 'xxx'" }) ∧
    (Lexer.Run noFloat (Compiler.handler Unit) 16
        { handler_ := Compiler.fresh Unit testEnv, err_description_ := [] }
        (StreamReader.preloaded (bytes "(xxx 1 2)") DummyInStream 9) true).map
      (fun d => d.calls) = some [Callback.LexerBeginOp (bytes "xxx")] ∧
    testEnv.FindCall (bytes "xxx") = 0 ∧
    ∀ d, Lexer.Run noFloat (Compiler.handler Unit) 16
        { handler_ := Compiler.fresh Unit testEnv, err_description_ := [] }
        (StreamReader.preloaded (bytes "(xxx 1 2)") DummyInStream 9) true = some d →
      ∀ name, Callback.LexerBeginOp name ∈ d.calls → testEnv.FindCall name = 0 →
        ∃ e t, (CompileResult.error
            { err_line_no_ := 1, err_line_offset_ := 5,
              err_msg_ := bytes "Unknown function 'xxx'" } : CompileResult Unit) =
            CompileResult.error e ∧
          e.err_msg_ = bytes "Unknown function '" ++ t :=
  ⟨by decide!, by decide!, by decide,
   (build_fails_on_unknown_function noFloat 16 testEnv
      (StreamReader.preloaded (bytes "(xxx 1 2)") DummyInStream 9) _ (by decide!)).2.1⟩

/-! ### The lexer follows the parentheses of the text -/

theorem LexerResult.failure_of_ne (r : LexerResult) (h : r ≠ LexerResult.success) :
    ∃ f, r = LexerResult.failure f := by
  cases r with
  | success => exact absurd rfl h
  | failure f => exact ⟨f, rfl⟩

theorem flowOf_ret (r : LexerResult) (h : flowOf r = Flow.ret) : r ≠ LexerResult.success := by
  intro hr
  rw [hr] at h
  cases h

theorem Abs.FinalizeTerm_state {D H : Type} (fl : FloatLib D) (h : Handler D H) (lx : Lexer H)
    (a : Abs.State) :
    (Abs.FinalizeTerm fl h lx a).state.op_depth_ = a.op_depth_ ∧
    (Abs.FinalizeTerm fl h lx a).state.single_expr_ = a.single_expr_ ∧
    (Abs.FinalizeTerm fl h lx a).state.is_escaped_ = a.is_escaped_ ∧
    (a.term_type_ ≠ TermType.kStr →
      (Abs.FinalizeTerm fl h lx a).state.term_type_ ≠ TermType.kStr) ∧
    (a.term.isSome = true → (Abs.FinalizeTerm fl h lx a).result = LexerResult.success →
      (Abs.FinalizeTerm fl h lx a).state.term_type_ ≠ TermType.kStr) := by
  unfold Abs.FinalizeTerm
  split_ifs with h1 h2
  · refine ⟨rfl, rfl, rfl, fun hk => hk, fun hs _ => ?_⟩
    rw [hs] at h1
    simp at h1
  · refine ⟨rfl, rfl, rfl, fun hk => hk, fun _ hr => ?_⟩
    cases hr
  · dsimp only
    cases a.term_type_ <;>
      exact ⟨rfl, rfl, rfl, fun _ => by simp [Abs.State.FinishTerm],
        fun _ _ => by simp [Abs.State.FinishTerm]⟩

theorem Abs.Sim.after_NextChar {a : Abs.State} {depth : Nat} {mode : ScanMode}
    (hS : Abs.Sim a depth mode) (c : Nat) (rest : List Nat) (hin : a.input = c :: rest) :
    Abs.Sim a.NextChar.2 depth mode := by
  rw [Abs.NextChar_cons a c rest hin]
  obtain ⟨hd, hm⟩ := hS
  refine ⟨hd, ?_⟩
  cases mode with
  | normal => exact hm
  | comment => exact hm
  | str e =>
    dsimp only at hm ⊢
    refine ⟨hm.1, hm.2.1, ?_⟩
    cases ht : a.term with
    | none =>
      have := hm.2.2
      rw [ht] at this
      cases this
    | some t => rfl

theorem Abs.Body_str {D H : Type} (fl : FloatLib D) (h : Handler D H) (fuel c : Nat)
    (lx : Lexer H) (a : Abs.State) (depth : Nat) (e : Bool)
    (hS : Abs.Sim a depth (ScanMode.str e)) (hc : ¬ (c = 34 ∧ e = false)) :
    ∃ out, Abs.Body fl h fuel c lx a = some (Abs.Turn.flow Flow.cont out) ∧
      out.state.input = a.input ∧ out.state.single_expr_ = a.single_expr_ ∧
      Abs.Sim out.state depth (ScanMode.str (decide (c = 92) && !e)) := by
  obtain ⟨hd, hm⟩ := hS
  dsimp only at hm
  obtain ⟨hk, he, ht⟩ := hm
  have hcond : a.ResetEscape.term_type_ = TermType.kStr ∧ (c ≠ 34 ∨ a.is_escaped_ = true) := by
    refine ⟨hk, ?_⟩
    by_cases h34 : c = 34
    · right
      rw [he]
      cases e with
      | true => rfl
      | false => exact absurd ⟨h34, rfl⟩ hc
    · exact Or.inl h34
  unfold Abs.Body
  dsimp only
  rw [if_pos hcond]
  refine ⟨_, rfl, Abs.inString_input _ _ _ _, ?_, ?_⟩
  · unfold Abs.inString
    dsimp only
    split_ifs <;> rfl
  · unfold Abs.inString
    dsimp only
    rw [he]
    constructor
    · split_ifs <;> exact hd
    · dsimp only
      refine ⟨?_, ?_, ?_⟩
      · split_ifs <;> exact hk
      · cases e <;> by_cases h92 : c = 92 <;> by_cases h10 : c = 10 <;>
          simp [h92, h10, Abs.State.NewLine, Abs.State.ResetEscape]
      · split_ifs <;> exact ht

theorem Abs.Body_str_close {D H : Type} (fl : FloatLib D) (h : Handler D H) (fuel : Nat)
    (lx : Lexer H) (a : Abs.State) (depth : Nat)
    (hS : Abs.Sim a depth (ScanMode.str false)) :
    ∃ f out, Abs.Body fl h fuel 34 lx a = some (Abs.Turn.flow f out) ∧
      out.state.input = a.input ∧ out.state.single_expr_ = a.single_expr_ ∧
      (f = Flow.cont → Abs.Sim out.state depth ScanMode.normal) ∧
      (f = Flow.ret → out.result ≠ LexerResult.success) := by
  obtain ⟨hd, hm⟩ := hS
  dsimp only at hm
  obtain ⟨hk, he, ht⟩ := hm
  have hcond : ¬ (a.ResetEscape.term_type_ = TermType.kStr ∧
      ((34 : Nat) ≠ 34 ∨ a.is_escaped_ = true)) := by
    rw [he]
    simp
  have hk2 : a.ResetEscape.term_type_ = TermType.kStr := hk
  obtain ⟨f1, f2, f3, f4, f5⟩ := Abs.FinalizeTerm_state fl h lx a.ResetEscape
  unfold Abs.Body
  dsimp only
  rw [if_neg hcond, if_neg (by decide), if_neg (by decide), if_pos rfl]
  unfold Abs.caseQuote
  rw [if_pos hk2]
  refine ⟨_, _, rfl, Abs.FinalizeTerm_input _ _ _ _, f2, fun hf => ?_, fun hf => flowOf_ret _ hf⟩
  exact ⟨f1.trans hd, f5 ht (flowOf_cont _ hf)⟩

theorem Abs.Sim.not_str {a : Abs.State} {depth : Nat} (hS : Abs.Sim a depth ScanMode.normal)
    (c : Nat) :
    ¬ (a.ResetEscape.term_type_ = TermType.kStr ∧ (c ≠ 34 ∨ a.is_escaped_ = true)) :=
  fun hc => hS.h_mode hc.1

theorem Abs.Body_open {D H : Type} (fl : FloatLib D) (h : Handler D H) (fuel : Nat)
    (lx : Lexer H) (a : Abs.State) (depth : Nat)
    (hS : Abs.Sim a depth ScanMode.normal) :
    ∃ f out, Abs.Body fl h fuel 40 lx a = some (Abs.Turn.flow f out) ∧
      out.state.input = a.input ∧ out.state.single_expr_ = a.single_expr_ ∧
      (f = Flow.cont → Abs.Sim out.state (depth + 1) ScanMode.normal) ∧
      (f = Flow.ret → out.result ≠ LexerResult.success) := by
  obtain ⟨f1, f2, f3, f4, f5⟩ := Abs.FinalizeTerm_state fl h lx a.ResetEscape
  unfold Abs.Body
  dsimp only
  rw [if_neg (hS.not_str 40), if_pos rfl]
  unfold Abs.caseOpen
  refine ⟨_, _, rfl, Abs.FinalizeTerm_input _ _ _ _, f2, fun _ => ?_, fun hf => flowOf_ret _ hf⟩
  refine ⟨?_, ?_⟩
  · dsimp only
    rw [f1]
    have := hS.h_depth
    change a.op_depth_ + 1 = ((depth + 1 : Nat) : Int)
    rw [this]
    push_cast
    rfl
  · intro hk
    cases hk

theorem Abs.Body_quote {D H : Type} (fl : FloatLib D) (h : Handler D H) (fuel : Nat)
    (lx : Lexer H) (a : Abs.State) (depth : Nat)
    (hS : Abs.Sim a depth ScanMode.normal) :
    ∃ f out, Abs.Body fl h fuel 34 lx a = some (Abs.Turn.flow f out) ∧
      out.state.input = a.input ∧ out.state.single_expr_ = a.single_expr_ ∧
      (f = Flow.cont → Abs.Sim out.state depth (ScanMode.str false)) ∧
      (f = Flow.ret → out.result ≠ LexerResult.success) := by
  obtain ⟨f1, f2, f3, f4, f5⟩ := Abs.FinalizeTerm_state fl h lx a.ResetEscape
  have hk : ¬ a.ResetEscape.term_type_ = TermType.kStr := hS.h_mode
  unfold Abs.Body
  dsimp only
  rw [if_neg (hS.not_str 34), if_neg (by decide), if_neg (by decide), if_pos rfl]
  unfold Abs.caseQuote
  rw [if_neg hk]
  dsimp only
  cases hr : (Abs.FinalizeTerm fl h lx a.ResetEscape).result with
  | failure f0 =>
    dsimp only
    refine ⟨_, _, rfl, Abs.FinalizeTerm_input _ _ _ _, f2, fun hf => Flow.noConfusion hf, fun _ => ?_⟩
    rw [hr]
    exact LexerResult.noConfusion
  | success =>
    dsimp only
    refine ⟨_, _, rfl, Abs.FinalizeTerm_input _ _ _ _, f2, fun _ => ?_, fun hf => Flow.noConfusion hf⟩
    exact ⟨f1.trans hS.h_depth, rfl, f3, rfl⟩

theorem Abs.Body_plain {D H : Type} (fl : FloatLib D) (h : Handler D H) (fuel c : Nat)
    (lx : Lexer H) (a : Abs.State) (depth : Nat)
    (hS : Abs.Sim a depth ScanMode.normal)
    (h40 : c ≠ 40) (h41 : c ≠ 41) (h34 : c ≠ 34) (h33 : c ≠ 33) (h59 : c ≠ 59) :
    ∃ f out, Abs.Body fl h fuel c lx a = some (Abs.Turn.flow f out) ∧
      out.state.input = a.input ∧ out.state.single_expr_ = a.single_expr_ ∧
      (f = Flow.cont → Abs.Sim out.state depth ScanMode.normal) ∧
      (f = Flow.ret → out.result ≠ LexerResult.success) := by
  have hk : ¬ a.ResetEscape.term_type_ = TermType.kStr := hS.h_mode
  unfold Abs.Body
  dsimp only
  rw [if_neg (hS.not_str c), if_neg h40, if_neg h41, if_neg h34, if_neg h33, if_neg h59]
  by_cases hws : c = 10 ∨ c = 32 ∨ c = 9 ∨ c = 13
  · rw [if_pos hws]
    unfold Abs.caseSpace
    dsimp only
    by_cases h10 : c = 10
    · rw [if_pos h10]
      obtain ⟨f1, f2, f3, f4, f5⟩ := Abs.FinalizeTerm_state fl h lx a.ResetEscape.NewLine
      refine ⟨_, _, rfl, Abs.FinalizeTerm_input _ _ _ _, f2, fun _ => ?_,
        fun hf => flowOf_ret _ hf⟩
      exact ⟨f1.trans hS.h_depth, f4 hk⟩
    · rw [if_neg h10]
      obtain ⟨f1, f2, f3, f4, f5⟩ := Abs.FinalizeTerm_state fl h lx a.ResetEscape
      refine ⟨_, _, rfl, Abs.FinalizeTerm_input _ _ _ _, f2, fun _ => ?_,
        fun hf => flowOf_ret _ hf⟩
      exact ⟨f1.trans hS.h_depth, f4 hk⟩
  · rw [if_neg hws]
    unfold Abs.caseOther
    dsimp only
    refine ⟨_, _, rfl, ?_, ?_, fun _ => ?_, fun hf => Flow.noConfusion hf⟩
    · split_ifs <;> rfl
    · split_ifs <;> rfl
    · constructor
      · split_ifs <;> exact hS.h_depth
      · dsimp only
        split_ifs
        · intro hk2
          cases hk2
        · exact hk

theorem Abs.Body_comment {D H : Type} (fl : FloatLib D) (h : Handler D H) (fuel : Nat)
    (lx : Lexer H) (a : Abs.State) (depth : Nat)
    (hS : Abs.Sim a depth ScanMode.normal) (hnul : 0 ∉ a.input) (hlt : a.input.length < fuel) :
    ∃ out, Abs.Body fl h fuel 59 lx a = some (Abs.Turn.flow Flow.cont out) ∧
      out.state.single_expr_ = a.single_expr_ ∧
      Abs.Sim out.state depth ScanMode.normal ∧
      ((∃ body, a.input = body ++ 10 :: out.state.input ∧ 10 ∉ body) ∨
        (out.state.input = [] ∧ 10 ∉ a.input)) := by
  have hk : ¬ a.ResetEscape.term_type_ = TermType.kStr := hS.h_mode
  obtain ⟨s, hs, _⟩ := Abs.skipComment_returns fuel a.ResetEscape hlt
  obtain ⟨s1, s2, s3, s4, s5, s6, s7⟩ := Abs.skipComment_spec fuel a.ResetEscape s hnul hs
  unfold Abs.Body
  dsimp only
  rw [if_neg (hS.not_str 59), if_neg (by decide), if_neg (by decide), if_neg (by decide),
    if_neg (by decide), if_pos rfl]
  unfold Abs.caseComment
  rw [hs]
  refine ⟨_, rfl, s3, ⟨s2.trans hS.h_depth, ?_⟩, s7⟩
  dsimp only
  change s.term_type_ ≠ TermType.kStr
  rw [s4]
  exact hk

theorem Abs.Body_close {D H : Type} (fl : FloatLib D) (h : Handler D H) (fuel : Nat)
    (lx : Lexer H) (a : Abs.State) (depth : Nat)
    (hS : Abs.Sim a depth ScanMode.normal) :
    ∃ f out, Abs.Body fl h fuel 41 lx a = some (Abs.Turn.flow f out) ∧
      out.state.input = a.input ∧ out.state.single_expr_ = a.single_expr_ ∧
      (f = Flow.cont → 1 ≤ depth ∧ Abs.Sim out.state (depth - 1) ScanMode.normal ∧
        ¬ (a.single_expr_ = true ∧ depth = 1)) ∧
      (f = Flow.ret → out.result = LexerResult.success →
        a.single_expr_ = true ∧ depth = 1) := by
  have hk : ¬ a.ResetEscape.term_type_ = TermType.kStr := hS.h_mode
  have hd := hS.h_depth
  obtain ⟨f1, f2, f3, f4, f5⟩ := Abs.FinalizeTerm_state fl h lx a.ResetEscape
  have f1b : (Abs.FinalizeTerm fl h lx a.ResetEscape).state.op_depth_ = (depth : Int) :=
    f1.trans hd
  have f4b := f4 hk
  have f2b : (Abs.FinalizeTerm fl h lx a.ResetEscape).state.single_expr_ = a.single_expr_ := f2
  unfold Abs.Body
  dsimp only
  rw [if_neg (hS.not_str 41), if_neg (by decide), if_pos rfl]
  unfold Abs.caseClose
  dsimp only
  cases hr : (Abs.FinalizeTerm fl h lx a.ResetEscape).result with
  | failure f0 =>
    dsimp only
    rw [f1b, f2b, hr]
    split_ifs with g1 g2
    · exact ⟨_, _, rfl, Abs.FinalizeTerm_input _ _ _ _, rfl, fun hf => Flow.noConfusion hf,
        fun _ hs => LexerResult.noConfusion hs⟩
    · exact absurd g2.2.1 (by simp [LexerResult.IsRight])
    · refine ⟨_, _, rfl, Abs.FinalizeTerm_input _ _ _ _, rfl, fun hf => Flow.noConfusion hf,
        fun _ hs => LexerResult.noConfusion hs⟩
  | success =>
    dsimp only
    rw [f1b, f2b]
    split_ifs with g1 g2
    · exact ⟨_, _, rfl, Abs.FinalizeTerm_input _ _ _ _, rfl, fun hf => Flow.noConfusion hf,
        fun _ hs => LexerResult.noConfusion hs⟩
    · refine ⟨_, _, rfl, Abs.FinalizeTerm_input _ _ _ _, rfl, fun hf => Flow.noConfusion hf,
        fun _ _ => ⟨g2.1, by omega⟩⟩
    · refine ⟨_, _, rfl, Abs.FinalizeTerm_input _ _ _ _, rfl, fun hf => ?_, fun hf hs => ?_⟩
      · have hsucc := flowOf_cont _ hf
        refine ⟨by omega, ⟨?_, f4b⟩, fun hsd => g2 ⟨hsd.1, ?_, by omega⟩⟩
        · change (depth : Int) - 1 = ((depth - 1 : Nat) : Int)
          omega
        · rw [hsucc]
          rfl
      · exact absurd hs (flowOf_ret _ hf)

/-! ### One turn of the loop and the rest of the run -/

theorem Abs.RunLoop_end {D H : Type} (fl : FloatLib D) (h : Handler D H) (n : Nat)
    (lx : Lexer H) (a : Abs.State) (hin : a.input = []) :
    Abs.RunLoop fl h (n + 1) lx a =
      some (Abs.Out.done { result := Abs.finish a.NextChar.2, calls := [], lexer := lx,
                           rest := [] }) := by
  unfold Abs.RunLoop
  dsimp only
  rw [Abs.NextChar_nil a hin]
  simp only [if_true]
  rw [hin]

theorem Abs.RunLoop_ret {D H : Type} (fl : FloatLib D) (h : Handler D H) (n c : Nat)
    (lx : Lexer H) (a : Abs.State) (rest : List Nat) (out : Abs.Done D H)
    (hin : a.input = c :: rest) (hc : c ≠ k_lexer_invalid_char)
    (hB : Abs.Body fl h n c lx a.NextChar.2 = some (Abs.Turn.flow Flow.ret out)) :
    Abs.RunLoop fl h (n + 1) lx a =
      some (Abs.Out.done { result := out.result, calls := out.calls, lexer := out.lexer,
                           rest := out.state.input }) := by
  have e1 : a.NextChar.1 = c := by rw [Abs.NextChar_cons a c rest hin]
  unfold Abs.RunLoop
  dsimp only
  rw [e1, if_neg hc, hB]

theorem Abs.RunLoop_cont {D H : Type} (fl : FloatLib D) (h : Handler D H) (n c : Nat)
    (lx : Lexer H) (a : Abs.State) (rest : List Nat) (out : Abs.Done D H) (o : Observed D H)
    (hin : a.input = c :: rest) (hc : c ≠ k_lexer_invalid_char)
    (hB : Abs.Body fl h n c lx a.NextChar.2 = some (Abs.Turn.flow Flow.cont out))
    (hR : Abs.RunLoop fl h n out.lexer out.state = some (Abs.Out.done o)) :
    Abs.RunLoop fl h (n + 1) lx a =
      some (Abs.Out.done { o with calls := out.calls ++ o.calls }) := by
  have e1 : a.NextChar.1 = c := by rw [Abs.NextChar_cons a c rest hin]
  unfold Abs.RunLoop
  dsimp only
  rw [e1, if_neg hc, hB]
  dsimp only
  rw [hR]

theorem Abs.NextChar_rest (a : Abs.State) (c : Nat) (rest : List Nat) (hin : a.input = c :: rest) :
    a.NextChar.2.input = rest ∧ a.NextChar.2.single_expr_ = a.single_expr_ := by
  rw [Abs.NextChar_cons a c rest hin]
  exact ⟨rfl, rfl⟩

/-! ### Comments in the reading of the text -/

theorem parenScan_comment_cons (depth c : Nat) (rest : List Nat) (hc : c ≠ 10) :
    parenScan depth ScanMode.comment (c :: rest) = parenScan depth ScanMode.comment rest := by
  rw [parenScan, if_neg hc]

theorem parenScan_comment_line (depth : Nat) (tail : List Nat) :
    ∀ body : List Nat, 10 ∉ body →
      parenScan depth ScanMode.comment (body ++ 10 :: tail) =
        parenScan depth ScanMode.normal tail := by
  intro body
  induction body with
  | nil =>
    intro _
    simp [parenScan]
  | cons b bs ih =>
    intro hb
    have hb10 : b ≠ 10 := fun e => hb (by rw [e]; exact List.mem_cons_self _ _)
    have hbs : 10 ∉ bs := fun hm => hb (List.mem_cons_of_mem _ hm)
    rw [List.cons_append, parenScan_comment_cons _ _ _ hb10]
    exact ih hbs

theorem parenScan_comment_end (depth : Nat) :
    ∀ body : List Nat, 10 ∉ body →
      parenScan depth ScanMode.comment body = parenScan depth ScanMode.normal [] := by
  intro body
  induction body with
  | nil =>
    intro _
    simp [parenScan]
  | cons b bs ih =>
    intro hb
    have hb10 : b ≠ 10 := fun e => hb (by rw [e]; exact List.mem_cons_self _ _)
    have hbs : 10 ∉ bs := fun hm => hb (List.mem_cons_of_mem _ hm)
    rw [parenScan_comment_cons _ _ _ hb10]
    exact ih hbs

/-! ### Unbalanced texts fail -/

theorem Abs.RunLoop_unbalanced {D H : Type} (fl : FloatLib D) (h : Handler D H) :
    ∀ (fuel : Nat) (lx : Lexer H) (a : Abs.State) (depth : Nat) (mode : ScanMode),
      Abs.Sim a depth mode → a.single_expr_ = false → 0 ∉ a.input → a.input.length < fuel →
      parenScan depth mode a.input ≠ ParenVerdict.balanced →
      parenScan depth mode a.input ≠ ParenVerdict.payload →
      ∃ o, Abs.RunLoop fl h fuel lx a = some (Abs.Out.done o) ∧
        o.result ≠ LexerResult.success := by
  intro fuel
  induction fuel with
  | zero =>
    intro lx a depth mode _ _ _ hlt
    omega
  | succ n ih =>
    intro lx a depth mode hS hsingle hnul hlt hv hp
    cases hin : a.input with
    | nil =>
      rw [hin] at hv
      refine ⟨_, Abs.RunLoop_end fl h n lx a hin, ?_⟩
      dsimp only
      rw [Abs.NextChar_nil a hin]
      unfold Abs.finish
      dsimp only
      cases mode with
      | normal =>
        have hd : depth ≠ 0 := by
          intro h0
          apply hv
          simp [parenScan, h0]
        have hdep := hS.h_depth
        rw [if_pos (by omega)]
        exact LexerResult.noConfusion
      | str e =>
        have hk : a.term_type_ = TermType.kStr := hS.h_mode.1
        split_ifs
        · exact LexerResult.noConfusion
        · exact LexerResult.noConfusion
      | comment => exact hS.h_mode.elim
    | cons c rest =>
      rw [hin] at hv hp hnul hlt
      have hc0 : c ≠ k_lexer_invalid_char := fun e => hnul (by
        rw [e]
        exact List.mem_cons_self _ _)
      have hS1 := hS.after_NextChar c rest hin
      obtain ⟨hr1, hs1⟩ := Abs.NextChar_rest a c rest hin
      have hnul1 : 0 ∉ rest := fun hm => hnul (List.mem_cons_of_mem _ hm)
      have hlen : rest.length < n := by
        simp only [List.length_cons] at hlt
        omega
      have key : ∀ (f : Flow) (out : Abs.Done D H) (d1 : Nat) (m1 : ScanMode),
          Abs.Body fl h n c lx a.NextChar.2 = some (Abs.Turn.flow f out) →
          out.state.single_expr_ = a.NextChar.2.single_expr_ →
          0 ∉ out.state.input → out.state.input.length < n →
          (f = Flow.cont → Abs.Sim out.state d1 m1 ∧
            parenScan d1 m1 out.state.input ≠ ParenVerdict.balanced ∧
            parenScan d1 m1 out.state.input ≠ ParenVerdict.payload) →
          (f = Flow.ret → out.result ≠ LexerResult.success) →
          ∃ o, Abs.RunLoop fl h (n + 1) lx a = some (Abs.Out.done o) ∧
            o.result ≠ LexerResult.success := by
        intro f out d1 m1 hB hsg h0 hl hcont hret
        cases f with
        | ret => exact ⟨_, Abs.RunLoop_ret fl h n c lx a rest out hin hc0 hB, hret rfl⟩
        | cont =>
          obtain ⟨hSo, hvo, hpo⟩ := hcont rfl
          obtain ⟨o, ho, hres⟩ := ih out.lexer out.state d1 m1 hSo
            (by rw [hsg, hs1, hsingle]) h0 hl hvo hpo
          exact ⟨_, Abs.RunLoop_cont fl h n c lx a rest out o hin hc0 hB ho, hres⟩
      cases mode with
      | comment => exact hS.h_mode.elim
      | str e =>
        by_cases hq : c = 34 ∧ e = false
        · obtain ⟨hc34, he⟩ := hq
          subst hc34
          subst he
          rw [parenScan, if_pos ⟨rfl, rfl⟩] at hv hp
          obtain ⟨f, out, hB, hi, hsg, hcont, hret⟩ :=
            Abs.Body_str_close fl h n lx a.NextChar.2 depth hS1
          rw [hr1] at hi
          exact key f out depth ScanMode.normal hB hsg (by rw [hi]; exact hnul1)
            (by rw [hi]; exact hlen)
            (fun hf => ⟨hcont hf, by rw [hi]; exact hv, by rw [hi]; exact hp⟩) hret
        · rw [parenScan, if_neg hq] at hv hp
          obtain ⟨out, hB, hi, hsg, hSo⟩ := Abs.Body_str fl h n c lx a.NextChar.2 depth e hS1 hq
          rw [hr1] at hi
          exact key Flow.cont out depth _ hB hsg (by rw [hi]; exact hnul1)
            (by rw [hi]; exact hlen)
            (fun _ => ⟨hSo, by rw [hi]; exact hv, by rw [hi]; exact hp⟩)
            (fun hf => Flow.noConfusion hf)
      | normal =>
        by_cases h40 : c = 40
        · subst h40
          rw [parenScan, if_pos rfl] at hv hp
          obtain ⟨f, out, hB, hi, hsg, hcont, hret⟩ :=
            Abs.Body_open fl h n lx a.NextChar.2 depth hS1
          rw [hr1] at hi
          exact key f out (depth + 1) ScanMode.normal hB hsg (by rw [hi]; exact hnul1)
            (by rw [hi]; exact hlen)
            (fun hf => ⟨hcont hf, by rw [hi]; exact hv, by rw [hi]; exact hp⟩) hret
        by_cases h41 : c = 41
        · subst h41
          rw [parenScan, if_neg (by decide), if_pos rfl] at hv hp
          obtain ⟨f, out, hB, hi, hsg, hcont, hret⟩ :=
            Abs.Body_close fl h n lx a.NextChar.2 depth hS1
          rw [hr1] at hi
          refine key f out (depth - 1) ScanMode.normal hB hsg (by rw [hi]; exact hnul1)
            (by rw [hi]; exact hlen) (fun hf => ?_) (fun hf hs => ?_)
          · obtain ⟨hd1, hSo, _⟩ := hcont hf
            rw [if_neg (by omega)] at hv hp
            exact ⟨hSo, by rw [hi]; exact hv, by rw [hi]; exact hp⟩
          · have := (hret hf hs).1
            rw [hs1, hsingle] at this
            cases this
        by_cases h34 : c = 34
        · subst h34
          rw [parenScan, if_neg (by decide), if_neg (by decide), if_pos rfl] at hv hp
          obtain ⟨f, out, hB, hi, hsg, hcont, hret⟩ :=
            Abs.Body_quote fl h n lx a.NextChar.2 depth hS1
          rw [hr1] at hi
          exact key f out depth (ScanMode.str false) hB hsg (by rw [hi]; exact hnul1)
            (by rw [hi]; exact hlen)
            (fun hf => ⟨hcont hf, by rw [hi]; exact hv, by rw [hi]; exact hp⟩) hret
        by_cases h33 : c = 33
        · subst h33
          rw [parenScan, if_neg (by decide), if_neg (by decide), if_neg (by decide),
            if_pos rfl] at hp
          exact absurd rfl hp
        by_cases h59 : c = 59
        · subst h59
          rw [parenScan, if_neg (by decide), if_neg (by decide), if_neg (by decide),
            if_neg (by decide), if_pos rfl] at hv hp
          obtain ⟨out, hB, hsg, hSo, hcm⟩ :=
            Abs.Body_comment fl h n lx a.NextChar.2 depth hS1 (by rw [hr1]; exact hnul1)
              (by rw [hr1]; exact hlen)
          rw [hr1] at hcm
          have hsuf : out.state.input <:+ rest := by
            rcases hcm with ⟨body, hb, _⟩ | ⟨he, _⟩
            · exact ⟨body ++ [10], by rw [hb]; simp⟩
            · rw [he]
              exact List.nil_suffix
          have hscan : parenScan depth ScanMode.comment rest =
              parenScan depth ScanMode.normal out.state.input := by
            rcases hcm with ⟨body, hb, hnb⟩ | ⟨he, hnb⟩
            · rw [hb]
              exact parenScan_comment_line depth _ body hnb
            · rw [he]
              exact parenScan_comment_end depth rest hnb
          rw [hscan] at hv hp
          exact key Flow.cont out depth ScanMode.normal hB hsg
            (fun hm => hnul1 (hsuf.subset hm))
            (lt_of_le_of_lt hsuf.length_le hlen)
            (fun _ => ⟨hSo, hv, hp⟩) (fun hf => Flow.noConfusion hf)
        · rw [parenScan, if_neg h40, if_neg h41, if_neg h34, if_neg h33, if_neg h59] at hv hp
          obtain ⟨f, out, hB, hi, hsg, hcont, hret⟩ :=
            Abs.Body_plain fl h n c lx a.NextChar.2 depth hS1 h40 h41 h34 h33 h59
          rw [hr1] at hi
          exact key f out depth ScanMode.normal hB hsg (by rw [hi]; exact hnul1)
            (by rw [hi]; exact hlen)
            (fun hf => ⟨hcont hf, by rw [hi]; exact hv, by rw [hi]; exact hp⟩) hret

/-- In whole-input mode, `Lexer::Run` with an allocator that has memory, on a
text without zero bytes, returns, and returns a failure, whenever the
parentheses of the text outside its string literals and comments are
unbalanced: when a `)` has no open `(` (`strayClose`), when the text ends with
an open `(` (`openParen`), and when it ends inside a string literal
(`openString`).  This holds for every handler, every lexer object and every
way the stream delivers the text; a text in which a payload begins before the
imbalance is met is not covered, since how far a payload extends is for its
handler to say. -/
theorem unbalanced_text_fails {D H : Type} (fl : FloatLib D) (h : Handler D H) (lx : Lexer H)
    (reader : StreamReader) (fuel : Nat) (hwf : reader.Wf) (hnul : 0 ∉ reader.unread)
    (hfuel : reader.unread.length < fuel)
    (hscan : parenScan 0 ScanMode.normal reader.unread = ParenVerdict.strayClose ∨
      parenScan 0 ScanMode.normal reader.unread = ParenVerdict.openParen ∨
      parenScan 0 ScanMode.normal reader.unread = ParenVerdict.openString) :
    ∃ d f, Lexer.Run fl h fuel lx reader false = some d ∧
      d.result = LexerResult.failure f := by
  have hS : Abs.Sim (Abs.of (LexerState.init reader false)) 0 ScanMode.normal := by
    rw [Abs.of_init]
    refine ⟨rfl, ?_⟩
    intro hk
    cases hk
  have hv : parenScan 0 ScanMode.normal (Abs.of (LexerState.init reader false)).input ≠
      ParenVerdict.balanced := by
    rw [Abs.of_init]
    intro hb
    rcases hscan with e | e | e <;>
      · rw [hb] at e
        cases e
  have hp : parenScan 0 ScanMode.normal (Abs.of (LexerState.init reader false)).input ≠
      ParenVerdict.payload := by
    rw [Abs.of_init]
    intro hb
    rcases hscan with e | e | e <;>
      · rw [hb] at e
        cases e
  obtain ⟨o, ho, hres⟩ := Abs.RunLoop_unbalanced fl h fuel lx
    (Abs.of (LexerState.init reader false)) 0 ScanMode.normal hS
    (by rw [Abs.of_init]) (by rw [Abs.of_init]; exact hnul) (by rw [Abs.of_init]; exact hfuel)
    hv hp
  obtain ⟨d, hd, hobs⟩ := Lexer.Run_of_abs fl h fuel lx reader false hwf o ho
  obtain ⟨f, hf⟩ := LexerResult.failure_of_ne o.result hres
  refine ⟨d, f, hd, ?_⟩
  rw [← hf, ← hobs]
  rfl

theorem unbalanced_text_fails_witness :
    parenScan 0 ScanMode.normal (bytes "(a (b 2) (c 1)))") = ParenVerdict.strayClose ∧
    parenScan 0 ScanMode.normal (bytes "(hello") = ParenVerdict.openParen ∧
    parenScan 0 ScanMode.normal (bytes "(f \"a)") = ParenVerdict.openString ∧
    (∃ d f, Lexer.Run noFloat countingHandler 32 { handler_ := 0, err_description_ := [] }
        (StreamReader.preloaded (bytes "(a (b 2) (c 1)))") DummyInStream 16) false = some d ∧
      d.result = LexerResult.failure f) ∧
    (∃ d f, Lexer.Run noFloat countingHandler 32 { handler_ := 0, err_description_ := [] }
        (StreamReader.mk0 (List.replicate 4 0) (InStream.of (bytes "(f \"a)") [])) false =
          some d ∧
      d.result = LexerResult.failure f) :=
  ⟨by decide, by decide, by decide,
    unbalanced_text_fails noFloat countingHandler { handler_ := 0, err_description_ := [] }
      (StreamReader.preloaded (bytes "(a (b 2) (c 1)))") DummyInStream 16) 32
      ⟨by decide, by decide, Or.inr rfl⟩ (by decide) (by decide) (Or.inl (by decide)),
    unbalanced_text_fails noFloat countingHandler { handler_ := 0, err_description_ := [] }
      (StreamReader.mk0 (List.replicate 4 0) (InStream.of (bytes "(f \"a)") [])) 32
      ⟨by decide, by decide, Or.inl (by decide)⟩ (by decide) (by decide)
      (Or.inr (Or.inr (by decide)))⟩

/-- C19. `Lexer::Run(MutStrSpan)` on the 17 bytes `(aaaaaaaaaaaaaaaa`, a text
without zero bytes that ends with an open `(`, returns no failure: it does not
return.  At the end of the text `RefillBuffer` saves the 16 bytes of the
operation name being read into `term_buf_`, which asks the allocator of the run
for memory, and `Run(MutStrSpan)` runs on `ScratchAllocator allocator{0}`, which
has none: `Lexer.RunAllocates` is true whenever the fuel reaches the end of the
text, and `Lexer.RunText` is `none` for every amount of fuel.  The same holds
for `(f "0123456789abcdefghij`, which ends inside a string literal of 20 bytes.
With an allocator that has memory `Lexer::Run` returns the failure
`Missing closing parenthesis` for the first text, and so does
`Run(MutStrSpan)` when the name is one byte shorter. -/
theorem unbalanced_text_with_long_term_aborts :
    0 ∉ (40 :: List.replicate 16 97) ∧
    parenScan 0 ScanMode.normal (40 :: List.replicate 16 97) = ParenVerdict.openParen ∧
    (∀ k : Nat, Lexer.RunAllocates noFloat countingHandler (k + 18)
      { handler_ := 0, err_description_ := [] }
      (StreamReader.preloaded (40 :: List.replicate 16 97) DummyInStream 17) false = true) ∧
    (∀ fuel : Nat, (Lexer.RunText noFloat countingHandler fuel
      { handler_ := 0, err_description_ := [] } (40 :: List.replicate 16 97)).isNone = true) ∧
    0 ∉ bytes "(f \"0123456789abcdefghij" ∧
    parenScan 0 ScanMode.normal (bytes "(f \"0123456789abcdefghij") =
      ParenVerdict.openString ∧
    (∀ k : Nat, Lexer.RunAllocates noFloat countingHandler (k + 25)
      { handler_ := 0, err_description_ := [] }
      (StreamReader.preloaded (bytes "(f \"0123456789abcdefghij") DummyInStream 24) false =
        true) ∧
    (Lexer.Run noFloat countingHandler 18 { handler_ := 0, err_description_ := [] }
      (StreamReader.preloaded (40 :: List.replicate 16 97) DummyInStream 17) false).map
        (fun d => (d.result, d.calls)) =
      some (LexerResult.failure
        { err_line_no_ := 1, err_line_offset_ := 17,
          err_msg_ := bytes "Missing closing parenthesis" }, []) ∧
    (Lexer.RunText noFloat countingHandler 18 { handler_ := 0, err_description_ := [] }
      (40 :: List.replicate 15 97)).map (fun d => (d.result, d.calls)) =
      some (LexerResult.failure
        { err_line_no_ := 1, err_line_offset_ := 16,
          err_msg_ := bytes "Missing closing parenthesis" }, []) := by
  have hk : ∀ k : Nat, Lexer.RunAllocates noFloat countingHandler (k + 18)
      { handler_ := 0, err_description_ := [] }
      (StreamReader.preloaded (40 :: List.replicate 16 97) DummyInStream 17) false = true :=
    fun _ => rfl
  refine ⟨by decide, by decide, hk, ?_, by decide, by decide, fun _ => rfl, by decide!,
    by decide!⟩
  intro fuel
  by_cases hlt : fuel < 18
  · interval_cases fuel <;> decide!
  · obtain ⟨k, rfl⟩ : ∃ k, fuel = k + 18 := ⟨fuel - 18, by omega⟩
    unfold Lexer.RunText
    have hlen : (40 :: List.replicate 16 97).length = 17 := rfl
    rw [hlen, if_pos (hk k)]
    rfl

/-! ### The first expression of a text -/

theorem Handler.accepts_nil {D H : Type} (h : Handler D H) (s : H) :
    h.accepts s ([] : List (Callback D)) = true := rfl

theorem Answered.chain {D H : Type} (h : Handler D H) (s : H)
    (c1 c2 : List (Callback D)) (r : LexerResult) (h1 : h.accepts s c1 = true)
    (h2 : Answered h (h.replay s c1) c2 r) : Answered h s (c1 ++ c2) r := by
  cases r with
  | success =>
    show h.accepts s (c1 ++ c2) = true
    rw [Handler.accepts_append, h1]
    exact h2
  | failure f =>
    show h.accepts s (c1 ++ c2) = false
    rw [Handler.accepts_append, h1]
    exact h2

theorem ScanMode.after_append :
    ∀ (l1 l2 : List Nat) (mode : ScanMode),
      ScanMode.after mode (l1 ++ l2) = ScanMode.after (ScanMode.after mode l1) l2 := by
  intro l1
  induction l1 with
  | nil =>
    intro l2 mode
    cases mode <;> rfl
  | cons c rest ih =>
    intro l2 mode
    rw [List.cons_append]
    cases mode with
    | normal =>
      rw [ScanMode.after, ScanMode.after]
      split_ifs <;> exact ih _ _
    | str e =>
      rw [ScanMode.after, ScanMode.after]
      split_ifs <;> exact ih _ _
    | comment =>
      rw [ScanMode.after, ScanMode.after]
      split_ifs <;> exact ih _ _

theorem ScanMode.after_nil (mode : ScanMode) : ScanMode.after mode [] = mode := by
  cases mode <;> rfl

theorem ScanMode.after_comment_line :
    ∀ body : List Nat, 10 ∉ body →
      ScanMode.after ScanMode.comment (body ++ [10]) = ScanMode.normal := by
  intro body
  induction body with
  | nil =>
    intro _
    rfl
  | cons b bs ih =>
    intro hb
    have hb10 : b ≠ 10 := fun e => hb (by rw [e]; exact List.mem_cons_self _ _)
    rw [List.cons_append, ScanMode.after, if_neg hb10]
    exact ih (fun hm => hb (List.mem_cons_of_mem _ hm))

theorem literalOpen_nil : literalOpen [] false := by
  intro post
  rw [List.nil_append]
  cases hs : literalSplit false post with
  | none => rfl
  | some r => rfl

theorem literalOpen_snoc (t : List Nat) (e : Bool) (c : Nat) (ho : literalOpen t e)
    (hc : ¬ (c = 34 ∧ e = false)) :
    literalOpen (t ++ [c]) (decide (c = 92) && !e) := by
  intro post
  have h1 := ho (c :: post)
  rw [List.append_assoc]
  change literalSplit false (t ++ c :: post) = _
  rw [h1, literalSplit, if_neg hc]
  cases literalSplit (decide (c = 92) && !e) post with
  | none => rfl
  | some r => simp

theorem literalOpen_close (t post : List Nat) (ho : literalOpen t false) :
    literalSplit false (t ++ 34 :: post) = some (t, post) := by
  rw [ho (34 :: post), literalSplit, if_pos ⟨rfl, rfl⟩]
  simp

/-! ### `LexerParseString` collapses the escapes -/

theorem LexerParseString.loop_escaped (c : Nat) (rest : List Nat) :
    LexerParseString.loop true (c :: rest) = c :: LexerParseString.loop false rest := by
  rw [LexerParseString.loop, if_neg (by simp)]

theorem LexerParseString.loop_plain (c : Nat) (rest : List Nat) (hc : c ≠ 92) :
    LexerParseString.loop false (c :: rest) = c :: LexerParseString.loop false rest := by
  rw [LexerParseString.loop, if_neg (fun hq => hc hq.1)]

theorem LexerParseString.loop_backslash (rest : List Nat) :
    LexerParseString.loop false (92 :: rest) = LexerParseString.loop true rest := by
  rw [LexerParseString.loop, if_pos ⟨rfl, rfl⟩]

theorem LexerParseString.loop_unescaped :
    ∀ (n : Nat) (l : List Nat), l.length ≤ n →
      LexerParseString.loop false l = unescaped l ∧
      (LexerParseString.loop false l).length + escapingBackslashes l = l.length := by
  intro n
  induction n with
  | zero =>
    intro l hl
    have : l = [] := List.length_eq_zero.mp (Nat.le_zero.mp hl)
    rw [this]
    exact ⟨rfl, rfl⟩
  | succ n ih =>
    intro l hl
    cases l with
    | nil => exact ⟨rfl, rfl⟩
    | cons c rest =>
      cases rest with
      | nil =>
        by_cases hc : c = 92
        · subst hc
          exact ⟨rfl, rfl⟩
        · rw [LexerParseString.loop_plain c [] hc, unescaped, escapingBackslashes, if_neg hc,
            if_neg hc]
          exact ⟨rfl, rfl⟩
      | cons c2 r2 =>
        simp only [List.length_cons] at hl
        by_cases hc : c = 92
        · subst hc
          obtain ⟨i1, i2⟩ := ih r2 (by omega)
          rw [LexerParseString.loop_backslash, LexerParseString.loop_escaped, unescaped,
            escapingBackslashes, if_pos rfl, if_pos rfl, i1]
          refine ⟨rfl, ?_⟩
          rw [← i1]
          simp only [List.length_cons]
          omega
        · obtain ⟨i1, i2⟩ := ih (c2 :: r2) (by simp only [List.length_cons]; omega)
          rw [LexerParseString.loop_plain c _ hc, unescaped, escapingBackslashes, if_neg hc,
            if_neg hc, i1]
          refine ⟨rfl, ?_⟩
          rw [← i1]
          simp only [List.length_cons] at i2 ⊢
          omega

theorem LexerParseString.loop_no_backslash :
    ∀ l : List Nat, 92 ∉ l → LexerParseString.loop false l = l := by
  intro l
  induction l with
  | nil =>
    intro _
    rfl
  | cons c rest ih =>
    intro hl
    have hc : c ≠ 92 := fun e => hl (by rw [e]; exact List.mem_cons_self _ _)
    rw [LexerParseString.loop_plain c rest hc, ih (fun hm => hl (List.mem_cons_of_mem _ hm))]

theorem LexerParseString_loop (t : List Nat) (w : Bool) (hw : w = false → 92 ∉ t) :
    LexerParseString t w = LexerParseString.loop false t := by
  unfold LexerParseString
  cases w with
  | true => rfl
  | false =>
    rw [LexerParseString.loop_no_backslash t (hw rfl)]
    rfl

/-! ### The calls for string literals -/

theorem termAction_no_str {D H : Type} (fl : FloatLib D) (h : Handler D H) (lx : Lexer H)
    (type : TermType) (term : List Nat) (was_escaped : Bool) (fail : List Nat → LexerFailure)
    (hk : type ≠ TermType.kStr) (v : List Nat) :
    Callback.LexerStrValue v ∉ (termAction fl h lx type term was_escaped fail).2.1 := by
  unfold termAction
  cases type with
  | kStr => exact absurd rfl hk
  | kOp =>
    dsimp only
    split_ifs <;> simp
  | kValue =>
    dsimp only
    split_ifs
    · simp
    · cases LexerParseInt64 term with
      | some lval => simp
      | none =>
        dsimp only
        cases LexerParseDouble fl term with
        | some dval => simp
        | none =>
          dsimp only
          cases (h.LexerUnhandledValue lx.handler_ term).1 with
          | none => simp
          | some msg =>
            dsimp only
            split_ifs <;> simp

theorem Abs.FinalizeTerm_lit_normal {D H : Type} (fl : FloatLib D) (h : Handler D H)
    (lx : Lexer H) (a : Abs.State) (hk : a.term_type_ ≠ TermType.kStr) :
    (∀ v, Callback.LexerStrValue v ∉ (Abs.FinalizeTerm fl h lx a).calls) ∧
    (Abs.FinalizeTerm fl h lx a).state.was_escaped_ = a.was_escaped_ := by
  unfold Abs.FinalizeTerm
  split_ifs with h1 h2
  · exact ⟨fun v => by simp, rfl⟩
  · exact ⟨fun v => by simp, rfl⟩
  · dsimp only
    refine ⟨fun v => termAction_no_str fl h lx _ _ _ _ hk v, ?_⟩
    cases hty : a.term_type_ with
    | kStr => exact absurd hty hk
    | kOp => rfl
    | kValue => rfl

theorem Abs.FinalizeTerm_lit_str {D H : Type} (fl : FloatLib D) (h : Handler D H)
    (lx : Lexer H) (a : Abs.State) (t : List Nat) (hk : a.term_type_ = TermType.kStr)
    (ht : a.term = some (t ++ [34])) :
    (∀ v, Callback.LexerStrValue v ∈ (Abs.FinalizeTerm fl h lx a).calls →
      v = LexerParseString t a.was_escaped_) ∧
    ((Abs.FinalizeTerm fl h lx a).result = LexerResult.success →
      (Abs.FinalizeTerm fl h lx a).state.term_type_ ≠ TermType.kStr ∧
      (Abs.FinalizeTerm fl h lx a).state.was_escaped_ = false) := by
  unfold Abs.FinalizeTerm
  have hs : (!a.term.isSome) = false := by
    rw [ht]
    rfl
  rw [hs]
  simp only [Bool.false_eq_true, if_false]
  split_ifs with h2
  · refine ⟨fun v hv => ?_, fun hr => ?_⟩
    · simp at hv
    · cases hr
  · dsimp only
    rw [hk, ht]
    dsimp only
    have hd : (Option.getD (some (t ++ [34])) []).dropLast = t := by
      simp
    rw [hd]
    refine ⟨fun v hv => ?_, fun _ => ⟨by simp [Abs.State.FinishTerm], rfl⟩⟩
    unfold termAction at hv
    dsimp only at hv
    simp only [List.mem_singleton, Callback.LexerStrValue.injEq] at hv
    exact hv

theorem Abs.Body_lit_str {D H : Type} (fl : FloatLib D) (h : Handler D H) (fuel c : Nat)
    (lx : Lexer H) (a : Abs.State) (t : List Nat) (hk : a.term_type_ = TermType.kStr)
    (ht : a.term = some (t ++ [c])) (f : Flow) (out : Abs.Done D H)
    (hB : Abs.Body fl h fuel c lx a = some (Abs.Turn.flow f out)) :
    out.state.input = a.input ∧
    ((c = 34 ∧ a.is_escaped_ = false) →
      (∀ v, Callback.LexerStrValue v ∈ out.calls → v = LexerParseString t a.was_escaped_) ∧
      (f = Flow.cont →
        out.state.term_type_ ≠ TermType.kStr ∧ out.state.was_escaped_ = false)) ∧
    (¬ (c = 34 ∧ a.is_escaped_ = false) →
      out.calls = [] ∧ out.state.term_type_ = TermType.kStr ∧
      out.state.term = some (t ++ [c]) ∧
      out.state.is_escaped_ = (decide (c = 92) && !a.is_escaped_) ∧
      out.state.was_escaped_ = (a.was_escaped_ || (decide (c = 92) && !a.is_escaped_))) := by
  have hk2 : a.ResetEscape.term_type_ = TermType.kStr := hk
  by_cases hq : c = 34 ∧ a.is_escaped_ = false
  · obtain ⟨hc, he⟩ := hq
    subst hc
    have hcond : ¬ (a.ResetEscape.term_type_ = TermType.kStr ∧
        ((34 : Nat) ≠ 34 ∨ a.is_escaped_ = true)) := by
      rw [he]
      simp
    obtain ⟨g1, g2⟩ := Abs.FinalizeTerm_lit_str fl h lx a.ResetEscape t hk2 ht
    unfold Abs.Body at hB
    dsimp only at hB
    rw [if_neg hcond, if_neg (by decide), if_neg (by decide), if_pos rfl] at hB
    unfold Abs.caseQuote at hB
    rw [if_pos hk2] at hB
    simp only [Option.some.injEq, Abs.Turn.flow.injEq] at hB
    obtain ⟨hf, hout⟩ := hB
    subst hout
    refine ⟨Abs.FinalizeTerm_input _ _ _ _, fun _ => ⟨g1, fun hc => ?_⟩,
      fun hn => absurd ⟨rfl, he⟩ hn⟩
    rw [← hf] at hc
    exact g2 (flowOf_cont _ hc)
  · have hcond : a.ResetEscape.term_type_ = TermType.kStr ∧ (c ≠ 34 ∨ a.is_escaped_ = true) := by
      refine ⟨hk2, ?_⟩
      by_cases h34 : c = 34
      · right
        cases he : a.is_escaped_ with
        | true => rfl
        | false => exact absurd ⟨h34, he⟩ hq
      · exact Or.inl h34
    unfold Abs.Body at hB
    dsimp only at hB
    rw [if_pos hcond] at hB
    simp only [Option.some.injEq, Abs.Turn.flow.injEq] at hB
    obtain ⟨hf, hout⟩ := hB
    subst hout
    refine ⟨Abs.inString_input _ _ _ _, fun hy => absurd hy hq, fun _ => ?_⟩
    unfold Abs.inString
    dsimp only
    refine ⟨rfl, ?_, ?_, ?_, ?_⟩
    · split_ifs <;> exact hk
    · split_ifs <;> exact ht
    · cases he : a.is_escaped_ <;> by_cases h92 : c = 92 <;> by_cases h10 : c = 10 <;>
        simp [h92, h10, Abs.State.NewLine, Abs.State.ResetEscape]
    · cases he : a.is_escaped_ <;> by_cases h92 : c = 92 <;> by_cases h10 : c = 10 <;>
        simp [h92, h10, Abs.State.NewLine, Abs.State.ResetEscape]

theorem Abs.Body_lit_normal {D H : Type} (fl : FloatLib D) (h : Handler D H) (fuel c : Nat)
    (lx : Lexer H) (a : Abs.State) (hk : a.term_type_ ≠ TermType.kStr)
    (hw : a.was_escaped_ = false) (hnul : 0 ∉ a.input) (f : Flow) (out : Abs.Done D H)
    (hB : Abs.Body fl h fuel c lx a = some (Abs.Turn.flow f out)) :
    (∀ v, Callback.LexerStrValue v ∉ out.calls) ∧
    (f = Flow.cont →
      out.state.was_escaped_ = false ∧
      (c = 34 → out.state.input = a.input ∧ out.state.term_type_ = TermType.kStr ∧
        out.state.term = some [] ∧ out.state.is_escaped_ = false) ∧
      (c ≠ 34 → out.state.term_type_ ≠ TermType.kStr ∧
        (c ≠ 59 → out.state.input = a.input) ∧
        (c = 59 → (∃ body, a.input = body ++ 10 :: out.state.input ∧ 10 ∉ body) ∨
          (out.state.input = [] ∧ 10 ∉ a.input)))) := by
  have hk2 : ¬ a.ResetEscape.term_type_ = TermType.kStr := hk
  have hw2 : a.ResetEscape.was_escaped_ = false := hw
  have hcond : ¬ (a.ResetEscape.term_type_ = TermType.kStr ∧
      (c ≠ 34 ∨ a.is_escaped_ = true)) := fun hc => hk hc.1
  obtain ⟨f1, f2, f3, f4, f5⟩ := Abs.FinalizeTerm_state fl h lx a.ResetEscape
  obtain ⟨g1, g2⟩ := Abs.FinalizeTerm_lit_normal fl h lx a.ResetEscape hk2
  have f4b := f4 hk2
  have hin := Abs.FinalizeTerm_input fl h lx a.ResetEscape
  unfold Abs.Body at hB
  dsimp only at hB
  rw [if_neg hcond] at hB
  split_ifs at hB with h2 h3 h4 h5 h6 h7
  · -- `(`
    simp only [Option.some.injEq, Abs.Turn.flow.injEq] at hB
    obtain ⟨_, hout⟩ := hB
    subst hout
    subst h2
    refine ⟨g1, fun _ => ⟨g2.trans hw2, fun hc => absurd hc (by decide), fun _ => ?_⟩⟩
    refine ⟨?_, fun _ => hin, fun hc => absurd hc (by decide)⟩
    intro hq
    cases hq
  · -- `)`
    subst h3
    simp only [Option.some.injEq, Abs.Turn.flow.injEq] at hB
    obtain ⟨_, hout⟩ := hB
    subst hout
    have hci := Abs.caseClose_input fl h lx a.ResetEscape
    unfold Abs.caseClose at hci ⊢
    dsimp only at hci ⊢
    cases hr : (Abs.FinalizeTerm fl h lx a.ResetEscape).result with
    | failure f0 =>
      rw [hr] at hci
      dsimp only at hci ⊢
      refine ⟨fun v => ?_, fun _ => ⟨?_, fun hc => absurd hc (by decide), fun _ =>
        ⟨?_, fun _ => hci, fun hc => absurd hc (by decide)⟩⟩⟩
      · split_ifs <;> exact g1 v
      · split_ifs <;> exact g2.trans hw2
      · split_ifs <;> exact f4b
    | success =>
      rw [hr] at hci
      dsimp only at hci ⊢
      refine ⟨fun v => ?_, fun _ => ⟨?_, fun hc => absurd hc (by decide), fun _ =>
        ⟨?_, fun _ => hci, fun hc => absurd hc (by decide)⟩⟩⟩
      · have hno : Callback.LexerStrValue v ∉
            (Abs.FinalizeTerm fl h lx a.ResetEscape).calls ++ [Callback.LexerEndOp] := by
          intro hm
          rcases List.mem_append.mp hm with hm1 | hm2
          · exact g1 v hm1
          · simp at hm2
        split_ifs <;> exact hno
      · split_ifs <;> exact g2.trans hw2
      · split_ifs <;> exact f4b
  · -- `"`
    subst h4
    unfold Abs.caseQuote at hB
    rw [if_neg hk2] at hB
    dsimp only at hB
    cases hr : (Abs.FinalizeTerm fl h lx a.ResetEscape).result with
    | failure f0 =>
      rw [hr] at hB
      simp only [Option.some.injEq, Abs.Turn.flow.injEq] at hB
      obtain ⟨hf, hout⟩ := hB
      subst hout
      refine ⟨g1, fun hc => ?_⟩
      rw [← hf] at hc
      cases hc
    | success =>
      rw [hr] at hB
      simp only [Option.some.injEq, Abs.Turn.flow.injEq] at hB
      obtain ⟨hf, hout⟩ := hB
      subst hout
      exact ⟨g1, fun _ => ⟨g2.trans hw2, fun _ => ⟨hin, rfl, rfl, f3⟩,
        fun hc => absurd rfl hc⟩⟩
  · -- `!`
    unfold Abs.casePayload at hB
    dsimp only at hB
    split_ifs at hB
    · simp only [Option.some.injEq] at hB
      cases hB
    · simp only [Option.some.injEq, Abs.Turn.flow.injEq] at hB
      obtain ⟨hf, hout⟩ := hB
      subst hout
      refine ⟨fun v => by simp, fun hc => ?_⟩
      rw [← hf] at hc
      cases hc
  · -- `;`
    subst h6
    unfold Abs.caseComment at hB
    cases hs : Abs.skipComment fuel a.ResetEscape with
    | none =>
      rw [hs] at hB
      cases hB
    | some s =>
      rw [hs] at hB
      simp only [Option.map_some', Option.some.injEq, Abs.Turn.flow.injEq] at hB
      obtain ⟨_, hout⟩ := hB
      subst hout
      obtain ⟨s1, s2, s3, s4, s5, s6, s7⟩ :=
        Abs.skipComment_spec fuel a.ResetEscape s hnul hs
      refine ⟨fun v => by simp, fun _ => ⟨s6.trans hw2, fun hc => absurd hc (by decide),
        fun _ => ⟨?_, fun hc => absurd rfl hc, fun _ => ?_⟩⟩⟩
      · change s.term_type_ ≠ TermType.kStr
        rw [s4]
        exact hk2
      · exact s7
  · -- white space
    simp only [Option.some.injEq, Abs.Turn.flow.injEq] at hB
    obtain ⟨_, hout⟩ := hB
    subst hout
    unfold Abs.caseSpace
    dsimp only
    by_cases h10 : c = 10
    · rw [if_pos h10]
      obtain ⟨p1, p2, p3, p4, p5⟩ := Abs.FinalizeTerm_state fl h lx a.ResetEscape.NewLine
      obtain ⟨q1, q2⟩ := Abs.FinalizeTerm_lit_normal fl h lx a.ResetEscape.NewLine hk2
      exact ⟨q1, fun _ => ⟨q2.trans hw2, fun hc => absurd hc h4,
        fun _ => ⟨p4 hk2, fun _ => Abs.FinalizeTerm_input _ _ _ _, fun hc => absurd hc h6⟩⟩⟩
    · rw [if_neg h10]
      exact ⟨g1, fun _ => ⟨g2.trans hw2, fun hc => absurd hc h4,
        fun _ => ⟨f4b, fun _ => hin, fun hc => absurd hc h6⟩⟩⟩
  · -- any other byte
    simp only [Option.some.injEq, Abs.Turn.flow.injEq] at hB
    obtain ⟨_, hout⟩ := hB
    subst hout
    unfold Abs.caseOther
    dsimp only
    refine ⟨fun v => by simp, fun _ => ⟨?_, fun hc => absurd hc h4,
      fun _ => ⟨?_, fun _ => ?_, fun hc => absurd hc h6⟩⟩⟩
    · split_ifs <;> exact hw2
    · split_ifs
      · intro hq
        cases hq
      · exact hk2
    · split_ifs <;> rfl

theorem Abs.RunLoop_cases {D H : Type} (fl : FloatLib D) (h : Handler D H) (n c : Nat)
    (lx : Lexer H) (a : Abs.State) (rest : List Nat) (o : Observed D H)
    (hin : a.input = c :: rest) (hc : c ≠ k_lexer_invalid_char)
    (hR : Abs.RunLoop fl h (n + 1) lx a = some (Abs.Out.done o)) :
    ∃ f out, Abs.Body fl h n c lx a.NextChar.2 = some (Abs.Turn.flow f out) ∧
      ((f = Flow.ret ∧ o.calls = out.calls ∧ o.result = out.result ∧
          o.rest = out.state.input) ∨
        (f = Flow.cont ∧ ∃ o2, Abs.RunLoop fl h n out.lexer out.state = some (Abs.Out.done o2) ∧
          o.calls = out.calls ++ o2.calls ∧ o.result = o2.result ∧ o.rest = o2.rest)) := by
  have e1 : a.NextChar.1 = c := by rw [Abs.NextChar_cons a c rest hin]
  unfold Abs.RunLoop at hR
  dsimp only at hR
  rw [e1, if_neg hc] at hR
  cases hBody : Abs.Body fl h n c lx a.NextChar.2 with
  | none => rw [hBody] at hR; cases hR
  | some t =>
    rw [hBody] at hR
    cases t with
    | payload => cases hR
    | flow f d =>
      refine ⟨f, d, rfl, ?_⟩
      cases f with
      | ret =>
        simp only [Option.some.injEq, Abs.Out.done.injEq] at hR
        rw [← hR]
        exact Or.inl ⟨rfl, rfl, rfl, rfl⟩
      | cont =>
        dsimp only at hR
        cases hrec : Abs.RunLoop fl h n d.lexer d.state with
        | none => rw [hrec] at hR; cases hR
        | some o2 =>
          rw [hrec] at hR
          cases o2 with
          | payload => cases hR
          | done o3 =>
            simp only [Option.some.injEq, Abs.Out.done.injEq] at hR
            rw [← hR]
            exact Or.inr ⟨rfl, o3, rfl, rfl, rfl, rfl⟩

theorem Abs.RunLoop_lit {D H : Type} (fl : FloatLib D) (h : Handler D H) :
    ∀ (fuel : Nat) (lx : Lexer H) (a : Abs.State) (consumed : List Nat) (o : Observed D H),
      Abs.StrInv consumed a → 0 ∉ a.input →
      Abs.RunLoop fl h fuel lx a = some (Abs.Out.done o) →
      ∀ v, Callback.LexerStrValue v ∈ o.calls → IsLiteralValue (consumed ++ a.input) v := by
  intro fuel
  induction fuel with
  | zero =>
    intro lx a consumed o _ _ hR
    simp [Abs.RunLoop] at hR
  | succ n ih =>
    intro lx a consumed o hI hnul hR v hv
    cases hin : a.input with
    | nil =>
      obtain ⟨e1, _, _⟩ := Abs.RunLoop_nil fl h (n + 1) lx a o hin hR
      rw [e1] at hv
      simp at hv
    | cons c rest =>
      rw [hin] at hnul
      have hc0 : c ≠ k_lexer_invalid_char := fun e => hnul (by
        rw [e]
        exact List.mem_cons_self _ _)
      have hnul1 : 0 ∉ rest := fun hm => hnul (List.mem_cons_of_mem _ hm)
      have e := Abs.NextChar_cons a c rest hin
      have a1 : a.NextChar.2.input = rest := by rw [e]
      have a2 : a.NextChar.2.term_type_ = a.term_type_ := by rw [e]
      have a3 : a.NextChar.2.was_escaped_ = a.was_escaped_ := by rw [e]
      have a4 : a.NextChar.2.is_escaped_ = a.is_escaped_ := by rw [e]
      have a5 : a.NextChar.2.term = a.term.map (fun t => t ++ [c]) := by rw [e]
      obtain ⟨f, out, hB, hcase⟩ := Abs.RunLoop_cases fl h n c lx a rest o hin hc0 hR
      -- the rest of the run, once the state after this turn is known to be sound
      have next : ∀ (k : List Nat) (o2 : Observed D H),
          Abs.RunLoop fl h n out.lexer out.state = some (Abs.Out.done o2) →
          Callback.LexerStrValue v ∈ o2.calls →
          Abs.StrInv (consumed ++ c :: k) out.state → rest = k ++ out.state.input →
          IsLiteralValue (consumed ++ c :: rest) v := by
        intro k o2 ho2 hv2 hI2 hk
        have h0 : 0 ∉ out.state.input := fun hm => hnul1 (by
          rw [hk]
          exact List.mem_append_right _ hm)
        have := ih out.lexer out.state (consumed ++ c :: k) o2 hI2 h0 ho2 v hv2
        rw [hk]
        simpa using this
      by_cases hk : a.term_type_ = TermType.kStr
      · obtain ⟨pre, t, hcons, hterm, hpre, hmode, hopen, he, hw⟩ := hI.h_in hk
        have ht1 : a.NextChar.2.term = some (t ++ [c]) := by rw [a5, hterm]; rfl
        obtain ⟨hi, hclose, hstay⟩ :=
          Abs.Body_lit_str fl h n c lx a.NextChar.2 t (a2.trans hk) ht1 f out hB
        rw [a1] at hi
        rw [a3, a4] at hclose hstay
        by_cases hq : c = 34 ∧ a.is_escaped_ = false
        · obtain ⟨hval, hnext⟩ := hclose hq
          obtain ⟨hc34, hesc⟩ := hq
          subst hc34
          rw [hesc] at hopen hmode
          have hlit : ∀ u, Callback.LexerStrValue u ∈ out.calls →
              IsLiteralValue (consumed ++ 34 :: rest) u := by
            intro u hu
            refine ⟨pre, t, rest, ?_, hpre, literalOpen_close t rest hopen, ?_⟩
            · rw [hcons]
              simp
            · rw [hval u hu]
              exact LexerParseString_loop t _ hw
          rcases hcase with ⟨_, hc1, _, _⟩ | ⟨hf, o2, ho2, hc2, _, _⟩
          · rw [hc1] at hv
            exact hlit v hv
          · rw [hc2] at hv
            rcases List.mem_append.mp hv with hv1 | hv2
            · exact hlit v hv1
            · obtain ⟨n1, n2⟩ := hnext hf
              refine next [] o2 ho2 hv2 ⟨fun _ => ⟨n2, ?_⟩, fun hy => absurd hy n1⟩
                (by rw [hi]; rfl)
              rw [hcons]
              have e5 : pre ++ 34 :: t ++ [34] = pre ++ (34 :: (t ++ [34])) := by simp
              rw [e5, ScanMode.after_append, hpre, ScanMode.after, if_pos rfl,
                ScanMode.after_append, hmode]
              rfl
        · obtain ⟨s1, s2, s3, s4, s5⟩ := hstay hq
          rcases hcase with ⟨_, hc1, _, _⟩ | ⟨hf, o2, ho2, hc2, _, _⟩
          · rw [hc1, s1] at hv
            simp at hv
          · rw [hc2, s1, List.nil_append] at hv
            refine next [] o2 ho2 hv ⟨fun hy => absurd s2 hy, fun _ => ?_⟩ (by rw [hi]; rfl)
            refine ⟨pre, t ++ [c], ?_, s3, hpre, ?_, ?_, ?_, ?_⟩
            · rw [hcons]
              simp
            · rw [ScanMode.after_append, hmode, s4, ScanMode.after, if_neg hq]
              rfl
            · rw [s4]
              exact literalOpen_snoc t _ c hopen hq
            · rw [s4, s5]
              intro hy
              rw [hy]
              simp
            · rw [s5]
              intro hy
              have hy1 : a.was_escaped_ = false := by
                cases hwv : a.was_escaped_ with
                | false => rfl
                | true =>
                  rw [hwv] at hy
                  simp at hy
              intro hm
              rcases List.mem_append.mp hm with hm1 | hm2
              · exact hw hy1 hm1
              · have hc92 : c = 92 := by
                  simp only [List.mem_singleton] at hm2
                  exact hm2.symm
                cases hev : a.is_escaped_ with
                | true =>
                  have := he hev
                  rw [hy1] at this
                  cases this
                | false =>
                  rw [hy1, hev, hc92] at hy
                  simp at hy
      · obtain ⟨hw, hafter⟩ := hI.h_out hk
        obtain ⟨hno, hnext⟩ := Abs.Body_lit_normal fl h n c lx a.NextChar.2
          (by rw [a2]; exact hk) (a3.trans hw) (by rw [a1]; exact hnul1) f out hB
        rcases hcase with ⟨_, hc1, _, _⟩ | ⟨hf, o2, ho2, hc2, _, _⟩
        · rw [hc1] at hv
          exact absurd hv (hno v)
        · rw [hc2] at hv
          rcases List.mem_append.mp hv with hv1 | hv2
          · exact absurd hv1 (hno v)
          · obtain ⟨n1, n2, n3⟩ := hnext hf
            rw [a1] at n2 n3
            by_cases h34 : c = 34
            · obtain ⟨m1, m2, m3, m4⟩ := n2 h34
              subst h34
              refine next [] o2 ho2 hv2 ⟨fun hy => absurd m2 hy, fun _ => ?_⟩
                (by rw [m1]; rfl)
              refine ⟨consumed, [], rfl, m3, hafter, ?_, ?_, ?_, fun _ => by simp⟩
              · rw [m4]
                rfl
              · rw [m4]
                exact literalOpen_nil
              · rw [m4]
                intro hy
                cases hy
            · obtain ⟨m1, m2, m3⟩ := n3 h34
              by_cases h59 : c = 59
              · subst h59
                rcases m3 rfl with ⟨body, hb, hnb⟩ | ⟨hend, _⟩
                · refine next (body ++ [10]) o2 ho2 hv2
                    ⟨fun _ => ⟨n1, ?_⟩, fun hy => absurd hy m1⟩ (by rw [hb]; simp)
                  rw [ScanMode.after_append, hafter, ScanMode.after, if_neg (by decide),
                    if_pos rfl]
                  exact ScanMode.after_comment_line body hnb
                · obtain ⟨e1, _, _⟩ := Abs.RunLoop_nil fl h n out.lexer out.state o2 hend ho2
                  rw [e1] at hv2
                  simp at hv2
              · refine next [] o2 ho2 hv2 ⟨fun _ => ⟨n1, ?_⟩, fun hy => absurd hy m1⟩
                  (by rw [m2 h59]; rfl)
                rw [ScanMode.after_append, hafter, ScanMode.after, if_neg h34, if_neg h59]
                rfl

/-! ### The string values of a run, in order -/

theorem strValues_append {D : Type} (a b : List (Callback D)) :
    strValues (a ++ b) = strValues a ++ strValues b := by
  induction a with
  | nil => rfl
  | cons cb rest ih =>
    cases cb <;> simp [strValues, ih]

theorem strValues_none {D : Type} (l : List (Callback D))
    (hl : ∀ v, Callback.LexerStrValue v ∉ l) : strValues l = [] := by
  induction l with
  | nil => rfl
  | cons cb rest ih =>
    have hr : ∀ v, Callback.LexerStrValue v ∉ rest := fun v hm => hl v (List.mem_cons_of_mem _ hm)
    cases cb with
    | LexerStrValue v => exact absurd (List.mem_cons_self _ _) (hl v)
    | LexerBeginOp name => exact ih hr
    | LexerEndOp => exact ih hr
    | LexerIntValue v => exact ih hr
    | LexerDoubleValue v => exact ih hr
    | LexerUnhandledValue v => exact ih hr
    | LexerCustomData tok => exact ih hr

theorem literalValues_nil (mode : ScanMode) (acc : List Nat) :
    literalValues mode acc [] = [] := by
  cases mode <;> rfl

theorem literalValues_normal (acc : List Nat) (c : Nat) (rest : List Nat) :
    literalValues ScanMode.normal acc (c :: rest) =
      if c = 34 then literalValues (ScanMode.str false) [] rest
      else if c = 59 then literalValues ScanMode.comment [] rest
      else literalValues ScanMode.normal [] rest := by
  rw [literalValues]

theorem literalValues_str (e : Bool) (acc : List Nat) (c : Nat) (rest : List Nat) :
    literalValues (ScanMode.str e) acc (c :: rest) =
      if c = 34 ∧ e = false then unescaped acc :: literalValues ScanMode.normal [] rest
      else literalValues (ScanMode.str (decide (c = 92) && !e)) (acc ++ [c]) rest := by
  rw [literalValues]

theorem literalValues_comment (acc : List Nat) (c : Nat) (rest : List Nat) :
    literalValues ScanMode.comment acc (c :: rest) =
      if c = 10 then literalValues ScanMode.normal [] rest
      else literalValues ScanMode.comment [] rest := by
  rw [literalValues]

theorem literalValues_normal_acc (acc : List Nat) (K : List Nat) :
    literalValues ScanMode.normal acc K = literalValues ScanMode.normal [] K := by
  cases K with
  | nil => rfl
  | cons c rest => rw [literalValues_normal, literalValues_normal]

theorem literalValues_comment_line (K : List Nat) :
    ∀ (body acc : List Nat), 10 ∉ body →
      literalValues ScanMode.comment acc (body ++ 10 :: K) =
        literalValues ScanMode.normal [] K := by
  intro body
  induction body with
  | nil =>
    intro acc _
    rw [List.nil_append, literalValues_comment, if_pos rfl]
  | cons b bs ih =>
    intro acc hb
    have hb10 : b ≠ 10 := fun e => hb (by rw [e]; exact List.mem_cons_self _ _)
    rw [List.cons_append, literalValues_comment, if_neg hb10]
    exact ih [] (fun hm => hb (List.mem_cons_of_mem _ hm))

theorem literalValues_comment_end :
    ∀ (body acc : List Nat), 10 ∉ body → literalValues ScanMode.comment acc body = [] := by
  intro body
  induction body with
  | nil =>
    intro acc _
    rfl
  | cons b bs ih =>
    intro acc hb
    have hb10 : b ≠ 10 := fun e => hb (by rw [e]; exact List.mem_cons_self _ _)
    rw [literalValues_comment, if_neg hb10]
    exact ih [] (fun hm => hb (List.mem_cons_of_mem _ hm))

theorem Abs.FinalizeTerm_close_calls {D H : Type} (fl : FloatLib D) (h : Handler D H)
    (lx : Lexer H) (a : Abs.State) (t : List Nat) (hk : a.term_type_ = TermType.kStr)
    (ht : a.term = some (t ++ [34])) :
    ((Abs.FinalizeTerm fl h lx a).calls = [] ∧
      (Abs.FinalizeTerm fl h lx a).result ≠ LexerResult.success) ∨
    (Abs.FinalizeTerm fl h lx a).calls =
      [Callback.LexerStrValue (LexerParseString t a.was_escaped_)] := by
  unfold Abs.FinalizeTerm
  have hs : (!a.term.isSome) = false := by
    rw [ht]
    rfl
  rw [hs]
  simp only [Bool.false_eq_true, if_false]
  split_ifs with h2
  · exact Or.inl ⟨rfl, LexerResult.noConfusion⟩
  · right
    rw [hk, ht]
    dsimp only
    have hd : (Option.getD (some (t ++ [34])) []).dropLast = t := by
      simp
    rw [hd]
    unfold termAction
    rfl

theorem Abs.Body_close_calls {D H : Type} (fl : FloatLib D) (h : Handler D H) (fuel : Nat)
    (lx : Lexer H) (a : Abs.State) (t : List Nat) (hk : a.term_type_ = TermType.kStr)
    (ht : a.term = some (t ++ [34])) (he : a.is_escaped_ = false) (f : Flow)
    (out : Abs.Done D H)
    (hB : Abs.Body fl h fuel 34 lx a = some (Abs.Turn.flow f out)) :
    (out.calls = [] ∧ out.result ≠ LexerResult.success) ∨
    out.calls = [Callback.LexerStrValue (LexerParseString t a.was_escaped_)] := by
  have hk2 : a.ResetEscape.term_type_ = TermType.kStr := hk
  have hcond : ¬ (a.ResetEscape.term_type_ = TermType.kStr ∧
      ((34 : Nat) ≠ 34 ∨ a.is_escaped_ = true)) := by
    rw [he]
    simp
  have hF := Abs.FinalizeTerm_close_calls fl h lx a.ResetEscape t hk2 ht
  unfold Abs.Body at hB
  dsimp only at hB
  rw [if_neg hcond, if_neg (by decide), if_neg (by decide), if_pos rfl] at hB
  unfold Abs.caseQuote at hB
  rw [if_pos hk2] at hB
  simp only [Option.some.injEq, Abs.Turn.flow.injEq] at hB
  obtain ⟨_, hout⟩ := hB
  subst hout
  exact hF

theorem Abs.Body_ret_success {D H : Type} (fl : FloatLib D) (h : Handler D H) (fuel c : Nat)
    (lx : Lexer H) (a : Abs.State) (out : Abs.Done D H)
    (hB : Abs.Body fl h fuel c lx a = some (Abs.Turn.flow Flow.ret out))
    (hs : out.result = LexerResult.success) :
    c = 41 ∧ out.state.input = a.input ∧ a.term_type_ ≠ TermType.kStr := by
  unfold Abs.Body at hB
  dsimp only at hB
  split_ifs at hB with h1 h2 h3 h4 h5 h6 h7
  · simp only [Option.some.injEq, Abs.Turn.flow.injEq] at hB
    obtain ⟨hf, _⟩ := hB
    unfold Abs.inString at hf
    cases hf
  · simp only [Option.some.injEq, Abs.Turn.flow.injEq] at hB
    obtain ⟨hf, hout⟩ := hB
    subst hout
    exact absurd hs (flowOf_ret _ hf)
  · simp only [Option.some.injEq, Abs.Turn.flow.injEq] at hB
    obtain ⟨hf, hout⟩ := hB
    subst hout
    refine ⟨h3, Abs.caseClose_input fl h lx a.ResetEscape, fun hk => h1 ⟨hk, Or.inl ?_⟩⟩
    rw [h3]
    decide
  · unfold Abs.caseQuote at hB
    split_ifs at hB with hk
    · simp only [Option.some.injEq, Abs.Turn.flow.injEq] at hB
      obtain ⟨hf, hout⟩ := hB
      subst hout
      exact absurd hs (flowOf_ret _ hf)
    · dsimp only at hB
      cases hr : (Abs.FinalizeTerm fl h lx a.ResetEscape).result with
      | failure f0 =>
        rw [hr] at hB
        simp only [Option.some.injEq, Abs.Turn.flow.injEq] at hB
        obtain ⟨_, hout⟩ := hB
        subst hout
        rw [hr] at hs
        cases hs
      | success =>
        rw [hr] at hB
        simp only [Option.some.injEq, Abs.Turn.flow.injEq] at hB
        obtain ⟨hf, _⟩ := hB
        cases hf
  · unfold Abs.casePayload at hB
    dsimp only at hB
    split_ifs at hB
    · simp only [Option.some.injEq] at hB
      cases hB
    · simp only [Option.some.injEq, Abs.Turn.flow.injEq] at hB
      obtain ⟨_, hout⟩ := hB
      subst hout
      cases hs
  · unfold Abs.caseComment at hB
    cases hsk : Abs.skipComment fuel a.ResetEscape with
    | none =>
      rw [hsk] at hB
      cases hB
    | some s =>
      rw [hsk] at hB
      simp only [Option.map_some', Option.some.injEq, Abs.Turn.flow.injEq] at hB
      obtain ⟨hf, _⟩ := hB
      cases hf
  · simp only [Option.some.injEq, Abs.Turn.flow.injEq] at hB
    obtain ⟨hf, hout⟩ := hB
    subst hout
    unfold Abs.caseSpace at hf hs
    exact absurd hs (flowOf_ret _ hf)
  · simp only [Option.some.injEq, Abs.Turn.flow.injEq] at hB
    obtain ⟨hf, _⟩ := hB
    unfold Abs.caseOther at hf
    cases hf

theorem Abs.State.mode_str (a : Abs.State) (hk : a.term_type_ = TermType.kStr) :
    a.mode = ScanMode.str a.is_escaped_ := by
  unfold Abs.State.mode
  rw [if_pos hk]

theorem Abs.State.mode_normal (a : Abs.State) (hk : a.term_type_ ≠ TermType.kStr) :
    a.mode = ScanMode.normal := by
  unfold Abs.State.mode
  rw [if_neg hk]

theorem LexerParseString_unescaped (t : List Nat) (w : Bool) (hw : w = false → 92 ∉ t) :
    LexerParseString t w = unescaped t := by
  rw [LexerParseString_loop t w hw]
  exact (LexerParseString.loop_unescaped t.length t (le_refl _)).1

theorem Abs.StrInv.turn_cont {D H : Type} (fl : FloatLib D) (h : Handler D H) (n c : Nat)
    (lx : Lexer H) (a : Abs.State) (C rest : List Nat) (out : Abs.Done D H)
    (hI : Abs.StrInv C a) (hin : a.input = c :: rest) (hnul1 : 0 ∉ rest)
    (hB : Abs.Body fl h n c lx a.NextChar.2 = some (Abs.Turn.flow Flow.cont out)) :
    ∃ k, rest = k ++ out.state.input ∧
      (out.state.input ≠ [] → Abs.StrInv (C ++ c :: k) out.state) ∧
      ∀ K2, (out.state.input = [] → K2 = []) →
        literalValues a.mode (a.term.getD []) (c :: (k ++ K2)) =
          strValues out.calls ++
            literalValues out.state.mode (out.state.term.getD []) K2 := by
  have e := Abs.NextChar_cons a c rest hin
  have a1 : a.NextChar.2.input = rest := by rw [e]
  have a2 : a.NextChar.2.term_type_ = a.term_type_ := by rw [e]
  have a3 : a.NextChar.2.was_escaped_ = a.was_escaped_ := by rw [e]
  have a4 : a.NextChar.2.is_escaped_ = a.is_escaped_ := by rw [e]
  have a5 : a.NextChar.2.term = a.term.map (fun t => t ++ [c]) := by rw [e]
  by_cases hk : a.term_type_ = TermType.kStr
  · obtain ⟨pre, t, hcons, hterm, hpre, hmode, hopen, he, hw⟩ := hI.h_in hk
    have ht1 : a.NextChar.2.term = some (t ++ [c]) := by rw [a5, hterm]; rfl
    obtain ⟨hi, hclose, hstay⟩ :=
      Abs.Body_lit_str fl h n c lx a.NextChar.2 t (a2.trans hk) ht1 Flow.cont out hB
    rw [a1] at hi
    rw [a3, a4] at hclose hstay
    have hm : a.mode = ScanMode.str a.is_escaped_ := a.mode_str hk
    have hg : a.term.getD [] = t := by rw [hterm]; rfl
    by_cases hq : c = 34 ∧ a.is_escaped_ = false
    · obtain ⟨_, hnext⟩ := hclose hq
      obtain ⟨hc34, hesc⟩ := hq
      subst hc34
      obtain ⟨n1, n2⟩ := hnext rfl
      have hcalls : out.calls =
          [Callback.LexerStrValue (LexerParseString t a.was_escaped_)] := by
        rcases Abs.Body_close_calls fl h n lx a.NextChar.2 t (a2.trans hk) ht1
          (a4.trans hesc) Flow.cont out hB with ⟨_, hbad⟩ | hgood
        · exact absurd (Abs.Body_cont fl h n 34 lx _ out hB) hbad
        · rw [a3] at hgood
          exact hgood
      rw [hesc] at hmode
      refine ⟨[], by rw [hi]; rfl, fun _ => ⟨fun _ => ⟨n2, ?_⟩, fun hy => absurd hy n1⟩,
        fun K2 _ => ?_⟩
      · rw [hcons]
        have e5 : pre ++ 34 :: t ++ [34] = pre ++ (34 :: (t ++ [34])) := by simp
        rw [e5, ScanMode.after_append, hpre, ScanMode.after, if_pos rfl,
          ScanMode.after_append, hmode]
        rfl
      · rw [hm, hg, hesc, List.nil_append, literalValues_str, if_pos ⟨rfl, rfl⟩, hcalls,
          Abs.State.mode_normal _ n1, literalValues_normal_acc (out.state.term.getD []),
          LexerParseString_unescaped t _ hw]
        rfl
    · obtain ⟨s1, s2, s3, s4, s5⟩ := hstay hq
      refine ⟨[], by rw [hi]; rfl, fun _ => ⟨fun hy => absurd s2 hy, fun _ => ?_⟩,
        fun K2 _ => ?_⟩
      · refine ⟨pre, t ++ [c], ?_, s3, hpre, ?_, ?_, ?_, ?_⟩
        · rw [hcons]
          simp
        · rw [ScanMode.after_append, hmode, s4, ScanMode.after, if_neg hq]
          rfl
        · rw [s4]
          exact literalOpen_snoc t _ c hopen hq
        · rw [s4, s5]
          intro hy
          rw [hy]
          simp
        · rw [s5]
          intro hy
          have hy1 : a.was_escaped_ = false := by
            cases hwv : a.was_escaped_ with
            | false => rfl
            | true =>
              rw [hwv] at hy
              simp at hy
          intro hm2
          rcases List.mem_append.mp hm2 with hm1 | hm3
          · exact hw hy1 hm1
          · have hc92 : c = 92 := by
              simp only [List.mem_singleton] at hm3
              exact hm3.symm
            cases hev : a.is_escaped_ with
            | true =>
              have := he hev
              rw [hy1] at this
              cases this
            | false =>
              rw [hy1, hev, hc92] at hy
              simp at hy
      · rw [hm, hg, List.nil_append, literalValues_str, if_neg hq, s1,
          Abs.State.mode_str _ s2, s4, s3]
        rfl
  · obtain ⟨hw, hafter⟩ := hI.h_out hk
    obtain ⟨hno, hnext⟩ := Abs.Body_lit_normal fl h n c lx a.NextChar.2
      (by rw [a2]; exact hk) (a3.trans hw) (by rw [a1]; exact hnul1) Flow.cont out hB
    have hsv : strValues out.calls = [] := strValues_none _ hno
    have hm : a.mode = ScanMode.normal := a.mode_normal hk
    obtain ⟨n1, n2, n3⟩ := hnext rfl
    rw [a1] at n2 n3
    by_cases h34 : c = 34
    · obtain ⟨m1, m2, m3, m4⟩ := n2 h34
      subst h34
      refine ⟨[], by rw [m1]; rfl, fun _ => ⟨fun hy => absurd m2 hy, fun _ => ?_⟩,
        fun K2 _ => ?_⟩
      · refine ⟨C, [], rfl, m3, hafter, ?_, ?_, ?_, fun _ => by simp⟩
        · rw [m4]
          rfl
        · rw [m4]
          exact literalOpen_nil
        · rw [m4]
          intro hy
          cases hy
      · rw [hm, List.nil_append, literalValues_normal, if_pos rfl, hsv, List.nil_append,
          Abs.State.mode_str _ m2, m4, m3]
        rfl
    · obtain ⟨m1, m2, m3⟩ := n3 h34
      have hmo : out.state.mode = ScanMode.normal := Abs.State.mode_normal _ m1
      by_cases h59 : c = 59
      · subst h59
        rcases m3 rfl with ⟨body, hb, hnb⟩ | ⟨hend, hn10⟩
        · refine ⟨body ++ [10], by rw [hb]; simp, fun _ => ⟨fun _ => ⟨n1, ?_⟩,
            fun hy => absurd hy m1⟩, fun K2 _ => ?_⟩
          · rw [ScanMode.after_append, hafter, ScanMode.after, if_neg (by decide),
              if_pos rfl]
            exact ScanMode.after_comment_line body hnb
          · have e6 : body ++ [10] ++ K2 = body ++ 10 :: K2 := by simp
            rw [hm, literalValues_normal, if_neg (by decide), if_pos rfl, e6,
              literalValues_comment_line K2 body [] hnb, hsv, hmo, List.nil_append,
              literalValues_normal_acc (out.state.term.getD [])]
        · refine ⟨rest, by rw [hend, List.append_nil], fun hne => absurd hend hne,
            fun K2 hK => ?_⟩
          rw [hK hend, List.append_nil, hm, literalValues_normal, if_neg (by decide),
            if_pos rfl, literalValues_comment_end rest [] hn10, hsv, literalValues_nil]
          rfl
      · refine ⟨[], by rw [m2 h59]; rfl, fun _ => ⟨fun _ => ⟨n1, ?_⟩,
          fun hy => absurd hy m1⟩, fun K2 _ => ?_⟩
        · rw [ScanMode.after_append, hafter, ScanMode.after, if_neg h34, if_neg h59]
          rfl
        · rw [hm, List.nil_append, literalValues_normal, if_neg h34, if_neg h59, hsv, hmo,
            List.nil_append, literalValues_normal_acc (out.state.term.getD [])]

theorem Abs.StrInv.turn_ret {D H : Type} (fl : FloatLib D) (h : Handler D H) (n c : Nat)
    (lx : Lexer H) (a : Abs.State) (C rest : List Nat) (out : Abs.Done D H)
    (hI : Abs.StrInv C a) (hin : a.input = c :: rest) (hnul1 : 0 ∉ rest)
    (hB : Abs.Body fl h n c lx a.NextChar.2 = some (Abs.Turn.flow Flow.ret out)) :
    ∃ k, rest = k ++ out.state.input ∧
      strValues out.calls <+: literalValues a.mode (a.term.getD []) (c :: k) ∧
      (out.result = LexerResult.success →
        strValues out.calls = literalValues a.mode (a.term.getD []) (c :: k)) := by
  have e := Abs.NextChar_cons a c rest hin
  have a1 : a.NextChar.2.input = rest := by rw [e]
  have a2 : a.NextChar.2.term_type_ = a.term_type_ := by rw [e]
  have a3 : a.NextChar.2.was_escaped_ = a.was_escaped_ := by rw [e]
  have a4 : a.NextChar.2.is_escaped_ = a.is_escaped_ := by rw [e]
  have a5 : a.NextChar.2.term = a.term.map (fun t => t ++ [c]) := by rw [e]
  by_cases hk : a.term_type_ = TermType.kStr
  · obtain ⟨pre, t, hcons, hterm, hpre, hmode, hopen, he, hw⟩ := hI.h_in hk
    have ht1 : a.NextChar.2.term = some (t ++ [c]) := by rw [a5, hterm]; rfl
    obtain ⟨hi, _, hstay⟩ :=
      Abs.Body_lit_str fl h n c lx a.NextChar.2 t (a2.trans hk) ht1 Flow.ret out hB
    rw [a1] at hi
    rw [a3, a4] at hstay
    have hm : a.mode = ScanMode.str a.is_escaped_ := a.mode_str hk
    have hg : a.term.getD [] = t := by rw [hterm]; rfl
    refine ⟨[], by rw [hi]; rfl, ?_⟩
    rw [hm, hg]
    by_cases hq : c = 34 ∧ a.is_escaped_ = false
    · obtain ⟨hc34, hesc⟩ := hq
      subst hc34
      rw [hesc, literalValues_str, if_pos ⟨rfl, rfl⟩, literalValues_nil]
      rcases Abs.Body_close_calls fl h n lx a.NextChar.2 t (a2.trans hk) ht1
        (a4.trans hesc) Flow.ret out hB with ⟨hnone, hbad⟩ | hgood
      · rw [hnone]
        exact ⟨List.nil_prefix, fun hs => absurd hs hbad⟩
      · rw [a3] at hgood
        rw [hgood, LexerParseString_unescaped t _ hw]
        exact ⟨List.prefix_refl _, fun _ => rfl⟩
    · obtain ⟨s1, _, _, _, _⟩ := hstay hq
      rw [s1, literalValues_str, if_neg hq, literalValues_nil]
      exact ⟨List.prefix_refl _, fun _ => rfl⟩
  · obtain ⟨hw, _⟩ := hI.h_out hk
    obtain ⟨hno, _⟩ := Abs.Body_lit_normal fl h n c lx a.NextChar.2
      (by rw [a2]; exact hk) (a3.trans hw) (by rw [a1]; exact hnul1) Flow.ret out hB
    have hsv : strValues out.calls = [] := strValues_none _ hno
    have hm : a.mode = ScanMode.normal := a.mode_normal hk
    rw [hsv, hm]
    by_cases hs : out.result = LexerResult.success
    · obtain ⟨h41, hi, _⟩ := Abs.Body_ret_success fl h n c lx a.NextChar.2 out hB hs
      rw [a1] at hi
      refine ⟨[], by rw [hi]; rfl, List.nil_prefix, fun _ => ?_⟩
      rw [h41, literalValues_normal, if_neg (by decide), if_neg (by decide), literalValues_nil]
    · have e4 : a.NextChar.2.cur_line_offset_ = a.cur_line_offset_ + 1 := by rw [e]
      obtain ⟨k, hk2, _, _⟩ := Abs.Body_propagated fl h n c lx a.NextChar.2
        a.NextChar.2.cur_line_ a.cur_line_offset_ rfl e4 (by rw [a1]; exact hnul1)
        Flow.ret out hB
      rw [a1] at hk2
      exact ⟨k, hk2, List.nil_prefix, fun hs2 => absurd hs2 hs⟩

theorem Abs.RunLoop_values {D H : Type} (fl : FloatLib D) (h : Handler D H) :
    ∀ (fuel : Nat) (lx : Lexer H) (a : Abs.State) (C : List Nat) (o : Observed D H),
      Abs.StrInv C a → 0 ∉ a.input →
      Abs.RunLoop fl h fuel lx a = some (Abs.Out.done o) →
      ∃ K, K ++ o.rest = a.input ∧
        strValues o.calls <+: literalValues a.mode (a.term.getD []) K ∧
        (o.result = LexerResult.success →
          strValues o.calls = literalValues a.mode (a.term.getD []) K) := by
  intro fuel
  induction fuel with
  | zero =>
    intro lx a C o _ _ hR
    simp [Abs.RunLoop] at hR
  | succ n ih =>
    intro lx a C o hI hnul hR
    cases hin : a.input with
    | nil =>
      obtain ⟨e1, e2, _⟩ := Abs.RunLoop_nil fl h (n + 1) lx a o hin hR
      refine ⟨[], by rw [e2]; rfl, ?_, fun _ => ?_⟩
      · rw [e1]
        exact List.nil_prefix
      · rw [e1, literalValues_nil]
        rfl
    | cons c rest =>
      rw [hin] at hnul
      have hc0 : c ≠ k_lexer_invalid_char := fun e => hnul (by
        rw [e]
        exact List.mem_cons_self _ _)
      have hnul1 : 0 ∉ rest := fun hm => hnul (List.mem_cons_of_mem _ hm)
      obtain ⟨f, out, hB, hcase⟩ := Abs.RunLoop_cases fl h n c lx a rest o hin hc0 hR
      rcases hcase with ⟨hf, hc1, hr1, hrest⟩ | ⟨hf, o2, ho2, hc2, hr2, hrest⟩
      · subst hf
        obtain ⟨k, hk, hpre, heq⟩ :=
          Abs.StrInv.turn_ret fl h n c lx a C rest out hI hin hnul1 hB
        refine ⟨c :: k, by rw [hrest, hk]; rfl, ?_, fun hs => ?_⟩
        · rw [hc1]
          exact hpre
        · rw [hc1]
          exact heq (hr1 ▸ hs)
      · subst hf
        obtain ⟨k, hk, hInv, hstep⟩ :=
          Abs.StrInv.turn_cont fl h n c lx a C rest out hI hin hnul1 hB
        by_cases hend : out.state.input = []
        · obtain ⟨e1, e2, _⟩ := Abs.RunLoop_nil fl h n out.lexer out.state o2 hend ho2
          have hs0 := hstep [] (fun _ => rfl)
          rw [literalValues_nil, List.append_nil, List.append_nil] at hs0
          refine ⟨c :: k, ?_, ?_, fun _ => ?_⟩
          · rw [hrest, e2, List.append_nil, hk, hend, List.append_nil]
          · rw [hc2, e1, List.append_nil, hs0]
          · rw [hc2, e1, List.append_nil, hs0]
        · have h0 : 0 ∉ out.state.input := fun hm => hnul1 (by
            rw [hk]
            exact List.mem_append_right _ hm)
          obtain ⟨K2, hK2, hpre2, heq2⟩ :=
            ih out.lexer out.state (C ++ c :: k) o2 (hInv hend) h0 ho2
          have hs2 := hstep K2 (fun hy => absurd hy hend)
          refine ⟨c :: (k ++ K2), ?_, ?_, fun hs => ?_⟩
          · rw [hrest, List.cons_append, List.append_assoc, hK2, hk]
          · rw [hc2, strValues_append, hs2]
            exact (List.prefix_append_right_inj _).mpr hpre2
          · rw [hc2, strValues_append, hs2, heq2 (hr2 ▸ hs)]

/-- C18. In a run of `Lexer::Run` over a text without zero bytes (the lexer
reads a zero byte as the end of the input) that hands no payload to the
handler: every value passed to `LexerStrValue` is the value of a string literal
of the text, which opens at a `"` outside string literals and comments and
whose body ends at the first `"` that is not escaped; the value is the body
with every escaping backslash removed and the byte after it kept as it is
(`unescaped body`), its length is the length of the body minus the number of
escaping backslashes, and a body without backslashes is passed unchanged.
And the values passed, in order, are the values of the string literals that the
consumed text closes, in order: all of them when the run succeeds, the first
ones of them when it fails. -/
theorem str_value_is_unescaped_body {D H : Type} (fl : FloatLib D) (h : Handler D H)
    (lx : Lexer H) (reader : StreamReader) (single_expr : Bool) (fuel : Nat) (d : Done D H)
    (hwf : reader.Wf) (hnul : 0 ∉ reader.unread)
    (hrun : Lexer.Run fl h fuel lx reader single_expr = some d)
    (hno : ∀ tok, Callback.LexerCustomData tok ∉ d.calls) :
    (∀ v, Callback.LexerStrValue v ∈ d.calls →
      ∃ pre body post, reader.unread = pre ++ 34 :: (body ++ 34 :: post) ∧
        ScanMode.after ScanMode.normal pre = ScanMode.normal ∧
        literalSplit false (body ++ 34 :: post) = some (body, post) ∧
        v = unescaped body ∧
        v.length = body.length - escapingBackslashes body ∧
        (92 ∉ body → v = body)) ∧
    ∃ consumed, consumed ++ d.state.stream_.unread = reader.unread ∧
      strValues d.calls <+: literalValues ScanMode.normal [] consumed ∧
      (d.result = LexerResult.success →
        strValues d.calls = literalValues ScanMode.normal [] consumed) := by
  have hA := Lexer.Run_observed fl h fuel lx reader single_expr hwf d hrun hno
  have hI : Abs.StrInv [] (Abs.of (LexerState.init reader single_expr)) := by
    rw [Abs.of_init]
    refine ⟨fun _ => ⟨rfl, rfl⟩, fun hk => ?_⟩
    cases hk
  constructor
  · intro v hv
    obtain ⟨pre, body, post, h1, h2, h3, h4⟩ :=
      Abs.RunLoop_lit fl h fuel lx (Abs.of (LexerState.init reader single_expr)) [] d.observed
        hI (by rw [Abs.of_init]; exact hnul) hA v hv
    obtain ⟨u1, u2⟩ := LexerParseString.loop_unescaped body.length body (le_refl _)
    refine ⟨pre, body, post, ?_, h2, h3, ?_, ?_, fun hb => ?_⟩
    · rw [← h1, Abs.of_init]
      rfl
    · rw [h4, u1]
    · rw [h4]
      omega
    · rw [h4]
      exact LexerParseString.loop_no_backslash body hb
  · obtain ⟨K, hK, hpre, heq⟩ :=
      Abs.RunLoop_values fl h fuel lx (Abs.of (LexerState.init reader single_expr)) []
        d.observed hI (by rw [Abs.of_init]; exact hnul) hA
    rw [Abs.of_init] at hK hpre heq
    exact ⟨K, hK, hpre, heq⟩

theorem str_value_is_unescaped_body_witness :
    (Lexer.Run noFloat countingHandler 32 { handler_ := 0, err_description_ := [] }
        (StreamReader.preloaded escapedStrText DummyInStream escapedStrText.length) false).map
      (fun d => (d.result, d.calls)) =
      some (LexerResult.success, [Callback.LexerBeginOp (bytes "+"),
        Callback.LexerStrValue (bytes "Test Str \"325\""), Callback.LexerEndOp]) ∧
    literalValues ScanMode.normal [] escapedStrText = [bytes "Test Str \"325\""] ∧
    ∀ d, Lexer.Run noFloat countingHandler 32 { handler_ := 0, err_description_ := [] }
        (StreamReader.preloaded escapedStrText DummyInStream escapedStrText.length) false =
        some d →
      (∀ v, Callback.LexerStrValue v ∈ d.calls →
        ∃ pre body post,
          (StreamReader.preloaded escapedStrText DummyInStream escapedStrText.length).unread =
            pre ++ 34 :: (body ++ 34 :: post) ∧
          ScanMode.after ScanMode.normal pre = ScanMode.normal ∧
          literalSplit false (body ++ 34 :: post) = some (body, post) ∧
          v = unescaped body ∧
          v.length = body.length - escapingBackslashes body ∧
          (92 ∉ body → v = body)) ∧
      ∃ consumed, consumed ++ d.state.stream_.unread =
          (StreamReader.preloaded escapedStrText DummyInStream escapedStrText.length).unread ∧
        strValues d.calls <+: literalValues ScanMode.normal [] consumed ∧
        (d.result = LexerResult.success →
          strValues d.calls = literalValues ScanMode.normal [] consumed) := by
  have hev : (Lexer.Run noFloat countingHandler 32 { handler_ := 0, err_description_ := [] }
        (StreamReader.preloaded escapedStrText DummyInStream escapedStrText.length) false).map
      (fun d => (d.result, d.calls)) =
      some (LexerResult.success, [Callback.LexerBeginOp (bytes "+"),
        Callback.LexerStrValue (bytes "Test Str \"325\""), Callback.LexerEndOp]) := by
    decide!
  refine ⟨hev, by decide, fun d hd => ?_⟩
  rw [hd] at hev
  simp only [Option.map_some', Option.some.injEq, Prod.mk.injEq] at hev
  exact str_value_is_unescaped_body noFloat countingHandler
    { handler_ := 0, err_description_ := [] }
    (StreamReader.preloaded escapedStrText DummyInStream escapedStrText.length) false 32 d
    ⟨by decide, by decide, Or.inr rfl⟩ (by decide) hd
    (by rw [hev.2]; intro tok; simp)

end slang

/-! ### `StreamReader::RefillAvailable` -/

/-- C24 (counterexample). A buffer `ABCD` whose window holds the unread bytes
`BC`, over a stream that delivers `XY`: after a successful refill the window is
`XY`, not `BCXY`; the unread bytes `BC` are gone (`B` is overwritten in the
buffer, `C` lies outside the window). -/
theorem refill_drops_unread_bytes :
    ({ read_buf_ := [65, 66, 67, 68], stream_ := InStream.of [88, 89] [],
       available_begin_ := 1, available_end_ := 3 } : StreamReader).Available = [66, 67] ∧
    (({ read_buf_ := [65, 66, 67, 68], stream_ := InStream.of [88, 89] [],
        available_begin_ := 1, available_end_ := 3 } : StreamReader).RefillAvailable.1 = true ∧
     ({ read_buf_ := [65, 66, 67, 68], stream_ := InStream.of [88, 89] [],
        available_begin_ := 1, available_end_ := 3 } : StreamReader).RefillAvailable.2.Available
        = [88, 89] ∧
     ({ read_buf_ := [65, 66, 67, 68], stream_ := InStream.of [88, 89] [],
        available_begin_ := 1, available_end_ := 3 } : StreamReader).RefillAvailable.2.read_buf_
        = [88, 89, 67, 68]) := by
  decide

/-- C24 (amended). `StreamReader::RefillAvailable` resets the window: it makes
one read into the whole buffer.  When the stream has data, the refill succeeds,
the window starts at the buffer start and holds exactly the bytes newly read (at
least one, at most the buffer size, and what the stream keeps follows them);
the bytes that were unread before are not kept, so the reader's unread bytes
are now those the stream had.  When the stream has no data, the refill fails
and the window is emptied at its old end. -/
theorem refill_resets_window (r : StreamReader) :
    (r.stream_.data ≠ [] →
      r.RefillAvailable.1 = true ∧ r.RefillAvailable.2.available_begin_ = 0 ∧
      r.RefillAvailable.2.available_end_ ≤ r.read_buf_.length ∧
      r.RefillAvailable.2.Available ++ r.RefillAvailable.2.stream_.data = r.stream_.data ∧
      r.RefillAvailable.2.unread = r.stream_.data ∧
      (0 < r.read_buf_.length → 0 < r.RefillAvailable.2.available_end_)) ∧
    (r.stream_.data = [] →
      r.RefillAvailable.1 = false ∧
      r.RefillAvailable.2.available_begin_ = r.available_end_ ∧
      r.RefillAvailable.2.available_end_ = r.available_end_ ∧
      r.RefillAvailable.2.stream_.read_error_ = StreamError.Closed) := by
  constructor
  · intro hd
    have hlen : (List.take (min (InStream.want r.stream_.plan r.read_buf_.length)
        (min r.read_buf_.length r.stream_.data.length)) r.stream_.data).length ≤
        r.read_buf_.length := by
      rw [List.length_take]
      omega
    have hslice : slice (overwrite r.read_buf_ 0
        (List.take (min (InStream.want r.stream_.plan r.read_buf_.length)
          (min r.read_buf_.length r.stream_.data.length)) r.stream_.data)) 0
        (List.take (min (InStream.want r.stream_.plan r.read_buf_.length)
          (min r.read_buf_.length r.stream_.data.length)) r.stream_.data).length =
        List.take (min (InStream.want r.stream_.plan r.read_buf_.length)
          (min r.read_buf_.length r.stream_.data.length)) r.stream_.data := by
      simp [slice, overwrite]
    unfold StreamReader.RefillAvailable InStream.Read
    rw [if_neg hd]
    dsimp only
    refine ⟨rfl, rfl, hlen, ?_, ?_, ?_⟩
    · unfold StreamReader.Available
      dsimp only
      rw [hslice]
      exact List.take_append_drop _ _
    · unfold StreamReader.unread
      dsimp only
      rw [hslice]
      exact List.take_append_drop _ _
    · intro hcap
      have hpos : 0 < r.stream_.data.length := List.length_pos.mpr hd
      have hw : 0 < InStream.want r.stream_.plan r.read_buf_.length := by
        unfold InStream.want
        cases r.stream_.plan with
        | nil => exact hcap
        | cons p _ => exact Nat.succ_pos p
      rw [List.length_take]
      omega
  · intro hd
    unfold StreamReader.RefillAvailable InStream.Read
    rw [if_pos hd]
    exact ⟨rfl, rfl, rfl, rfl⟩

/-- Witness of `refill_resets_window`: the buffer `ABCD` with the window `BC`
over a stream holding `XY`. -/
theorem refill_resets_window_witness :
    (InStream.of [88, 89] []).data ≠ [] ∧
    ({ read_buf_ := [65, 66, 67, 68], stream_ := InStream.of [88, 89] [],
       available_begin_ := 1, available_end_ := 3 } : StreamReader).RefillAvailable.2.unread
      = [88, 89] :=
  ⟨by decide,
   ((refill_resets_window
      (StreamReader.mk [65, 66, 67, 68] (InStream.of [88, 89] []) 1 3)).1 (by decide)).2.2.2.2.1⟩

/-! ### `StreamReader::ReadValue` -/

/-- Writing no byte leaves a buffer as it is. -/
theorem overwrite_nil (buf : List Nat) (pos : Nat) : overwrite buf pos [] = buf := by
  simp [overwrite]

/-- A reader with an empty window at the buffer start, over a stream that has
data and delivers what fits, never leaves the loop of `ReadValue`: each turn
hands the stream an empty span, gets zero bytes and starts again. -/
theorem StreamReader.ReadValue_loop_empty_window (size : Nat) (hsize : 0 < size)
    (buf data : List Nat) (hd : data ≠ []) (fuel : Nat) :
    StreamReader.ReadValue.loop size fuel
      { read_buf_ := buf, stream_ := InStream.of data [], available_begin_ := 0,
        available_end_ := 0 } = none := by
  induction fuel with
  | zero => rfl
  | succ fuel ih =>
    have hn : StreamReader.NormalizeAvailable
        { read_buf_ := buf, stream_ := InStream.of data [], available_begin_ := 0,
          available_end_ := 0 } =
        { read_buf_ := buf, stream_ := InStream.of data [], available_begin_ := 0,
          available_end_ := 0 } := by
      unfold StreamReader.NormalizeAvailable
      rw [if_neg (by simp)]
    have hr : (InStream.of data []).Read 0 = (some [], InStream.of data []) := by
      simp [InStream.Read, InStream.of, InStream.want, hd]
    rw [StreamReader.ReadValue.loop, if_pos (by dsimp only; omega)]
    dsimp only
    rw [hn]
    dsimp only
    rw [Nat.sub_self, hr]
    dsimp only
    rw [overwrite_nil]
    exact ih

/-- C25 (the code at the failing inputs). (1) A 4-byte buffer `ABCD` of which
`ABC` has been consumed, so the window holds the unread byte `D`, over a stream
that still holds `EFGH`: `ReadValue` of a 2-byte value should return `DE`; the
code moves `D` to the buffer start, reads one byte `E` over it and returns `EB`
(the unread `D` is overwritten before it is returned, the stale `B` is returned
instead), leaving `FGH` in the stream.  (2) A reader whose window is empty, over
a stream that has data: `ReadValue` of a 1-byte value does not return, whatever
the number of turns. -/
theorem read_value_overwrites_unread_bytes :
    ({ read_buf_ := [65, 66, 67, 68], stream_ := InStream.of [69, 70, 71, 72] [],
       available_begin_ := 3, available_end_ := 4 } : StreamReader).Available = [68] ∧
    StreamReader.ReadValue 2 5
      { read_buf_ := [65, 66, 67, 68], stream_ := InStream.of [69, 70, 71, 72] [],
        available_begin_ := 3, available_end_ := 4 } =
      some (some [69, 66],
        { read_buf_ := [69, 66, 67, 68], stream_ := InStream.of [70, 71, 72] [],
          available_begin_ := 2, available_end_ := 2 }) ∧
    ∀ fuel, StreamReader.ReadValue 1 fuel
      (StreamReader.mk0 [0, 0, 0, 0] (InStream.of [69, 70, 71, 72] [])) = none := by
  refine ⟨by decide, by decide, ?_⟩
  intro fuel
  exact StreamReader.ReadValue_loop_empty_window 1 (by decide) _ _ (by decide) fuel

/-! ### The window invariant of the reader -/

/-- A chunk the stream delivers is no longer than the span it was handed. -/
theorem InStream.Read_length (s s2 : InStream) (cap : Nat) (chunk : List Nat)
    (h : s.Read cap = (some chunk, s2)) : chunk.length ≤ cap := by
  unfold InStream.Read at h
  split_ifs at h with hd
  · exact absurd (congrArg Prod.fst h) (by simp)
  · simp only [Prod.mk.injEq, Option.some.injEq] at h
    rw [← h.1, List.length_take]
    omega

/-- Every operation of the reader other than `ReadValue` keeps
`available_begin <= available_end <= buffer_end`: `AvailableOrRead`,
`DrainOrRead`, `Advance` by at most the window size, `NormalizeAvailable`,
`RefillAvailable`, and `ReadAvailableCharUnsafe` on a non-empty window. -/
theorem StreamReader.WindowOk.kept (r : StreamReader) (h : r.WindowOk) :
    r.AvailableOrRead.2.WindowOk ∧ r.DrainOrRead.2.WindowOk ∧
    (∀ n, n ≤ r.available_end_ - r.available_begin_ → (r.Advance n).WindowOk) ∧
    r.NormalizeAvailable.WindowOk ∧ r.RefillAvailable.2.WindowOk ∧
    (r.available_begin_ ≠ r.available_end_ → r.ReadAvailableChar.2.WindowOk) := by
  obtain ⟨h1, h2⟩ := h
  refine ⟨?_, ?_, ?_, ?_, ?_, ?_⟩
  · unfold StreamReader.AvailableOrRead
    split_ifs with hw
    · exact ⟨h1, h2⟩
    · cases hr : r.stream_.Read r.read_buf_.length with
      | mk o s =>
        cases o with
        | none => exact ⟨h1, h2⟩
        | some chunk =>
          have hl := InStream.Read_length _ _ _ _ hr
          refine ⟨Nat.zero_le _, ?_⟩
          dsimp only
          rw [overwrite_length _ _ _ (by omega)]
          exact hl
  · unfold StreamReader.DrainOrRead
    split_ifs with hw
    · exact ⟨Nat.le_refl _, h2⟩
    · cases hr : r.stream_.Read r.read_buf_.length with
      | mk o s =>
        cases o with
        | none => exact ⟨h1, h2⟩
        | some chunk =>
          have hl := InStream.Read_length _ _ _ _ hr
          refine ⟨h1, ?_⟩
          dsimp only
          rw [overwrite_length _ _ _ (by omega)]
          exact h2
  · intro n hn
    refine ⟨?_, h2⟩
    unfold StreamReader.Advance
    dsimp only
    omega
  · unfold StreamReader.NormalizeAvailable
    split_ifs with hw
    swap
    · exact ⟨h1, h2⟩
    · have hl : r.Available.length = r.available_end_ - r.available_begin_ := by
        unfold StreamReader.Available slice
        rw [List.length_take, List.length_drop]
        omega
      refine ⟨Nat.zero_le _, ?_⟩
      dsimp only
      rw [overwrite_length _ _ _ (by omega)]
      omega
  · unfold StreamReader.RefillAvailable
    cases hr : r.stream_.Read r.read_buf_.length with
    | mk o s =>
      cases o with
      | none => exact ⟨Nat.le_refl _, h2⟩
      | some chunk =>
        have hl := InStream.Read_length _ _ _ _ hr
        refine ⟨Nat.zero_le _, ?_⟩
        dsimp only
        rw [overwrite_length _ _ _ (by omega)]
        exact hl
  · intro hw
    refine ⟨?_, h2⟩
    unfold StreamReader.ReadAvailableChar
    dsimp only
    omega

/-- C26 (the code at the failing input). A 4-byte buffer whose window holds its
first three bytes, over a stream that holds `EFGH` and never delivers more than
the span it is handed: the window satisfies `begin <= end <= buffer_end`, and
`ReadValue` of a 4-byte value (no larger than the buffer) returns with
`available_end` at offset 6, two bytes past the end of the 4-byte buffer. -/
theorem read_value_moves_end_past_buffer :
    ({ read_buf_ := [65, 66, 67, 68], stream_ := InStream.of [69, 70, 71, 72] [],
       available_begin_ := 0, available_end_ := 3 } : StreamReader).WindowOk ∧
    ∃ v r2, StreamReader.ReadValue 4 5
      { read_buf_ := [65, 66, 67, 68], stream_ := InStream.of [69, 70, 71, 72] [],
        available_begin_ := 0, available_end_ := 3 } = some (some v, r2) ∧
      r2.read_buf_.length = 4 ∧ r2.available_end_ = 6 ∧ ¬ r2.WindowOk :=
  ⟨by decide, _, _, rfl, by decide, by decide, by decide⟩

/-! ### The writer: what reaches the stream -/

/-- What the loop of `WriteData` hands to a stream that accepts writes is what
the stream receives, and each span is within the buffer. -/
theorem StreamWriter.WriteData_loop_handoffs :
    ∀ (fuel : Nat) (w : StreamWriter) (rest : List Nat) (ok : Bool) (w2 : StreamWriter),
      w.stream_.closed = false → w.buffered.length ≤ w.write_buf_size →
      StreamWriter.WriteData.loop fuel w rest = some (ok, w2) →
      w2.write_buf_size = w.write_buf_size ∧
      w2.stream_.received =
        w.stream_.received ++ (StreamWriter.WriteData.handoffs fuel w rest).flatten ∧
      ∀ h ∈ StreamWriter.WriteData.handoffs fuel w rest, h.length ≤ w.write_buf_size := by
  intro fuel
  induction fuel with
  | zero =>
    intro w rest ok w2 _ _ hrun
    unfold StreamWriter.WriteData.loop at hrun
    split_ifs at hrun
    simp only [Option.some.injEq, Prod.mk.injEq] at hrun
    rw [← hrun.2]
    simp [StreamWriter.WriteData.handoffs]
  | succ n ih =>
    intro w rest ok w2 hacc hfits hrun
    unfold StreamWriter.WriteData.loop at hrun
    unfold StreamWriter.WriteData.handoffs
    by_cases hrest : rest = []
    · rw [if_pos hrest] at hrun
      rw [if_pos hrest]
      simp only [Option.some.injEq, Prod.mk.injEq] at hrun
      rw [← hrun.2]
      simp
    · rw [if_neg hrest] at hrun
      rw [if_neg hrest]
      dsimp only at hrun ⊢
      generalize hsz : min rest.length (w.write_buf_size - w.buffered.length) = sz at hrun ⊢
      have hsz2 : w.buffered.length + sz ≤ w.write_buf_size := by omega
      by_cases hdrop : List.drop sz rest = []
      · rw [if_pos hdrop] at hrun
        rw [if_pos hdrop]
        simp only [Option.some.injEq, Prod.mk.injEq] at hrun
        rw [← hrun.2]
        simp
      · rw [if_neg hdrop] at hrun
        rw [if_neg hdrop]
        generalize hw1 : ({ w with buffered := w.buffered ++ List.take sz rest } : StreamWriter)
          = w1 at hrun ⊢
        have hw1b : w1.buffered = w.buffered ++ List.take sz rest := by rw [← hw1]
        have hw1s : w1.stream_ = w.stream_ := by rw [← hw1]
        have hw1c : w1.write_buf_size = w.write_buf_size := by rw [← hw1]
        have hw1l : w1.buffered.length ≤ w.write_buf_size := by
          rw [hw1b, List.length_append, List.length_take]
          omega
        obtain ⟨hf1, hf2, hf3, hf4, hf5, _⟩ := StreamWriter.Flush_accepts w1
          (by rw [hw1s]; exact hacc)
        rw [hf1] at hrun ⊢
        simp only [Bool.not_true, Bool.false_eq_true, if_false] at hrun ⊢
        obtain ⟨h1, h2, h3⟩ := ih w1.Flush.2 (List.drop sz rest) ok w2 hf5
          (by rw [hf2]; exact Nat.zero_le _) hrun
        refine ⟨by rw [h1, hf4, hw1c], ?_, ?_⟩
        · rw [h2, hf3, hw1s, hw1b, List.flatten_cons, List.append_assoc]
        · intro h hh
          rcases List.mem_cons.mp hh with hh | hh
          · rw [hh, ← hw1b]
            exact hw1l
          · have := h3 h hh
            rw [hf4, hw1c] at this
            exact this

/-- C27. A `StreamWriter` with a buffer of at least one byte (holding no more
than its size) over a stream that accepts every write: any sequence of
`WriteData`/`Write` calls followed by a final `Flush` returns, every call
succeeds, and the spans handed to the stream, concatenated in order, are the
bytes that were buffered at the start followed by the concatenation of all data
written; the stream has received exactly these bytes after what it had, the
buffer is empty at the end, and no span handed over is longer than the buffer. -/
theorem writes_reach_stream_in_order (bufs : List (List Nat)) (w : StreamWriter) (hok : w.Ok) :
    ∃ w2 log, StreamWriter.WriteAll bufs w = some (true, w2, log) ∧
      log.flatten = w.buffered ++ bufs.flatten ∧
      w2.stream_.received = w.stream_.received ++ log.flatten ∧
      w2.buffered = [] ∧
      (∀ h ∈ log, h.length ≤ w.write_buf_size) ∧
      w2.write_buf_size = w.write_buf_size ∧
      w2.stream_.write_error_ = w.stream_.write_error_ := by
  induction bufs generalizing w with
  | nil =>
    obtain ⟨hf1, hf2, hf3, hf4, _, hf6⟩ := StreamWriter.Flush_accepts w hok.accepts
    refine ⟨w.Flush.2, [w.buffered], ?_, by simp, ?_, hf2, ?_, hf4, hf6⟩
    · unfold StreamWriter.WriteAll
      rw [hf1]
    · rw [hf3]
      simp
    · intro h hh
      rw [List.mem_singleton.mp hh]
      exact hok.fits
  | cons buf more ih =>
    obtain ⟨w1, hrun, hw⟩ := StreamWriter.WriteData_loop_wrote (buf.length + 1) w buf hok
      (by split <;> omega)
    obtain ⟨h1, h2, h3⟩ := StreamWriter.WriteData_loop_handoffs (buf.length + 1) w buf true w1
      hok.accepts hok.fits hrun
    obtain ⟨w2, log, hall, hl1, hl2, hl3, hl4, hl5, hl6⟩ := ih w1 hw.ok
    have hsent := hw.sent
    unfold StreamWriter.sent at hsent
    have hjoin : (StreamWriter.WriteData.handoffs (buf.length + 1) w buf).flatten ++ w1.buffered =
        w.buffered ++ buf := by
      have h := hsent
      rw [h2, List.append_assoc, List.append_assoc] at h
      exact List.append_cancel_left h
    refine ⟨w2, StreamWriter.WriteData.handoffs (buf.length + 1) w buf ++ log, ?_, ?_, ?_, hl3,
      ?_, by rw [hl5, h1], by rw [hl6, hw.error]⟩
    · unfold StreamWriter.WriteAll StreamWriter.WriteData
      rw [hrun]
      dsimp only
      rw [hall]
      rfl
    · rw [List.flatten_append, hl1, ← List.append_assoc, hjoin, List.flatten_cons, List.append_assoc]
    · rw [hl2, h2, List.flatten_append, List.append_assoc]
    · intro h hh
      rcases List.mem_append.mp hh with hh | hh
      · exact h3 h hh
      · have := hl4 h hh
        rw [h1] at this
        exact this

/-- Witness of `writes_reach_stream_in_order`: a 2-byte buffer taking `ABC`,
nothing, and `DE`. -/
theorem writes_reach_stream_in_order_witness :
    (StreamWriter.fresh 2).Ok ∧
    StreamWriter.WriteAll [[65, 66, 67], [], [68, 69]] (StreamWriter.fresh 2) =
      some (true,
        { write_buf_size := 2, buffered := [],
          stream_ := { received := [65, 66, 67, 68, 69], closed := false,
                       write_error_ := StreamError.None } },
        [[65, 66], [67, 68], [69]]) ∧
    ∃ w2 log, StreamWriter.WriteAll [[65, 66, 67], [], [68, 69]] (StreamWriter.fresh 2) =
        some (true, w2, log) ∧
      log.flatten = (StreamWriter.fresh 2).buffered ++ [[65, 66, 67], [], [68, 69]].flatten ∧
      w2.stream_.received = (StreamWriter.fresh 2).stream_.received ++ log.flatten ∧
      w2.buffered = [] ∧
      (∀ h ∈ log, h.length ≤ (StreamWriter.fresh 2).write_buf_size) ∧
      w2.write_buf_size = (StreamWriter.fresh 2).write_buf_size ∧
      w2.stream_.write_error_ = (StreamWriter.fresh 2).stream_.write_error_ :=
  ⟨⟨by decide, by decide, rfl⟩, by decide,
   writes_reach_stream_in_order _ _ ⟨by decide, by decide, rfl⟩⟩

/-! ### `JsonSerializer::WriteEscapedString` -/

/-- The loop of `WriteEscapedString` treats a backslash as it treats a double
quote. -/
theorem JsonSerializer.WriteEscapedString_loop_backslash (pre post : List Nat) :
    ∀ (pending : List Nat) (w : StreamWriter),
      JsonSerializer.WriteEscapedString.loop (pre ++ 92 :: post) pending w =
        JsonSerializer.WriteEscapedString.loop (pre ++ 34 :: post) pending w := by
  induction pre with
  | nil =>
    intro pending w
    simp only [List.nil_append, JsonSerializer.WriteEscapedString.loop]
    rfl
  | cons c pre ih =>
    intro pending w
    simp only [List.cons_append, JsonSerializer.WriteEscapedString.loop, List.append_eq, ih]

/-- C28 (the code at the failing inputs). A writer with a 64-byte buffer, flushed
after the call.  For the string of one backslash the serializer sends the five
bytes `"`, backslash, `"`, NUL, `"`: the backslash is written as backslash-quote
(not as two backslashes) and a zero byte follows the escape.  For the string `a`
followed by a newline it sends `"a`, backslash, `n`, NUL, `"`: the escape is
again followed by a zero byte.  And for every writer a string holding a
backslash is written exactly as the string holding a double quote in its place,
so what is written does not decide the original bytes. -/
theorem backslash_is_written_as_escaped_quote :
    (JsonSerializer.WriteEscapedString (StreamWriter.fresh 64) [92]).map
        (fun w => w.Flush.2.stream_.received) = some [34, 92, 34, 0, 34] ∧
    (JsonSerializer.WriteEscapedString (StreamWriter.fresh 64) [97, 10]).map
        (fun w => w.Flush.2.stream_.received) = some [34, 97, 92, 110, 0, 34] ∧
    ∀ (w : StreamWriter) (pre post : List Nat),
      JsonSerializer.WriteEscapedString w (pre ++ 92 :: post) =
        JsonSerializer.WriteEscapedString w (pre ++ 34 :: post) := by
  refine ⟨by decide, by decide, ?_⟩
  intro w pre post
  unfold JsonSerializer.WriteEscapedString
  simp only [JsonSerializer.WriteEscapedString_loop_backslash]

/-! ### Integers as decimal text -/

theorem decimalValue_foldl (text : List Nat) (a : Nat) :
    text.foldl (fun acc c => 10 * acc + (c - 48)) a =
      a * 10 ^ text.length + decimalValue text := by
  unfold decimalValue
  induction text generalizing a with
  | nil => simp
  | cons c rest ih =>
    rw [List.foldl_cons, List.foldl_cons, ih, ih (10 * 0 + (c - 48)), List.length_cons, pow_succ]
    ring

theorem decimalValue_snoc (ds : List Nat) (d : Nat) :
    decimalValue (ds ++ [d]) = 10 * decimalValue ds + (d - 48) := by
  unfold decimalValue
  rw [List.foldl_append]
  rfl

theorem CountDigits.loop_count (fuel value count : Nat) :
    CountDigits.loop fuel value count = count + CountDigits.loop fuel value 0 := by
  induction fuel generalizing value count with
  | zero => rfl
  | succ n ih =>
    unfold CountDigits.loop
    split_ifs
    · rw [ih, ih (value / 10) (0 + 1)]
      omega
    · rfl

/-- The digit loop with enough fuel prepends the decimal digits of `value`: as
many as `CountDigits` counts, denoting `value`, with no leading zero. -/
theorem StrBuildUIntToStr.loop_digits :
    ∀ (fuel value : Nat) (acc : List Nat), value ≤ fuel →
      ∃ ds, StrBuildUIntToStr.loop fuel value acc = ds ++ acc ∧
        decimalValue ds = value ∧ (∀ c ∈ ds, 48 ≤ c ∧ c ≤ 57) ∧
        (0 < value → ds ≠ [] ∧ ds.head? ≠ some 48) ∧ (value = 0 → ds = []) ∧
        ds.length = CountDigits.loop fuel value 0 ∧
        (∀ k, value < 10 ^ k → ds.length ≤ k) ∧
        (∀ (i : Nat) (buf : List Nat), i = ds.length → i ≤ buf.length →
          StrBuildUIntToStr.fill fuel value i buf = ds ++ buf.drop i) := by
  intro fuel
  induction fuel with
  | zero =>
    intro value acc hv
    have h0 : value = 0 := by omega
    subst h0
    refine ⟨[], rfl, rfl, by simp, by simp, by simp, rfl, by simp, ?_⟩
    intro i buf hi _
    subst hi
    rfl
  | succ n ih =>
    intro value acc hv
    by_cases h0 : value = 0
    · subst h0
      refine ⟨[], ?_, rfl, by simp, by simp, by simp, ?_, by simp, ?_⟩
      · simp [StrBuildUIntToStr.loop]
      · simp [CountDigits.loop]
      · intro i buf hi _
        subst hi
        simp [StrBuildUIntToStr.fill]
    · have hpos : 0 < value := Nat.pos_of_ne_zero h0
      have hnext : value / 10 ≤ n := by omega
      have hd : 48 + (value - 10 * (value / 10)) = 48 + value % 10 := by omega
      obtain ⟨ds, h1, h2, h3, h4, h5, h6, h7, h8⟩ := ih (value / 10)
        ((48 + (value - 10 * (value / 10))) :: acc) hnext
      refine ⟨ds ++ [48 + value % 10], ?_, ?_, ?_, ?_, ?_, ?_, ?_, ?_⟩
      · unfold StrBuildUIntToStr.loop
        rw [if_pos hpos]
        dsimp only
        rw [h1, hd, List.append_assoc]
        rfl
      · rw [decimalValue_snoc, h2]
        omega
      · intro c hc
        rcases List.mem_append.mp hc with hc | hc
        · exact h3 c hc
        · rw [List.mem_singleton.mp hc]
          omega
      · intro _
        refine ⟨by simp, ?_⟩
        by_cases hn0 : value / 10 = 0
        · rw [h5 hn0]
          simp only [List.nil_append, List.head?_cons, ne_eq, Option.some.injEq]
          omega
        · obtain ⟨hne, hh⟩ := h4 (Nat.pos_of_ne_zero hn0)
          cases ds with
          | nil => exact absurd rfl hne
          | cons d ds => exact hh
      · intro h
        exact absurd h h0
      · unfold CountDigits.loop
        rw [if_pos h0, CountDigits.loop_count, List.length_append, h6]
        simp only [List.length_singleton]
        omega
      · intro k hk
        cases k with
        | zero =>
          rw [pow_zero] at hk
          omega
        | succ k =>
          have : value / 10 < 10 ^ k := by
            rw [pow_succ] at hk
            omega
          have := h7 k this
          rw [List.length_append, List.length_singleton]
          omega
      · intro i buf hi hb
        rw [List.length_append, List.length_singleton] at hi
        unfold StrBuildUIntToStr.fill
        rw [if_pos hpos]
        dsimp only
        have hlen : (overwrite buf (i - 1) [48 + (value - 10 * (value / 10))]).length =
            buf.length := overwrite_length _ _ _ (by simp only [List.length_singleton]; omega)
        rw [h8 (i - 1) _ (by omega) (by rw [hlen]; omega), hd, List.append_assoc]
        congr 1
        unfold overwrite
        have ht : (List.take (i - 1) buf).length = i - 1 := by
          rw [List.length_take]
          omega
        rw [List.append_assoc, List.drop_append_eq_append_drop, ht, Nat.sub_self, List.drop_zero,
          List.drop_of_length_le (by omega)]
        simp only [List.length_singleton, List.nil_append, List.singleton_append,
          List.cons.injEq, true_and]
        congr 1
        omega

/-- `StrBuildUIntToStr` writes the canonical decimal text of its value at the
start of the buffer and returns its length. -/
theorem StrBuildUIntToStr.canonical (u : Nat) :
    CanonicalDecimal (StrBuildUIntToStr u) ∧ decimalValue (StrBuildUIntToStr u) = u ∧
    (u = 0 ↔ StrBuildUIntToStr u = [48]) ∧
    (∀ k, 0 < k → u < 10 ^ k → (StrBuildUIntToStr u).length ≤ k) ∧
    ∀ buf : List Nat, (StrBuildUIntToStr u).length ≤ buf.length →
      StrBuildUIntToStr.run u buf =
        ((StrBuildUIntToStr u).length,
         StrBuildUIntToStr u ++ buf.drop (StrBuildUIntToStr u).length) := by
  unfold StrBuildUIntToStr StrBuildUIntToStr.run
  by_cases h0 : u = 0
  · subst h0
    simp only [if_true]
    refine ⟨⟨by simp, by simp, by simp⟩, by decide, by simp, ?_, ?_⟩
    · intro k hk _
      simpa using hk
    · intro buf _
      simp [overwrite]
  · simp only [if_neg h0]
    obtain ⟨ds, h1, h2, h3, h4, _, h6, h7, h8⟩ := StrBuildUIntToStr.loop_digits u u []
      (Nat.le_refl u)
    rw [List.append_nil] at h1
    obtain ⟨hne, hh⟩ := h4 (Nat.pos_of_ne_zero h0)
    rw [h1]
    refine ⟨⟨hne, h3, fun h => absurd h hh⟩, h2, ?_, fun k _ hk => h7 k hk, ?_⟩
    · constructor
      · intro h
        exact absurd h h0
      · intro h
        rw [h] at hh
        exact absurd rfl hh
    · intro buf hb
      unfold CountDigits
      rw [← h6, h8 ds.length buf rfl hb]

/-- C29. For every signed 64-bit integer `v`, `StrBuildIntToStr` writes at the
start of the buffer the canonical decimal text of `v` (a leading `-` exactly for
a negative `v`, no leading zeros), of at most 20 characters, and returns the
length of that text; read back as a decimal number the text gives `v`, also for
`-2^63` (whose negation is taken modulo `2^64`).  For every unsigned 64-bit
value `u`, `StrBuildUIntToStr` does the same. -/
theorem int_to_str_is_canonical_decimal (v : Int) (hlo : -2 ^ 63 ≤ v) (hhi : v < 2 ^ 63)
    (u : Nat) (hu : u < 2 ^ 64) (buf : List Nat) (hbuf : 20 ≤ buf.length) :
    (CanonicalSignedDecimal (StrBuildIntToStr v) ∧
     signedDecimalValue (StrBuildIntToStr v) = v ∧
     (v < 0 ↔ (StrBuildIntToStr v).head? = some 45) ∧
     (StrBuildIntToStr v).length ≤ 20 ∧
     StrBuildIntToStr.run v buf =
       ((StrBuildIntToStr v).length,
        StrBuildIntToStr v ++ buf.drop (StrBuildIntToStr v).length)) ∧
    (CanonicalDecimal (StrBuildUIntToStr u) ∧
     decimalValue (StrBuildUIntToStr u) = u ∧
     (StrBuildUIntToStr u).length ≤ 20 ∧
     StrBuildUIntToStr.run u buf =
       ((StrBuildUIntToStr u).length,
        StrBuildUIntToStr u ++ buf.drop (StrBuildUIntToStr u).length)) := by
  constructor
  · unfold StrBuildIntToStr StrBuildIntToStr.run
    by_cases hneg : v < 0
    · rw [if_pos hneg, if_pos hneg]
      have hm : ((-v) % 2 ^ 64).toNat = (-v).toNat := by
        rw [Int.emod_eq_of_lt (by omega) (by omega)]
      rw [hm]
      obtain ⟨m, hmv⟩ : ∃ m : Nat, (-v).toNat = m := ⟨_, rfl⟩
      rw [hmv]
      have hm1 : (m : Int) = -v := by
        rw [← hmv]
        exact Int.toNat_of_nonneg (by omega)
      have hm2 : m < 10 ^ 19 := by
        have : (m : Int) < 10 ^ 19 := by
          rw [hm1]
          have : (2 : Int) ^ 63 < 10 ^ 19 := by norm_num
          omega
        exact_mod_cast this
      have hm3 : m ≠ 0 := by
        intro h
        rw [h] at hm1
        omega
      obtain ⟨c1, c2, c3, c4, c5⟩ := StrBuildUIntToStr.canonical m
      have hl := c4 19 (by decide) hm2
      obtain ⟨cne, cdig, _⟩ := c1
      refine ⟨Or.inr ⟨_, rfl, ⟨cne, cdig, by assumption⟩, fun h => hm3 (c3.mpr h)⟩, ?_, ?_, ?_, ?_⟩
      · show -(decimalValue (StrBuildUIntToStr m) : Int) = v
        rw [c2, hm1]
        omega
      · simp [hneg]
      · rw [List.length_cons]
        omega
      · dsimp only
        rw [c5 (buf.drop 1) (by rw [List.length_drop]; omega)]
        obtain ⟨b, bs, hb⟩ : ∃ b bs, buf = b :: bs := by
          cases buf with
          | nil => simp at hbuf
          | cons b bs => exact ⟨b, bs, rfl⟩
        subst hb
        simp only [overwrite, List.take_zero, List.nil_append, List.singleton_append,
          List.take_succ_cons, List.drop_succ_cons, List.drop_zero, List.cons_append,
          List.length_cons, Nat.add_comm 1, Nat.zero_add, List.length_nil]
    · rw [if_neg hneg, if_neg hneg]
      obtain ⟨m, hmv⟩ : ∃ m : Nat, v.toNat = m := ⟨_, rfl⟩
      rw [hmv]
      have hm1 : (m : Int) = v := by
        rw [← hmv]
        exact Int.toNat_of_nonneg (by omega)
      have hm2 : m < 10 ^ 19 := by
        have : (m : Int) < 10 ^ 19 := by
          rw [hm1]
          have : (2 : Int) ^ 63 < 10 ^ 19 := by norm_num
          omega
        exact_mod_cast this
      obtain ⟨c1, c2, c3, c4, c5⟩ := StrBuildUIntToStr.canonical m
      have hl := c4 19 (by decide) hm2
      have hhead : (StrBuildUIntToStr m).head? ≠ some 45 := by
        intro h
        obtain ⟨_, cdig, _⟩ := c1
        have := cdig 45 (List.mem_of_mem_head? h)
        omega
      refine ⟨Or.inl c1, ?_, ?_, by omega, c5 buf (by omega)⟩
      · have : signedDecimalValue (StrBuildUIntToStr m) = (decimalValue (StrBuildUIntToStr m) : Int) := by
          cases hs : StrBuildUIntToStr m with
          | nil => rfl
          | cons d ds =>
            rw [hs] at hhead
            have hd : d ≠ 45 := by
              intro h
              rw [h] at hhead
              exact hhead rfl
            unfold signedDecimalValue
            split
            · rename_i heq
              simp only [List.cons.injEq] at heq
              exact absurd heq.1 hd
            · rfl
        rw [this, c2, hm1]
      · constructor
        · intro h
          exact absurd h hneg
        · intro h
          exact absurd h hhead
  · obtain ⟨c1, c2, c3, c4, c5⟩ := StrBuildUIntToStr.canonical u
    have hu2 : u < 10 ^ 20 := by
      have : 2 ^ 64 < 10 ^ 20 := by norm_num
      omega
    have hl := c4 20 (by decide) hu2
    exact ⟨c1, c2, hl, c5 buf (by omega)⟩

/-- Witness of `int_to_str_is_canonical_decimal`: the least signed value
`-2^63` and the greatest unsigned value `2^64 - 1`, on a buffer of 24 bytes. -/
theorem int_to_str_is_canonical_decimal_witness :
    StrBuildIntToStr (-9223372036854775808) = bytes "-9223372036854775808" ∧
    StrBuildUIntToStr 18446744073709551615 = bytes "18446744073709551615" ∧
    (StrBuildIntToStr.run (-9223372036854775808) (List.replicate 24 0)).1 = 20 ∧
    (StrBuildUIntToStr.run 18446744073709551615 (List.replicate 24 0)).1 = 20 ∧
    signedDecimalValue (StrBuildIntToStr (-9223372036854775808)) = -9223372036854775808 ∧
    decimalValue (StrBuildUIntToStr 18446744073709551615) = 18446744073709551615 :=
  ⟨by decide, by decide, by decide, by decide,
   (int_to_str_is_canonical_decimal (-9223372036854775808) (by decide) (by decide)
      18446744073709551615 (by decide) (List.replicate 24 0) (by decide)).1.2.1,
   (int_to_str_is_canonical_decimal (-9223372036854775808) (by decide) (by decide)
      18446744073709551615 (by decide) (List.replicate 24 0) (by decide)).2.2.1⟩

/-! ### `MRSWRing` against a bounded FIFO queue -/

theorem MRSWRing.Safe.mono {n x y : Nat} (h : MRSWRing.Safe n y) (hxy : x ≤ y) :
    MRSWRing.Safe n x := by
  rcases h with h | h
  · exact Or.inl h
  · exact Or.inr (by omega)

theorem MRSWRing.Safe.slot {n x : Nat} (h : MRSWRing.Safe n x) : x % 2 ^ 32 % n = x % n := by
  rcases h with h | h
  · exact Nat.mod_mod_of_dvd x h.1
  · rw [Nat.mod_eq_of_lt h]

theorem MRSWRing.Safe.same {n R W : Nat} (h : MRSWRing.Safe n W) (hrw : R ≤ W)
    (hb : W - R ≤ n) : R % 2 ^ 32 = W % 2 ^ 32 ↔ R = W := by
  rcases h with h | h
  · have := h.2
    omega
  · omega

theorem MRSWRing.Safe.size {n R W : Nat} (h : MRSWRing.Safe n W) (hrw : R ≤ W)
    (hb : W - R ≤ n) : (W % 2 ^ 32 + 2 ^ 32 - R % 2 ^ 32) % 2 ^ 32 = W - R := by
  rcases h with h | h
  · have := h.2
    omega
  · omega

theorem mod_eq_iff_of_le {n a b : Nat} (hn : 1 ≤ n) (hab : a ≤ b) (hb : b - a ≤ n) :
    (a % n = b % n ∧ a ≠ b) ↔ b - a = n := by
  constructor
  · rintro ⟨h1, h2⟩
    have h3 : (b - a) % n = 0 := Nat.sub_mod_eq_zero_of_mod_eq h1.symm
    by_contra hne
    have hlt : b - a < n := by omega
    rw [Nat.mod_eq_of_lt hlt] at h3
    omega
  · intro h
    have hb2 : b = a + n := by omega
    refine ⟨?_, by omega⟩
    rw [hb2, Nat.add_mod_right]

theorem mod_ne_of_lt {n a i j : Nat} (hij : i < j) (hj : j < n) :
    (a + i) % n ≠ (a + j) % n := by
  intro h
  have h3 : ((a + j) - (a + i)) % n = 0 := Nat.sub_mod_eq_zero_of_mod_eq h.symm
  have hlt : (a + j) - (a + i) < n := by omega
  rw [Nat.mod_eq_of_lt hlt] at h3
  omega

theorem MRSWRing.Holds.IsEmpty {T : Type} {n : Nat} {q : MRSWRing T} {items : List T}
    {R W : Nat} (h : MRSWRing.Holds n q items R W) (hs : MRSWRing.Safe n W) :
    q.IsEmpty = true ↔ items = [] := by
  unfold MRSWRing.IsEmpty
  have hsz := h.size
  have hbd := h.bound
  have := MRSWRing.Safe.same hs (by omega : R ≤ W) (by omega)
  rw [decide_eq_true_iff, h.r, h.w, this]
  constructor
  · intro he
    exact List.length_eq_zero.mp (by omega)
  · intro he
    rw [he] at hsz
    simpa using hsz

theorem MRSWRing.Holds.IsFull {T : Type} {n : Nat} {q : MRSWRing T} {items : List T}
    {R W : Nat} (h : MRSWRing.Holds n q items R W) (hn : 1 ≤ n) (hs : MRSWRing.Safe n W) :
    q.IsFull = true ↔ items.length = n := by
  have hsz := h.size
  have hbd := h.bound
  have hrw : R ≤ W := by omega
  have he := h.IsEmpty hs
  unfold MRSWRing.IsFull
  rw [Bool.and_eq_true, decide_eq_true_iff, Bool.not_eq_true', ← Bool.not_eq_true, he, h.len,
    h.r, h.w, (hs.mono hrw).slot, hs.slot]
  have hiff := mod_eq_iff_of_le hn hrw (by omega : W - R ≤ n)
  have e2 : (¬ items = []) ↔ R ≠ W := by
    constructor
    · intro hne
      have : 0 < items.length := List.length_pos.mpr hne
      omega
    · intro hne he2
      rw [he2] at hsz
      simp only [List.length_nil, Nat.add_zero] at hsz
      exact hne hsz
  rw [e2, hiff]
  omega

/-- One call keeps the ring and the queue in step and returns the same. -/
theorem MRSWRing.Holds.call {T : Type} [Inhabited T] {n : Nat} {q : MRSWRing T}
    {items : List T} {R W : Nat} (h : MRSWRing.Holds n q items R W) (hn : 1 ≤ n)
    (hs : MRSWRing.Safe n W) (c : QueueCall T) :
    (q.call c).1 = (BoundedFifo.call n items c).1 ∧
    ∃ R2 W2, MRSWRing.Holds n (q.call c).2 (BoundedFifo.call n items c).2 R2 W2 ∧
      W2 ≤ W + pushCount [c] ∧ W ≤ W2 := by
  have hsz := h.size
  have hbd := h.bound
  cases c with
  | Push value =>
    have hf := h.IsFull hn hs
    unfold MRSWRing.call BoundedFifo.call
    dsimp only
    unfold MRSWRing.Push
    by_cases hfull : items.length = n
    · rw [if_pos (hf.mpr hfull), if_pos hfull]
      exact ⟨rfl, R, W, h, Nat.le_add_right _ _, Nat.le_refl _⟩
    · have hq : ¬ q.IsFull = true := fun hq => hfull (hf.mp hq)
      rw [if_neg hq, if_neg hfull]
      refine ⟨rfl, R, W + 1, ⟨?_, h.r, ?_, ?_, ?_, ?_⟩, Nat.le_refl _, by omega⟩
      · simp only [List.length_set]
        exact h.len
      · show (q.w_ + 1) % 2 ^ 32 = (W + 1) % 2 ^ 32
        rw [h.w]
        omega
      · rw [List.length_append, List.length_singleton]
        omega
      · rw [List.length_append, List.length_singleton]
        omega
      · intro i hi
        rw [List.length_append, List.length_singleton] at hi
        show (q.data_.set (q.w_ % q.data_.length) value)[(R + i) % n]? = (items ++ [value])[i]?
        rw [h.len, h.w, hs.slot, ← hsz]
        by_cases hil : i < items.length
        · rw [List.getElem?_set_ne (Ne.symm (mod_ne_of_lt hil (by omega))),
            List.getElem?_append_left hil]
          exact h.slot i hil
        · have hie : i = items.length := by omega
          subst hie
          have hlt : (R + items.length) % n < q.data_.length := by
            rw [h.len]
            exact Nat.mod_lt _ (by omega)
          rw [List.getElem?_set_self hlt]
          simp
  | Pop =>
    have he := h.IsEmpty hs
    unfold MRSWRing.call BoundedFifo.call
    dsimp only
    unfold MRSWRing.Pop
    cases hi : items with
    | nil =>
      rw [if_pos (he.mpr hi)]
      refine ⟨rfl, R, W, ?_, Nat.le_add_right _ _, Nat.le_refl _⟩
      rw [hi] at h
      exact h
    | cons x rest =>
      have hq : ¬ q.IsEmpty = true := fun hq => by
        have := he.mp hq
        rw [hi] at this
        exact List.cons_ne_nil _ _ this
      rw [if_neg hq]
      have h0 := h.slot 0 (by rw [hi]; simp)
      rw [hi] at h0
      simp only [Nat.add_zero, List.getElem?_cons_zero] at h0
      have hget : q.data_.getD (q.r_ % q.data_.length) default = x := by
        rw [h.len, h.r, (hs.mono (by omega : R ≤ W)).slot, List.getD_eq_getElem?_getD, h0]
        rfl
      rw [hi, List.length_cons] at hsz hbd
      dsimp only
      rw [hget]
      refine ⟨rfl, R + 1, W, ⟨h.len, ?_, h.w, by omega, by omega, ?_⟩, Nat.le_add_right _ _,
        Nat.le_refl _⟩
      · show (q.r_ + 1) % 2 ^ 32 = (R + 1) % 2 ^ 32
        rw [h.r]
        omega
      · intro i hlt
        have := h.slot (i + 1) (by rw [hi, List.length_cons]; omega)
        rw [hi, List.getElem?_cons_succ] at this
        rw [← this]
        congr 2
        omega

theorem pushCount_cons {T : Type} (c : QueueCall T) (rest : List (QueueCall T)) :
    pushCount (c :: rest) = pushCount [c] + pushCount rest := by
  cases c with
  | Push v => simp [pushCount, Nat.add_comm]
  | Pop => simp [pushCount]

/-- A series of calls keeps the ring and the queue in step, as long as the
indices written stay safe. -/
theorem MRSWRing.Holds.run {T : Type} [Inhabited T] {n : Nat} (hn : 1 ≤ n) (P : Nat)
    (hs : MRSWRing.Safe n P) (ops : List (QueueCall T)) :
    ∀ (q : MRSWRing T) (items : List T) (R W : Nat), MRSWRing.Holds n q items R W →
      W + pushCount ops ≤ P →
      (q.run ops).1 = (BoundedFifo.run n items ops).1 ∧
      ∃ R2 W2, MRSWRing.Holds n (q.run ops).2 (BoundedFifo.run n items ops).2 R2 W2 ∧
        W2 ≤ P := by
  induction ops with
  | nil =>
    intro q items R W h hw
    exact ⟨rfl, R, W, h, by simpa [pushCount] using hw⟩
  | cons c rest ih =>
    intro q items R W h hw
    rw [pushCount_cons] at hw
    obtain ⟨h1, R2, W2, h2, h3, _⟩ := h.call hn (hs.mono (by omega)) c
    obtain ⟨h5, R3, W3, h6, h7⟩ := ih _ _ R2 W2 h2 (by omega)
    unfold MRSWRing.run BoundedFifo.run
    refine ⟨?_, R3, W3, h6, h7⟩
    dsimp only
    rw [h1, h5]

theorem MRSWRing.create_holds {T : Type} [Inhabited T] (n : Nat) :
    MRSWRing.Holds n (MRSWRing.create n : MRSWRing T) [] 0 0 :=
  ⟨by simp [MRSWRing.create], rfl, rfl, rfl, Nat.zero_le _, by simp⟩

theorem MRSWRing.run_append {T : Type} [Inhabited T] (a b : List (QueueCall T)) :
    ∀ q : MRSWRing T, q.run (a ++ b) = ((q.run a).1 ++ ((q.run a).2.run b).1,
      ((q.run a).2.run b).2) := by
  induction a with
  | nil =>
    intro q
    rfl
  | cons c rest ih =>
    intro q
    rw [List.cons_append, MRSWRing.run, ih]
    rfl

theorem BoundedFifo.run_split {T : Type} (cap : Nat) (a b : List (QueueCall T)) :
    ∀ items : List T, BoundedFifo.run cap items (a ++ b) =
      ((BoundedFifo.run cap items a).1 ++
        (BoundedFifo.run cap (BoundedFifo.run cap items a).2 b).1,
       (BoundedFifo.run cap (BoundedFifo.run cap items a).2 b).2) := by
  induction a with
  | nil =>
    intro items
    rfl
  | cons c rest ih =>
    intro items
    rw [List.cons_append, BoundedFifo.run, ih]
    rfl

/-- A `Push` and a `Pop` on an empty ring move both indices by one. -/
theorem MRSWRing.run_pairs {T : Type} [Inhabited T] (v : T) (k : Nat) :
    ∀ q : MRSWRing T, q.r_ = q.w_ → q.r_ + k < 2 ^ 32 →
      (q.run (List.replicate k [QueueCall.Push v, QueueCall.Pop]).flatten).2.r_ = q.r_ + k ∧
      (q.run (List.replicate k [QueueCall.Push v, QueueCall.Pop]).flatten).2.w_ = q.r_ + k ∧
      (q.run (List.replicate k [QueueCall.Push v, QueueCall.Pop]).flatten).2.data_.length =
        q.data_.length := by
  induction k with
  | zero =>
    intro q hq _
    exact ⟨rfl, hq.symm, rfl⟩
  | succ k ih =>
    intro q hq hk
    have hfull : q.IsFull = false := by
      simp [MRSWRing.IsFull, MRSWRing.IsEmpty, hq]
    have hw1 : (q.w_ + 1) % 2 ^ 32 = q.w_ + 1 := Nat.mod_eq_of_lt (by omega)
    have hpush : q.Push v =
        (true, MRSWRing.mk (q.data_.set (q.w_ % q.data_.length) v) q.r_ (q.w_ + 1)) := by
      unfold MRSWRing.Push
      rw [hfull, hw1]
      rfl
    have hempty :
        (MRSWRing.mk (q.data_.set (q.w_ % q.data_.length) v) q.r_ (q.w_ + 1)).IsEmpty = false := by
      simp [MRSWRing.IsEmpty, hq]
    have hr1 : (q.r_ + 1) % 2 ^ 32 = q.r_ + 1 := Nat.mod_eq_of_lt (by omega)
    obtain ⟨h1, h2, h3⟩ := ih
      (MRSWRing.mk (q.data_.set (q.w_ % q.data_.length) v) (q.r_ + 1) (q.w_ + 1))
      (by dsimp only; omega) (by dsimp only; omega)
    have hstep : (q.run [QueueCall.Push v, QueueCall.Pop]).2 =
        MRSWRing.mk (q.data_.set (q.w_ % q.data_.length) v) (q.r_ + 1) (q.w_ + 1) := by
      simp only [MRSWRing.run, MRSWRing.call, hpush, MRSWRing.Pop, hempty, Bool.false_eq_true,
        if_false, hr1]
    rw [List.replicate_succ, List.flatten_cons, MRSWRing.run_append, hstep]
    dsimp only at h1 h2 h3 ⊢
    rw [h1, h2, h3, List.length_set]
    exact ⟨by omega, by omega, rfl⟩

/-- A `Push` and a `Pop` on an empty queue of capacity at least 1 leave it empty. -/
theorem BoundedFifo.pairs_leave_empty {T : Type} (cap : Nat) (hcap : 1 ≤ cap) (v : T) (k : Nat) :
    (BoundedFifo.run cap ([] : List T)
      (List.replicate k [QueueCall.Push v, QueueCall.Pop]).flatten).2 = [] := by
  induction k with
  | zero => rfl
  | succ k ih =>
    have hstep : (BoundedFifo.run cap ([] : List T) [QueueCall.Push v, QueueCall.Pop]).2 = [] := by
      have h0 : ¬ ([] : List T).length = cap := by
        rw [List.length_nil]
        omega
      simp only [BoundedFifo.run, BoundedFifo.call, if_neg h0, List.nil_append]
    rw [List.replicate_succ, List.flatten_cons, BoundedFifo.run_split, hstep]
    exact ih

/-- A ring of capacity 3 whose indices both stand at `2^32 - 1` after `k` times
a `Push` and a `Pop`: the second `Push` that follows is refused. -/
theorem MRSWRing.run_pairs_wrap (k : Nat) (hk : k = 4294967295) :
    ((MRSWRing.create 3 : MRSWRing Nat).run
        ((List.replicate k [QueueCall.Push 0, QueueCall.Pop]).flatten ++
          [QueueCall.Push 1, QueueCall.Push 2])).1.getLast? = some (false, none) ∧
    (BoundedFifo.run 3 ([] : List Nat)
        ((List.replicate k [QueueCall.Push 0, QueueCall.Pop]).flatten ++
          [QueueCall.Push 1, QueueCall.Push 2])).1.getLast? = some (true, none) ∧
    (BoundedFifo.run 3 ([] : List Nat)
        ((List.replicate k [QueueCall.Push 0, QueueCall.Pop]).flatten ++
          [QueueCall.Push 1, QueueCall.Push 2])).2 = [1, 2] := by
  have hc : (MRSWRing.create 3 : MRSWRing Nat).r_ = 0 := rfl
  obtain ⟨h1, h2, h3⟩ := MRSWRing.run_pairs (0 : Nat) k
    (MRSWRing.create 3 : MRSWRing Nat) rfl (by rw [hc, hk]; norm_num)
  have hf := BoundedFifo.pairs_leave_empty 3 (by omega) (0 : Nat) k
  rw [MRSWRing.run_append, BoundedFifo.run_split, hf]
  generalize ((MRSWRing.create 3 : MRSWRing Nat).run
    (List.replicate k [QueueCall.Push 0, QueueCall.Pop]).flatten).2 = q at h1 h2 h3
  generalize ((MRSWRing.create 3 : MRSWRing Nat).run
    (List.replicate k [QueueCall.Push 0, QueueCall.Pop]).flatten).1 = res1
  generalize (BoundedFifo.run 3 ([] : List Nat)
    (List.replicate k [QueueCall.Push 0, QueueCall.Pop]).flatten).1 = res2
  have hr : q.r_ = 4294967295 := by rw [h1, hc, hk]
  have hw : q.w_ = 4294967295 := by rw [h2, hc, hk]
  have hl : q.data_.length = 3 := h3
  refine ⟨?_, ?_, ?_⟩
  · have hp1 : q.Push 1 = (true, MRSWRing.mk (q.data_.set 0 1) q.r_ 0) := by
      simp [MRSWRing.Push, MRSWRing.IsFull, MRSWRing.IsEmpty, hr, hw, hl]
    have hp2 : (MRSWRing.mk (q.data_.set 0 1) q.r_ 0).Push 2 =
        (false, MRSWRing.mk (q.data_.set 0 1) q.r_ 0) := by
      simp [MRSWRing.Push, MRSWRing.IsFull, MRSWRing.IsEmpty, hr, hl]
    simp [MRSWRing.run, MRSWRing.call, hp1, hp2]
  · simp [BoundedFifo.run, BoundedFifo.call]
  · simp [BoundedFifo.run, BoundedFifo.call]

/-- C21 (counterexample). A ring of capacity 3, after `2^32 - 1` times a `Push`
followed by a `Pop` (so both 32-bit indices stand at `2^32 - 1`): the next
`Push` succeeds and wraps the write index to 0, and the `Push` after it returns
false although the ring holds one value only, where a bounded FIFO queue of
capacity 3 accepts it and then holds the two values. -/
theorem ring_of_three_refuses_push_after_wrap :
    ((MRSWRing.create 3 : MRSWRing Nat).run
        ((List.replicate 4294967295 [QueueCall.Push 0, QueueCall.Pop]).flatten ++
          [QueueCall.Push 1, QueueCall.Push 2])).1.getLast? = some (false, none) ∧
    (BoundedFifo.run 3 ([] : List Nat)
        ((List.replicate 4294967295 [QueueCall.Push 0, QueueCall.Pop]).flatten ++
          [QueueCall.Push 1, QueueCall.Push 2])).1.getLast? = some (true, none) ∧
    (BoundedFifo.run 3 ([] : List Nat)
        ((List.replicate 4294967295 [QueueCall.Push 0, QueueCall.Pop]).flatten ++
          [QueueCall.Push 1, QueueCall.Push 2])).2 = [1, 2] :=
  MRSWRing.run_pairs_wrap 4294967295 rfl

/-- C21 (amended). For every capacity `n >= 1` and every sequential series of
`Push` and `Pop` calls on a new ring, provided that `n` divides `2^32` and is
below it, or that the series holds fewer than `2^32` `Push` calls (so the write
index does not wrap): every call returns what a bounded FIFO queue of capacity
`n` returns (`Push` returns false exactly when `n` values are held and stores
the value otherwise, `Pop` returns false exactly when none is held and returns
the oldest otherwise), and the unsigned difference `w_ - r_` is the number of
values held, which is at most `n`. -/
theorem ring_is_bounded_fifo_while_safe {T : Type} [Inhabited T] (n : Nat) (hn : 1 ≤ n)
    (ops : List (QueueCall T))
    (hsafe : (n ∣ 2 ^ 32 ∧ n < 2 ^ 32) ∨ pushCount ops < 2 ^ 32) :
    ((MRSWRing.create n : MRSWRing T).run ops).1 = (BoundedFifo.run n [] ops).1 ∧
    ((MRSWRing.create n : MRSWRing T).run ops).2.Size = (BoundedFifo.run n [] ops).2.length ∧
    (BoundedFifo.run n ([] : List T) ops).2.length ≤ n := by
  obtain ⟨h1, R2, W2, h2, h3⟩ := MRSWRing.Holds.run hn (pushCount ops) hsafe ops
    (MRSWRing.create n : MRSWRing T) [] 0 0 (MRSWRing.create_holds n) (by omega)
  refine ⟨h1, ?_, h2.bound⟩
  have hsz := h2.size
  have hbd := h2.bound
  have hs : MRSWRing.Safe n W2 := MRSWRing.Safe.mono hsafe h3
  unfold MRSWRing.Size
  rw [h2.r, h2.w, hs.size (by omega) (by omega)]
  omega

/-- Witness of `ring_is_bounded_fifo_while_safe`: a ring of capacity 2 filled,
refused a third value, and emptied. -/
theorem ring_is_bounded_fifo_while_safe_witness :
    1 ≤ 2 ∧ ((2 ∣ 2 ^ 32 ∧ 2 < 2 ^ 32) ∨
      pushCount [QueueCall.Push 7, QueueCall.Push 8, QueueCall.Push 9, QueueCall.Pop,
        QueueCall.Pop, QueueCall.Pop] < 2 ^ 32) ∧
    ((MRSWRing.create 2 : MRSWRing Nat).run
        [QueueCall.Push 7, QueueCall.Push 8, QueueCall.Push 9, QueueCall.Pop, QueueCall.Pop,
          QueueCall.Pop]).1 =
      [(true, none), (true, none), (false, none), (true, some 7), (true, some 8),
        (false, none)] ∧
    ((MRSWRing.create 2 : MRSWRing Nat).run
        [QueueCall.Push 7, QueueCall.Push 8, QueueCall.Push 9, QueueCall.Pop, QueueCall.Pop,
          QueueCall.Pop]).1 =
      (BoundedFifo.run 2 [] [QueueCall.Push 7, QueueCall.Push 8, QueueCall.Push 9,
        QueueCall.Pop, QueueCall.Pop, QueueCall.Pop]).1 :=
  ⟨by decide, Or.inr (by decide), by decide,
   (ring_is_bounded_fifo_while_safe 2 (by decide)
      [QueueCall.Push 7, QueueCall.Push 8, QueueCall.Push 9, QueueCall.Pop, QueueCall.Pop,
        QueueCall.Pop] (Or.inr (by decide))).1⟩

/-! ### `ScratchAllocator::Scoped` -/

theorem ScratchAllocator.AllocAligned_loop_chunks (alignment size : Nat) (next : List Arena) :
    ∀ (cur : Arena) (s : ScratchAllocator) (ptr_aligned : Nat),
      s.chunks <+: (ScratchAllocator.AllocAligned.loop alignment size cur next s
        ptr_aligned).1.chunks := by
  induction next with
  | nil =>
    intro cur s p
    unfold ScratchAllocator.AllocAligned.loop
    dsimp only
    split_ifs
    · exact List.prefix_append _ _
    · exact List.prefix_refl _
  | cons nxt rest ih =>
    intro cur s p
    unfold ScratchAllocator.AllocAligned.loop
    dsimp only
    split_ifs
    · exact ih nxt { s with cur_arena_ := s.cur_arena_ + 1, cur_ptr_ := nxt.Begin } _
    · exact List.prefix_refl _

theorem ScratchAllocator.AllocAligned_chunks (s : ScratchAllocator) (alignment size : Nat) :
    s.chunks <+: (s.AllocAligned alignment size).2.chunks :=
  ScratchAllocator.AllocAligned_loop_chunks alignment size _ _ s _

/-- A handler only adds chunks at the end of the chain. -/
theorem ScratchHandler.run_chunks (handler : ScratchHandler) :
    ∀ s : ScratchAllocator, s.chunks <+: (handler.run s).chunks := by
  induction handler with
  | done =>
    intro s
    exact List.prefix_refl _
  | Alloc size k ih =>
    intro s
    exact (ScratchAllocator.AllocAligned_chunks s 16 size).trans
      (ih (s.Alloc size).1 (s.Alloc size).2)
  | AllocAligned alignment size k ih =>
    intro s
    exact (ScratchAllocator.AllocAligned_chunks s alignment size).trans
      (ih (s.AllocAligned alignment size).1 (s.AllocAligned alignment size).2)
  | Free mem k ih =>
    intro s
    exact ih s
  | Purge k ih =>
    intro s
    exact ih s.Purge
  | SizeAllocated k ih =>
    intro s
    exact ih s.SizeAllocated s
  | Scoped handler k ih1 ih2 =>
    intro s
    exact (ih1 s).trans
      (ih2 { handler.run s with cur_arena_ := s.cur_arena_, cur_ptr_ := s.cur_ptr_ })

theorem ScratchAllocator.SizeAllocated_loop_append (cur_arena_ : Nat) (more : List Arena)
    (chain : List Arena) :
    ∀ (i sz : Nat), i ≤ cur_arena_ → cur_arena_ < i + chain.length →
      ScratchAllocator.SizeAllocated.loop cur_arena_ (chain ++ more) i sz =
        ScratchAllocator.SizeAllocated.loop cur_arena_ chain i sz := by
  induction chain with
  | nil =>
    intro i sz h1 h2
    simp only [List.length_nil, Nat.add_zero] at h2
    omega
  | cons c rest ih =>
    intro i sz h1 h2
    rw [List.cons_append, ScratchAllocator.SizeAllocated.loop,
      ScratchAllocator.SizeAllocated.loop]
    rw [List.length_cons] at h2
    by_cases hi : cur_arena_ = i
    · rw [if_neg (not_not.mpr hi), if_neg (not_not.mpr hi)]
    · rw [if_pos hi, if_pos hi]
      exact ih _ _ (by omega) (by omega)

/-- C22. For every handler (any series of `Alloc`, `AllocAligned`, `Free`,
`Purge`, `SizeAllocated` and nested `Scoped` calls, each free to depend on what
the calls before returned) and every allocator state whose current chunk is in
the chain: after `Scoped(handler)` the current chunk and the bump pointer are
those before the call, the chain still starts with the chunks it had, and
`SizeAllocated()` returns what it returned before the call. -/
theorem scoped_restores_size_allocated (s : ScratchAllocator) (handler : ScratchHandler)
    (hcur : s.cur_arena_ < s.chunks.length) :
    (s.Scoped handler).SizeAllocated = s.SizeAllocated ∧
    (s.Scoped handler).cur_arena_ = s.cur_arena_ ∧
    (s.Scoped handler).cur_ptr_ = s.cur_ptr_ ∧
    (s.Scoped handler).cur = s.cur ∧
    s.chunks <+: (s.Scoped handler).chunks := by
  obtain ⟨more, hmore⟩ := ScratchHandler.run_chunks handler s
  have hch : (s.Scoped handler).chunks = s.chunks ++ more := hmore.symm
  have hcurr : (s.Scoped handler).cur = s.cur := by
    unfold ScratchAllocator.cur
    rw [hch]
    show (s.chunks ++ more).getD s.cur_arena_ _ = _
    rw [List.getD_eq_getElem?_getD, List.getD_eq_getElem?_getD, List.getElem?_append_left hcur]
  refine ⟨?_, rfl, rfl, hcurr, ⟨more, hmore⟩⟩
  unfold ScratchAllocator.SizeAllocated
  rw [hcurr, hch]
  show (ScratchAllocator.SizeAllocated.loop s.cur_arena_ (s.chunks ++ more) 0 0 +
    (s.cur_ptr_ + 2 ^ 64 - s.cur.Begin) % 2 ^ 64) % 2 ^ 64 = _
  rw [ScratchAllocator.SizeAllocated_loop_append _ _ _ _ _ (Nat.zero_le _) (by omega)]

/-- Witness of `scoped_restores_size_allocated`: an allocator with a head chunk
of 1024 bytes and a handler that allocates 2048 bytes, which forces a second
chunk. -/
theorem scoped_restores_size_allocated_witness :
    (ScratchAllocator.create 1024 spacedAllocator).cur_arena_ <
      (ScratchAllocator.create 1024 spacedAllocator).chunks.length ∧
    ((ScratchAllocator.create 1024 spacedAllocator).Scoped
      (ScratchHandler.Alloc 2048 fun _ => ScratchHandler.done)).chunks.length = 2 ∧
    (ScratchAllocator.create 1024 spacedAllocator).SizeAllocated = 0 ∧
    ((ScratchAllocator.create 1024 spacedAllocator).Scoped
      (ScratchHandler.Alloc 2048 fun _ => ScratchHandler.done)).SizeAllocated =
      (ScratchAllocator.create 1024 spacedAllocator).SizeAllocated :=
  ⟨by decide, by decide, by decide,
   (scoped_restores_size_allocated (ScratchAllocator.create 1024 spacedAllocator)
      (ScratchHandler.Alloc 2048 fun _ => ScratchHandler.done) (by decide)).1⟩

/-! ### `detail::AlignPointer` -/

/-- Masking with the complement of `2^k - 1` clears the low `k` bits. -/
theorem land_not_low_mask (x k : Nat) (hx : x < 2 ^ 64) (hk : k < 64) :
    x &&& ((2 ^ 64 - 1) ^^^ (2 ^ k - 1)) = x / 2 ^ k * 2 ^ k := by
  apply Nat.eq_of_testBit_eq
  intro i
  rw [Nat.testBit_and, Nat.testBit_xor, Nat.testBit_two_pow_sub_one,
    Nat.testBit_two_pow_sub_one, ← Nat.shiftRight_eq_div_pow, ← Nat.shiftLeft_eq,
    Nat.testBit_shiftLeft, Nat.testBit_shiftRight]
  by_cases h1 : i < k
  · have h2 : i < 64 := by omega
    simp [h1, h2]
  · by_cases h2 : i < 64
    · have h3 : k + (i - k) = i := by omega
      simp [h1, h2, h3]
      intro h4
      omega
    · have h3 : k + (i - k) = i := by omega
      have h4 : x.testBit i = false :=
        Nat.testBit_lt_two_pow (lt_of_lt_of_le hx (Nat.pow_le_pow_right (by decide) (by omega)))
      simp [h1, h2, h3, h4]

/-- For a power of two `2^k` below `2^64` and a pointer that can be rounded up
within 64 bits, `AlignPointer` returns the least multiple of `2^k` that is not
below the pointer. -/
theorem detail.AlignPointer_spec (ptr k : Nat) (hk : k < 64) (hp : ptr + 2 ^ k ≤ 2 ^ 64) :
    2 ^ k ∣ detail.AlignPointer ptr (2 ^ k) ∧ ptr ≤ detail.AlignPointer ptr (2 ^ k) ∧
    detail.AlignPointer ptr (2 ^ k) < ptr + 2 ^ k := by
  have hpos : 0 < 2 ^ k := Nat.two_pow_pos k
  have hlt : 2 ^ k < 2 ^ 64 := Nat.pow_lt_pow_right (by decide) hk
  have e1 : (ptr + 2 ^ k + 2 ^ 64 - 1) % 2 ^ 64 = ptr + 2 ^ k - 1 := by
    have : ptr + 2 ^ k + 2 ^ 64 - 1 = (ptr + 2 ^ k - 1) + 2 ^ 64 := by omega
    rw [this, Nat.add_mod_right, Nat.mod_eq_of_lt (by omega)]
  have e2 : (2 ^ k + 2 ^ 64 - 1) % 2 ^ 64 = 2 ^ k - 1 := by
    have : 2 ^ k + 2 ^ 64 - 1 = (2 ^ k - 1) + 2 ^ 64 := by omega
    rw [this, Nat.add_mod_right, Nat.mod_eq_of_lt (by omega)]
  unfold detail.AlignPointer
  rw [e1, e2, land_not_low_mask _ k (by omega) hk]
  have h1 := Nat.div_mul_le_self (ptr + 2 ^ k - 1) (2 ^ k)
  have h2 := Nat.lt_div_mul_add (a := ptr + 2 ^ k - 1) hpos
  refine ⟨Nat.dvd_mul_left _ _, ?_, ?_⟩
  · omega
  · omega

/-! ### `ScratchAllocator::AllocAligned` -/

theorem ScratchAllocator.cur_of_split (s : ScratchAllocator) (pre next : List Arena)
    (cur : Arena) (h1 : s.chunks = pre ++ cur :: next) (h2 : s.cur_arena_ = pre.length) :
    s.cur = cur := by
  unfold ScratchAllocator.cur
  rw [h1, h2, List.getD_eq_getElem?_getD, List.getElem?_append_right (Nat.le_refl _),
    Nat.sub_self]
  simp

/-- The loop of `AllocAligned` ends on a chunk that holds the aligned block. -/
theorem ScratchAllocator.AllocAligned_loop_spec (k size : Nat) (hk : k < 64)
    (next : List Arena) :
    ∀ (pre : List Arena) (cur : Arena) (s : ScratchAllocator) (p : Nat),
      s.chunks = pre ++ cur :: next → s.cur_arena_ = pre.length →
      (∀ c ∈ s.chunks, c.bytes_ ≤ c.bytes_end_ ∧ c.bytes_end_ + 2 ^ k + size ≤ 2 ^ 64) →
      2 ^ k ∣ p → cur.Begin ≤ p → p + size < 2 ^ 64 →
      2 ^ k ∣ s.real_allocator_ s.chunks.length (2 ^ k)
          (max (s.total_size_ * 2 % 2 ^ 64) size) →
      s.real_allocator_ s.chunks.length (2 ^ k) (max (s.total_size_ * 2 % 2 ^ 64) size) +
          max (s.total_size_ * 2 % 2 ^ 64) size < 2 ^ 64 →
      2 ^ k ∣ (ScratchAllocator.AllocAligned.loop (2 ^ k) size cur next s p).2 ∧
      (ScratchAllocator.AllocAligned.loop (2 ^ k) size cur next s p).1.cur.Begin ≤
        (ScratchAllocator.AllocAligned.loop (2 ^ k) size cur next s p).2 ∧
      (ScratchAllocator.AllocAligned.loop (2 ^ k) size cur next s p).2 + size ≤
        (ScratchAllocator.AllocAligned.loop (2 ^ k) size cur next s p).1.cur.End ∧
      (ScratchAllocator.AllocAligned.loop (2 ^ k) size cur next s p).1.cur_arena_ <
        (ScratchAllocator.AllocAligned.loop (2 ^ k) size cur next s p).1.chunks.length ∧
      (ScratchAllocator.AllocAligned.loop (2 ^ k) size cur next s p).1.cur ∈
        (ScratchAllocator.AllocAligned.loop (2 ^ k) size cur next s p).1.chunks ∧
      (∀ c ∈ (ScratchAllocator.AllocAligned.loop (2 ^ k) size cur next s p).1.chunks,
        c.bytes_ ≤ c.bytes_end_ ∧ c.bytes_end_ < 2 ^ 64) ∧
      (ScratchAllocator.AllocAligned.loop (2 ^ k) size cur next s p).2 + size < 2 ^ 64 := by
  have hpos : 0 < 2 ^ k := Nat.two_pow_pos k
  induction next with
  | nil =>
    intro pre cur s p hch hidx hok hdvd hge hlt hr1 hr2
    have hcur := ScratchAllocator.cur_of_split s pre [] cur hch hidx
    have hmem : cur ∈ s.chunks := by
      rw [hch]
      simp
    have hok2 : ∀ c ∈ s.chunks, c.bytes_ ≤ c.bytes_end_ ∧ c.bytes_end_ < 2 ^ 64 := by
      intro c hc
      have := hok c hc
      omega
    unfold ScratchAllocator.AllocAligned.loop
    dsimp only
    split_ifs with hcond
    · generalize hcs : max (s.total_size_ * 2 % 2 ^ 64) size = csize at hr1 hr2 ⊢
      generalize haddr : s.real_allocator_ s.chunks.length (2 ^ k) csize = addr at hr1 hr2 ⊢
      have hsz : size ≤ csize := by
        rw [← hcs]
        exact Nat.le_max_right _ _
      have hcreated : Arena.Create s.real_allocator_ s.chunks.length csize (2 ^ k) =
          { bytes_ := addr, bytes_end_ := addr + csize } := by
        unfold Arena.Create
        rw [haddr, Nat.mod_eq_of_lt hr2]
      rw [hcreated]
      have hcur2 : ScratchAllocator.cur
          { real_allocator_ := s.real_allocator_,
            chunks := s.chunks ++ [{ bytes_ := addr, bytes_end_ := addr + csize }],
            cur_arena_ := s.chunks.length,
            cur_ptr_ := Arena.Begin { bytes_ := addr, bytes_end_ := addr + csize },
            total_size_ := (s.total_size_ +
              Arena.Size { bytes_ := addr, bytes_end_ := addr + csize }) % 2 ^ 64 } =
          { bytes_ := addr, bytes_end_ := addr + csize } :=
        ScratchAllocator.cur_of_split _ s.chunks [] _ rfl rfl
      rw [hcur2]
      refine ⟨hr1, Nat.le_refl _, ?_, ?_, ?_, ?_, ?_⟩
      · show addr + size ≤ addr + csize
        omega
      · show s.chunks.length < (s.chunks ++ [_]).length
        simp
      · show _ ∈ s.chunks ++ [_]
        simp
      · intro c hc
        have hc2 : c ∈ s.chunks ++ [{ bytes_ := addr, bytes_end_ := addr + csize }] := hc
        rcases List.mem_append.mp hc2 with hc3 | hc3
        · exact hok2 c hc3
        · rw [List.mem_singleton.mp hc3]
          dsimp only
          omega
      · show addr + size < 2 ^ 64
        omega
    · rw [hcur]
      rw [Nat.mod_eq_of_lt hlt] at hcond
      exact ⟨hdvd, hge, by omega, by rw [hidx, hch]; simp, hmem, hok2, hlt⟩
  | cons nxt rest ih =>
    intro pre cur s p hch hidx hok hdvd hge hlt hr1 hr2
    have hcur := ScratchAllocator.cur_of_split s pre (nxt :: rest) cur hch hidx
    have hmem : cur ∈ s.chunks := by
      rw [hch]
      simp
    have hok2 : ∀ c ∈ s.chunks, c.bytes_ ≤ c.bytes_end_ ∧ c.bytes_end_ < 2 ^ 64 := by
      intro c hc
      have := hok c hc
      omega
    unfold ScratchAllocator.AllocAligned.loop
    dsimp only
    split_ifs with hcond
    · have hnx : nxt ∈ s.chunks := by
        rw [hch]
        simp
      have hn := hok nxt hnx
      obtain ⟨a1, a2, a3⟩ := detail.AlignPointer_spec nxt.Begin k hk (by
        show nxt.bytes_ + 2 ^ k ≤ 2 ^ 64
        omega)
      have a4 : nxt.Begin = nxt.bytes_ := rfl
      exact ih (pre ++ [cur]) nxt
        { s with cur_arena_ := s.cur_arena_ + 1, cur_ptr_ := nxt.Begin }
        (detail.AlignPointer nxt.Begin (2 ^ k))
        (by rw [List.append_assoc]; exact hch)
        (by rw [List.length_append, List.length_singleton]; exact congrArg (· + 1) hidx)
        hok a1 a2 (by omega) hr1 hr2
    · rw [hcur]
      rw [Nat.mod_eq_of_lt hlt] at hcond
      exact ⟨hdvd, hge, by omega, by rw [hidx, hch]; simp, hmem, hok2, hlt⟩

/-- C23 (counterexample). An allocator whose head chunk is the 4096 bytes at
`[65536, 69632)`: `AllocAligned(16, 2^64 - 16)` returns the address 65536 and
leaves the bump pointer at 65520, because `ptr_aligned + size` wraps around to
65520, which is not above the end of the chunk; the block of `2^64 - 16` bytes
at 65536 does not end within the chunk. -/
theorem huge_block_is_not_within_chunk :
    ((ScratchAllocator.create 4096 spacedAllocator).AllocAligned 16
        18446744073709551600).1 = 65536 ∧
    ((ScratchAllocator.create 4096 spacedAllocator).AllocAligned 16
        18446744073709551600).2.cur = { bytes_ := 65536, bytes_end_ := 69632 } ∧
    ((ScratchAllocator.create 4096 spacedAllocator).AllocAligned 16
        18446744073709551600).2.cur_ptr_ = 65520 ∧
    ¬ (((ScratchAllocator.create 4096 spacedAllocator).AllocAligned 16
        18446744073709551600).1 + 18446744073709551600 ≤
       ((ScratchAllocator.create 4096 spacedAllocator).AllocAligned 16
        18446744073709551600).2.cur.End) := by
  decide

/-- C23 (amended). For every alignment `2^k` below `2^64` and every size, on an
allocator state with a current chunk, provided that no chunk ends within
`alignment + size` bytes of the end of the 64-bit address space (so that
`ptr_aligned + size` does not wrap around) and that the backing allocator, if
it is asked for a new chunk, returns an address that is a multiple of the
alignment for a chunk that lies within the address space:
`AllocAligned(2^k, size)` returns an address that is a multiple of `2^k`, the
block of `size` bytes starts and ends within the chunk that is current
afterwards (the old current chunk, a retained chunk further along the chain, or
a new one), the bump pointer is left at the end of the block, and the state
keeps a current chunk; `Alloc(size)` is `AllocAligned(16, size)`, so for `k = 4`
its address is a multiple of 16. -/
theorem alloc_aligned_block_within_chunk (s : ScratchAllocator) (k size : Nat) (hk : k < 64)
    (hwf : s.Wf)
    (hfit : ∀ c ∈ s.chunks, c.bytes_end_ + 2 ^ k + size ≤ 2 ^ 64)
    (hreal : 2 ^ k ∣ s.real_allocator_ s.chunks.length (2 ^ k)
        (max (s.total_size_ * 2 % 2 ^ 64) size) ∧
      s.real_allocator_ s.chunks.length (2 ^ k) (max (s.total_size_ * 2 % 2 ^ 64) size) +
        max (s.total_size_ * 2 % 2 ^ 64) size < 2 ^ 64) :
    2 ^ k ∣ (s.AllocAligned (2 ^ k) size).1 ∧
    (s.AllocAligned (2 ^ k) size).2.cur ∈ (s.AllocAligned (2 ^ k) size).2.chunks ∧
    (s.AllocAligned (2 ^ k) size).2.cur.Begin ≤ (s.AllocAligned (2 ^ k) size).1 ∧
    (s.AllocAligned (2 ^ k) size).1 + size ≤ (s.AllocAligned (2 ^ k) size).2.cur.End ∧
    (s.AllocAligned (2 ^ k) size).2.cur_ptr_ = (s.AllocAligned (2 ^ k) size).1 + size ∧
    (s.AllocAligned (2 ^ k) size).2.Wf ∧
    (k = 4 → s.Alloc size = s.AllocAligned (2 ^ k) size ∧ 16 ∣ (s.Alloc size).1) := by
  have hlt := hwf.cur_lt
  have hsplit : s.chunks = s.chunks.take s.cur_arena_ ++
      s.chunks[s.cur_arena_] :: s.chunks.drop (s.cur_arena_ + 1) := by
    rw [← List.drop_eq_getElem_cons hlt, List.take_append_drop]
  have hlen : s.cur_arena_ = (s.chunks.take s.cur_arena_).length := by
    rw [List.length_take]
    omega
  have hcur : s.cur = s.chunks[s.cur_arena_] :=
    ScratchAllocator.cur_of_split s _ _ _ hsplit hlen
  have hmem : s.cur ∈ s.chunks := by
    rw [hcur]
    exact List.getElem_mem _
  have hc1 := hwf.chunk_ok _ hmem
  have hc2 := hfit _ hmem
  have hge := hwf.ptr_ge
  have hle := hwf.ptr_le
  have hb : s.cur.Begin = s.cur.bytes_ := rfl
  have he : s.cur.End = s.cur.bytes_end_ := rfl
  obtain ⟨a1, a2, a3⟩ := detail.AlignPointer_spec s.cur_ptr_ k hk (by omega)
  have hok : ∀ c ∈ s.chunks, c.bytes_ ≤ c.bytes_end_ ∧ c.bytes_end_ + 2 ^ k + size ≤ 2 ^ 64 :=
    fun c hc => ⟨(hwf.chunk_ok c hc).1, hfit c hc⟩
  obtain ⟨r1, r2, r3, r4, r5, r6, r7⟩ := ScratchAllocator.AllocAligned_loop_spec k size hk
    (s.chunks.drop (s.cur_arena_ + 1)) (s.chunks.take s.cur_arena_) s.cur s
    (detail.AlignPointer s.cur_ptr_ (2 ^ k)) (by rw [hcur]; exact hsplit) hlen hok a1
    (by omega) (by omega) hreal.1 hreal.2
  have hmain : 2 ^ k ∣ (s.AllocAligned (2 ^ k) size).1 ∧
      (s.AllocAligned (2 ^ k) size).2.cur ∈ (s.AllocAligned (2 ^ k) size).2.chunks ∧
      (s.AllocAligned (2 ^ k) size).2.cur.Begin ≤ (s.AllocAligned (2 ^ k) size).1 ∧
      (s.AllocAligned (2 ^ k) size).1 + size ≤ (s.AllocAligned (2 ^ k) size).2.cur.End ∧
      (s.AllocAligned (2 ^ k) size).2.cur_ptr_ = (s.AllocAligned (2 ^ k) size).1 + size ∧
      (s.AllocAligned (2 ^ k) size).2.Wf := by
    unfold ScratchAllocator.AllocAligned
    dsimp only
    generalize ScratchAllocator.AllocAligned.loop (2 ^ k) size s.cur
      (s.chunks.drop (s.cur_arena_ + 1)) s (detail.AlignPointer s.cur_ptr_ (2 ^ k)) = r
      at r1 r2 r3 r4 r5 r6 r7
    have hcr : ScratchAllocator.cur { r.1 with cur_ptr_ := (r.2 + size) % 2 ^ 64 } = r.1.cur :=
      rfl
    rw [hcr, Nat.mod_eq_of_lt r7]
    have w1 : r.1.cur.Begin ≤ r.2 + size := by omega
    exact ⟨r1, r5, r2, r3, rfl, ⟨r4, w1, r3, r6⟩⟩
  refine ⟨hmain.1, hmain.2.1, hmain.2.2.1, hmain.2.2.2.1, hmain.2.2.2.2.1, hmain.2.2.2.2.2, ?_⟩
  intro h4
  subst h4
  exact ⟨rfl, hmain.1⟩

/-- Witness of `alloc_aligned_block_within_chunk`: an allocator with a head chunk
of 1024 bytes that has allocated 2048 bytes (in a second chunk) and was purged;
`AllocAligned(512, 1500)` passes the head chunk and takes the block from the
retained second chunk at 131072. -/
theorem alloc_aligned_block_within_chunk_witness :
    (((ScratchAllocator.create 1024 spacedAllocator).Alloc 2048).2.Purge).Wf ∧
    ((((ScratchAllocator.create 1024 spacedAllocator).Alloc 2048).2.Purge).AllocAligned
      (2 ^ 9) 1500).1 = 131072 ∧
    ((((ScratchAllocator.create 1024 spacedAllocator).Alloc 2048).2.Purge).AllocAligned
      (2 ^ 9) 1500).2.cur_arena_ = 1 ∧
    2 ^ 9 ∣ ((((ScratchAllocator.create 1024 spacedAllocator).Alloc 2048).2.Purge).AllocAligned
      (2 ^ 9) 1500).1 ∧
    ((((ScratchAllocator.create 1024 spacedAllocator).Alloc 2048).2.Purge).AllocAligned
      (2 ^ 9) 1500).1 + 1500 ≤
      ((((ScratchAllocator.create 1024 spacedAllocator).Alloc 2048).2.Purge).AllocAligned
        (2 ^ 9) 1500).2.cur.End :=
  ⟨⟨by decide, by decide, by decide, by decide⟩, by decide, by decide,
   (alloc_aligned_block_within_chunk
      (((ScratchAllocator.create 1024 spacedAllocator).Alloc 2048).2.Purge) 9 1500 (by decide)
      ⟨by decide, by decide, by decide, by decide⟩ (by decide) ⟨by decide, by decide⟩).1,
   (alloc_aligned_block_within_chunk
      (((ScratchAllocator.create 1024 spacedAllocator).Alloc 2048).2.Purge) 9 1500 (by decide)
      ⟨by decide, by decide, by decide, by decide⟩ (by decide)
      ⟨by decide, by decide⟩).2.2.2.1⟩

/-! ### Registration of a task's event with the reactor -/

theorem WorkerThread.getD_mapTask (w : WorkerThread) (task : Nat) (f : Task → Task) :
    (w.mapTask task f).tasks.getD task none = (w.tasks.getD task none).map f := by
  unfold WorkerThread.mapTask
  simp only [List.getD_eq_getElem?_getD, List.getElem?_modify, if_true]
  cases w.tasks[task]? with
  | none => rfl
  | some t => rfl

/-- `Task::Suspend` leaves the current task suspended and control in the main
context, and registers nothing. -/
theorem Task.Suspend_spec (w : WorkerThread) (task : Nat)
    (hcur : w.exec_.current_task_ = some task) :
    (Task.Suspend w).in_fiber = false ∧ (Task.Suspend w).events_ = w.events_ ∧
    (Task.Suspend w).exec_ = w.exec_ ∧ (Task.Suspend w).running_ = w.running_ ∧
    (Task.Suspend w).State task = (w.State task).map fun _ => TaskState.Suspended := by
  unfold Task.Suspend
  rw [hcur]
  refine ⟨rfl, rfl, rfl, rfl, ?_⟩
  unfold WorkerThread.State
  show ((w.mapTask task _).tasks.getD task none).map _ = _
  rw [WorkerThread.getD_mapTask]
  cases w.tasks.getD task none with
  | none => rfl
  | some t => rfl

/-- When the fiber of the current task hands control back, control is in the
main context, nothing has been registered, and a pending event means that the
task is suspended. -/
theorem Task.proceed_spec (w : WorkerThread) (task : Nat)
    (hcur : w.exec_.current_task_ = some task) (hpend : w.exec_.has_pending_event_ = false) :
    (Task.proceed w task).in_fiber = false ∧ (Task.proceed w task).events_ = w.events_ ∧
    ((Task.proceed w task).exec_.has_pending_event_ = true →
      (Task.proceed w task).State task = some TaskState.Suspended) := by
  unfold Task.proceed
  cases hf : (w.tasks.getD task none).map (fun t => t.func_) with
  | none => exact ⟨rfl, rfl, fun h => absurd (hpend.symm.trans h) (by decide)⟩
  | some calls =>
    cases calls with
    | nil => exact ⟨rfl, rfl, fun h => absurd (hpend.symm.trans h) (by decide)⟩
    | cons call rest =>
      have hsome : ∃ t, w.tasks.getD task none = some t := by
        cases ht : w.tasks.getD task none with
        | none =>
          rw [ht] at hf
          exact absurd hf (by simp)
        | some t => exact ⟨t, rfl⟩
      obtain ⟨t, ht⟩ := hsome
      have hstate : ∀ (e : ExecutionState) (b : Bool) (r : Bool),
          WorkerThread.State
            { exec_ := e, running_ := r, local_task_queue_ := w.local_task_queue_,
              tasks := (w.mapTask task (fun t => { t with func_ := rest })).tasks,
              events_ := w.events_, in_fiber := b } task = some t.state_ := by
        intro e b r
        unfold WorkerThread.State
        show ((w.mapTask task _).tasks.getD task none).map _ = _
        rw [WorkerThread.getD_mapTask, ht]
        rfl
      dsimp only
      cases call with
      | WaitEvent event_source event_flags =>
        obtain ⟨h1, h2, _, _, h5⟩ := Task.Suspend_spec
          { exec_ := { w.exec_ with pending_event_ := some event_source,
                                    pending_event_flags_ := event_flags,
                                    has_pending_event_ := true },
            running_ := w.running_, local_task_queue_ := w.local_task_queue_,
            tasks := (w.mapTask task (fun t => { t with func_ := rest })).tasks,
            events_ := w.events_, in_fiber := true } task hcur
        rw [hstate] at h5
        exact ⟨h1, h2, fun _ => h5⟩
      | Yield =>
        obtain ⟨h1, h2, h3, _, _⟩ := Task.Suspend_spec
          { exec_ := { w.exec_ with yield_ := true },
            running_ := w.running_, local_task_queue_ := w.local_task_queue_,
            tasks := (w.mapTask task (fun t => { t with func_ := rest })).tasks,
            events_ := w.events_, in_fiber := true } task hcur
        refine ⟨h1, h2, fun h => ?_⟩
        have h6 : (TaskContext.Yield
            { exec_ := w.exec_, running_ := w.running_,
              local_task_queue_ := w.local_task_queue_,
              tasks := (w.mapTask task (fun t => { t with func_ := rest })).tasks,
              events_ := w.events_, in_fiber := true }).exec_.has_pending_event_ = false := by
          show (Task.Suspend _).exec_.has_pending_event_ = false
          rw [h3]
          exact hpend
        exact absurd (h6.symm.trans h) (by decide)
      | Exit =>
        obtain ⟨h1, h2, h3, _, _⟩ := Task.Suspend_spec
          { exec_ := w.exec_,
            running_ := false, local_task_queue_ := w.local_task_queue_,
            tasks := (w.mapTask task (fun t => { t with func_ := rest })).tasks,
            events_ := w.events_, in_fiber := true } task hcur
        refine ⟨h1, h2, fun h => ?_⟩
        have h6 : (TaskContext.Exit
            { exec_ := w.exec_, running_ := w.running_,
              local_task_queue_ := w.local_task_queue_,
              tasks := (w.mapTask task (fun t => { t with func_ := rest })).tasks,
              events_ := w.events_, in_fiber := true }).exec_.has_pending_event_ = false :=
          (congrArg ExecutionState.has_pending_event_ h3).trans hpend
        exact absurd (h6.symm.trans h) (by decide)

/-- `PostTask` after the fiber has handed control back. -/
theorem WorkerThread.PostTask_idle (w : WorkerThread) (task : Nat) (hmain : w.in_fiber = false)
    (hsafe : ∀ c ∈ w.events_, c.Safe)
    (hpend : w.exec_.has_pending_event_ = true → w.State task = some TaskState.Suspended) :
    (w.PostTask task).Idle := by
  unfold WorkerThread.PostTask
  by_cases hp : w.exec_.has_pending_event_ = true
  · rw [if_pos hp]
    refine ⟨hmain, rfl, ?_⟩
    intro c hc
    have hc2 : c ∈ w.events_ ++
        [{ event_source := w.exec_.pending_event_.getD 0,
           event_flags := w.exec_.pending_event_flags_, user_handle := task,
           task_state := w.State task, in_fiber := w.in_fiber }] := hc
    rcases List.mem_append.mp hc2 with h | h
    · exact hsafe c h
    · rw [List.mem_singleton.mp h]
      exact ⟨hmain, hpend hp⟩
  · have hp2 : w.exec_.has_pending_event_ = false := by
      cases hb : w.exec_.has_pending_event_ with
      | true => exact absurd hb hp
      | false => rfl
    rw [if_neg hp]
    by_cases hy : w.exec_.yield_ = true
    · rw [if_pos hy]
      unfold WorkerThread.QueueTask
      split_ifs
      · exact ⟨hmain, hp2, hsafe⟩
      · exact ⟨hmain, hp2, hsafe⟩
    · rw [if_neg hy]
      exact ⟨hmain, hp2, hsafe⟩

theorem WorkerThread.RunTask_idle (w : WorkerThread) (task : Nat) (h : w.Idle) :
    (w.RunTask task).Idle := by
  have hrun : ∀ w1 : WorkerThread, w1.exec_ = (w.PreTask task).exec_ → w1.events_ = w.events_ →
      ((Task.proceed w1 task).PostTask task).Idle := by
    intro w1 he hev
    obtain ⟨p1, p2, p3⟩ := Task.proceed_spec w1 task (by rw [he]; rfl)
      (by rw [he]; exact h.pending)
    exact WorkerThread.PostTask_idle _ task p1 (by rw [p2, hev]; exact h.safe) p3
  unfold WorkerThread.RunTask
  split_ifs
  · exact hrun _ rfl rfl
  · exact hrun _ rfl rfl
  · exact h

theorem WorkerThread.step_idle (w : WorkerThread) (s : WorkerStep) (h : w.Idle) :
    (w.step s).Idle := by
  cases s with
  | Event user_handle =>
    cases user_handle with
    | none => exact h
    | some task =>
      unfold WorkerThread.step WorkerThread.QueueTask
      split_ifs
      · exact h
      · exact ⟨h.main, h.pending, h.safe⟩
  | Dequeue =>
    unfold WorkerThread.step
    cases hq : w.local_task_queue_ with
    | nil => exact h
    | cons task rest =>
      exact WorkerThread.RunTask_idle _ task ⟨h.main, h.pending, h.safe⟩
  | Steal task => exact WorkerThread.RunTask_idle w task h

theorem WorkerThread.steps_idle (schedule : List WorkerStep) :
    ∀ w : WorkerThread, w.Idle → (w.steps schedule).Idle := by
  induction schedule with
  | nil =>
    intro w h
    exact h
  | cons s rest ih =>
    intro w h
    exact ih _ (WorkerThread.step_idle w s h)

/-- C30. On a worker that starts with tasks not yet started, whatever the tasks'
functions call (`WaitEvent`, `Yield`, `Exit`, in any number and order) and
whatever the series of triggered events and dequeued tasks: every
`EventQueue::AddEvent` with a task as tag is made by `PostTask` when control is
in the main context of the worker and that task's state is `Suspended`, never
while it is `Executing`.  `TaskContext::WaitEvent` itself registers nothing: it
records the source and the flags in the pending slot of the worker, leaves the
current task `Suspended` and passes control to the main context.  (A task that
waits for an event is registered: the third part is such a run.) -/
theorem add_event_only_after_suspend (funcs : List (List FiberCall))
    (schedule : List WorkerStep) :
    (∀ c ∈ ((WorkerThread.create funcs).steps schedule).events_, c.Safe) ∧
    (∀ (w : WorkerThread) (task event_source event_flags : Nat),
      w.exec_.current_task_ = some task → (w.State task).isSome = true →
      (TaskContext.WaitEvent w event_source event_flags).events_ = w.events_ ∧
      (TaskContext.WaitEvent w event_source event_flags).exec_.pending_event_ =
        some event_source ∧
      (TaskContext.WaitEvent w event_source event_flags).exec_.pending_event_flags_ =
        event_flags ∧
      (TaskContext.WaitEvent w event_source event_flags).exec_.has_pending_event_ = true ∧
      (TaskContext.WaitEvent w event_source event_flags).State task =
        some TaskState.Suspended ∧
      (TaskContext.WaitEvent w event_source event_flags).in_fiber = false) ∧
    ((WorkerThread.create [[FiberCall.WaitEvent 7 3]]).steps [WorkerStep.Steal 0]).events_ =
      [{ event_source := 7, event_flags := 3, user_handle := 0,
         task_state := some TaskState.Suspended, in_fiber := false }] := by
  refine ⟨?_, ?_, by decide⟩
  · exact (WorkerThread.steps_idle schedule (WorkerThread.create funcs)
      ⟨rfl, rfl, by intro c hc; exact absurd hc (List.not_mem_nil c)⟩).safe
  · intro w task event_source event_flags hcur hst
    obtain ⟨h1, h2, h3, _, h5⟩ := Task.Suspend_spec
      { w with exec_ := { w.exec_ with pending_event_ := some event_source,
                                       pending_event_flags_ := event_flags,
                                       has_pending_event_ := true } } task hcur
    have hst2 : ∃ s, w.State task = some s := Option.isSome_iff_exists.mp hst
    obtain ⟨s, hs⟩ := hst2
    have h6 : WorkerThread.State
        { w with exec_ := { w.exec_ with pending_event_ := some event_source,
                                         pending_event_flags_ := event_flags,
                                         has_pending_event_ := true } } task = w.State task := rfl
    rw [h6, hs] at h5
    unfold TaskContext.WaitEvent
    rw [h3]
    exact ⟨h2, rfl, rfl, rfl, h5, h1⟩

/-- Witness of `add_event_only_after_suspend`: a task that waits for an event on
source 7 and is run once. -/
theorem add_event_only_after_suspend_witness :
    ((WorkerThread.create [[FiberCall.WaitEvent 7 3]]).PreTask 0).exec_.current_task_ = some 0 ∧
    (((WorkerThread.create [[FiberCall.WaitEvent 7 3]]).PreTask 0).State 0).isSome = true ∧
    (TaskContext.WaitEvent ((WorkerThread.create [[FiberCall.WaitEvent 7 3]]).PreTask 0)
      7 3).events_ = [] ∧
    ∀ c ∈ ((WorkerThread.create [[FiberCall.WaitEvent 7 3], [FiberCall.Yield]]).steps
      [WorkerStep.Steal 0, WorkerStep.Steal 1, WorkerStep.Dequeue]).events_, c.Safe :=
  ⟨rfl, by decide,
   ((add_event_only_after_suspend [[FiberCall.WaitEvent 7 3]] []).2.1
      ((WorkerThread.create [[FiberCall.WaitEvent 7 3]]).PreTask 0) 0 7 3 rfl (by decide)).1,
   (add_event_only_after_suspend [[FiberCall.WaitEvent 7 3], [FiberCall.Yield]]
      [WorkerStep.Steal 0, WorkerStep.Steal 1, WorkerStep.Dequeue]).1⟩

namespace slang

/-- C34. A term outside all parentheses that is ended by the end of the input
is accepted: `abc` lexes successfully with no callback, and so does `(a) b`
after the callbacks of `(a)`, while the same terms followed by a space fail
with `Expected opening bracket`. -/
theorem term_at_end_of_input_is_accepted :
    (Lexer.RunText noFloat countingHandler 16 { handler_ := 0, err_description_ := [] }
        (bytes "abc")).map (fun d => (d.result, d.calls)) =
      some (LexerResult.success, []) ∧
    (Lexer.RunText noFloat countingHandler 16 { handler_ := 0, err_description_ := [] }
        (bytes "abc ")).map (fun d => (d.result, d.calls)) =
      some (LexerResult.failure
        { err_line_no_ := 1, err_line_offset_ := 4,
          err_msg_ := bytes "Expected opening bracket" }, []) ∧
    (Lexer.RunText noFloat countingHandler 16 { handler_ := 0, err_description_ := [] }
        (bytes "(a) b")).map (fun d => (d.result, d.calls)) =
      some (LexerResult.success, [Callback.LexerBeginOp (bytes "a"), Callback.LexerEndOp]) ∧
    (Lexer.RunText noFloat countingHandler 16 { handler_ := 0, err_description_ := [] }
        (bytes "(a) b ")).map (fun d => (d.result, d.calls)) =
      some (LexerResult.failure
        { err_line_no_ := 1, err_line_offset_ := 6,
          err_msg_ := bytes "Expected opening bracket" },
        [Callback.LexerBeginOp (bytes "a"), Callback.LexerEndOp]) := by
  decide!

end slang

/-- The loop of `TaskManager::Run` started with `index` equal to the slot ends
with `index = num_threads_` after giving every slot its own number. -/
theorem TaskManager.Run.loop_spec (n : Nat) :
    ∀ (fuel m : Nat) (s : TaskManager.Started), m ≤ n → n - m < fuel →
      TaskManager.Run.loop n fuel m m s =
        some (n, { threads_ := s.threads_ ++ (List.range' m (n - m)).map fun k => (k, k),
                   before_thread_start :=
                     s.before_thread_start ++ (List.range' m (n - m)).map fun k => ⟨k, k⟩ }) := by
  intro fuel
  induction fuel with
  | zero => intro m s _ h; omega
  | succ fuel ih =>
    intro m s hm hf
    unfold TaskManager.Run.loop
    by_cases h : m = n
    · subst h; simp
    · rw [if_neg h]
      rw [ih (m + 1) _ (by omega) (by omega)]
      have e : n - m = (n - (m + 1)) + 1 := by omega
      rw [e, List.range'_succ]
      simp

/-- For every positive number of workers `TaskManager::Run` returns; the hook
of slot `k ≥ 1` gets `k`, the hook of slot 0 comes last and gets
`num_threads_`, and the worker of slot 0 has `index_ = 0`. -/
theorem TaskManager.Run_spec (n : Nat) (h : 0 < n) :
    TaskManager.Run n =
      some { threads_ := ((List.range' 1 (n - 1)).map fun k => (k, k)) ++ [(0, 0)],
             before_thread_start :=
               ((List.range' 1 (n - 1)).map fun k => (⟨k, k⟩ : ThreadHookCall)) ++ [⟨n, 0⟩] } := by
  unfold TaskManager.Run
  rw [if_neg (by omega), TaskManager.Run.loop_spec n n 1 _ (by omega) (by omega)]
  simp

/-- C36. The hook of worker 0 does not get that worker's index: with three
workers `before_thread_start` is invoked with (1, storage 1), (2, storage 2)
and (3, storage 0), whereas `after_thread_stop` is invoked with (0, storage 0)
for worker 0; with one worker the only index passed is 1. -/
theorem worker_zero_hook_gets_thread_count :
    (TaskManager.Run 3).map (fun s => s.before_thread_start) =
      some [⟨1, 1⟩, ⟨2, 2⟩, ⟨3, 0⟩] ∧
    (TaskManager.Run 3).map (fun s => s.after_thread_stop) =
      some [⟨1, 1⟩, ⟨2, 2⟩, ⟨0, 0⟩] ∧
    (TaskManager.Run 1).map (fun s => (s.before_thread_start, s.after_thread_stop)) =
      some ([⟨1, 0⟩], [⟨0, 0⟩]) := by
  decide

/-- C35. `CreateSchema` looks for a duplicate in the vault's cache only, which
it does not refresh: on a new vault over a manager whose list holds the initial
type `int`, `CreateSchema("int")` returns a valid schema and the list holds
`int` twice; creating `T` twice through one vault publishes `T` twice; and a
type created through another vault is published again. After a `FindSchema`
in between the duplicate is found and the list is left unchanged. -/
theorem create_schema_publishes_duplicate_name :
    (((TypeManager.create [{ name := bytes "int", field_count := 0 }]).CreateVault.2.CreateSchema
        0 (bytes "int") 0 true true).map fun r => (r.1, r.2.names)) =
      some (some 1, [bytes "int", bytes "int"]) ∧
    ((((TypeManager.create []).CreateVault.2.CreateSchema 0 (bytes "T") 0 true true).bind
        fun r => r.2.CreateSchema 0 (bytes "T") 0 true true).map fun r => (r.1, r.2.names)) =
      some (some 1, [bytes "T", bytes "T"]) ∧
    ((((TypeManager.create []).CreateVault.2.CreateVault.2.CreateSchema
        0 (bytes "T") 0 true true).bind
        fun r => r.2.CreateSchema 1 (bytes "T") 0 true true).map fun r => (r.1, r.2.names)) =
      some (some 1, [bytes "T", bytes "T"]) ∧
    (((((TypeManager.create []).CreateVault.2.CreateSchema 0 (bytes "T") 0 true true).bind
        fun r => r.2.FindSchema 0 (bytes "T")).bind
        fun r => r.2.CreateSchema 0 (bytes "T") 0 true true).map fun r => (r.1, r.2.names)) =
      some (none, [bytes "T"]) := by
  decide

/-- The values of a clone: the values of `head`, followed by whatever already
hung from `cloned` when `head` is a single node. -/
theorem detail.ConfigValueNode.CloneNode_values (head cloned : detail.ConfigValueNode) :
    (detail.ConfigValueNode.CloneNode head cloned).values =
      head.values ++
        (match head with
          | .last _ => cloned.values.tail
          | .node _ _ => []) := by
  induction head generalizing cloned with
  | last v => cases cloned <;> simp [detail.ConfigValueNode.CloneNode, detail.ConfigValueNode.values]
  | node v rest ih =>
    simp only [detail.ConfigValueNode.CloneNode, detail.ConfigValueNode.values, ih,
      List.append_nil, List.cons.injEq, true_and]
    cases rest <;> simp [detail.ConfigValueNode.values, detail.ConfigValueNode.empty]

/-- C32. Merging does not replace a list by a single value: with `k` set to the
list 1, 2, 3 in `left` and to the single value 9 in `right`, the merged config
holds the list 9, 2, 3 for `k`; a right list of two values 8, 9 does replace
the left list, and a key only in `left` keeps its list. -/
theorem merge_keeps_tail_of_left_list :
    (Config.Merge
        { values_ := [(bytes "k",
            .node (.int 1) (.node (.int 2) (.last (.int 3))))] }
        { values_ := [(bytes "k", .last (.int 9))] }).GetList (bytes "k") =
      some [.int 9, .int 2, .int 3] ∧
    (Config.Merge
        { values_ := [(bytes "k",
            .node (.int 1) (.node (.int 2) (.last (.int 3)))),
            (bytes "j", .node (.int 4) (.last (.int 5)))] }
        { values_ := [(bytes "k", .node (.int 8) (.last (.int 9)))] }).GetList (bytes "k") =
      some [.int 8, .int 9] ∧
    (Config.Merge
        { values_ := [(bytes "k",
            .node (.int 1) (.node (.int 2) (.last (.int 3)))),
            (bytes "j", .node (.int 4) (.last (.int 5)))] }
        { values_ := [(bytes "k", .node (.int 8) (.last (.int 9)))] }).GetList (bytes "j") =
      some [.int 4, .int 5] := by
  decide

/-! ### What `PostTask` does with the state a task left behind -/

namespace slang

/-! ### The order in which the host functions are called -/

theorem calledFns_append {D : Type} (a b : List (Instruction D)) :
    calledFns (a ++ b) = calledFns a ++ calledFns b := by
  simp [calledFns]

theorem calledFns_reverse {D : Type} (a : List (Instruction D)) :
    calledFns a.reverse = (calledFns a).reverse := by
  simp [calledFns, List.filter_reverse]

/-- When no host function fails, the VM calls the function of every `Call`
instruction, in the order of the instructions. -/
theorem Program.ExecuteLoop_fns {D U : Type} (fns : Nat → HostFn D U)
    (hok : ∀ p cc, (fns p cc).1 = true) :
    ∀ (code : List (Instruction D)) (stack : List (TypedValue D)) (cc : CallContext D U),
      (Program.ExecuteLoop fns code stack cc).calls.map (fun r => r.fn) = calledFns code ∧
      ∀ r ∈ (Program.ExecuteLoop fns code stack cc).calls, r.ok = true := by
  intro code
  induction code with
  | nil => intro stack cc; exact ⟨rfl, fun r hr => by cases hr⟩
  | cons instr rest ih =>
    intro stack cc
    unfold Program.ExecuteLoop
    cases hc : instr.code with
    | Call =>
      simp only [hok, Bool.not_true, Bool.false_eq_true, if_false]
      refine ⟨?_, ?_⟩
      · simp only [List.map_cons, (ih _ _).1]
        simp [calledFns, hc]
      · intro r hr
        rcases List.mem_cons.mp hr with h | h
        · rw [h]
        · exact (ih _ _).2 r h
    | Push =>
      refine ⟨?_, ?_⟩
      · show (Program.ExecuteLoop fns rest _ _).calls.map _ = _
        rw [(ih _ _).1]
        simp [calledFns, hc]
      · exact (ih _ _).2
    | Invalid =>
      refine ⟨?_, ?_⟩
      · show (Program.ExecuteLoop fns rest _ _).calls.map _ = _
        rw [(ih _ _).1]
        simp [calledFns, hc]
      · exact (ih _ _).2

mutual
/-- The `Call` instructions emitted for an expression are those of its
operations, in source order. -/
theorem Expr.calledFns_emit {D : Type} (env : Env) :
    ∀ e : Expr D, calledFns (e.emit env) = e.ops.map env.FindCall
  | Expr.lit l => by simp [Expr.emit, Expr.ops, calledFns]
  | Expr.call op_name args => by
    simp only [Expr.emit, Expr.ops, calledFns_append, Args.calledFns_emit_args env args,
      List.map_cons]
    simp [calledFns, Value.get_ptr]
/-- The `Call` instructions emitted for the arguments. -/
theorem Args.calledFns_emit_args {D : Type} (env : Env) :
    ∀ a : Args D, calledFns (a.emit env) = a.ops.map env.FindCall
  | Args.nil => by simp [Args.emit, Args.ops, calledFns]
  | Args.cons e rest => by
    simp only [Args.emit, Args.ops, calledFns_append, Expr.calledFns_emit env e,
      Args.calledFns_emit_args env rest, List.map_append]
end

mutual
/-- Post-order from the right is the reverse of the source order. -/
theorem Expr.postOrderRev_eq {D : Type} : ∀ e : Expr D, e.postOrderRev = e.ops.reverse
  | Expr.lit _ => by simp [Expr.postOrderRev, Expr.ops]
  | Expr.call op_name args => by
    simp [Expr.postOrderRev, Expr.ops, Args.postOrderRev_eq_args args]
/-- Post-order from the right of the arguments. -/
theorem Args.postOrderRev_eq_args {D : Type} : ∀ a : Args D, a.postOrderRev = a.ops.reverse
  | Args.nil => by simp [Args.postOrderRev, Args.ops]
  | Args.cons e rest => by
    simp [Args.postOrderRev, Args.ops, Expr.postOrderRev_eq e, Args.postOrderRev_eq_args rest]
end

/-- C33 (counterexample). For `(+ (- 3 4) (* 2 5))` with the built-in
functions no call fails and the functions are called in the order `*`, `-`,
`+`, while post-order with nested operations from left to right is `-`, `*`,
`+`. -/
theorem nested_operations_run_last_first :
    Compiler.Lexes noFloat 32 builtinEnv (bytes "(+ (- 3 4) (* 2 5))") twoNested ∧
    ((compiledCode noFloat 32 builtinEnv (bytes "(+ (- 3 4) (* 2 5))")).map fun code =>
      (Program.Execute (builtinFns noFloat) { code_ := code } ()).calls.map
        fun r => (r.fn, r.ok)) =
      some [(fn_mul, true), (fn_sub, true), (fn_add, true)] ∧
    twoNested.postOrder.map builtinEnv.FindCall = [fn_sub, fn_mul, fn_add] := by
  unfold Compiler.Lexes
  decide

/-- C33 (amended). For a source text that the lexer, run by `Compiler::Build`,
turns into the handler calls of an expression tree whose operation names are
all functions of the environment, and host functions that never fail:
`Compiler::Build` returns a program, and executing it calls the function of
every operation exactly once, in post-order from the right: for every
operation its nested operations from the last to the first, then the operation
itself. This is the reverse of the order of the opening brackets, and a source
with n operations causes exactly n calls, all of which return ok. -/
theorem host_calls_in_post_order_from_right {D U : Type} (fl : FloatLib D) (fuel : Nat)
    (env : Env) (text : List Nat) (fns : Nat → HostFn D U) (e : Expr D) (user_data : U)
    (hlex : Compiler.Lexes fl fuel env text e) (hknown : e.known env = true)
    (hok : ∀ p cc, (fns p cc).1 = true) :
    ∃ code, compiledCode fl fuel env text = some code ∧
      (Program.Execute fns { code_ := code } user_data).calls.map (fun r => r.fn) =
        e.postOrderRev.map env.FindCall ∧
      e.postOrderRev = e.ops.reverse ∧
      (Program.Execute fns { code_ := code } user_data).calls.length = e.ops.length ∧
      ∀ r ∈ (Program.Execute fns { code_ := code } user_data).calls, r.ok = true := by
  have hcode := Compiler.Build_of_callbacks fl fuel env text e hlex hknown
  have hrun := Program.ExecuteLoop_fns fns hok (e.emit env).reverse []
    { args := [], output := [], error_text := [], user_data := user_data }
  have hfns : (Program.Execute fns { code_ := (e.emit env).reverse } user_data).calls.map
      (fun r => r.fn) = e.postOrderRev.map env.FindCall := by
    unfold Program.Execute
    rw [hrun.1, calledFns_reverse, Expr.calledFns_emit, Expr.postOrderRev_eq, List.map_reverse]
  refine ⟨_, hcode, hfns, Expr.postOrderRev_eq e, ?_, hrun.2⟩
  have hlen := congrArg List.length hfns
  simpa [Expr.postOrderRev_eq] using hlen

/-- C33 (amended) at work on `(+ (- 3 4) (* 2 5))`, with host functions that
leave the call context as it is. -/
theorem host_calls_in_post_order_from_right_witness :
    Compiler.Lexes noFloat 32 builtinEnv (bytes "(+ (- 3 4) (* 2 5))") twoNested ∧
    twoNested.known builtinEnv = true ∧
    ∃ code, compiledCode noFloat 32 builtinEnv (bytes "(+ (- 3 4) (* 2 5))") = some code ∧
      (Program.Execute (fun _ cc => (true, cc)) { code_ := code } ()).calls.map (fun r => r.fn) =
        [fn_mul, fn_sub, fn_add] :=
  have hlex : Compiler.Lexes noFloat 32 builtinEnv (bytes "(+ (- 3 4) (* 2 5))") twoNested := by
    unfold Compiler.Lexes
    decide
  have hknown : twoNested.known builtinEnv = true := by decide
  ⟨hlex, hknown,
    (host_calls_in_post_order_from_right noFloat 32 builtinEnv (bytes "(+ (- 3 4) (* 2 5))")
      (fun _ cc => (true, cc)) twoNested () hlex hknown (fun _ _ => rfl)).imp
      fun _ h => ⟨h.1, h.2.1.trans (by decide)⟩⟩

end slang

/-! ### Successive blocks of the scratch allocator -/

/-- The loop of `AllocAligned` never goes back in the chain, and when it stays
on the current chunk it returns the state and the pointer it was given. -/
theorem ScratchAllocator.AllocAligned_loop_index (alignment size : Nat) (next : List Arena) :
    ∀ (cur : Arena) (s : ScratchAllocator) (p : Nat),
      s.cur_arena_ + next.length < s.chunks.length →
      s.cur_arena_ ≤
        (ScratchAllocator.AllocAligned.loop alignment size cur next s p).1.cur_arena_ ∧
      ((ScratchAllocator.AllocAligned.loop alignment size cur next s p).1.cur_arena_ =
          s.cur_arena_ →
        ScratchAllocator.AllocAligned.loop alignment size cur next s p = (s, p)) := by
  induction next with
  | nil =>
    intro cur s p hlen
    simp only [List.length_nil, Nat.add_zero] at hlen
    unfold ScratchAllocator.AllocAligned.loop
    dsimp only
    split_ifs
    · refine ⟨Nat.le_of_lt hlen, ?_⟩
      intro h
      have h2 : s.chunks.length = s.cur_arena_ := h
      omega
    · exact ⟨Nat.le_refl _, fun _ => rfl⟩
  | cons nxt rest ih =>
    intro cur s p hlen
    simp only [List.length_cons] at hlen
    unfold ScratchAllocator.AllocAligned.loop
    dsimp only
    split_ifs
    · have h := ih nxt { s with cur_arena_ := s.cur_arena_ + 1, cur_ptr_ := nxt.Begin }
        (detail.AlignPointer nxt.Begin alignment) (by
          show s.cur_arena_ + 1 + rest.length < s.chunks.length
          omega)
      have h1 : s.cur_arena_ + 1 ≤ (ScratchAllocator.AllocAligned.loop alignment size nxt rest
          { s with cur_arena_ := s.cur_arena_ + 1, cur_ptr_ := nxt.Begin }
          (detail.AlignPointer nxt.Begin alignment)).1.cur_arena_ := h.1
      refine ⟨by omega, ?_⟩
      intro h2
      omega
    · exact ⟨Nat.le_refl _, fun _ => rfl⟩

/-- One `AllocAligned` with room for the request: the state keeps a current
chunk, the chain only grows at its end, the current chunk does not move back,
the block lies within the chunk that is current afterwards, and when that is
the chunk that was current before, the block starts at or after the old bump
pointer. -/
theorem ScratchAllocator.AllocAligned_step (s : ScratchAllocator) (alignment size : Nat)
    (hwf : s.Wf) (hroom : s.Roomy alignment size) :
    (s.AllocAligned alignment size).2.Wf ∧
    s.chunks <+: (s.AllocAligned alignment size).2.chunks ∧
    s.cur_arena_ ≤ (s.AllocAligned alignment size).2.cur_arena_ ∧
    ((s.AllocAligned alignment size).2.cur_arena_ = s.cur_arena_ →
      s.cur_ptr_ ≤ (s.AllocAligned alignment size).1) ∧
    (s.AllocAligned alignment size).2.cur.Begin ≤ (s.AllocAligned alignment size).1 ∧
    (s.AllocAligned alignment size).1 + size ≤ (s.AllocAligned alignment size).2.cur.End ∧
    (s.AllocAligned alignment size).2.cur_ptr_ = (s.AllocAligned alignment size).1 + size := by
  obtain ⟨⟨k, hk, rfl⟩, hfit, hreal1, hreal2⟩ := hroom
  have hlt := hwf.cur_lt
  have hsplit : s.chunks = s.chunks.take s.cur_arena_ ++
      s.chunks[s.cur_arena_] :: s.chunks.drop (s.cur_arena_ + 1) := by
    rw [← List.drop_eq_getElem_cons hlt, List.take_append_drop]
  have hlen : s.cur_arena_ = (s.chunks.take s.cur_arena_).length := by
    rw [List.length_take]
    omega
  have hcur : s.cur = s.chunks[s.cur_arena_] :=
    ScratchAllocator.cur_of_split s _ _ _ hsplit hlen
  have hmem : s.cur ∈ s.chunks := by
    rw [hcur]
    exact List.getElem_mem _
  have hc1 := hwf.chunk_ok _ hmem
  have hc2 := hfit _ hmem
  have hge := hwf.ptr_ge
  have hle := hwf.ptr_le
  have hb : s.cur.Begin = s.cur.bytes_ := rfl
  have he : s.cur.End = s.cur.bytes_end_ := rfl
  obtain ⟨a1, a2, a3⟩ := detail.AlignPointer_spec s.cur_ptr_ k hk (by omega)
  have hok : ∀ c ∈ s.chunks, c.bytes_ ≤ c.bytes_end_ ∧ c.bytes_end_ + 2 ^ k + size ≤ 2 ^ 64 :=
    fun c hc => ⟨(hwf.chunk_ok c hc).1, hfit c hc⟩
  obtain ⟨r1, r2, r3, r4, r5, r6, r7⟩ := ScratchAllocator.AllocAligned_loop_spec k size hk
    (s.chunks.drop (s.cur_arena_ + 1)) (s.chunks.take s.cur_arena_) s.cur s
    (detail.AlignPointer s.cur_ptr_ (2 ^ k)) (by rw [hcur]; exact hsplit) hlen hok a1
    (by omega) (by omega) hreal1 hreal2
  obtain ⟨i1, i2⟩ := ScratchAllocator.AllocAligned_loop_index (2 ^ k) size
    (s.chunks.drop (s.cur_arena_ + 1)) s.cur s (detail.AlignPointer s.cur_ptr_ (2 ^ k)) (by
      rw [List.length_drop]
      omega)
  have hpre := ScratchAllocator.AllocAligned_chunks s (2 ^ k) size
  refine ⟨?_, hpre, ?_⟩
  · unfold ScratchAllocator.AllocAligned
    dsimp only
    generalize ScratchAllocator.AllocAligned.loop (2 ^ k) size s.cur
      (s.chunks.drop (s.cur_arena_ + 1)) s (detail.AlignPointer s.cur_ptr_ (2 ^ k)) = r
      at r1 r2 r3 r4 r5 r6 r7 i1 i2
    have hcr : ScratchAllocator.cur { r.1 with cur_ptr_ := (r.2 + size) % 2 ^ 64 } = r.1.cur :=
      rfl
    have w1 : r.1.cur.Begin ≤ r.2 + size := by omega
    refine ⟨r4, ?_, ?_, r6⟩
    · rw [hcr]
      show r.1.cur.Begin ≤ (r.2 + size) % 2 ^ 64
      rw [Nat.mod_eq_of_lt r7]
      exact w1
    · rw [hcr]
      show (r.2 + size) % 2 ^ 64 ≤ r.1.cur.End
      rw [Nat.mod_eq_of_lt r7]
      exact r3
  · unfold ScratchAllocator.AllocAligned
    dsimp only
    generalize ScratchAllocator.AllocAligned.loop (2 ^ k) size s.cur
      (s.chunks.drop (s.cur_arena_ + 1)) s (detail.AlignPointer s.cur_ptr_ (2 ^ k)) = r
      at r1 r2 r3 r4 r5 r6 r7 i1 i2
    refine ⟨i1, ?_, r2, r3, ?_⟩
    · intro h
      have := i2 h
      rw [this]
      exact a2
    · show (r.2 + size) % 2 ^ 64 = r.2 + size
      exact Nat.mod_eq_of_lt r7

/-- The chunk at the current position is the current chunk. -/
theorem ScratchAllocator.Wf.cur_get (s : ScratchAllocator) (h : s.Wf) :
    s.chunks[s.cur_arena_]? = some s.cur := by
  unfold ScratchAllocator.cur
  rw [List.getD_eq_getElem?_getD, List.getElem?_eq_getElem h.cur_lt]
  rfl

/-- A block covered before an `AllocAligned` is covered after it. -/
theorem ScratchAllocator.Covers.stays (s : ScratchAllocator) (alignment size : Nat)
    (hwf : s.Wf) (hroom : s.Roomy alignment size) (b : ScratchBlock) (hb : s.Covers b) :
    (s.AllocAligned alignment size).2.Covers b ∧
    (b.chunk = (s.AllocAligned alignment size).2.cur_arena_ →
      b.addr + b.size ≤ (s.AllocAligned alignment size).1) := by
  obtain ⟨w, hpre, hidx, hsame, hbeg, hend, hptr⟩ :=
    ScratchAllocator.AllocAligned_step s alignment size hwf hroom
  obtain ⟨b1, b2, c, b3, b4, b5⟩ := hb
  have key : b.chunk = (s.AllocAligned alignment size).2.cur_arena_ →
      b.addr + b.size ≤ (s.AllocAligned alignment size).1 := by
    intro h
    have h1 : (s.AllocAligned alignment size).2.cur_arena_ = s.cur_arena_ := by omega
    have h2 := hsame h1
    have h3 := b2 (h.trans h1)
    omega
  refine ⟨⟨by omega, ?_, c, ?_, b4, b5⟩, key⟩
  · intro h
    have := key h
    omega
  · obtain ⟨more, hmore⟩ := hpre
    rw [← hmore]
    have hlt : b.chunk < s.chunks.length := by
      rcases Nat.lt_or_ge b.chunk s.chunks.length with h | h
      · exact h
      · rw [List.getElem?_eq_none h] at b3
        cases b3
    rw [List.getElem?_append_left hlt]
    exact b3

/-- The blocks of a series of calls: each is covered by the final state, each
starts at or after the end of every block of the series returned before it
from the same chunk, and the chunk positions do not decrease. Blocks covered
before the series stay covered and end before the blocks of the series that
share their chunk begin. -/
theorem ScratchAllocator.allocs_spec (reqs : List (Nat × Nat)) :
    ∀ s : ScratchAllocator, s.Wf → s.RoomyAll reqs →
      (s.allocs reqs).2.Wf ∧
      s.chunks <+: (s.allocs reqs).2.chunks ∧
      (∀ b, s.Covers b → (s.allocs reqs).2.Covers b ∧
        ∀ b2 ∈ (s.allocs reqs).1, b.chunk ≤ b2.chunk ∧
          (b.chunk = b2.chunk → b.addr + b.size ≤ b2.addr)) ∧
      (∀ b ∈ (s.allocs reqs).1, (s.allocs reqs).2.Covers b) ∧
      (s.allocs reqs).1.Pairwise (fun a b => a.chunk ≤ b.chunk ∧
        (a.chunk = b.chunk → a.addr + a.size ≤ b.addr)) := by
  induction reqs with
  | nil =>
    intro s hwf _
    refine ⟨hwf, List.prefix_refl _, ?_, ?_, List.Pairwise.nil⟩
    · intro b hb
      exact ⟨hb, fun b2 h2 => by cases h2⟩
    · intro b hb
      cases hb
  | cons req rest ih =>
    intro s hwf hroom
    obtain ⟨alignment, size⟩ := req
    obtain ⟨hr1, hr2⟩ := hroom
    obtain ⟨w, hpre, hidx, hsame, hbeg, hend, hptr⟩ :=
      ScratchAllocator.AllocAligned_step s alignment size hwf hr1
    obtain ⟨i1, i2, i3, i4, i5⟩ := ih _ w hr2
    have hnew : (s.AllocAligned alignment size).2.Covers
        { addr := (s.AllocAligned alignment size).1, size := size,
          chunk := (s.AllocAligned alignment size).2.cur_arena_ } :=
      ⟨Nat.le_refl _, fun _ => by rw [hptr], _, ScratchAllocator.Wf.cur_get _ w, hbeg, hend⟩
    show ((_ :: (ScratchAllocator.allocs (s.AllocAligned alignment size).2 rest).1,
        (ScratchAllocator.allocs (s.AllocAligned alignment size).2 rest).2) :
        List ScratchBlock × ScratchAllocator).2.Wf ∧ _
    dsimp only
    refine ⟨i1, hpre.trans i2, ?_, ?_, ?_⟩
    · intro b hb
      obtain ⟨k1, k2⟩ := ScratchAllocator.Covers.stays s alignment size hwf hr1 b hb
      refine ⟨(i3 b k1).1, ?_⟩
      intro b2 h2
      rcases List.mem_cons.mp h2 with h | h
      · rw [h]
        exact ⟨k1.1, k2⟩
      · exact (i3 b k1).2 b2 h
    · intro b hb
      rcases List.mem_cons.mp hb with h | h
      · rw [h]
        exact (i3 _ hnew).1
      · exact i4 b h
    · exact List.Pairwise.cons (fun b2 h2 => (i3 _ hnew).2 b2 h2) i5

/-- C39 (counterexample). On an allocator whose head chunk is the 4096 bytes at
`[65536, 69632)`, `Alloc(2^64 - 16)` followed by `Alloc(32)` returns the blocks
at 65536 and at 65520: the sum `ptr_aligned + size` wraps around, the second
block starts before the chunk and before the end of the first block, and the
two share the bytes from 65536 on. With the alignment 0, which
`IsValidAlignment` accepts, two calls `AllocAligned(0, 8)` both return the
address 0. -/
theorem wrapped_block_overlaps_next_block :
    ((ScratchAllocator.create 4096 spacedAllocator).allocs
        [(16, 18446744073709551600), (16, 32)]).1 =
      [{ addr := 65536, size := 18446744073709551600, chunk := 0 },
       { addr := 65520, size := 32, chunk := 0 }] ∧
    ((ScratchAllocator.create 4096 spacedAllocator).allocs
        [(16, 18446744073709551600), (16, 32)]).2.chunks =
      [{ bytes_ := 65536, bytes_end_ := 69632 }] ∧
    detail.IsValidAlignment 0 = true ∧
    ((ScratchAllocator.create 4096 spacedAllocator).allocs [(0, 8), (0, 8)]).1 =
      [{ addr := 0, size := 8, chunk := 0 }, { addr := 0, size := 8, chunk := 0 }] := by
  decide

/-- C39 (amended). For a series of `AllocAligned(alignment, size)` calls
(`Alloc(size)` is `AllocAligned(16, size)`) with no `Purge` and no `Scoped` in
between, made on an allocator state with a current chunk, provided that every
alignment is a power of two below `2^64` and that there is room for every
request in the 64-bit address space, so that `ptr_aligned + size` does not
wrap around: every block lies entirely inside the chunk at its position in
the chain as it is at the end, the chain having only grown at its end; the
positions of the chunks do not decrease along the series; each block starts at
or after the end of every block returned before it from the same chunk; and
if the chunks do not overlap one another, no two blocks overlap. -/
theorem scratch_blocks_do_not_overlap (s : ScratchAllocator) (reqs : List (Nat × Nat))
    (hwf : s.Wf) (hroom : s.RoomyAll reqs) :
    (∀ b ∈ (s.allocs reqs).1, ∃ c, (s.allocs reqs).2.chunks[b.chunk]? = some c ∧
      c.Begin ≤ b.addr ∧ b.addr + b.size ≤ c.End) ∧
    (s.allocs reqs).1.Pairwise (fun a b => a.chunk ≤ b.chunk ∧
      (a.chunk = b.chunk → a.addr + a.size ≤ b.addr)) ∧
    s.chunks <+: (s.allocs reqs).2.chunks ∧
    ((s.allocs reqs).2.chunks.Pairwise (fun c d => c.End ≤ d.Begin ∨ d.End ≤ c.Begin) →
      (s.allocs reqs).1.Pairwise
        (fun a b => a.addr + a.size ≤ b.addr ∨ b.addr + b.size ≤ a.addr)) := by
  obtain ⟨_, h2, _, h4, h5⟩ := ScratchAllocator.allocs_spec reqs s hwf hroom
  refine ⟨fun b hb => (h4 b hb).2.2, h5, h2, ?_⟩
  intro hch
  refine List.Pairwise.imp_of_mem ?_ h5
  intro a b ha hb hab
  obtain ⟨ca, ha1, ha2, ha3⟩ := (h4 a ha).2.2
  obtain ⟨cb, hb1, hb2, hb3⟩ := (h4 b hb).2.2
  rcases Nat.lt_or_ge a.chunk b.chunk with hlt | hge
  · have hbl : b.chunk < (s.allocs reqs).2.chunks.length := by
      rcases Nat.lt_or_ge b.chunk (s.allocs reqs).2.chunks.length with h | h
      · exact h
      · rw [List.getElem?_eq_none h] at hb1
        cases hb1
    have hal : a.chunk < (s.allocs reqs).2.chunks.length := by omega
    have hrel := List.pairwise_iff_getElem.mp hch a.chunk b.chunk hal hbl hlt
    rw [List.getElem?_eq_getElem hal] at ha1
    rw [List.getElem?_eq_getElem hbl] at hb1
    rw [Option.some.inj ha1, Option.some.inj hb1] at hrel
    rcases hrel with h | h
    · exact Or.inl (by omega)
    · exact Or.inr (by omega)
  · exact Or.inl (hab.2 (by omega))

/-- C39 (amended) at work: from a new allocator with a head chunk of 4096 bytes,
blocks of 100, 200, 5000, 0 and 8 bytes; the third does not fit and opens a
second chunk. -/
theorem scratch_blocks_do_not_overlap_witness :
    ((ScratchAllocator.create 4096 spacedAllocator).allocs
        [(16, 100), (64, 200), (16, 5000), (16, 0), (16, 8)]).1 =
      [{ addr := 65536, size := 100, chunk := 0 }, { addr := 65664, size := 200, chunk := 0 },
       { addr := 131072, size := 5000, chunk := 1 }, { addr := 136080, size := 0, chunk := 1 },
       { addr := 136080, size := 8, chunk := 1 }] ∧
    ((ScratchAllocator.create 4096 spacedAllocator).allocs
        [(16, 100), (64, 200), (16, 5000), (16, 0), (16, 8)]).1.Pairwise
      (fun a b => a.addr + a.size ≤ b.addr ∨ b.addr + b.size ≤ a.addr) :=
  ⟨by decide,
   (scratch_blocks_do_not_overlap (ScratchAllocator.create 4096 spacedAllocator)
      [(16, 100), (64, 200), (16, 5000), (16, 0), (16, 8)]
      ⟨by decide, by decide, by decide, by decide⟩
      ⟨⟨⟨4, by decide, by decide⟩, by decide, by decide, by decide⟩,
       ⟨⟨6, by decide, by decide⟩, by decide, by decide, by decide⟩,
       ⟨⟨4, by decide, by decide⟩, by decide, by decide, by decide⟩,
       ⟨⟨4, by decide, by decide⟩, by decide, by decide, by decide⟩,
       ⟨⟨4, by decide, by decide⟩, by decide, by decide, by decide⟩,
       trivial⟩).2.2.2 (by decide)⟩

namespace slang

/-! ### `begin_op` and `end_op` calls of a run -/

theorem opExcess_nil {D : Type} : opExcess ([] : List (Callback D)) = 0 := rfl

theorem opExcess_cons_begin {D : Type} (name : List Nat) (S : List (Callback D)) :
    opExcess (Callback.LexerBeginOp name :: S) = opExcess S - 1 := by
  simp only [opExcess, beginOps, endOps, List.countP_cons, Callback.isBegin, Callback.isEnd]
  simp only [if_true, Bool.false_eq_true, if_false]
  push_cast
  omega

theorem opExcess_cons_end {D : Type} (S : List (Callback D)) :
    opExcess (Callback.LexerEndOp :: S) = opExcess S + 1 := by
  simp only [opExcess, beginOps, endOps, List.countP_cons, Callback.isBegin, Callback.isEnd]
  simp only [if_true, Bool.false_eq_true, if_false]
  push_cast
  omega

theorem opExcess_cons_other {D : Type} (c : Callback D) (S : List (Callback D))
    (hb : c.isBegin = false) (he : c.isEnd = false) : opExcess (c :: S) = opExcess S := by
  simp only [opExcess, beginOps, endOps, List.countP_cons, hb, he]
  simp

theorem Bal.empty {D : Type} (n : Int) (hn : n ≤ 0) : Bal n ([] : List (Callback D)) := by
  refine ⟨?_, hn⟩
  intro T hT
  rw [List.suffix_nil.mp hT]
  exact Int.le_refl _

theorem Bal.weaken {D : Type} (n m : Int) (S : List (Callback D)) (h : Bal n S) (hm : m ≤ n) :
    Bal m S :=
  ⟨h.suffix, Int.le_trans hm h.least⟩

theorem Bal.opening {D : Type} (n : Int) (name : List Nat) (S : List (Callback D))
    (h : Bal n S) (hn : 1 ≤ n) : Bal (n - 1) (Callback.LexerBeginOp name :: S) := by
  have hl := h.least
  refine ⟨?_, ?_⟩
  · intro T hT
    rcases List.suffix_cons_iff.mp hT with e | hs
    · rw [e, opExcess_cons_begin]
      omega
    · exact h.suffix T hs
  · rw [opExcess_cons_begin]
    omega

theorem Bal.closing {D : Type} (n : Int) (S : List (Callback D)) (h : Bal n S) :
    Bal (n + 1) (Callback.LexerEndOp :: S) := by
  have hl := h.least
  have h0 := h.suffix S (List.suffix_refl S)
  refine ⟨?_, ?_⟩
  · intro T hT
    rcases List.suffix_cons_iff.mp hT with e | hs
    · rw [e, opExcess_cons_end]
      omega
    · exact h.suffix T hs
  · rw [opExcess_cons_end]
    omega

theorem Bal.neutral {D : Type} (n : Int) (c : Callback D) (S : List (Callback D))
    (h : Bal n S) (hb : c.isBegin = false) (he : c.isEnd = false) : Bal n (c :: S) := by
  have hl := h.least
  have h0 := h.suffix S (List.suffix_refl S)
  refine ⟨?_, ?_⟩
  · intro T hT
    rcases List.suffix_cons_iff.mp hT with e | hs
    · rw [e, opExcess_cons_other c S hb he]
      exact h0
    · exact h.suffix T hs
  · rw [opExcess_cons_other c S hb he]
    exact hl

/-- The calls of `FinalizeTerm` for a term at a positive depth, put before a
balanced rest: the name of an operation takes one `end_op` from what is owed. -/
theorem termAction_bal {D H : Type} (fl : FloatLib D) (h : Handler D H) (lx : Lexer H)
    (type : TermType) (term : List Nat) (was_escaped : Bool) (fail : List Nat → LexerFailure)
    (n : Int) (hn : 1 ≤ n) (S : List (Callback D)) (hS : Bal n S) :
    Bal (n - (if type = TermType.kOp then 1 else 0))
      ((termAction fl h lx type term was_escaped fail).2.1 ++ S) := by
  cases type with
  | kOp =>
    have e : (n - (if TermType.kOp = TermType.kOp then 1 else 0) : Int) = n - 1 := by simp
    rw [e]
    unfold termAction
    dsimp only
    split_ifs
    · exact Bal.weaken _ _ _ hS (by omega)
    · exact Bal.weaken _ _ _ hS (by omega)
    · exact Bal.opening n term S hS hn
  | kValue =>
    have e : (n - (if TermType.kValue = TermType.kOp then 1 else 0) : Int) = n := by simp
    rw [e]
    unfold termAction
    dsimp only
    split_ifs
    · exact hS
    · cases LexerParseInt64 term with
      | some lval => exact Bal.neutral n _ S hS rfl rfl
      | none =>
        dsimp only
        cases LexerParseDouble fl term with
        | some dval => exact Bal.neutral n _ S hS rfl rfl
        | none =>
          dsimp only
          cases (h.LexerUnhandledValue lx.handler_ term).1 with
          | none => exact Bal.neutral n _ S hS rfl rfl
          | some err_msg =>
            dsimp only
            split_ifs <;> exact Bal.neutral n _ S hS rfl rfl
  | kStr =>
    have e : (n - (if TermType.kStr = TermType.kOp then 1 else 0) : Int) = n := by simp
    rw [e]
    exact Bal.neutral n _ S hS rfl rfl

theorem LexerState.Term_type (st : LexerState) : st.Term.2.term_type_ = st.term_type_ := by
  unfold LexerState.Term
  split_ifs
  · unfold LexerState.SaveTerm
    cases st.term_begin_ <;> rfl
  · cases st.term_begin_ <;> rfl

theorem LexerState.NextChar_ops (st : LexerState) :
    st.NextChar.2.op_depth_ = st.op_depth_ ∧ st.NextChar.2.term_type_ = st.term_type_ := by
  unfold LexerState.NextChar
  dsimp only
  split_ifs
  · unfold LexerState.RefillBuffer
    dsimp only
    have hs : (st.SaveTerm st.BufferEnd).op_depth_ = st.op_depth_ ∧
        (st.SaveTerm st.BufferEnd).term_type_ = st.term_type_ := by
      unfold LexerState.SaveTerm
      cases st.term_begin_ <;> exact ⟨rfl, rfl⟩
    rcases hr : (st.SaveTerm st.BufferEnd).stream_.RefillAvailable with ⟨ok, r⟩
    cases ok
    · exact hs
    · exact hs
  · exact ⟨rfl, rfl⟩

theorem LexerState.NextChar_owed (st : LexerState) : st.NextChar.2.owed = st.owed := by
  unfold LexerState.owed
  rw [(LexerState.NextChar_ops st).1, (LexerState.NextChar_ops st).2]

theorem skipComment_owed : ∀ (fuel : Nat) (st st2 : LexerState),
    skipComment fuel st = some st2 → st2.owed = st.owed := by
  intro fuel
  induction fuel with
  | zero => intro st st2 h; simp [skipComment] at h
  | succ n ih =>
    intro st st2 h
    unfold skipComment at h
    dsimp only at h
    split_ifs at h
    · simp only [Option.some.injEq] at h
      rw [← h]
      exact LexerState.NextChar_owed st
    · rw [ih _ _ h]
      exact LexerState.NextChar_owed st

theorem readPayloadTag_depth : ∀ (k token : Nat) (st : LexerState),
    (readPayloadTag k token st).2.2.op_depth_ = st.op_depth_ := by
  intro k
  induction k with
  | zero =>
    intro token st
    exact (LexerState.NextChar_ops st).1
  | succ k ih =>
    intro token st
    unfold readPayloadTag
    dsimp only
    split_ifs
    · rw [ih]
      exact (LexerState.NextChar_ops st).1
    · exact (LexerState.NextChar_ops st).1

/-- `FinalizeTerm` with a successful result: its calls, put before a balanced
rest that meets what the state afterwards owes, meet what the state before
owes. -/
theorem Lexer.FinalizeTerm_bal {D H : Type} (fl : FloatLib D) (h : Handler D H)
    (lx : Lexer H) (st : LexerState)
    (hres : (Lexer.FinalizeTerm fl h lx st).result = LexerResult.success)
    (S : List (Callback D)) (hS : Bal (Lexer.FinalizeTerm fl h lx st).state.owed S) :
    Bal st.owed ((Lexer.FinalizeTerm fl h lx st).calls ++ S) := by
  by_cases hT : st.HasTerm = true
  · by_cases hd : st.op_depth_ ≤ 0
    · unfold Lexer.FinalizeTerm at hres
      rw [if_neg (by rw [hT]; decide), if_pos hd] at hres
      cases hres
    · have hdep : (Lexer.FinalizeTerm fl h lx st).state.owed = st.op_depth_ := by
        rw [FinalizeTerm_eq fl h lx st hT (not_le.mp hd)]
        have e1 := (LexerState.Term_depth st).1
        dsimp only
        cases st.Term.2.term_type_
        · simp only [LexerState.owed, LexerState.FinishTerm]
          rw [e1]
          simp
        · simp only [LexerState.owed, LexerState.FinishTerm]
          rw [e1]
          simp
        · simp only [LexerState.owed, LexerState.FinishTerm]
          rw [← e1]
          unfold LexerState.rewriteTerm
          cases st.Term.1.loc <;> simp
      have hcalls : (Lexer.FinalizeTerm fl h lx st).calls =
          (termAction fl h lx st.Term.2.term_type_ st.Term.1.data
            st.Term.2.was_escaped_ st.Term.2.Fail).2.1 := by
        rw [FinalizeTerm_eq fl h lx st hT (not_le.mp hd)]
      rw [hdep] at hS
      rw [hcalls]
      have hb := termAction_bal fl h lx st.Term.2.term_type_ st.Term.1.data
        st.Term.2.was_escaped_ st.Term.2.Fail st.op_depth_ (by omega) S hS
      rw [LexerState.Term_type] at hb ⊢
      exact hb
  · unfold Lexer.FinalizeTerm at hS ⊢
    rw [if_pos (by simp only [Bool.not_eq_true] at hT; rw [hT]; rfl)] at hS ⊢
    exact hS

theorem Lexer.FinalizeTerm_depth {D H : Type} (fl : FloatLib D) (h : Handler D H)
    (lx : Lexer H) (st : LexerState) :
    (Lexer.FinalizeTerm fl h lx st).state.op_depth_ = st.op_depth_ := by
  by_cases hT : st.HasTerm = true
  · by_cases hd : st.op_depth_ ≤ 0
    · unfold Lexer.FinalizeTerm
      rw [if_neg (by rw [hT]; decide), if_pos hd]
    · rw [FinalizeTerm_eq fl h lx st hT (not_le.mp hd)]
      have e1 := (LexerState.Term_depth st).1
      dsimp only
      cases st.Term.2.term_type_
      · exact e1
      · exact e1
      · simp only [LexerState.FinishTerm]
        rw [← e1]
        unfold LexerState.rewriteTerm
        cases st.Term.1.loc <;> rfl
  · unfold Lexer.FinalizeTerm
    rw [if_pos (by simp only [Bool.not_eq_true] at hT; rw [hT]; rfl)]

theorem LexerState.owed_le (st : LexerState) : st.owed ≤ st.op_depth_ := by
  unfold LexerState.owed
  split_ifs <;> omega

theorem LexerState.owed_ge (st : LexerState) : st.op_depth_ - 1 ≤ st.owed := by
  unfold LexerState.owed
  split_ifs <;> omega

theorem Lexer.caseOpen_bal {D H : Type} (fl : FloatLib D) (h : Handler D H)
    (lx : Lexer H) (st : LexerState)
    (hres : (Lexer.caseOpen fl h lx st).2.result = LexerResult.success)
    (S : List (Callback D)) (hS : Bal (Lexer.caseOpen fl h lx st).2.state.owed S) :
    Bal st.owed ((Lexer.caseOpen fl h lx st).2.calls ++ S) := by
  unfold Lexer.caseOpen at hres hS ⊢
  dsimp only at hres hS ⊢
  refine Lexer.FinalizeTerm_bal fl h lx st hres S (Bal.weaken _ _ _ hS ?_)
  have h1 := LexerState.owed_le (Lexer.FinalizeTerm fl h lx st).state
  simp only [LexerState.owed, LexerState.StartTerm, if_true]
  omega

theorem Lexer.caseClose_bal {D H : Type} (fl : FloatLib D) (h : Handler D H)
    (lx : Lexer H) (st : LexerState) :
    (Lexer.caseClose fl h lx st).2.result = LexerResult.success →
    (∀ S : List (Callback D), Bal (Lexer.caseClose fl h lx st).2.state.owed S →
      Bal st.owed ((Lexer.caseClose fl h lx st).2.calls ++ S)) ∧
    ((Lexer.caseClose fl h lx st).1 = Flow.ret →
      (Lexer.caseClose fl h lx st).2.state.owed ≤ 0) := by
  unfold Lexer.caseClose
  dsimp only
  cases hr : (Lexer.FinalizeTerm fl h lx st).result with
  | failure f0 =>
    dsimp only
    split_ifs with hneg hsingle
    · intro hres
      cases hres
    · rw [hr] at hsingle
      simp [LexerResult.IsRight] at hsingle
    · dsimp only
      rw [hr]
      intro hres
      cases hres
  | success =>
    dsimp only
    have key : ∀ S : List (Callback D),
        Bal ((Lexer.FinalizeTerm fl h lx st).state.owed - 1) S →
        Bal st.owed (((Lexer.FinalizeTerm fl h lx st).calls ++ [Callback.LexerEndOp]) ++ S) := by
      intro S hS
      rw [List.append_assoc]
      refine Lexer.FinalizeTerm_bal fl h lx st hr _ ?_
      have := Bal.closing _ S hS
      simpa using this
    have howed : LexerState.owed
        { (Lexer.FinalizeTerm fl h lx st).state with
          op_depth_ := (Lexer.FinalizeTerm fl h lx st).state.op_depth_ - 1 } =
        (Lexer.FinalizeTerm fl h lx st).state.owed - 1 := by
      simp only [LexerState.owed]
      omega
    split_ifs with hneg hsingle
    · intro hres
      cases hres
    · dsimp only
      intro _
      refine ⟨?_, ?_⟩
      · intro S hS
        rw [howed] at hS
        exact key S hS
      · intro _
        rw [howed]
        have h0 : (Lexer.FinalizeTerm fl h lx st).state.op_depth_ - 1 = 0 := hsingle.2.2
        have h1 := LexerState.owed_le (Lexer.FinalizeTerm fl h lx st).state
        omega
    · dsimp only
      intro hres
      refine ⟨?_, ?_⟩
      · intro S hS
        rw [howed] at hS
        exact key S hS
      · intro hf
        rw [hres] at hf
        simp [flowOf, LexerResult.IsRight] at hf

theorem Lexer.caseQuote_bal {D H : Type} (fl : FloatLib D) (h : Handler D H)
    (lx : Lexer H) (st : LexerState) :
    (Lexer.caseQuote fl h lx st).2.result = LexerResult.success →
    ∀ S : List (Callback D), Bal (Lexer.caseQuote fl h lx st).2.state.owed S →
      Bal st.owed ((Lexer.caseQuote fl h lx st).2.calls ++ S) := by
  unfold Lexer.caseQuote
  split_ifs
  · intro hres S hS
    exact Lexer.FinalizeTerm_bal fl h lx st hres S hS
  · dsimp only
    cases hr : (Lexer.FinalizeTerm fl h lx st).result with
    | failure f0 =>
      dsimp only
      rw [hr]
      intro hres
      cases hres
    | success =>
      dsimp only
      intro _ S hS
      refine Lexer.FinalizeTerm_bal fl h lx st hr S (Bal.weaken _ _ _ hS ?_)
      have h1 := LexerState.owed_le (Lexer.FinalizeTerm fl h lx st).state
      simp only [LexerState.owed, LexerState.StartTerm]
      simp only [reduceCtorEq, if_false]
      omega

theorem Lexer.casePayload_bal {D H : Type} (h : Handler D H)
    (lx : Lexer H) (st : LexerState) :
    (Lexer.casePayload (D := D) h lx st).2.result = LexerResult.success →
    ∀ S : List (Callback D), Bal (Lexer.casePayload (D := D) h lx st).2.state.owed S →
      Bal st.owed ((Lexer.casePayload (D := D) h lx st).2.calls ++ S) := by
  unfold Lexer.casePayload
  dsimp only
  split_ifs with h91 h93
  · intro hres
    cases hres
  · dsimp only
    intro _ S hS
    refine Bal.neutral _ _ S (Bal.weaken _ _ _ hS ?_) rfl rfl
    have h1 := LexerState.owed_le st
    have h2 := readPayloadTag_depth 4 0 st
    have h3 := (LexerState.NextChar_ops
      { (readPayloadTag 4 0 st).2.2 with
        stream_ := (h.LexerCustomData lx.handler_ (readPayloadTag 4 0 st).2.1
          (readPayloadTag 4 0 st).2.2.stream_).2.2 }).1
    simp only [LexerState.owed, LexerState.FinishTerm]
    simp only [reduceCtorEq, if_false]
    rw [h3]
    show st.owed ≤ (readPayloadTag 4 0 st).2.2.op_depth_ - 0
    rw [h2]
    omega
  · intro hres
    cases hres

/-- One turn of the main loop: it goes on only after a success, and after a
success its calls, put before a balanced rest that meets what the state
afterwards owes, meet what the state before owes; a turn that returns with
success leaves nothing owed. -/
theorem Lexer.Body_bal {D H : Type} (fl : FloatLib D) (h : Handler D H)
    (fuel c : Nat) (lx : Lexer H) (st : LexerState) (f : Flow) (d : Done D H)
    (hB : Lexer.Body fl h fuel c lx st = some (f, d)) :
    (f = Flow.cont → d.result = LexerResult.success) ∧
    (d.result = LexerResult.success →
      (∀ S : List (Callback D), Bal d.state.owed S → Bal st.owed (d.calls ++ S)) ∧
      (f = Flow.ret → d.state.owed ≤ 0)) := by
  unfold Lexer.Body at hB
  dsimp only at hB
  split_ifs at hB with h1 h2 h3 h4 h5 h6 h7
  · simp only [Option.some.injEq] at hB
    have e1 := congrArg Prod.fst hB
    have e2 := congrArg Prod.snd hB
    dsimp only at e1 e2
    rw [← e2, ← e1]
    unfold Lexer.inString
    dsimp only
    refine ⟨fun _ => rfl, fun _ => ⟨?_, fun hf => by cases hf⟩⟩
    intro S hS
    split_ifs at hS <;> exact hS
  · simp only [Option.some.injEq] at hB
    have e1 := congrArg Prod.fst hB
    have e2 := congrArg Prod.snd hB
    dsimp only at e1 e2
    rw [← e2, ← e1]
    refine ⟨flowOf_cont _, fun hres => ⟨?_, ?_⟩⟩
    · intro S hS
      exact Lexer.caseOpen_bal fl h lx st.ResetEscape hres S hS
    · intro hf
      exact absurd hres (flowOf_ret _ hf)
  · simp only [Option.some.injEq] at hB
    have e1 := congrArg Prod.fst hB
    have e2 := congrArg Prod.snd hB
    dsimp only at e1 e2
    rw [← e2, ← e1]
    exact ⟨Lexer.caseClose_goes_on fl h lx _,
      fun hres => Lexer.caseClose_bal fl h lx st.ResetEscape hres⟩
  · simp only [Option.some.injEq] at hB
    have e1 := congrArg Prod.fst hB
    have e2 := congrArg Prod.snd hB
    dsimp only at e1 e2
    rw [← e2, ← e1]
    refine ⟨Lexer.caseQuote_goes_on fl h lx _, fun hres => ⟨?_, ?_⟩⟩
    · exact Lexer.caseQuote_bal fl h lx st.ResetEscape hres
    · intro hf
      exfalso
      revert hf hres
      unfold Lexer.caseQuote
      split_ifs
      · intro hres hf
        exact flowOf_ret _ hf hres
      · dsimp only
        cases hr : (Lexer.FinalizeTerm fl h lx st.ResetEscape).result with
        | success =>
          intro _ hf
          cases hf
        | failure f0 =>
          dsimp only
          rw [hr]
          intro hres
          cases hres
  · simp only [Option.some.injEq] at hB
    have e1 := congrArg Prod.fst hB
    have e2 := congrArg Prod.snd hB
    dsimp only at e1 e2
    rw [← e2, ← e1]
    refine ⟨Lexer.casePayload_cont h lx _, fun hres => ⟨?_, ?_⟩⟩
    · exact Lexer.casePayload_bal h lx st.ResetEscape hres
    · intro hf
      exfalso
      revert hf hres
      unfold Lexer.casePayload
      dsimp only
      split_ifs
      · intro hres
        cases hres
      · intro hres hf
        exact flowOf_ret _ hf hres
      · intro hres
        cases hres
  · unfold Lexer.caseComment at hB
    cases hs : skipComment fuel st.ResetEscape with
    | none => rw [hs] at hB; cases hB
    | some s =>
      rw [hs] at hB
      simp only [Option.some.injEq] at hB
      have e1 := congrArg Prod.fst hB
      have e2 := congrArg Prod.snd hB
      dsimp only at e1 e2
      rw [← e2, ← e1]
      refine ⟨fun _ => rfl, fun _ => ⟨?_, fun hf => by cases hf⟩⟩
      intro S hS
      have e : s.NewLine.owed = st.owed := skipComment_owed fuel st.ResetEscape s hs
      rw [← e]
      exact hS
  · simp only [Option.some.injEq] at hB
    have e1 := congrArg Prod.fst hB
    have e2 := congrArg Prod.snd hB
    dsimp only at e1 e2
    rw [← e2, ← e1]
    unfold Lexer.caseSpace
    dsimp only
    refine ⟨flowOf_cont _, fun hres => ⟨?_, ?_⟩⟩
    · intro S hS
      by_cases hc : c = 10
      · rw [if_pos hc] at hres hS ⊢
        exact Lexer.FinalizeTerm_bal fl h lx _ hres S hS
      · rw [if_neg hc] at hres hS ⊢
        exact Lexer.FinalizeTerm_bal fl h lx _ hres S hS
    · intro hf
      exact absurd hres (flowOf_ret _ hf)
  · simp only [Option.some.injEq] at hB
    have e1 := congrArg Prod.fst hB
    have e2 := congrArg Prod.snd hB
    dsimp only at e1 e2
    rw [← e2, ← e1]
    unfold Lexer.caseOther
    dsimp only
    refine ⟨fun _ => rfl, fun _ => ⟨?_, fun hf => by cases hf⟩⟩
    intro S hS
    split_ifs at hS
    · refine Bal.weaken _ _ _ hS ?_
      have h1 := LexerState.owed_le st
      simp only [LexerState.owed, LexerState.StartTerm, LexerState.ResetEscape]
      simp only [reduceCtorEq, if_false]
      show st.owed ≤ st.op_depth_ - 0
      omega
    · exact hS

/-- The calls of a successful run from a state meet what the state owes: no
suffix of them has more `begin_op` than `end_op` calls. -/
theorem Lexer.RunLoop_bal {D H : Type} (fl : FloatLib D) (h : Handler D H) :
    ∀ (fuel : Nat) (lx : Lexer H) (st : LexerState) (d : Done D H),
      Lexer.RunLoop fl h fuel lx st = some d → d.result = LexerResult.success →
      Bal st.owed d.calls := by
  intro fuel
  induction fuel with
  | zero =>
    intro lx st d hR
    simp [Lexer.RunLoop] at hR
  | succ n ih =>
    intro lx st d hR hres
    unfold Lexer.RunLoop at hR
    dsimp only at hR
    split_ifs at hR with hc
    · simp only [Option.some.injEq] at hR
      rw [← hR] at hres ⊢
      dsimp only at hres ⊢
      refine Bal.empty _ ?_
      rw [← LexerState.NextChar_owed st]
      have h1 := LexerState.owed_le st.NextChar.2
      unfold Lexer.finish at hres
      split_ifs at hres with hd
      omega
    · cases hBody : Lexer.Body fl h n st.NextChar.1 lx st.NextChar.2 with
      | none => rw [hBody] at hR; cases hR
      | some r =>
        rw [hBody] at hR
        obtain ⟨f, d1⟩ := r
        obtain ⟨hcont, hbal⟩ := Lexer.Body_bal fl h n _ lx _ f d1 hBody
        rw [← LexerState.NextChar_owed st]
        cases f with
        | ret =>
          simp only [Option.some.injEq] at hR
          rw [← hR] at hres ⊢
          obtain ⟨hb1, hb2⟩ := hbal hres
          have := hb1 [] (Bal.empty _ (hb2 rfl))
          simpa using this
        | cont =>
          dsimp only at hR
          cases hrec : Lexer.RunLoop fl h n d1.lexer d1.state with
          | none => rw [hrec] at hR; cases hR
          | some d2 =>
            rw [hrec] at hR
            simp only [Option.some.injEq] at hR
            rw [← hR] at hres ⊢
            dsimp only at hres ⊢
            obtain ⟨hb1, _⟩ := hbal (hcont rfl)
            exact hb1 d2.calls (ih d1.lexer d1.state d2 hrec hres)

theorem opExcess_nonneg_iff {D : Type} (T : List (Callback D)) :
    0 ≤ opExcess T ↔ beginOps T ≤ endOps T := by
  unfold opExcess
  omega

/-- C37 (counterexample). The text `()` is lexed successfully with the single
handler call `end_op`: the sequence has a prefix with more `end_op` than
`begin_op` calls, and the two counts differ at the end. The same holds for
`( (a))`, where the outer bracket has no operation name. -/
theorem empty_brackets_give_end_op_alone :
    (Lexer.RunText noFloat countingHandler 16 { handler_ := 0, err_description_ := [] }
        (bytes "()")).map (fun d => (d.result, d.calls)) =
      some (LexerResult.success, [Callback.LexerEndOp]) ∧
    (Lexer.RunText noFloat countingHandler 16 { handler_ := 0, err_description_ := [] }
        (bytes "( (a))")).map (fun d => (d.result, beginOps d.calls, endOps d.calls)) =
      some (LexerResult.success, 1, 2) := by
  decide!

/-- C37 (amended). On every successful `Lexer::Run`, whatever the handler, the
reader and the mode, every `begin_op` call is followed by an `end_op` call of
its own: in every suffix of the sequence of handler calls the number of
`begin_op` calls does not exceed the number of `end_op` calls; in particular
the whole sequence has at least as many `end_op` as `begin_op` calls. -/
theorem begin_ops_are_closed_by_end_ops {D H : Type} (fl : FloatLib D) (h : Handler D H)
    (fuel : Nat) (lx : Lexer H) (stream : StreamReader) (single_expr : Bool) (d : Done D H)
    (hrun : Lexer.Run fl h fuel lx stream single_expr = some d)
    (hres : d.result = LexerResult.success) :
    (∀ T, T <:+ d.calls → beginOps T ≤ endOps T) ∧ beginOps d.calls ≤ endOps d.calls := by
  have hb := Lexer.RunLoop_bal fl h fuel lx _ d hrun hres
  exact ⟨fun T hT => (opExcess_nonneg_iff T).mp (hb.suffix T hT),
    (opExcess_nonneg_iff _).mp (hb.suffix _ (List.suffix_refl _))⟩

/-- C37 (amended) at work on `(a (b 1) 2)`. -/
theorem begin_ops_are_closed_by_end_ops_witness :
    ∃ d, Lexer.Run noFloat countingHandler 16 { handler_ := 0, err_description_ := [] }
        (StreamReader.preloaded (bytes "(a (b 1) 2)") DummyInStream 11) false = some d ∧
      d.calls = [Callback.LexerBeginOp (bytes "a"), Callback.LexerBeginOp (bytes "b"),
        Callback.LexerIntValue 1, Callback.LexerEndOp, Callback.LexerIntValue 2,
        Callback.LexerEndOp] ∧
      beginOps d.calls ≤ endOps d.calls :=
  match hd : Lexer.Run noFloat countingHandler 16 { handler_ := 0, err_description_ := [] }
      (StreamReader.preloaded (bytes "(a (b 1) 2)") DummyInStream 11) false with
  | some d =>
    have hres : d.result = LexerResult.success := by
      have h2 : (Lexer.Run noFloat countingHandler 16 { handler_ := 0, err_description_ := [] }
          (StreamReader.preloaded (bytes "(a (b 1) 2)") DummyInStream 11) false).map
          (fun d => d.result) = some LexerResult.success := by decide!
      rw [hd] at h2
      exact Option.some.inj h2
    have hcalls : d.calls = [Callback.LexerBeginOp (bytes "a"), Callback.LexerBeginOp (bytes "b"),
        Callback.LexerIntValue 1, Callback.LexerEndOp, Callback.LexerIntValue 2,
        Callback.LexerEndOp] := by
      have h2 : (Lexer.Run noFloat countingHandler 16 { handler_ := 0, err_description_ := [] }
          (StreamReader.preloaded (bytes "(a (b 1) 2)") DummyInStream 11) false).map
          (fun d => d.calls) = some [Callback.LexerBeginOp (bytes "a"),
            Callback.LexerBeginOp (bytes "b"), Callback.LexerIntValue 1, Callback.LexerEndOp,
            Callback.LexerIntValue 2, Callback.LexerEndOp] := by decide!
      rw [hd] at h2
      exact Option.some.inj h2
    ⟨d, rfl, hcalls,
      (begin_ops_are_closed_by_end_ops noFloat countingHandler 16
        { handler_ := 0, err_description_ := [] }
        (StreamReader.preloaded (bytes "(a (b 1) 2)") DummyInStream 11) false d hd hres).2⟩
  | none => by
    exfalso
    have h2 : (Lexer.Run noFloat countingHandler 16 { handler_ := 0, err_description_ := [] }
        (StreamReader.preloaded (bytes "(a (b 1) 2)") DummyInStream 11) false).isSome = true := by
      decide!
    rw [hd] at h2
    cases h2

/-! ### The handler's state after a successful run is the replay of its calls -/

theorem Lexer.FinalizeTerm_replayed {D H : Type} (fl : FloatLib D) (h : Handler D H)
    (lx : Lexer H) (st : LexerState) :
    (Lexer.FinalizeTerm fl h lx st).lexer.handler_ =
      h.replay lx.handler_ (Lexer.FinalizeTerm fl h lx st).calls := by
  by_cases hT : st.HasTerm = true
  · by_cases hd : st.op_depth_ ≤ 0
    · unfold Lexer.FinalizeTerm
      rw [if_neg (by rw [hT]; decide), if_pos hd]
      rfl
    · rw [FinalizeTerm_eq fl h lx st hT (not_le.mp hd)]
      exact termAction_replay fl h lx _ _ _ _
  · unfold Lexer.FinalizeTerm
    rw [if_pos (by simp only [Bool.not_eq_true] at hT; rw [hT]; rfl)]
    rfl

theorem Lexer.caseClose_replayed {D H : Type} (fl : FloatLib D) (h : Handler D H)
    (lx : Lexer H) (st : LexerState) :
    (Lexer.caseClose fl h lx st).2.lexer.handler_ =
      h.replay lx.handler_ (Lexer.caseClose fl h lx st).2.calls := by
  have hF := Lexer.FinalizeTerm_replayed fl h lx st
  unfold Lexer.caseClose
  dsimp only
  cases hr : (Lexer.FinalizeTerm fl h lx st).result with
  | failure f =>
    dsimp only
    split_ifs <;> exact hF
  | success =>
    dsimp only
    have hE : (h.LexerEndOp (Lexer.FinalizeTerm fl h lx st).lexer.handler_).2 =
        h.replay lx.handler_ ((Lexer.FinalizeTerm fl h lx st).calls ++ [Callback.LexerEndOp]) := by
      rw [Handler.replay_append, ← hF]
      rfl
    split_ifs <;> exact hE

theorem Lexer.caseQuote_replayed {D H : Type} (fl : FloatLib D) (h : Handler D H)
    (lx : Lexer H) (st : LexerState) :
    (Lexer.caseQuote fl h lx st).2.lexer.handler_ =
      h.replay lx.handler_ (Lexer.caseQuote fl h lx st).2.calls := by
  have hF := Lexer.FinalizeTerm_replayed fl h lx st
  unfold Lexer.caseQuote
  split_ifs
  · exact hF
  · dsimp only
    cases hr : (Lexer.FinalizeTerm fl h lx st).result with
    | success => exact hF
    | failure f => exact hF

theorem Lexer.casePayload_replayed {D H : Type} (h : Handler D H) (hn : h.PayloadNeutral)
    (lx : Lexer H) (st : LexerState) :
    (Lexer.casePayload (D := D) h lx st).2.result = LexerResult.success →
    (Lexer.casePayload (D := D) h lx st).2.lexer.handler_ =
      h.replay lx.handler_ (Lexer.casePayload (D := D) h lx st).2.calls := by
  unfold Lexer.casePayload
  dsimp only
  split_ifs with h91 h93
  · intro hres
    cases hres
  · dsimp only
    intro hres
    cases hr : (h.LexerCustomData lx.handler_ (readPayloadTag 4 0 st).2.1
        (readPayloadTag 4 0 st).2.2.stream_).1 with
    | none => exact hn _ _ _ hr
    | some m =>
      rw [hr] at hres
      simp [mapFail] at hres
  · intro hres
    cases hres

theorem Lexer.Body_replayed {D H : Type} (fl : FloatLib D) (h : Handler D H)
    (hn : h.PayloadNeutral) (fuel c : Nat) (lx : Lexer H) (st : LexerState) (f : Flow)
    (d : Done D H) (hB : Lexer.Body fl h fuel c lx st = some (f, d))
    (hres : d.result = LexerResult.success) :
    d.lexer.handler_ = h.replay lx.handler_ d.calls := by
  unfold Lexer.Body at hB
  dsimp only at hB
  split_ifs at hB with h1 h2 h3 h4 h5 h6 h7
  · simp only [Option.some.injEq] at hB
    have e2 := congrArg Prod.snd hB
    dsimp only at e2
    rw [← e2]
    rfl
  · simp only [Option.some.injEq] at hB
    have e2 := congrArg Prod.snd hB
    dsimp only at e2
    rw [← e2]
    exact Lexer.FinalizeTerm_replayed fl h lx _
  · simp only [Option.some.injEq] at hB
    have e2 := congrArg Prod.snd hB
    dsimp only at e2
    rw [← e2]
    exact Lexer.caseClose_replayed fl h lx _
  · simp only [Option.some.injEq] at hB
    have e2 := congrArg Prod.snd hB
    dsimp only at e2
    rw [← e2]
    exact Lexer.caseQuote_replayed fl h lx _
  · simp only [Option.some.injEq] at hB
    have e2 := congrArg Prod.snd hB
    dsimp only at e2
    rw [← e2] at hres ⊢
    exact Lexer.casePayload_replayed h hn lx _ hres
  · unfold Lexer.caseComment at hB
    cases hs : skipComment fuel st.ResetEscape with
    | none => rw [hs] at hB; cases hB
    | some s =>
      rw [hs] at hB
      simp only [Option.some.injEq] at hB
      have e2 := congrArg Prod.snd hB
      dsimp only at e2
      rw [← e2]
      rfl
  · simp only [Option.some.injEq] at hB
    have e2 := congrArg Prod.snd hB
    dsimp only at e2
    rw [← e2]
    exact Lexer.FinalizeTerm_replayed fl h lx _
  · simp only [Option.some.injEq] at hB
    have e2 := congrArg Prod.snd hB
    dsimp only at e2
    rw [← e2]
    rfl

/-- After a successful run with a handler that leaves its state alone at a
custom payload, the handler's state is the replay of the calls made. -/
theorem Lexer.RunLoop_replayed {D H : Type} (fl : FloatLib D) (h : Handler D H)
    (hn : h.PayloadNeutral) :
    ∀ (fuel : Nat) (lx : Lexer H) (st : LexerState) (d : Done D H),
      Lexer.RunLoop fl h fuel lx st = some d → d.result = LexerResult.success →
      d.lexer.handler_ = h.replay lx.handler_ d.calls := by
  intro fuel
  induction fuel with
  | zero =>
    intro lx st d hR
    simp [Lexer.RunLoop] at hR
  | succ n ih =>
    intro lx st d hR hres
    unfold Lexer.RunLoop at hR
    dsimp only at hR
    split_ifs at hR with hc
    · simp only [Option.some.injEq] at hR
      rw [← hR]
      rfl
    · cases hBody : Lexer.Body fl h n st.NextChar.1 lx st.NextChar.2 with
      | none => rw [hBody] at hR; cases hR
      | some r =>
        rw [hBody] at hR
        obtain ⟨f, d1⟩ := r
        cases f with
        | ret =>
          simp only [Option.some.injEq] at hR
          rw [← hR] at hres ⊢
          exact Lexer.Body_replayed fl h hn n _ lx _ _ d1 hBody hres
        | cont =>
          dsimp only at hR
          cases hrec : Lexer.RunLoop fl h n d1.lexer d1.state with
          | none => rw [hrec] at hR; cases hR
          | some d2 =>
            rw [hrec] at hR
            simp only [Option.some.injEq] at hR
            rw [← hR] at hres ⊢
            dsimp only at hres ⊢
            have h1 := Lexer.Body_replayed fl h hn n _ lx _ _ d1 hBody
              ((Lexer.Body_bal fl h n _ lx _ _ d1 hBody).1 rfl)
            rw [Handler.replay_append, ← h1]
            exact ih d1.lexer d1.state d2 hrec hres

/-! ### Every `Call` finds a `FrameBarrier` on the stack -/

theorem Compiler.handler_neutral (D : Type) : (Compiler.handler D).PayloadNeutral := by
  intro s token reader hr
  show (Compiler.LexerCustomData s token reader).2.1 = s
  have hr2 : (Compiler.LexerCustomData s token reader).1 = none := hr
  unfold Compiler.LexerCustomData at hr2 ⊢
  cases hf : s.env_.FindPayloadHandler token with
  | none =>
    simp only [hf] at hr2
    cases hr2
  | some ph => rfl

theorem Compiler.step_code {D : Type} (c : Compiler D) (cb : Callback D) :
    ((Compiler.handler D).step c cb).cur_program_.code_ =
      c.cur_program_.code_ ++ Compiler.emitted c.env_ cb ∧
    ((Compiler.handler D).step c cb).env_ = c.env_ := by
  cases cb with
  | LexerBeginOp name =>
    show (Compiler.LexerBeginOp c name).2.cur_program_.code_ = _ ∧
      (Compiler.LexerBeginOp c name).2.env_ = _
    unfold Compiler.LexerBeginOp Compiler.emitted
    dsimp only
    split_ifs
    · simp
    · exact ⟨rfl, rfl⟩
  | LexerEndOp => exact ⟨rfl, rfl⟩
  | LexerStrValue value => exact ⟨rfl, rfl⟩
  | LexerIntValue value => exact ⟨rfl, rfl⟩
  | LexerDoubleValue value => exact ⟨rfl, rfl⟩
  | LexerUnhandledValue value =>
    show (Compiler.LexerUnhandledValue c value).2.cur_program_.code_ = _ ∧
      (Compiler.LexerUnhandledValue c value).2.env_ = _
    unfold Compiler.LexerUnhandledValue Compiler.emitted
    dsimp only
    split_ifs
    · exact ⟨rfl, rfl⟩
    · exact ⟨rfl, rfl⟩
  | LexerCustomData token =>
    show c.cur_program_.code_ = _ ∧ c.env_ = c.env_
    simp [Compiler.emitted]

theorem Compiler.replay_code {D : Type} : ∀ (calls : List (Callback D)) (c : Compiler D),
    ((Compiler.handler D).replay c calls).cur_program_.code_ =
      c.cur_program_.code_ ++ Compiler.emittedAll c.env_ calls := by
  intro calls
  induction calls with
  | nil => intro c; simp [Handler.replay, Compiler.emittedAll]
  | cons cb rest ih =>
    intro c
    show ((Compiler.handler D).replay ((Compiler.handler D).step c cb) rest).cur_program_.code_ = _
    rw [ih, (Compiler.step_code c cb).1, (Compiler.step_code c cb).2]
    simp [Compiler.emittedAll]

theorem opExcess_cons {D : Type} (c : Callback D) (S : List (Callback D)) :
    opExcess (c :: S) = opExcess [c] + opExcess S := by
  cases c with
  | LexerBeginOp name => rw [opExcess_cons_begin, opExcess_cons_begin, opExcess_nil]; omega
  | LexerEndOp => rw [opExcess_cons_end, opExcess_cons_end, opExcess_nil]; omega
  | LexerStrValue v =>
    rw [opExcess_cons_other (Callback.LexerStrValue v) S rfl rfl,
      opExcess_cons_other (Callback.LexerStrValue v) [] rfl rfl, opExcess_nil]
    omega
  | LexerIntValue v =>
    rw [opExcess_cons_other (Callback.LexerIntValue v) S rfl rfl,
      opExcess_cons_other (Callback.LexerIntValue v) [] rfl rfl, opExcess_nil]
    omega
  | LexerDoubleValue v =>
    rw [opExcess_cons_other (Callback.LexerDoubleValue v) S rfl rfl,
      opExcess_cons_other (Callback.LexerDoubleValue v) [] rfl rfl, opExcess_nil]
    omega
  | LexerUnhandledValue v =>
    rw [opExcess_cons_other (Callback.LexerUnhandledValue v) S rfl rfl,
      opExcess_cons_other (Callback.LexerUnhandledValue v) [] rfl rfl, opExcess_nil]
    omega
  | LexerCustomData t =>
    rw [opExcess_cons_other (Callback.LexerCustomData t) S rfl rfl,
      opExcess_cons_other (Callback.LexerCustomData t) [] rfl rfl, opExcess_nil]
    omega

theorem frameExcess_append {D : Type} (a b : List (Instruction D)) :
    frameExcess (a ++ b) = frameExcess a + frameExcess b := by
  simp [frameExcess]

theorem frameExcess_reverse {D : Type} (a : List (Instruction D)) :
    frameExcess a.reverse = frameExcess a := by
  simp [frameExcess, List.sum_reverse]

/-- What the compiler appends at a handler call is nothing, at a call that does
not count as an `end_op`, or one instruction that counts as the call does. -/
theorem Compiler.emitted_weight {D : Type} (env : Env) (cb : Callback D) :
    (Compiler.emitted env cb = [] ∧ opExcess [cb] ≤ 0) ∨
    ∃ i, Compiler.emitted env cb = [i] ∧ i.weight = opExcess [cb] := by
  cases cb with
  | LexerBeginOp name =>
    by_cases h0 : env.FindCall name = 0
    · left
      refine ⟨by simp only [Compiler.emitted, if_pos h0], ?_⟩
      rw [opExcess_cons_begin, opExcess_nil]
      omega
    · right
      refine ⟨{ code := OpCode.Call,
                data := { type := TypeSchemaPtr.invalid, value := Value.ptr (env.FindCall name) } },
        by simp only [Compiler.emitted, if_neg h0], ?_⟩
      rw [opExcess_cons_begin, opExcess_nil]
      rfl
  | LexerEndOp =>
    right
    refine ⟨_, rfl, ?_⟩
    rw [opExcess_cons_end, opExcess_nil]
    rfl
  | LexerStrValue v =>
    right
    refine ⟨_, rfl, ?_⟩
    rw [opExcess_cons_other (Callback.LexerStrValue v) [] rfl rfl, opExcess_nil]
    rfl
  | LexerIntValue v =>
    right
    refine ⟨_, rfl, ?_⟩
    rw [opExcess_cons_other (Callback.LexerIntValue v) [] rfl rfl, opExcess_nil]
    rfl
  | LexerDoubleValue v =>
    right
    refine ⟨_, rfl, ?_⟩
    rw [opExcess_cons_other (Callback.LexerDoubleValue v) [] rfl rfl, opExcess_nil]
    rfl
  | LexerUnhandledValue v =>
    right
    by_cases h0 : 1 < v.length ∧ v.head? = some 58
    · refine ⟨{ code := OpCode.Push,
                data := { type := TypeSchemaPtr.Field, value := Value.str (v.drop 1) } },
        by simp only [Compiler.emitted, if_pos h0], ?_⟩
      rw [opExcess_cons_other (Callback.LexerUnhandledValue v) [] rfl rfl, opExcess_nil]
      rfl
    · refine ⟨{ code := OpCode.Push,
                data := { type := TypeSchemaPtr.StrSpan, value := Value.str v } },
        by simp only [Compiler.emitted, if_neg h0], ?_⟩
      rw [opExcess_cons_other (Callback.LexerUnhandledValue v) [] rfl rfl, opExcess_nil]
      rfl
  | LexerCustomData t =>
    left
    refine ⟨rfl, ?_⟩
    rw [opExcess_cons_other (Callback.LexerCustomData t) [] rfl rfl, opExcess_nil]

/-- When no suffix of the handler calls has more `begin_op` than `end_op`
calls, no suffix of the code appended has more `Call` instructions than pushes
of a `FrameBarrier`. -/
theorem Compiler.emittedAll_bal {D : Type} (env : Env) : ∀ calls : List (Callback D),
    (∀ T, T <:+ calls → 0 ≤ opExcess T) →
    opExcess calls ≤ frameExcess (Compiler.emittedAll env calls) ∧
    ∀ T, T <:+ Compiler.emittedAll env calls → 0 ≤ frameExcess T := by
  intro calls
  induction calls with
  | nil =>
    intro _
    refine ⟨by simp [Compiler.emittedAll, frameExcess, opExcess_nil], ?_⟩
    intro T hT
    have : T = [] := List.suffix_nil.mp hT
    rw [this]
    simp [frameExcess]
  | cons cb rest ih =>
    intro hs
    obtain ⟨i1, i2⟩ := ih (fun T hT => hs T (hT.trans (List.suffix_cons cb rest)))
    have hw := hs _ (List.suffix_refl _)
    rw [opExcess_cons] at hw ⊢
    show opExcess [cb] + opExcess rest ≤
        frameExcess (Compiler.emitted env cb ++ Compiler.emittedAll env rest) ∧
      ∀ T, T <:+ Compiler.emitted env cb ++ Compiler.emittedAll env rest → 0 ≤ frameExcess T
    rcases Compiler.emitted_weight env cb with ⟨e, hle⟩ | ⟨i, e, hi⟩
    · rw [e, List.nil_append]
      exact ⟨by omega, i2⟩
    · rw [e]
      have hfe : frameExcess ([i] ++ Compiler.emittedAll env rest) =
          opExcess [cb] + frameExcess (Compiler.emittedAll env rest) := by
        rw [frameExcess_append, ← hi]
        simp [frameExcess]
      refine ⟨by rw [hfe]; omega, ?_⟩
      intro T hT
      rcases List.suffix_cons_iff.mp hT with h1 | h1
      · rw [h1]
        show 0 ≤ frameExcess ([i] ++ Compiler.emittedAll env rest)
        rw [hfe]
        omega
      · exact i2 T h1

theorem barriers_append {D : Type} (a b : List (TypedValue D)) :
    barriers (a ++ b) = barriers a + barriers b := by
  simp [barriers, List.countP_append]

/-- A stack that holds a `FrameBarrier` splits at its topmost one. -/
theorem exists_top_frame {D : Type} : ∀ stack : List (TypedValue D), 1 ≤ barriers stack →
    ∃ below fb args, stack = below ++ [fb] ++ args ∧ fb.type = TypeSchemaPtr.FrameBarrier ∧
      ∀ v ∈ args, v.type ≠ TypeSchemaPtr.FrameBarrier := by
  intro stack
  induction stack using List.reverseRecOn with
  | nil =>
    intro h
    simp [barriers] at h
  | append_singleton init last ih =>
    intro h
    by_cases hl : last.type = TypeSchemaPtr.FrameBarrier
    · exact ⟨init, last, [], by simp, hl, fun v hv => by cases hv⟩
    · have h2 : 1 ≤ barriers init := by
        rw [barriers_append] at h
        have : barriers [last] = 0 := by simp [barriers, hl]
        omega
      obtain ⟨below, fb, args, e, hfb, hargs⟩ := ih h2
      refine ⟨below, fb, args ++ [last], by rw [e]; simp, hfb, ?_⟩
      intro v hv
      rcases List.mem_append.mp hv with hv1 | hv1
      · exact hargs v hv1
      · rw [List.mem_singleton.mp hv1]
        exact hl

theorem barriers_frame {D : Type} (below args : List (TypedValue D)) (fb : TypedValue D)
    (hfb : fb.type = TypeSchemaPtr.FrameBarrier)
    (hargs : ∀ v ∈ args, v.type ≠ TypeSchemaPtr.FrameBarrier) :
    barriers (below ++ [fb] ++ args) = barriers below + 1 := by
  rw [barriers_append, barriers_append]
  have h1 : barriers [fb] = 1 := by simp [barriers, hfb]
  have h2 : barriers args = 0 := by
    unfold barriers
    rw [List.countP_eq_zero]
    intro v hv
    simpa using hargs v hv
  omega

/-- The VM on code in which every `Call` is preceded by more pushes of a
`FrameBarrier` than `Call` instructions, counting the barriers already on the
stack: every host call is given a stack that holds a `FrameBarrier`. -/
theorem Program.ExecuteLoop_framed {D U : Type} (fns : Nat → HostFn D U) :
    ∀ (code : List (Instruction D)) (stack : List (TypedValue D)) (cc : CallContext D U),
      (∀ pre i post, code = pre ++ i :: post → i.code = OpCode.Call →
        1 ≤ (barriers stack : Int) + frameExcess pre) →
      ∀ r ∈ (Program.ExecuteLoop fns code stack cc).calls, 1 ≤ barriers r.stack := by
  intro code
  induction code with
  | nil =>
    intro stack cc _ r hr
    cases hr
  | cons instr rest ih =>
    intro stack cc hyp r hr
    unfold Program.ExecuteLoop at hr
    have hw : ∀ pre i post, rest = pre ++ i :: post → i.code = OpCode.Call →
        1 ≤ (barriers stack : Int) + instr.weight + frameExcess pre := by
      intro pre i post e hi
      have := hyp (instr :: pre) i post (by rw [e]; rfl) hi
      have e2 : frameExcess (instr :: pre) = instr.weight + frameExcess pre := by
        simp [frameExcess]
      rw [e2] at this
      omega
    cases hc : instr.code with
    | Call =>
      have h0 : 1 ≤ barriers stack := by
        have := hyp [] instr rest rfl hc
        simp [frameExcess] at this
        omega
      have hwt : instr.weight = -1 := by simp [Instruction.weight, hc]
      rw [hc] at hr
      dsimp only at hr
      split_ifs at hr
      · simp only [List.mem_singleton] at hr
        rw [hr]
        exact h0
      · rcases List.mem_cons.mp hr with h1 | h1
        · rw [h1]
          exact h0
        · refine ih _ _ ?_ r h1
          intro pre i post e hi
          have := hw pre i post e hi
          obtain ⟨below, fb, args, es, hfb, hargs⟩ := exists_top_frame stack h0
          have hp : PurgeStackFrame stack = below := by
            rw [es]
            exact PurgeStackFrame_frame below args fb hfb hargs
          have hb : barriers stack = barriers below + 1 := by
            rw [es]
            exact barriers_frame below args fb hfb hargs
          rw [barriers_append, hp]
          push_cast
          omega
    | Push =>
      rw [hc] at hr
      dsimp only at hr
      refine ih _ _ ?_ r hr
      intro pre i post e hi
      have := hw pre i post e hi
      have hb : (barriers (stack ++ [instr.data]) : Int) = barriers stack + instr.weight := by
        rw [barriers_append]
        by_cases hf : instr.data.type = TypeSchemaPtr.FrameBarrier
        · simp [barriers, Instruction.weight, hc, hf]
        · simp [barriers, Instruction.weight, hc, hf]
      rw [hb]
      omega
    | Invalid =>
      rw [hc] at hr
      dsimp only at hr
      refine ih _ _ ?_ r hr
      intro pre i post e hi
      have := hw pre i post e hi
      have hwt : instr.weight = 0 := by simp [Instruction.weight, hc]
      omega

/-- C38. For every program that `Compiler::Build` returns, from whatever
compiler state and reader, and every choice of host functions: whenever a
`Call` instruction executes, the stack holds at least one `FrameBarrier`, so
it is not empty; it splits into a frame `args` above its topmost barrier, on
which the iteration of `CallArgs` from the top ends without going below the
bottom of the stack, and `PurgeStackFrame` removes exactly that frame and its
barrier. Host functions that put a `FrameBarrier` in their output do not
change this. -/
theorem call_finds_frame_barrier {D U : Type} (fl : FloatLib D) (fuel : Nat)
    (c c2 : Compiler D) (reader rd : StreamReader) (p : Program D)
    (fns : Nat → HostFn D U) (user_data : U)
    (hbuild : Compiler.Build fl fuel c reader = some (CompileResult.program p, c2, rd)) :
    ∀ r ∈ (Program.Execute fns p user_data).calls,
      1 ≤ barriers r.stack ∧ r.stack ≠ [] ∧
      ∃ below fb args, r.stack = below ++ [fb] ++ args ∧
        fb.type = TypeSchemaPtr.FrameBarrier ∧
        (∀ v ∈ args, v.type ≠ TypeSchemaPtr.FrameBarrier) ∧
        CallArgs.toList r.stack = args.reverse ∧
        PurgeStackFrame r.stack = below ∧
        barriers (PurgeStackFrame r.stack) + 1 = barriers r.stack := by
  unfold Compiler.Build at hbuild
  dsimp only at hbuild
  cases hrun : Lexer.Run fl (Compiler.handler D) fuel
      { handler_ := { c with cur_program_ := { code_ := [] } }, err_description_ := [] }
      reader true with
  | none =>
    rw [hrun] at hbuild
    cases hbuild
  | some d =>
    rw [hrun] at hbuild
    dsimp only at hbuild
    cases hres : d.result with
    | failure f =>
      rw [hres] at hbuild
      simp at hbuild
    | success =>
      rw [hres] at hbuild
      simp only [Option.some.injEq, Prod.mk.injEq, CompileResult.program.injEq] at hbuild
      have hp : p.code_ = d.lexer.handler_.cur_program_.code_.reverse := by
        rw [← hbuild.1]
      have hbal := Lexer.RunLoop_bal fl (Compiler.handler D) fuel _ _ d hrun hres
      have hrep := Lexer.RunLoop_replayed fl (Compiler.handler D) (Compiler.handler_neutral D)
        fuel _ _ d hrun hres
      have hcode : d.lexer.handler_.cur_program_.code_ = Compiler.emittedAll c.env_ d.calls := by
        rw [hrep, Compiler.replay_code]
        rfl
      have hsuf := (Compiler.emittedAll_bal c.env_ d.calls hbal.suffix).2
      have hframed : ∀ r ∈ (Program.Execute fns p user_data).calls, 1 ≤ barriers r.stack := by
        unfold Program.Execute
        refine Program.ExecuteLoop_framed fns p.code_ [] _ ?_
        intro pre i post e hi
        rw [hp, hcode] at e
        have e2 : Compiler.emittedAll c.env_ d.calls = post.reverse ++ (i :: pre.reverse) := by
          have := congrArg List.reverse e
          simpa using this
        have h1 := hsuf (i :: pre.reverse) ⟨post.reverse, e2.symm⟩
        have h2 : frameExcess (i :: pre.reverse) = i.weight + frameExcess pre := by
          rw [← frameExcess_reverse pre]
          simp [frameExcess]
        have h3 : i.weight = -1 := by simp [Instruction.weight, hi]
        rw [h2, h3] at h1
        simp only [barriers, List.countP_nil, Nat.cast_zero, zero_add]
        omega
      intro r hr
      have h1 := hframed r hr
      obtain ⟨below, fb, args, es, hfb, hargs⟩ := exists_top_frame r.stack h1
      have hne : r.stack ≠ [] := by
        rw [es]
        simp
      refine ⟨h1, hne, below, fb, args, es, hfb, hargs, ?_, ?_, ?_⟩
      · rw [es]
        exact CallArgs.toList_frame below args fb hfb hargs
      · rw [es]
        exact PurgeStackFrame_frame below args fb hfb hargs
      · rw [es, PurgeStackFrame_frame below args fb hfb hargs,
          barriers_frame below args fb hfb hargs]

/-- C38 at work: the program that `Compiler::Build` returns for `(+ (- 3 4) 5)`
with the built-in functions; both calls find a `FrameBarrier`. -/
theorem call_finds_frame_barrier_witness :
    ∃ p c2 rd,
      Compiler.Build noFloat 32
          { env_ := builtinEnv, cur_program_ := { code_ := [] }, error_builder_ := [] }
          (StreamReader.preloaded (bytes "(+ (- 3 4) 5)") DummyInStream
            (bytes "(+ (- 3 4) 5)").length) =
        some (CompileResult.program p, c2, rd) ∧
      (Program.Execute (builtinFns noFloat) p ()).calls.length = 2 ∧
      ∀ r ∈ (Program.Execute (builtinFns noFloat) p ()).calls, 1 ≤ barriers r.stack :=
  have hcode : (compiledCode noFloat 32 builtinEnv (bytes "(+ (- 3 4) 5)")).map
      (fun code => (Program.Execute (builtinFns noFloat) { code_ := code } ()).calls.length) =
      some 2 := by decide
  match hd : Compiler.Build noFloat 32
      { env_ := builtinEnv, cur_program_ := { code_ := [] }, error_builder_ := [] }
      (StreamReader.preloaded (bytes "(+ (- 3 4) 5)") DummyInStream
        (bytes "(+ (- 3 4) 5)").length) with
  | some (CompileResult.program p, c2, rd) =>
    ⟨p, c2, rd, rfl,
      by
        unfold compiledCode at hcode
        rw [hd] at hcode
        exact Option.some.inj hcode,
      fun r hr => (call_finds_frame_barrier noFloat 32 _ c2 _ rd p (builtinFns noFloat) () hd
        r hr).1⟩
  | some (CompileResult.error e, _, _) => by
    exfalso
    unfold compiledCode at hcode
    rw [hd] at hcode
    cases hcode
  | none => by
    exfalso
    unfold compiledCode at hcode
    rw [hd] at hcode
    cases hcode

/-! ### A zero byte in the input -/

theorem commentsClosed_cons (c : Nat) (rest : List Nat) (h : commentsClosed (c :: rest) = true) :
    commentsClosed rest = true ∧ (c = 59 → 10 ∈ rest) := by
  unfold commentsClosed at h
  simp only [Bool.and_eq_true, Bool.or_eq_true, bne_iff_ne, ne_eq, decide_eq_true_eq] at h
  refine ⟨h.2, ?_⟩
  intro hc
  rcases h.1 with h1 | h1
  · exact absurd hc h1
  · exact h1

theorem commentsClosed_suffix : ∀ (l s : List Nat), s <:+ l → commentsClosed l = true →
    commentsClosed s = true := by
  intro l
  induction l with
  | nil =>
    intro s hs _
    rw [List.suffix_nil.mp hs]
    rfl
  | cons c rest ih =>
    intro s hs h
    rcases List.suffix_cons_iff.mp hs with e | hs2
    · rw [e]
      exact h
    · exact ih s hs2 (commentsClosed_cons c rest h).1

theorem Abs.State.NextChar_extend (b : Abs.State) (post : List Nat) (c : Nat)
    (rest : List Nat) (hb : b.input = c :: rest) :
    (b.extend post).NextChar = (c, b.NextChar.2.extend post) ∧ b.NextChar.1 = c ∧
    b.NextChar.2.input = rest := by
  simp [Abs.State.NextChar, Abs.State.extend, hb]

theorem Abs.State.NextChar_nul (b : Abs.State) (post : List Nat) (hb : b.input = []) :
    (b.extend post).NextChar.1 = 0 ∧ b.NextChar.1 = 0 ∧
    Abs.State.PastNul (b.extend post).NextChar.2 b.NextChar.2 post := by
  refine ⟨?_, ?_, ?_⟩
  · simp [Abs.State.NextChar, Abs.State.extend, hb]
  · simp [Abs.State.NextChar, hb, k_lexer_invalid_char]
  · constructor <;> simp [Abs.State.NextChar, Abs.State.extend, hb]

theorem Abs.FinalizeTerm_extend {D H : Type} (fl : FloatLib D) (h : Handler D H)
    (lx : Lexer H) (b : Abs.State) (post : List Nat) :
    Abs.FinalizeTerm fl h lx (b.extend post) = (Abs.FinalizeTerm fl h lx b).extend post := by
  obtain ⟨input, single, line, off, depth, esc, wesc, tt, term⟩ := b
  unfold Abs.FinalizeTerm Abs.Done.extend Abs.State.extend
  dsimp only
  split_ifs
  · rfl
  · rfl
  · cases tt <;> rfl

theorem Abs.inString_extend {D H : Type} (c : Nat) (esc : Bool) (lx : Lexer H)
    (b : Abs.State) (post : List Nat) :
    Abs.inString (D := D) c esc lx (b.extend post) =
      ((Abs.inString (D := D) c esc lx b).1, (Abs.inString (D := D) c esc lx b).2.extend post) := by
  unfold Abs.inString Abs.Done.extend Abs.State.extend Abs.State.NewLine
  dsimp only
  split_ifs <;> rfl

theorem Abs.caseOpen_extend {D H : Type} (fl : FloatLib D) (h : Handler D H)
    (lx : Lexer H) (b : Abs.State) (post : List Nat) :
    Abs.caseOpen fl h lx (b.extend post) =
      ((Abs.caseOpen fl h lx b).1, (Abs.caseOpen fl h lx b).2.extend post) := by
  unfold Abs.caseOpen
  dsimp only
  rw [Abs.FinalizeTerm_extend]
  rfl

theorem Abs.caseClose_extend {D H : Type} (fl : FloatLib D) (h : Handler D H)
    (lx : Lexer H) (b : Abs.State) (post : List Nat) :
    Abs.caseClose fl h lx (b.extend post) =
      ((Abs.caseClose fl h lx b).1, (Abs.caseClose fl h lx b).2.extend post) := by
  unfold Abs.caseClose
  dsimp only
  rw [Abs.FinalizeTerm_extend]
  generalize Abs.FinalizeTerm fl h lx b = d
  obtain ⟨res, calls, lexer, st⟩ := d
  cases res with
  | failure f =>
    simp only [Abs.Done.extend, Abs.State.extend]
    split_ifs <;> rfl
  | success =>
    simp only [Abs.Done.extend, Abs.State.extend]
    split_ifs <;> first | rfl | contradiction

theorem Abs.caseQuote_extend {D H : Type} (fl : FloatLib D) (h : Handler D H)
    (lx : Lexer H) (b : Abs.State) (post : List Nat) :
    Abs.caseQuote fl h lx (b.extend post) =
      ((Abs.caseQuote fl h lx b).1, (Abs.caseQuote fl h lx b).2.extend post) := by
  unfold Abs.caseQuote
  have e : (b.extend post).term_type_ = b.term_type_ := rfl
  rw [e, Abs.FinalizeTerm_extend]
  generalize Abs.FinalizeTerm fl h lx b = d
  obtain ⟨res, calls, lexer, st⟩ := d
  split_ifs
  · rfl
  · cases res <;> rfl

theorem Abs.caseSpace_extend {D H : Type} (fl : FloatLib D) (h : Handler D H) (c : Nat)
    (lx : Lexer H) (b : Abs.State) (post : List Nat) :
    Abs.caseSpace fl h c lx (b.extend post) =
      ((Abs.caseSpace fl h c lx b).1, (Abs.caseSpace fl h c lx b).2.extend post) := by
  unfold Abs.caseSpace
  dsimp only
  by_cases hc : c = 10
  · rw [if_pos hc, if_pos hc]
    have e : (b.extend post).NewLine = b.NewLine.extend post := rfl
    rw [e, Abs.FinalizeTerm_extend]
    rfl
  · rw [if_neg hc, if_neg hc, Abs.FinalizeTerm_extend]
    rfl

theorem Abs.caseOther_extend {D H : Type} (c : Nat) (lx : Lexer H) (b : Abs.State)
    (post : List Nat) :
    Abs.caseOther (D := D) c lx (b.extend post) =
      ((Abs.caseOther (D := D) c lx b).1, (Abs.caseOther (D := D) c lx b).2.extend post) := by
  unfold Abs.caseOther Abs.Done.extend Abs.State.extend
  dsimp only
  split_ifs <;> rfl

/-- A comment of a text that has a line feed ahead and no zero byte ends at the
same place when the text goes on with a zero byte. -/
theorem Abs.skipComment_extend (post : List Nat) : ∀ (fuel : Nat) (b sb : Abs.State),
    10 ∈ b.input → 0 ∉ b.input → Abs.skipComment fuel b = some sb →
    Abs.skipComment fuel (b.extend post) = some (sb.extend post) ∧ sb.input <:+ b.input := by
  intro fuel
  induction fuel with
  | zero =>
    intro b sb _ _ hs
    simp [Abs.skipComment] at hs
  | succ n ih =>
    intro b sb h10 h0 hs
    cases hb : b.input with
    | nil =>
      rw [hb] at h10
      cases h10
    | cons c rest =>
      obtain ⟨e1, e2, e3⟩ := Abs.State.NextChar_extend b post c rest hb
      have hc0 : c ≠ 0 := by
        intro hc
        apply h0
        rw [hb, hc]
        exact List.mem_cons_self _ _
      unfold Abs.skipComment at hs ⊢
      dsimp only at hs ⊢
      rw [e1]
      rw [e2] at hs
      dsimp only
      by_cases hc : c = k_lexer_invalid_char ∨ c = 10
      · rw [if_pos hc] at hs ⊢
        simp only [Option.some.injEq] at hs
        rw [← hs, e3]
        exact ⟨rfl, List.suffix_cons c rest⟩
      · rw [if_neg hc] at hs ⊢
        have h10r : 10 ∈ b.NextChar.2.input := by
          rw [e3]
          rw [hb] at h10
          rcases List.mem_cons.mp h10 with h | h
          · exact absurd h.symm (fun hh => hc (Or.inr hh))
          · exact h
        have h0r : 0 ∉ b.NextChar.2.input := by
          rw [e3]
          intro hh
          apply h0
          rw [hb]
          exact List.mem_cons_of_mem _ hh
        obtain ⟨i1, i2⟩ := ih b.NextChar.2 sb h10r h0r hs
        refine ⟨i1, ?_⟩
        rw [e3] at i2
        exact i2.trans (List.suffix_cons c rest)

/-- The tag of a payload read from a text without a zero byte, and from the
text going on with a zero byte: the same is read, or both readings end at the
end of the text with the invalid character. -/
theorem Abs.readPayloadTag_extend (post : List Nat) : ∀ (k token : Nat) (b : Abs.State),
    0 ∉ b.input →
    (Abs.readPayloadTag k token (b.extend post) =
        ((Abs.readPayloadTag k token b).1, (Abs.readPayloadTag k token b).2.1,
         (Abs.readPayloadTag k token b).2.2.extend post) ∧
      (Abs.readPayloadTag k token b).2.2.input <:+ b.input) ∨
    ((Abs.readPayloadTag k token (b.extend post)).1 = 0 ∧
      (Abs.readPayloadTag k token b).1 = 0 ∧
      Abs.State.PastNul (Abs.readPayloadTag k token (b.extend post)).2.2
        (Abs.readPayloadTag k token b).2.2 post) := by
  intro k
  induction k with
  | zero =>
    intro token b h0
    cases hb : b.input with
    | nil =>
      right
      obtain ⟨n1, n2, n3⟩ := Abs.State.NextChar_nul b post hb
      exact ⟨n1, n2, n3⟩
    | cons c rest =>
      left
      obtain ⟨e1, e2, e3⟩ := Abs.State.NextChar_extend b post c rest hb
      unfold Abs.readPayloadTag
      dsimp only
      rw [e1, e2, e3]
      exact ⟨rfl, List.suffix_cons c rest⟩
  | succ k ih =>
    intro token b h0
    cases hb : b.input with
    | nil =>
      right
      obtain ⟨n1, n2, n3⟩ := Abs.State.NextChar_nul b post hb
      unfold Abs.readPayloadTag
      dsimp only
      rw [if_neg (by rw [n1]; simp [k_lexer_invalid_char]),
        if_neg (by rw [n2]; simp [k_lexer_invalid_char])]
      exact ⟨n1, n2, n3⟩
    | cons c rest =>
      obtain ⟨e1, e2, e3⟩ := Abs.State.NextChar_extend b post c rest hb
      have h0r : 0 ∉ b.NextChar.2.input := by
        rw [e3]
        intro hh
        apply h0
        rw [hb]
        exact List.mem_cons_of_mem _ hh
      unfold Abs.readPayloadTag
      dsimp only
      rw [e1, e2]
      dsimp only
      by_cases hc : c ≠ k_lexer_invalid_char ∧ c ≠ 91
      · rw [if_pos hc, if_pos hc]
        rcases ih (((token <<< 8) % 2 ^ 32) ||| (c % 256)) b.NextChar.2 h0r with ⟨i1, i2⟩ | i3
        · left
          refine ⟨i1, ?_⟩
          rw [e3] at i2
          exact i2.trans (List.suffix_cons c rest)
        · right
          exact i3
      · rw [if_neg hc, if_neg hc]
        left
        rw [e3]
        exact ⟨rfl, List.suffix_cons c rest⟩

theorem Abs.finish_pastNul (a b : Abs.State) (post : List Nat) (hp : a.PastNul b post) :
    (Abs.finish a).SameButColumn (Abs.finish b) := by
  unfold Abs.finish
  rw [hp.depth, hp.type]
  split_ifs
  · exact Or.inr ⟨_, _, rfl, rfl, rfl, hp.line, hp.column⟩
  · exact Or.inr ⟨_, _, rfl, rfl, rfl, hp.line, hp.column⟩
  · exact Or.inl rfl

/-- One turn of the loop on a text without a zero byte, and on the text going
on with a zero byte: the same turn, or a payload tag that runs into the end of
the text, which fails in both. -/
theorem Abs.Body_extend {D H : Type} (fl : FloatLib D) (h : Handler D H) (fuel c : Nat)
    (lx : Lexer H) (b : Abs.State) (post : List Nat) (h0 : 0 ∉ b.input)
    (hcl : c = 59 → 10 ∈ b.input) (f : Flow) (d : Abs.Done D H)
    (hB : Abs.Body fl h fuel c lx b = some (Abs.Turn.flow f d)) :
    (Abs.Body fl h fuel c lx (b.extend post) = some (Abs.Turn.flow f (d.extend post)) ∧
      d.state.input <:+ b.input) ∨
    (f = Flow.ret ∧ ∃ da : Abs.Done D H,
      Abs.Body fl h fuel c lx (b.extend post) = some (Abs.Turn.flow Flow.ret da) ∧
      da.calls = d.calls ∧ da.lexer = d.lexer ∧ da.result.SameButColumn d.result ∧
      da.state.input = post) := by
  unfold Abs.Body at hB ⊢
  dsimp only at hB ⊢
  have e1 : (b.extend post).ResetEscape = b.ResetEscape.extend post := rfl
  have e2 : (b.extend post).is_escaped_ = b.is_escaped_ := rfl
  have e3 : (b.ResetEscape.extend post).term_type_ = b.ResetEscape.term_type_ := rfl
  have hin : b.ResetEscape.input = b.input := rfl
  rw [e1, e2, e3]
  have hFin : ∀ st : Abs.State, (Abs.FinalizeTerm fl h lx st).state.input = st.input := by
    intro st
    obtain ⟨input, single, line, off, depth, esc, wesc, tt, term⟩ := st
    unfold Abs.FinalizeTerm
    dsimp only
    split_ifs
    · rfl
    · rfl
    · cases tt <;> rfl
  split_ifs at hB ⊢ with h1 h2 h3 h4 h5 h6 h7
  · left
    simp only [Option.some.injEq, Abs.Turn.flow.injEq] at hB
    rw [Abs.inString_extend, ← hB.1, ← hB.2]
    refine ⟨rfl, ?_⟩
    unfold Abs.inString Abs.State.NewLine
    dsimp only
    split_ifs <;> exact List.suffix_refl _
  · left
    simp only [Option.some.injEq, Abs.Turn.flow.injEq] at hB
    rw [Abs.caseOpen_extend, ← hB.1, ← hB.2]
    refine ⟨rfl, ?_⟩
    unfold Abs.caseOpen
    dsimp only
    rw [hFin]
    exact List.suffix_refl _
  · left
    simp only [Option.some.injEq, Abs.Turn.flow.injEq] at hB
    rw [Abs.caseClose_extend, ← hB.1, ← hB.2]
    refine ⟨rfl, ?_⟩
    have hs : (Abs.caseClose fl h lx b.ResetEscape).2.state.input = b.ResetEscape.input := by
      unfold Abs.caseClose
      dsimp only
      cases hr : (Abs.FinalizeTerm fl h lx b.ResetEscape).result with
      | failure f0 =>
        dsimp only
        split_ifs <;> exact hFin _
      | success =>
        dsimp only
        split_ifs <;> exact hFin _
    rw [hs]
    exact List.suffix_refl _
  · left
    simp only [Option.some.injEq, Abs.Turn.flow.injEq] at hB
    rw [Abs.caseQuote_extend, ← hB.1, ← hB.2]
    refine ⟨rfl, ?_⟩
    have hs : (Abs.caseQuote fl h lx b.ResetEscape).2.state.input = b.ResetEscape.input := by
      unfold Abs.caseQuote
      split_ifs
      · exact hFin _
      · dsimp only
        cases hr : (Abs.FinalizeTerm fl h lx b.ResetEscape).result with
        | failure f0 => exact hFin _
        | success => exact hFin _
    rw [hs]
    exact List.suffix_refl _
  · unfold Abs.casePayload at hB ⊢
    dsimp only at hB ⊢
    by_cases h91 : (Abs.readPayloadTag 4 0 b.ResetEscape).1 = 91
    · rw [if_pos h91] at hB
      cases hB
    · rw [if_neg h91] at hB
      simp only [Option.some.injEq, Abs.Turn.flow.injEq] at hB
      rcases Abs.readPayloadTag_extend post 4 0 b.ResetEscape h0 with ⟨i1, i2⟩ | ⟨j1, j2, j3⟩
      · left
        rw [i1]
        dsimp only
        rw [if_neg h91, ← hB.1, ← hB.2]
        exact ⟨rfl, i2⟩
      · right
        refine ⟨hB.1.symm, ?_⟩
        rw [if_neg (by rw [j1]; decide)]
        refine ⟨_, rfl, ?_, ?_, ?_, ?_⟩
        · rw [← hB.2]
        · rw [← hB.2]
        · rw [← hB.2]
          exact Or.inr ⟨_, _, rfl, rfl, rfl, j3.line, j3.column⟩
        · exact j3.input_a
  · left
    unfold Abs.caseComment at hB ⊢
    cases hs : Abs.skipComment fuel b.ResetEscape with
    | none =>
      rw [hs] at hB
      cases hB
    | some sb =>
      rw [hs] at hB
      obtain ⟨k1, k2⟩ := Abs.skipComment_extend post fuel b.ResetEscape sb (hcl h6) h0 hs
      rw [k1]
      simp only [Option.map_some', Option.some.injEq, Abs.Turn.flow.injEq] at hB ⊢
      rw [← hB.1, ← hB.2]
      exact ⟨⟨rfl, rfl⟩, k2⟩
  · left
    simp only [Option.some.injEq, Abs.Turn.flow.injEq] at hB
    rw [Abs.caseSpace_extend, ← hB.1, ← hB.2]
    refine ⟨rfl, ?_⟩
    unfold Abs.caseSpace
    dsimp only
    rw [hFin]
    split_ifs <;> exact List.suffix_refl _
  · left
    simp only [Option.some.injEq, Abs.Turn.flow.injEq] at hB
    rw [Abs.caseOther_extend, ← hB.1, ← hB.2]
    refine ⟨rfl, ?_⟩
    unfold Abs.caseOther
    dsimp only
    split_ifs <;> exact List.suffix_refl _

/-- The run on a text without a zero byte in which no comment runs up to the
end, and the run on the text going on with a zero byte and more: the same
calls, the same lexer object, the same result but for the column of a failure,
and the bytes after the zero byte are left unread. -/
theorem Abs.RunLoop_extend {D H : Type} (fl : FloatLib D) (h : Handler D H)
    (post : List Nat) :
    ∀ (fuel : Nat) (lx : Lexer H) (b : Abs.State) (ob : Observed D H),
      0 ∉ b.input → commentsClosed b.input = true →
      Abs.RunLoop fl h fuel lx b = some (Abs.Out.done ob) →
      ∃ oa : Observed D H,
        Abs.RunLoop fl h fuel lx (b.extend post) = some (Abs.Out.done oa) ∧
        oa.calls = ob.calls ∧ oa.lexer = ob.lexer ∧ oa.result.SameButColumn ob.result ∧
        (oa.rest = post ∨ oa.rest = ob.rest ++ 0 :: post) := by
  intro fuel
  induction fuel with
  | zero =>
    intro lx b ob _ _ hR
    simp [Abs.RunLoop] at hR
  | succ n ih =>
    intro lx b ob h0 hcl hR
    unfold Abs.RunLoop at hR ⊢
    dsimp only at hR ⊢
    cases hb : b.input with
    | nil =>
      obtain ⟨n1, n2, n3⟩ := Abs.State.NextChar_nul b post hb
      rw [if_pos (by rw [n2]; rfl)] at hR
      rw [if_pos (by rw [n1]; rfl)]
      simp only [Option.some.injEq, Abs.Out.done.injEq] at hR
      refine ⟨_, rfl, ?_, ?_, ?_, ?_⟩
      · rw [← hR]
      · rw [← hR]
      · rw [← hR]
        exact Abs.finish_pastNul _ _ post n3
      · left
        exact n3.input_a
    | cons c rest =>
      obtain ⟨e1, e2, e3⟩ := Abs.State.NextChar_extend b post c rest hb
      have hc0 : c ≠ 0 := by
        intro hc
        apply h0
        rw [hb, hc]
        exact List.mem_cons_self _ _
      have h0r : 0 ∉ b.NextChar.2.input := by
        rw [e3]
        intro hh
        apply h0
        rw [hb]
        exact List.mem_cons_of_mem _ hh
      rw [hb] at hcl
      obtain ⟨hcl1, hcl2⟩ := commentsClosed_cons c rest hcl
      rw [e1]
      rw [e2] at hR
      dsimp only
      rw [if_neg (by exact hc0)] at hR ⊢
      cases hBody : Abs.Body fl h n c lx b.NextChar.2 with
      | none =>
        rw [hBody] at hR
        cases hR
      | some t =>
        rw [hBody] at hR
        cases t with
        | payload =>
          dsimp only at hR
          cases hR
        | flow f d =>
          have hx := Abs.Body_extend fl h n c lx b.NextChar.2 post h0r
            (fun h59 => by rw [e3]; exact hcl2 h59) f d hBody
          cases f with
          | ret =>
            dsimp only at hR
            simp only [Option.some.injEq, Abs.Out.done.injEq] at hR
            rcases hx with ⟨x1, _⟩ | ⟨_, da, x1, x2, x3, x4, x5⟩
            · rw [x1]
              dsimp only
              refine ⟨_, rfl, ?_, ?_, ?_, ?_⟩
              · rw [← hR]
                rfl
              · rw [← hR]
                rfl
              · rw [← hR]
                exact Or.inl rfl
              · right
                rw [← hR]
                rfl
            · rw [x1]
              dsimp only
              refine ⟨_, rfl, ?_, ?_, ?_, ?_⟩
              · rw [← hR]
                exact x2
              · rw [← hR]
                exact x3
              · rw [← hR]
                exact x4
              · left
                exact x5
          | cont =>
            dsimp only at hR
            rcases hx with ⟨x1, x2⟩ | ⟨x0, _⟩
            · rw [x1]
              dsimp only
              cases hrec : Abs.RunLoop fl h n d.lexer d.state with
              | none =>
                rw [hrec] at hR
                cases hR
              | some o =>
                rw [hrec] at hR
                cases o with
                | payload =>
                  dsimp only at hR
                  cases hR
                | done o2 =>
                  dsimp only at hR
                  simp only [Option.some.injEq, Abs.Out.done.injEq] at hR
                  have h0d : 0 ∉ d.state.input := fun hh => h0r (x2.subset hh)
                  have hcd : commentsClosed d.state.input = true :=
                    commentsClosed_suffix _ _ (by rw [e3] at x2; exact x2) hcl1
                  obtain ⟨oa, i1, i2, i3, i4, i5⟩ := ih d.lexer d.state o2 h0d hcd hrec
                  have i1b : Abs.RunLoop fl h n (d.extend post).lexer (d.extend post).state =
                      some (Abs.Out.done oa) := i1
                  rw [i1b]
                  dsimp only
                  refine ⟨_, rfl, ?_, ?_, ?_, ?_⟩
                  · rw [← hR, i2]
                    rfl
                  · rw [← hR]
                    exact i3
                  · rw [← hR]
                    exact i4
                  · rw [← hR]
                    exact i5
            · cases x0

/-- C40. A zero byte inside a comment does not stop the lexer.  `NextChar`
returns a zero byte of the input as `k_lexer_invalid_char`, its sign for the
end of the stream; the comment loop (`skip until the end of line or the end
of stream`) leaves the comment there as at a line feed, and the main loop
reads on.  For the text `;c`, a zero byte, `(a)` the run succeeds after the
handler calls `begin_op(a)` and `end_op` for the bytes after the zero byte,
while the prefix `;c` on its own succeeds with no handler call.  Outside a
comment the zero byte does end the run: `(b)`, a zero byte, `(a)` gives the
calls of `(b)` alone, and `(b "x`, a zero byte, `")` fails at the zero byte with
`Missing closing parenthesis`. -/
theorem zero_byte_in_comment_does_not_stop :
    (Lexer.RunText noFloat countingHandler 16 { handler_ := 0, err_description_ := [] }
        ([59, 99, 0] ++ bytes "(a)")).map (fun d => (d.result, d.calls)) =
      some (LexerResult.success, [Callback.LexerBeginOp (bytes "a"), Callback.LexerEndOp]) ∧
    (Lexer.RunText noFloat countingHandler 16 { handler_ := 0, err_description_ := [] }
        [59, 99]).map (fun d => (d.result, d.calls)) =
      some (LexerResult.success, []) ∧
    (Lexer.RunText noFloat countingHandler 16 { handler_ := 0, err_description_ := [] }
        (bytes "(b)" ++ 0 :: bytes "(a)")).map (fun d => (d.result, d.calls)) =
      some (LexerResult.success, [Callback.LexerBeginOp (bytes "b"), Callback.LexerEndOp]) ∧
    (Lexer.RunText noFloat countingHandler 16 { handler_ := 0, err_description_ := [] }
        (bytes "(b \"x" ++ 0 :: bytes "\")")).map (fun d => (d.result, d.calls)) =
      some (LexerResult.failure
        { err_line_no_ := 1, err_line_offset_ := 6,
          err_msg_ := bytes "Missing closing parenthesis" },
        [Callback.LexerBeginOp (bytes "b")]) := by
  decide!

/-- Outside comments a zero byte ends the input.  Let the unread input of a reader be `pre`, a zero byte and
`post`, where `pre` holds no zero byte and every semicolon of `pre` has a line
feed after it within `pre` (so that no comment runs up to the zero byte), and
let `Lexer::Run` on a reader whose unread input is `pre` alone return without
a `LexerCustomData` call. Then `Lexer::Run` on the first reader returns as
well, with the same fuel, after the same handler calls and with the same lexer
object (handler state and error description); its result is the same, except
that a failure found at the zero byte reports one column more than the failure
found at the end of `pre`, with the same message on the same line; and `post`
is left unread: the unread input afterwards is `post`, or what the run on
`pre` left unread followed by the zero byte and `post`. -/
theorem zero_byte_outside_comment_ends_input {D H : Type} (fl : FloatLib D) (h : Handler D H)
    (fuel : Nat) (lx : Lexer H) (reader_a reader_b : StreamReader) (single_expr : Bool)
    (pre post : List Nat) (d_b : Done D H)
    (hwa : reader_a.Wf) (hwb : reader_b.Wf)
    (hua : reader_a.unread = pre ++ 0 :: post) (hub : reader_b.unread = pre)
    (h0 : 0 ∉ pre) (hcl : commentsClosed pre = true)
    (hrun : Lexer.Run fl h fuel lx reader_b single_expr = some d_b)
    (hno : ∀ tok, Callback.LexerCustomData tok ∉ d_b.calls) :
    ∃ d_a, Lexer.Run fl h fuel lx reader_a single_expr = some d_a ∧
      d_a.calls = d_b.calls ∧ d_a.lexer = d_b.lexer ∧
      d_a.result.SameButColumn d_b.result ∧
      (d_a.observed.rest = post ∨ d_a.observed.rest = d_b.observed.rest ++ 0 :: post) := by
  have hb := Lexer.Run_observed fl h fuel lx reader_b single_expr hwb d_b hrun hno
  rw [Abs.of_init, hub] at hb
  obtain ⟨oa, r1, r2, r3, r4, r5⟩ := Abs.RunLoop_extend fl h post fuel lx _ _ h0 hcl hb
  have ha : Abs.RunLoop fl h fuel lx (Abs.of (LexerState.init reader_a single_expr)) =
      some (Abs.Out.done oa) := by
    rw [Abs.of_init, hua]
    exact r1
  obtain ⟨d_a, q1, q2⟩ := Lexer.Run_of_abs fl h fuel lx reader_a single_expr hwa oa ha
  refine ⟨d_a, q1, ?_, ?_, ?_, ?_⟩
  · have := congrArg Observed.calls q2
    exact this.trans r2
  · have := congrArg Observed.lexer q2
    exact this.trans r3
  · have := congrArg Observed.result q2
    have e : d_a.result = oa.result := this
    rw [e]
    exact r4
  · rw [q2]
    exact r5

/-- The text `(a 12)`, a zero byte, `(b)` gives the handler calls of `(a 12)`
alone. -/
theorem zero_byte_outside_comment_ends_input_witness :
    ∃ d_a, Lexer.Run noFloat countingHandler 16 { handler_ := 0, err_description_ := [] }
        (StreamReader.preloaded (bytes "(a 12)" ++ 0 :: bytes "(b)") DummyInStream 10) false =
        some d_a ∧
      d_a.calls = [Callback.LexerBeginOp (bytes "a"), Callback.LexerIntValue 12,
        Callback.LexerEndOp] :=
  have hcalls : (Lexer.Run noFloat countingHandler 16 { handler_ := 0, err_description_ := [] }
      (StreamReader.preloaded (bytes "(a 12)") DummyInStream 6) false).map (fun d => d.calls) =
      some [Callback.LexerBeginOp (bytes "a"), Callback.LexerIntValue 12,
        Callback.LexerEndOp] := by decide!
  match hd : Lexer.Run noFloat countingHandler 16 { handler_ := 0, err_description_ := [] }
      (StreamReader.preloaded (bytes "(a 12)") DummyInStream 6) false with
  | some d_b =>
    have hc : d_b.calls = [Callback.LexerBeginOp (bytes "a"), Callback.LexerIntValue 12,
        Callback.LexerEndOp] := by
      rw [hd] at hcalls
      exact Option.some.inj hcalls
    (zero_byte_outside_comment_ends_input noFloat countingHandler 16
      { handler_ := 0, err_description_ := [] }
      (StreamReader.preloaded (bytes "(a 12)" ++ 0 :: bytes "(b)") DummyInStream 10)
      (StreamReader.preloaded (bytes "(a 12)") DummyInStream 6) false
      (bytes "(a 12)") (bytes "(b)") d_b
      ⟨by decide, by decide, by decide⟩ ⟨by decide, by decide, by decide⟩
      (by decide) (by decide) (by decide) (by decide) hd
      (by
        intro tok
        rw [hc]
        simp)).imp fun _ hx => ⟨hx.1, hx.2.1.trans hc⟩
  | none => by
    exfalso
    rw [hd] at hcalls
    cases hcalls

end slang

end xynq
